import Mathlib

/-!
# Algorithm visualizer: verification of the instrumented engines

Shallow embedding of the sorting engines of
`src/components/SortingVisualizer/SortingVisualizer.js`, the traversal engines of
`src/components/GraphVisualizer/GraphVisualizer.js` and the spanning-tree engines of
`src/components/MSTVisualizer/MSTVisualizer.js`, followed by the theorems about them.

Conventions of the embedding.
* A JavaScript array of integers is a `List Int`; `arr[i]` is `arr.getD i 0`
  (every read of the engines is in bounds) and `arr[i] = v` is `arr.set i v`.
* Every `await sleep(..)` is a suspension point.  A run carries the number `t` of
  suspension points it has passed.  The flag `stopRequested.current` is cleared when a
  run starts and can only be raised by another handler while the run is suspended, so
  its value at a check is a function of `t`: with `cancelAt = some c` the request
  arrives during suspension number `c`, with `cancelAt = none` it never arrives.
* Every status message, bar highlight and array publication is recorded as a `Step`
  of the trace, in program order.
* There is one bar per array element: `bars[i]` exists exactly for `i < arr.length`,
  and reading `.style` of a bar that does not exist throws a `TypeError`.
* Edge weights, distances and costs are JavaScript numbers.  The non-negative integers
  among them are values of `Nat`, `Infinity` is `none`, and `a + b` is
  `JsNumber.numAdd a b`: the exact sum rounded to the nearest double.  Comparisons of
  numbers are exact.
-/

namespace SortingVisualizer

/-- Observable steps of a sorting run. -/
inductive Step where
  | announce (i : Nat)
  | compare (i j : Nat)
  | swap (i j : Nat)
  | write (k : Nat)
  | setFinal (k : Nat)
  | done
deriving DecidableEq, Repr

/-- State of a sorting run: the local array `arr`, the number `t` of suspension points
passed, the steps emitted so far, and whether the function has executed the
`setIsSorting(false); return;` of a cancellation check. -/
structure Run (β : Type) where
  arr : List β
  t : Nat
  trace : List Step
  stopped : Bool
deriving DecidableEq, Repr

/-- Value read from `stopRequested.current` after `t` suspension points. -/
def stopRequested (cancelAt : Option Nat) (t : Nat) : Bool :=
  match cancelAt with
  | none => false
  | some c => decide (c < t)

/-- The step `await sleep(speed)`. -/
def Run.sleep {β : Type} (s : Run β) : Run β := { s with t := s.t + 1 }

/-- Emission of one step. -/
def Run.emit {β : Type} (s : Run β) (e : Step) : Run β := { s with trace := s.trace ++ [e] }

/-- The destructuring assignment `[arr[i], arr[j]] = [arr[j], arr[i]]`. -/
def swap (arr : List Int) (i j : Nat) : List Int :=
  (arr.set i (arr.getD j 0)).set j (arr.getD i 0)

/-- The state in which every sort starts: `arr = [...array]`, flag cleared. -/
def Run.start {β : Type} (array : List β) : Run β :=
  { arr := array, t := 0, trace := [], stopped := false }

/-! ## Bubble sort (lines 158-193) -/

/-- Body of the inner `for (let j = 0; j < arr.length - i - 1; j++)` loop. -/
def bubbleInner (cancelAt : Option Nat) (s : Run Int) (j : Nat) : Run Int :=
  if s.stopped then s
  else if stopRequested cancelAt s.t then { s with stopped := true }
  else
    let s1 := (s.emit (.compare j (j + 1))).sleep
    if s1.arr.getD j 0 > s1.arr.getD (j + 1) 0 then
      ({ s1 with arr := swap s1.arr j (j + 1) }.emit (.swap j (j + 1))).sleep
    else s1

/-- Body of the outer `for (let i = 0; i < arr.length; i++)` loop. -/
def bubbleOuter (cancelAt : Option Nat) (s : Run Int) (i : Nat) : Run Int :=
  if s.stopped then s
  else
    let s1 := (List.range (s.arr.length - i - 1)).foldl (bubbleInner cancelAt) s
    if s1.stopped then s1
    else (s1.emit (.setFinal (s1.arr.length - i - 1))).sleep

/-- The function `bubbleSort`, run on the array `array`. -/
def bubbleSort (cancelAt : Option Nat) (array : List Int) : Run Int :=
  let s := (List.range array.length).foldl (bubbleOuter cancelAt) (Run.start array)
  if s.stopped then s else s.emit .done

/-! ## Selection sort (lines 196-238) -/

/-- Body of the inner `for (let j = i + 1; j < arr.length; j++)` loop; the second
component is the variable `minIdx`. -/
def selectionInner (cancelAt : Option Nat) (st : Run Int × Nat) (j : Nat) : Run Int × Nat :=
  if st.1.stopped then st
  else if stopRequested cancelAt st.1.t then ({ st.1 with stopped := true }, st.2)
  else
    let s1 := (st.1.emit (.compare j st.2)).sleep
    if s1.arr.getD j 0 < s1.arr.getD st.2 0 then ((s1.emit (.announce j)).sleep, j)
    else (s1, st.2)

/-- Body of the outer `for (let i = 0; i < arr.length; i++)` loop. -/
def selectionOuter (cancelAt : Option Nat) (s : Run Int) (i : Nat) : Run Int :=
  if s.stopped then s
  else
    let s0 := (s.emit (.announce i)).sleep
    let r := (List.range' (i + 1) (s0.arr.length - (i + 1))).foldl
      (selectionInner cancelAt) (s0, i)
    if r.1.stopped then r.1
    else
      let s2 :=
        if r.2 ≠ i then ({ r.1 with arr := swap r.1.arr i r.2 }.emit (.swap i r.2)).sleep
        else r.1
      s2.emit (.setFinal i)

/-- The function `selectionSort`, run on the array `array`. -/
def selectionSort (cancelAt : Option Nat) (array : List Int) : Run Int :=
  let s := (List.range array.length).foldl (selectionOuter cancelAt) (Run.start array)
  if s.stopped then s else s.emit .done

/-! ## Insertion sort (lines 241-284) -/

/-- The loop `while (j >= 0 && arr[j] > key)`.  The first argument is `j + 1` (so that
`0` stands for `j = -1`); the result carries the value of `j + 1` on exit. -/
def insertionWhile (cancelAt : Option Nat) (key : Int) : Nat → Run Int → Run Int × Nat
  | 0, s => (s, 0)
  | p + 1, s =>
    if s.arr.getD p 0 > key then
      if stopRequested cancelAt s.t then ({ s with stopped := true }, p + 1)
      else
        let s1 := (s.emit (.compare p (p + 1))).sleep
        let s2 := ({ s1 with arr := s1.arr.set (p + 1) (s1.arr.getD p 0) }.emit
          (.write (p + 1))).sleep
        insertionWhile cancelAt key p s2
    else (s, p + 1)

/-- Body of the outer `for (let i = 1; i < arr.length; i++)` loop. -/
def insertionOuter (cancelAt : Option Nat) (s : Run Int) (i : Nat) : Run Int :=
  if s.stopped then s
  else
    let key := s.arr.getD i 0
    let s0 := (s.emit (.announce i)).sleep
    let r := insertionWhile cancelAt key i s0
    if r.1.stopped then r.1
    else (({ r.1 with arr := r.1.arr.set r.2 key }.emit (.write r.2)).sleep).emit (.setFinal i)

/-- The function `insertionSort`, run on the array `array`. -/
def insertionSort (cancelAt : Option Nat) (array : List Int) : Run Int :=
  let s := (List.range' 1 (array.length - 1)).foldl (insertionOuter cancelAt) (Run.start array)
  if s.stopped then s else s.emit .done

/-! ## Merge sort (lines 287-373)

The array elements are of an arbitrary type `β` compared through `val : β → Int`
(`arrCopy[i] <= arrCopy[j]` is `val (arrCopy[i]) ≤ val (arrCopy[j])`); the visualizer
itself runs it on integers with `val = id`.  `d` is the value of an out-of-bounds read.
The three `while` loops of `merge` each take a bound on the number of iterations left
and yield `none` when it is exhausted; a loop whose condition fails hands over to the
code that follows it. -/

/-- Body of the write-back loop `for (let k = left; k <= right; k++)`. -/
def mergeWrite {β : Type} (d : β) (left : Nat) (temp : List β) (s : Run β) (k : Nat) : Run β :=
  (({ s with arr := s.arr.set k (temp.getD (k - left) d) }.emit (.write k)).emit
    (.setFinal k)).sleep

/-- The loop `while (j <= right)` of `merge`, followed by the write-back loop. -/
def mergeRight {β : Type} (cancelAt : Option Nat) (d : β) (left right : Nat) :
    Nat → Run β → Nat → List β → Option (Run β)
  | 0, _, _, _ => none
  | fuel + 1, s, j, temp =>
    if j ≤ right then
      if stopRequested cancelAt s.t then some { s with stopped := true }
      else
        let s1 := (s.emit (.announce j)).sleep
        mergeRight cancelAt d left right fuel s1.sleep (j + 1) (temp ++ [s1.arr.getD j d])
    else some ((List.range' left (right + 1 - left)).foldl (mergeWrite d left temp) s)

/-- The loop `while (i <= mid)` of `merge`, followed by the rest of `merge`. -/
def mergeLeft {β : Type} (cancelAt : Option Nat) (d : β) (left mid right : Nat) :
    Nat → Run β → Nat → Nat → List β → Option (Run β)
  | 0, _, _, _, _ => none
  | fuel + 1, s, i, j, temp =>
    if i ≤ mid then
      if stopRequested cancelAt s.t then some { s with stopped := true }
      else
        let s1 := (s.emit (.announce i)).sleep
        mergeLeft cancelAt d left mid right fuel s1.sleep (i + 1) j (temp ++ [s1.arr.getD i d])
    else mergeRight cancelAt d left right (fuel + 1) s j temp

/-- The loop `while (i <= mid && j <= right)` of `merge`, followed by the rest of
`merge`. -/
def mergeBoth {β : Type} (cancelAt : Option Nat) (val : β → Int) (d : β)
    (left mid right : Nat) : Nat → Run β → Nat → Nat → List β → Option (Run β)
  | 0, _, _, _, _ => none
  | fuel + 1, s, i, j, temp =>
    if i ≤ mid ∧ j ≤ right then
      if stopRequested cancelAt s.t then some { s with stopped := true }
      else
        let s1 := (s.emit (.compare i j)).sleep
        if val (s1.arr.getD i d) ≤ val (s1.arr.getD j d) then
          mergeBoth cancelAt val d left mid right fuel s1.sleep (i + 1) j
            (temp ++ [s1.arr.getD i d])
        else
          mergeBoth cancelAt val d left mid right fuel s1.sleep i (j + 1)
            (temp ++ [s1.arr.getD j d])
    else mergeLeft cancelAt d left mid right (fuel + 1) s i j temp

/-- The inner function `merge(left, mid, right)`: `i = left`, `j = mid + 1`,
`temp = []`; the loops run at most `right - left + 1` iterations in total. -/
def merge {β : Type} (cancelAt : Option Nat) (val : β → Int) (d : β) (s : Run β)
    (left mid right : Nat) : Option (Run β) :=
  mergeBoth cancelAt val d left mid right (right + 2 - left) s left (mid + 1) []

/-- The inner function `mergeSortHelper(left, right)`; the first argument bounds the
recursion depth.  Its caller continues whether or not a `merge` took its cancellation
return. -/
def mergeSortHelper {β : Type} (cancelAt : Option Nat) (val : β → Int) (d : β) :
    Nat → Run β → Nat → Nat → Option (Run β)
  | 0, _, _, _ => none
  | fuel + 1, s, left, right =>
    if left ≥ right then some s
    else
      let mid := (left + right) / 2
      let s0 := (s.emit (.announce mid)).sleep
      match mergeSortHelper cancelAt val d fuel s0 left mid with
      | none => none
      | some s1 =>
        match mergeSortHelper cancelAt val d fuel s1 (mid + 1) right with
        | none => none
        | some s2 => merge cancelAt val d s2 left mid right

/-- The function `mergeSort`, run on the array `array`:
`mergeSortHelper(0, arrCopy.length - 1)` and then the completion message, which is
not guarded by any cancellation test.  (For the empty array `arrCopy.length - 1` is
`-1`; the helper returns at once for it as it does for `0`.) -/
def mergeSort {β : Type} (cancelAt : Option Nat) (val : β → Int) (d : β) (array : List β) :
    Option (Run β) :=
  match mergeSortHelper cancelAt val d (array.length + 1) (Run.start array) 0
      (array.length - 1) with
  | none => none
  | some s => some (s.emit .done)

/-! ## Heap sort (lines 376-481)

`heapify` recurses on a strictly larger index below `heapSize`; its first argument
bounds the recursion depth and `none` is the result when the bound is exhausted.  A
cancellation return of `heapify` only leaves `heapify`: the loops of `heapSort` go on
and test the flag themselves, so their state carries a separate mark telling whether
`heapSort` itself has returned. -/

/-- The inner function `heapify(i, heapSize)`. -/
def heapify (cancelAt : Option Nat) : Nat → Run Int → Nat → Nat → Option (Run Int)
  | 0, _, _, _ => none
  | fuel + 1, s, i, heapSize =>
    let left := 2 * i + 1
    let right := 2 * i + 2
    let r1 : Run Int × Nat :=
      if left < heapSize then
        let sa := (s.emit (.compare left i)).sleep
        if sa.arr.getD left 0 > sa.arr.getD i 0 then ((sa.emit (.announce left)).sleep, left)
        else (sa, i)
      else (s, i)
    let r2 : Run Int × Nat :=
      if right < heapSize then
        let sb := (r1.1.emit (.compare right r1.2)).sleep
        if sb.arr.getD right 0 > sb.arr.getD r1.2 0 then
          ((sb.emit (.announce right)).sleep, right)
        else (sb, r1.2)
      else r1
    if r2.2 ≠ i then
      if stopRequested cancelAt r2.1.t then some { r2.1 with stopped := true }
      else
        let s3 := (r2.1.emit (.announce i)).sleep
        let s4 := ({ s3 with arr := swap s3.arr i r2.2 }.emit (.swap i r2.2)).sleep
        heapify cancelAt fuel s4 r2.2 heapSize
    else some r2.1

/-- Body of the loop `for (let i = Math.floor(n / 2) - 1; i >= 0; i--)` that builds the
heap.  The Boolean tells whether `heapSort` has returned. -/
def heapBuildStep (cancelAt : Option Nat) (n : Nat) (acc : Option (Run Int × Bool))
    (i : Nat) : Option (Run Int × Bool) :=
  match acc with
  | none => none
  | some (s, true) => some (s, true)
  | some (s, false) =>
    if stopRequested cancelAt s.t then some ({ s with stopped := true }, true)
    else
      match heapify cancelAt n (s.emit (.announce i)) i n with
      | none => none
      | some s1 => some (s1, false)

/-- Body of the loop `for (let end = n - 1; end > 0; end--)` that extracts the roots. -/
def heapExtractStep (cancelAt : Option Nat) (acc : Option (Run Int × Bool))
    (e : Nat) : Option (Run Int × Bool) :=
  match acc with
  | none => none
  | some (s, true) => some (s, true)
  | some (s, false) =>
    if stopRequested cancelAt s.t then some ({ s with stopped := true }, true)
    else
      let s1 := (s.emit (.announce e)).sleep
      let s2 := ({ s1 with arr := swap s1.arr 0 e }.emit (.swap 0 e)).sleep
      match heapify cancelAt e (s2.emit (.setFinal e)) 0 e with
      | none => none
      | some s3 => some (s3, false)

/-- How the call of a sort ends: it returns (after its completion code or through a
cancellation return), or it throws a `TypeError` in the state given. -/
inductive SortEnd where
  | returned (r : Run Int)
  | typeError (r : Run Int)
deriving DecidableEq, Repr

/-- The function `heapSort`, run on the array `array`.  After the two loops the code
executes `bars[0].style.backgroundColor = '#60a5fa'` without a test: there is one bar
per array element, so on the empty array `bars[0]` is `undefined` and the statement
throws a `TypeError` before the completion message and before `setIsSorting(false)`. -/
def heapSort (cancelAt : Option Nat) (array : List Int) : Option SortEnd :=
  let n := array.length
  let built := (List.range (n / 2)).reverse.foldl (heapBuildStep cancelAt n)
    (some (Run.start array, false))
  match (List.range' 1 (n - 1)).reverse.foldl (heapExtractStep cancelAt) built with
  | none => none
  | some (s, true) => some (.returned s)
  | some (s, false) =>
    if n = 0 then some (.typeError s)
    else some (.returned ((s.emit (.setFinal 0)).emit .done))

/-! ## The invoker (lines 484-506) -/

/-- Values of `selectedAlgorithm`. -/
inductive Algorithm where
  | bubbleSort
  | selectionSort
  | insertionSort
  | mergeSort
  | heapSort
deriving DecidableEq, Repr

/-- Component state read and written by a sort: the `array` state, the `isSorting`
state, the ref `stopRequested.current` and the steps shown by the last run. -/
structure Ui where
  array : List Int
  isSorting : Bool
  stopFlag : Bool
  trace : List Step
deriving DecidableEq, Repr

/-- The `switch (selectedAlgorithm)` of `handleSortStart`: the run of the selected
sort on `array`.  Each sort begins with `setIsSorting(true)` and
`stopRequested.current = false`, so the value the flag had before the call is not an
input of the run; `none` stands for an exhausted iteration bound. -/
def runSort (kind : Algorithm) (cancelAt : Option Nat) (array : List Int) : Option SortEnd :=
  match kind with
  | .bubbleSort => some (.returned (bubbleSort cancelAt array))
  | .selectionSort => some (.returned (selectionSort cancelAt array))
  | .insertionSort => some (.returned (insertionSort cancelAt array))
  | .mergeSort => (mergeSort cancelAt id 0 array).map .returned
  | .heapSort => heapSort cancelAt array

/-- A run reports completion when it shows its "completed" message. -/
def Run.completed {β : Type} (r : Run β) : Bool := decide (Step.done ∈ r.trace)

/-- The function `handleSortStart`, with the state the component is left in when the
run is over: the published array, the flag as the last suspension left it, and
`isSorting` cleared by the completion code or by a cancellation return.  When the sort
throws, nothing catches the error and no `setIsSorting(false)` is reached: `isSorting`
keeps the value `true` that the sort gave it on entry. -/
def handleSortStart (kind : Algorithm) (cancelAt : Option Nat) (ui : Ui) : Option Ui :=
  if ui.isSorting then some ui
  else
    match runSort kind cancelAt ui.array with
    | none => none
    | some (.returned r) =>
      some { array := r.arr, isSorting := false, stopFlag := stopRequested cancelAt r.t,
             trace := r.trace }
    | some (.typeError r) =>
      some { array := r.arr, isSorting := true, stopFlag := stopRequested cancelAt r.t,
             trace := r.trace }

/-! ## Specification vocabulary -/

/-- Array effect of one uncancelled inner iteration of bubble sort. -/
def cmpSwap (l : List Int) (j : Nat) : List Int :=
  if l.getD j 0 > l.getD (j + 1) 0 then swap l j (j + 1) else l

/-- Array effect of one uncancelled outer pass of bubble sort. -/
def bubblePass (l : List Int) (i : Nat) : List Int :=
  (List.range (l.length - i - 1)).foldl cmpSwap l

/-- Ascending order, stated on indices. -/
def SortedIdx (l : List Int) : Prop :=
  ∀ p q, p ≤ q → q < l.length → l.getD p 0 ≤ l.getD q 0

/-- Update of `minIdx` by one uncancelled inner iteration of selection sort. -/
def selScan (l : List Int) (m j : Nat) : Nat :=
  if l.getD j 0 < l.getD m 0 then j else m

/-- Array effect of one uncancelled outer pass of selection sort. -/
def selPass (l : List Int) (i : Nat) : List Int :=
  if (List.range' (i + 1) (l.length - (i + 1))).foldl (selScan l) i ≠ i then
    swap l i ((List.range' (i + 1) (l.length - (i + 1))).foldl (selScan l) i)
  else l

/-- Array effect of the uncancelled shifting loop of insertion sort started with
`j + 1 = p`, followed by the write `arr[j + 1] = key`. -/
def insAt (key : Int) : Nat → List Int → List Int
  | 0, l => l.set 0 key
  | p + 1, l =>
    if l.getD p 0 > key then insAt key p (l.set (p + 1) (l.getD p 0))
    else l.set (p + 1) key

/-- Array effect of one uncancelled outer pass of insertion sort. -/
def insPass (l : List Int) (i : Nat) : List Int := insAt (l.getD i 0) i l

/-- Two-way merge of lists that takes the left element on ties. -/
def lmerge {β : Type} (val : β → Int) : List β → List β → List β
  | [], bs => bs
  | a :: as, [] => a :: as
  | a :: as, b :: bs =>
    if val a ≤ val b then a :: lmerge val as (b :: bs) else b :: lmerge val (a :: as) bs

/-- Relation between a segment and its stably sorted version: ascending by `val`, a
permutation, and, for each value, the same elements in the same order. -/
def StablySorted {β : Type} (val : β → Int) (seg out : List β) : Prop :=
  out.Sorted (fun a b => val a ≤ val b) ∧ out.Perm seg ∧
  ∀ v : Int, out.filter (fun x => decide (val x = v)) = seg.filter (fun x => decide (val x = v))

/-- Steps that are comparisons. -/
def Step.isCompare : Step → Bool
  | .compare _ _ => true
  | _ => false

/-- Steps that mark a position final. -/
def Step.isSetFinal : Step → Bool
  | .setFinal _ => true
  | _ => false

/-- Bubble sort as the specification words it, inner iteration `j`: emit
`compare(j, j+1)`, and emit `swap(j, j+1)` (exchanging the two entries) iff
`a[j] > a[j+1]`.  The state is the array and the steps emitted so far. -/
def bubbleSpecInner (st : List Int × List Step) (j : Nat) : List Int × List Step :=
  if st.1.getD j 0 > st.1.getD (j + 1) 0 then
    (swap st.1 j (j + 1), st.2 ++ [.compare j (j + 1), .swap j (j + 1)])
  else (st.1, st.2 ++ [.compare j (j + 1)])

/-- Bubble sort as the specification words it, outer pass `i` on an array of length
`n`: inner `j` from `0` to `n-i-2`, then `set-final(n-1-i)`. -/
def bubbleSpecOuter (n : Nat) (st : List Int × List Step) (i : Nat) : List Int × List Step :=
  let r := (List.range (n - i - 1)).foldl bubbleSpecInner st
  (r.1, r.2 ++ [.setFinal (n - 1 - i)])

/-- Bubble sort as the specification words it: outer pass `i` from `0` to `n-1`. -/
def bubbleSpec (a : List Int) : List Int × List Step :=
  (List.range a.length).foldl (bubbleSpecOuter a.length) (a, [])

/-- The index `largest` computed by `heapify(i, heapSize)` from the two child
comparisons. -/
def heapLargest (l : List Int) (i heapSize : Nat) : Nat :=
  let l1 := if 2 * i + 1 < heapSize ∧ l.getD (2 * i + 1) 0 > l.getD i 0 then 2 * i + 1 else i
  if 2 * i + 2 < heapSize ∧ l.getD (2 * i + 2) 0 > l.getD l1 0 then 2 * i + 2 else l1

/-- Array effect of an uncancelled `heapify(i, heapSize)`. -/
def siftDown : Nat → List Int → Nat → Nat → Option (List Int)
  | 0, _, _, _ => none
  | fuel + 1, l, i, heapSize =>
    if heapLargest l i heapSize ≠ i then
      siftDown fuel (swap l i (heapLargest l i heapSize)) (heapLargest l i heapSize) heapSize
    else some l

/-- The entry at `j` is not smaller than its children below `heapSize`. -/
def HeapAt (l : List Int) (heapSize j : Nat) : Prop :=
  (2 * j + 1 < heapSize → l.getD (2 * j + 1) 0 ≤ l.getD j 0) ∧
  (2 * j + 2 < heapSize → l.getD (2 * j + 2) 0 ≤ l.getD j 0)

/-- The first `heapSize` entries form a max-heap: every entry with a parent is at most
its parent. -/
def IsMaxHeap (l : List Int) (heapSize : Nat) : Prop :=
  ∀ c, 1 ≤ c → c < heapSize → l.getD c 0 ≤ l.getD ((c - 1) / 2) 0

end SortingVisualizer

namespace JsNumber

/-! # Addition of JavaScript numbers

Edge weights, distances and costs are JavaScript numbers, that is IEEE 754 doubles.  The
values that occur in the engines are non-negative integers or `Infinity`; a `Nat` stands
for the integer, `none` for `Infinity`.  Every integer up to `2^53` is a double; above,
the doubles around `x` are the multiples of `2^e`, `e` being the number of halvings that
bring `x` below `2^53`. -/

/-- The exponent of the spacing of the doubles around `x`: the number of halvings that
bring `x` below `2^53`.  The first argument bounds the number of halvings. -/
def ulpExp : Nat → Nat → Nat
  | 0, _ => 0
  | fuel + 1, x => if x < 2 ^ 53 then 0 else ulpExp fuel (x / 2) + 1

/-- The integer `x` rounded to 53 significant bits: the multiple of the spacing `2^e`
nearest to `x`, ties going to the even significand. -/
def roundSig (x : Nat) : Nat :=
  let e := ulpExp x x
  let q := x / 2 ^ e
  let r := x % 2 ^ e
  if 2 ^ e < 2 * r ∨ (2 * r = 2 ^ e ∧ q % 2 = 1) then (q + 1) * 2 ^ e else q * 2 ^ e

/-- The double nearest to the integer `x`; `none` (`Infinity`) when the rounded value is
beyond the largest double, whose exponent is `971`. -/
def roundDouble (x : Nat) : Option Nat :=
  let y := roundSig x
  if ulpExp y y ≤ 971 then some y else none

/-- The sum `a + b` of two numbers: the exact sum, rounded to a double. -/
def numAdd (a b : Nat) : Option Nat := roundDouble (a + b)

/-- The sum `c + b` where `c` may be `Infinity`. -/
def costAdd (c : Option Nat) (b : Nat) : Option Nat :=
  match c with
  | none => none
  | some a => numAdd a b

/-- The integer is a double: a multiple of the spacing of the doubles around it. -/
def IsDouble (d : Nat) : Prop := 2 ^ ulpExp d d ∣ d

end JsNumber

namespace GraphVisualizer

/-! # Traversal engines (`GraphVisualizer.js`)

Node identifiers are values of an arbitrary type `α` with decidable equality (the
visualizer uses the strings `"A"`, `"B"`, ...).  The React state written by the runs is
the record `View`; the local variables of a run (`visited`, `queue`, `pq`,
`newDistances`, `prev`) are arguments of its loop.  The traversal engines contain no
cancellation test, so suspension points are not recorded. -/

/-- An edge record `{from, to, weight}`; `src` is the field `from` and `dst` the field
`to`. -/
structure Edge (α : Type) where
  src : α
  dst : α
  weight : Nat
deriving DecidableEq, Repr

/-- The graph held in the `nodes` and `edges` state: node ids and edge records in
insertion order. -/
structure Graph (α : Type) where
  nodes : List α
  edges : List (Edge α)
deriving DecidableEq, Repr

/-- Observable steps of a traversal run. -/
inductive Step (α : Type) where
  | visit (id : α) (distance : Option Nat)
  | edgeExplore (src dst : α)
  | distanceUpdate (id : α) (distance : Nat)
  | done
deriving DecidableEq, Repr

/-- React state written by the traversal runs.  `distances` is the `distances` object:
`none` for a missing key, `some none` for `Infinity`, `some (some n)` for `n`. -/
structure View (α : Type) where
  isRunning : Bool
  visitedOrder : List α
  activeEdges : List (α × α)
  distances : α → Option (Option Nat)
  bfsQueue : List α
  dfsStack : List α
  trace : List (Step α)

variable {α : Type} [DecidableEq α]

/-- The state of a freshly mounted component. -/
def View.idle : View α :=
  { isRunning := false, visitedOrder := [], activeEdges := [], distances := fun _ => none,
    bfsQueue := [], dfsStack := [], trace := [] }

/-- The function `resetState`. -/
def resetState (v : View α) : View α :=
  { v with visitedOrder := [], activeEdges := [], distances := fun _ => none,
           bfsQueue := [], dfsStack := [] }

/-- The function `markVisited(id, distance)`. -/
def markVisited (v : View α) (id : α) (distance : Option Nat) : View α :=
  { v with visitedOrder := v.visitedOrder ++ [id], trace := v.trace ++ [.visit id distance] }

/-- The function `markEdge(fromId, toId)`. -/
def markEdge (v : View α) (fromId toId : α) : View α :=
  { v with activeEdges := v.activeEdges ++ [(fromId, toId)],
           trace := v.trace ++ [.edgeExplore fromId toId] }

/-- The function `getNeighbors(id)`: the other endpoint and the weight of every edge
that has `id` as an endpoint, in edge order. -/
def getNeighbors (g : Graph α) (id : α) : List (α × Nat) :=
  (g.edges.filter (fun e => decide (e.src = id) || decide (e.dst = id))).map
    (fun e => (if e.src = id then e.dst else e.src, e.weight))

/-- Start of a run: `setIsRunning(true); resetState(); setAlgorithm(..)`.  None of the
three engines tests `isRunning`. -/
def beginRun (v : View α) : View α :=
  { (resetState v) with isRunning := true, trace := [] }

/-! ## Breadth-first search (lines 507-542) -/

/-- Body of `for (let neighbor of neighbors)` in `bfs`; the accumulator is the view and
the local `queue`. -/
def bfsNeighbor (current : α) (visited : List α) (acc : View α × List α) (nb : α × Nat) :
    View α × List α :=
  if nb.1 ∈ visited then acc
  else ({ (markEdge acc.1 current nb.1) with bfsQueue := acc.2 ++ [nb.1] }, acc.2 ++ [nb.1])

/-- The loop `while (queue.length > 0)` of `bfs`.  The first argument bounds the number
of iterations (`none` when exhausted); the result is the view and the local set
`visited` in insertion order. -/
def bfsLoop (g : Graph α) : Nat → View α → List α → List α → Option (View α × List α)
  | _, v, visited, [] => some (v, visited)
  | 0, _, _, _ :: _ => none
  | fuel + 1, v, visited, current :: queue =>
    let v0 := { v with bfsQueue := queue }
    if current ∈ visited then bfsLoop g fuel v0 visited queue
    else
      let v1 := markVisited v0 current none
      let r := (getNeighbors g current).foldl (bfsNeighbor current (visited ++ [current]))
        (v1, queue)
      bfsLoop g fuel r.1 (visited ++ [current]) r.2

/-- The function `bfs(startId)`.  Every iteration removes a queue entry and the number
of entries ever added is at most twice the number of edges. -/
def bfs (g : Graph α) (startId : α) (v : View α) : Option (View α) :=
  match bfsLoop g (2 * g.edges.length + 2) { (beginRun v) with bfsQueue := [startId] } []
      [startId] with
  | none => none
  | some r => some { r.1 with bfsQueue := [], isRunning := false, trace := r.1.trace ++ [.done] }

/-! ## Depth-first search (lines 544-580) -/

/-- The inner function `dfsRecursive(nodeId)`; the state is the view and the local set
`visited`.  The first argument bounds the recursion depth. -/
def dfsRecursive (g : Graph α) : Nat → View α × List α → α → Option (View α × List α)
  | 0, _, _ => none
  | fuel + 1, st, nodeId =>
    if nodeId ∈ st.2 then some ({ st.1 with dfsStack := st.1.dfsStack.dropLast }, st.2)
    else
      let r := (getNeighbors g nodeId).foldl
        (fun acc nb =>
          match acc with
          | none => none
          | some s =>
            if nb.1 ∈ s.2 then some s
            else
              dfsRecursive g fuel
                (markEdge { s.1 with dfsStack := s.1.dfsStack ++ [nb.1] } nodeId nb.1, s.2) nb.1)
        (some (markVisited st.1 nodeId none, st.2 ++ [nodeId]))
      match r with
      | none => none
      | some s => some ({ s.1 with dfsStack := s.1.dfsStack.dropLast }, s.2)

/-- The function `dfs(startId)`.  Every nested call visits a new endpoint of an edge, so
the depth is at most twice the number of edges plus one. -/
def dfs (g : Graph α) (startId : α) (v : View α) : Option (View α) :=
  match dfsRecursive g (2 * g.edges.length + 1) ({ (beginRun v) with dfsStack := [startId] }, [])
      startId with
  | none => none
  | some r => some { r.1 with dfsStack := [], isRunning := false, trace := r.1.trace ++ [.done] }

/-! ## Dijkstra (lines 582-648) -/

/-- The comparison `newDist < newDistances[id]` for a finite `newDist`: false against a
missing key, true against `Infinity`. -/
def distLt (newDist : Nat) (cur : Option (Option Nat)) : Bool :=
  match cur with
  | none => false
  | some none => true
  | some (some d) => decide (newDist < d)

/-- Local variables of `dijkstra` that the neighbour loop updates, with the view. -/
structure DState (α : Type) where
  view : View α
  newDistances : α → Option (Option Nat)
  prev : α → Option (Option α)
  pq : List (α × Nat)

/-- Body of `for (let neighbor of neighbors)` in `dijkstra`.  The sum
`currentDist + neighbor.weight` is a sum of doubles; when it is `Infinity` the test
`newDist < newDistances[id]` is false. -/
def dijkstraNeighbor (currentId : α) (currentDist : Nat) (visited : List α) (s : DState α)
    (nb : α × Nat) : DState α :=
  let s1 := { s with view := markEdge s.view currentId nb.1 }
  if nb.1 ∈ visited then s1
  else
    match JsNumber.numAdd currentDist nb.2 with
    | none => s1
    | some newDist =>
      if distLt newDist (s1.newDistances nb.1) then
        let nd := fun x => if x = nb.1 then some (some newDist) else s1.newDistances x
        { view := { s1.view with distances := nd,
                                 trace := s1.view.trace ++ [.distanceUpdate nb.1 newDist] },
          newDistances := nd,
          prev := fun x => if x = nb.1 then some (some currentId) else s1.prev x,
          pq := s1.pq ++ [(nb.1, newDist)] }
      else s1

/-- The call `pq.sort((a, b) => a.dist - b.dist)`: a stable sort by `dist`. -/
def sortPq (pq : List (α × Nat)) : List (α × Nat) :=
  pq.insertionSort (fun a b => a.2 ≤ b.2)

/-- The loop `while (pq.length > 0)` of `dijkstra`; the first argument bounds the number
of iterations, the third is the local set `visited`. -/
def dijkstraLoop (g : Graph α) : Nat → DState α → List α → Option (DState α × List α)
  | fuel, s, visited =>
    match sortPq s.pq with
    | [] => some (s, visited)
    | (currentId, currentDist) :: rest =>
      match fuel with
      | 0 => none
      | fuel + 1 =>
        let s0 := { s with pq := rest }
        if currentId ∈ visited then dijkstraLoop g fuel s0 visited
        else
          let s1 := { s0 with view := markVisited s0.view currentId (some currentDist) }
          dijkstraLoop g fuel
            ((getNeighbors g currentId).foldl
              (dijkstraNeighbor currentId currentDist (visited ++ [currentId])) s1)
            (visited ++ [currentId])

/-- The function `dijkstra(startId)`. -/
def dijkstra (g : Graph α) (startId : α) (v : View α) : Option (View α) :=
  let nd : α → Option (Option Nat) :=
    fun x => if x = startId then some (some 0) else if x ∈ g.nodes then some none else none
  let s0 : DState α :=
    { view := { (beginRun v) with distances := nd },
      newDistances := nd,
      prev := fun x => if x ∈ g.nodes then some none else none,
      pq := [(startId, 0)] }
  match dijkstraLoop g (2 * g.edges.length + 2) s0 [] with
  | none => none
  | some r => some { r.1.view with isRunning := false, trace := r.1.view.trace ++ [.done] }

/-! ## Specification vocabulary -/

/-- Two nodes are joined by an edge of the graph (in either direction). -/
def Adj (g : Graph α) (u v : α) : Prop :=
  ∃ e ∈ g.edges, (e.src = u ∧ e.dst = v) ∨ (e.src = v ∧ e.dst = u)

/-- The node `v` can be reached from `u` along edges of the graph. -/
def Reachable (g : Graph α) (u v : α) : Prop := Relation.ReflTransGen (Adj g) u v

/-- Every edge joins two nodes of the node list. -/
def Graph.WellFormed (g : Graph α) : Prop :=
  ∀ e ∈ g.edges, e.src ∈ g.nodes ∧ e.dst ∈ g.nodes

/-- Every node can be reached from every other node. -/
def Graph.Connected (g : Graph α) : Prop :=
  ∀ u ∈ g.nodes, ∀ v ∈ g.nodes, Reachable g u v

/-- Number of edge endpoints that are not in `visited`: a bound on the number of
entries that the frontier can still receive. -/
def unseen (es : List (Edge α)) (visited : List α) : Nat :=
  (es.map (fun e =>
    (if e.src ∈ visited then 0 else 1) + (if e.dst ∈ visited then 0 else 1))).sum

/-- Body of `for (let neighbor of neighbors)` in `dfsRecursive(nodeId)`, the nested
calls being bounded by `fuel`. -/
def dfsNeighbor (g : Graph α) (fuel : Nat) (nodeId : α) (acc : Option (View α × List α))
    (nb : α × Nat) : Option (View α × List α) :=
  match acc with
  | none => none
  | some s =>
    if nb.1 ∈ s.2 then some s
    else
      dfsRecursive g fuel
        (markEdge { s.1 with dfsStack := s.1.dfsStack ++ [nb.1] } nodeId nb.1, s.2) nb.1

/-- An edge of weight `c` joins `u` and `v` (in either direction). -/
def WAdj (g : Graph α) (u v : α) (c : Nat) : Prop :=
  ∃ e ∈ g.edges, e.weight = c ∧ ((e.src = u ∧ e.dst = v) ∨ (e.src = v ∧ e.dst = u))

/-- `Walk g u v w`: some path of consecutive edges leads from `u` to `v` with total
weight `w` (edges and nodes may repeat). -/
inductive Walk (g : Graph α) (u : α) : α → Nat → Prop where
  | nil : Walk g u u 0
  | snoc {v x : α} {w c : Nat} : Walk g u v w → WAdj g v x c → Walk g u x (w + c)

/-- Invariant of the loop of `dijkstra`.  `rel u nb` tells which neighbour entries have
been relaxed. -/
structure DInv (g : Graph α) (start : α) (s : DState α) (visited : List α)
    (rel : α → α × Nat → Prop) : Prop where
  view_eq : s.view.distances = s.newDistances
  order : s.view.visitedOrder = visited
  keys : ∀ x ∈ g.nodes, s.newDistances x ≠ none
  sound : ∀ x a, s.newDistances x = some (some a) → Walk g start x a
  opt : ∀ x ∈ visited, ∃ a, s.newDistances x = some (some a) ∧ ∀ w, Walk g start x w → a ≤ w
  rel_vis : ∀ u nb, rel u nb → u ∈ visited ∧ nb ∈ getNeighbors g u
  relaxed : ∀ u nb, rel u nb → ∃ a b, s.newDistances u = some (some a) ∧
    s.newDistances nb.1 = some (some b) ∧ b ≤ a + nb.2
  queued : ∀ x a, x ∉ visited → s.newDistances x = some (some a) → (x, a) ∈ s.pq
  stale : ∀ x a, (x, a) ∈ s.pq → ∃ b, s.newDistances x = some (some b) ∧ b ≤ a
  start0 : s.newDistances start = some (some 0)

/-- The sums that a run from `start` can form stay within the integers that doubles
hold exactly: the least weight of a path from `start` to a node, plus the weight of an
edge at that node, never exceeds `2^53`. -/
def ExactSums (g : Graph α) (start : α) : Prop :=
  ∀ x d y c, Walk g start x d → (∀ w, Walk g start x w → d ≤ w) → WAdj g x y c →
    d + c ≤ 2 ^ 53

/-- Invariant of the loop of `dijkstra` that does not depend on the sums being exact:
the frontier distances are doubles, none is below the distance `lvl` of the last node
finalized, and no finalized node has a tentative distance above `lvl`. -/
structure MInv (s : DState α) (visited : List α) (lvl : Nat) : Prop where
  dbl : ∀ y ∈ s.pq, JsNumber.IsDouble y.2
  above : ∀ y ∈ s.pq, lvl ≤ y.2
  fin : ∀ x ∈ visited, ∃ b, s.newDistances x = some (some b) ∧ b ≤ lvl
  queued : ∀ x a, x ∉ visited → s.newDistances x = some (some a) → (x, a) ∈ s.pq
  stale : ∀ x a, (x, a) ∈ s.pq → ∃ b, s.newDistances x = some (some b) ∧ b ≤ a

/-- The local state of `dijkstra` when its loop is entered. -/
def dijkstraInit (g : Graph α) (startId : α) (v : View α) : DState α :=
  let nd : α → Option (Option Nat) :=
    fun x => if x = startId then some (some 0) else if x ∈ g.nodes then some none else none
  { view := { (beginRun v) with distances := nd },
    newDistances := nd,
    prev := fun x => if x ∈ g.nodes then some none else none,
    pq := [(startId, 0)] }

/-- One iteration of the loop `while (pq.length > 0)` of `dijkstra`: `none` when the
frontier is empty, else the state after the body. -/
def dijkstraIter (g : Graph α) (st : DState α × List α) : Option (DState α × List α) :=
  match sortPq st.1.pq with
  | [] => none
  | (currentId, currentDist) :: rest =>
    let s0 := { st.1 with pq := rest }
    if currentId ∈ st.2 then some (s0, st.2)
    else
      let s1 := { s0 with view := markVisited s0.view currentId (some currentDist) }
      some ((getNeighbors g currentId).foldl
          (dijkstraNeighbor currentId currentDist (st.2 ++ [currentId])) s1,
        st.2 ++ [currentId])

/-- The state of the loop of `dijkstra` after `i` iterations (`none` when the loop has
ended before). -/
def dijkstraRun (g : Graph α) : Nat → DState α × List α → Option (DState α × List α)
  | 0, st => some st
  | i + 1, st =>
    match dijkstraIter g st with
    | none => none
    | some st1 => dijkstraRun g i st1

/-- The frontier entries in the order of their insertion, read off the steps of the run:
the seed `(start, 0)`, then one entry per `distanceUpdate`. -/
def pushLog (startId : α) (trace : List (Step α)) : List (α × Nat) :=
  (startId, 0) :: trace.filterMap (fun st =>
    match st with
    | .distanceUpdate x d => some (x, d)
    | _ => none)

/-! ## Dijkstra as the specification words it -/

/-- For a neighbour: emit `edge-explore`, and if `distance[node] + weight <
distance[neighbor]`, update the distance, record the predecessor, emit `distance-update`
and insert a new frontier entry.  The sum is the sum of the numbers of the program; the
test is false when the sum or `distance[node]` is `Infinity`. -/
def dijkstraNeighborSpec (node : α) (s : DState α) (nb : α × Nat) : DState α :=
  let s1 := { s with view := markEdge s.view node nb.1 }
  match s1.newDistances node with
  | some (some dn) =>
    match JsNumber.numAdd dn nb.2 with
    | none => s1
    | some c =>
      if distLt c (s1.newDistances nb.1) then
        let nd := fun x => if x = nb.1 then some (some c) else s1.newDistances x
        { view := { s1.view with distances := nd,
                                 trace := s1.view.trace ++ [.distanceUpdate nb.1 c] },
          newDistances := nd,
          prev := fun x => if x = nb.1 then some (some node) else s1.prev x,
          pq := s1.pq ++ [(nb.1, c)] }
      else s1
  | _ => s1

/-- The specified loop: remove the minimum-distance entry; discard it if its node is
finalized; else finalize it, emit `visit(node, distance)` and treat every neighbour. -/
def dijkstraLoopSpec (g : Graph α) : Nat → DState α → List α → Option (DState α × List α)
  | fuel, s, visited =>
    match sortPq s.pq with
    | [] => some (s, visited)
    | (node, dist) :: rest =>
      match fuel with
      | 0 => none
      | fuel + 1 =>
        let s0 := { s with pq := rest }
        if node ∈ visited then dijkstraLoopSpec g fuel s0 visited
        else
          let s1 := { s0 with view := markVisited s0.view node (some dist) }
          dijkstraLoopSpec g fuel
            ((getNeighbors g node).foldl (dijkstraNeighborSpec node) s1)
            (visited ++ [node])

/-- The specified run, from the state in which `dijkstra` enters its loop. -/
def dijkstraSpec (g : Graph α) (startId : α) (v : View α) : Option (View α) :=
  match dijkstraLoopSpec g (2 * g.edges.length + 2) (dijkstraInit g startId v) [] with
  | none => none
  | some r => some { r.1.view with isRunning := false, trace := r.1.view.trace ++ [.done] }

/-- Order of the frontier of `dijkstra` with respect to the insertion log: the entries of
one distance stand in the order of their insertion, no entry was inserted twice, and no
logged distance is below the tentative distance of its node. -/
structure PqOrd (startId : α) (s : DState α) : Prop where
  sub : ∀ d, (s.pq.filter (fun y => decide (y.2 = d))).Sublist (pushLog startId s.view.trace)
  nodup : (pushLog startId s.view.trace).Nodup
  low : ∀ y ∈ pushLog startId s.view.trace,
    ∃ b, s.newDistances y.1 = some (some b) ∧ b ≤ y.2

/-! ## Depth-first search with a record of the stack at every visit

`dfsRecursiveSnap` is `dfsRecursive` with one more component of state: for every call of
`markVisited(nodeId)` it records `nodeId` and the `dfsStack` shown at that moment. -/

/-- The inner function `dfsRecursive(nodeId)`, recording the stack at every visit. -/
def dfsRecursiveSnap (g : Graph α) :
    Nat → (View α × List α) × List (α × List α) → α →
      Option ((View α × List α) × List (α × List α))
  | 0, _, _ => none
  | fuel + 1, st, nodeId =>
    if nodeId ∈ st.1.2 then
      some (({ st.1.1 with dfsStack := st.1.1.dfsStack.dropLast }, st.1.2), st.2)
    else
      let r := (getNeighbors g nodeId).foldl
        (fun acc nb =>
          match acc with
          | none => none
          | some s =>
            if nb.1 ∈ s.1.2 then some s
            else
              dfsRecursiveSnap g fuel
                ((markEdge { s.1.1 with dfsStack := s.1.1.dfsStack ++ [nb.1] } nodeId nb.1,
                  s.1.2), s.2) nb.1)
        (some ((markVisited st.1.1 nodeId none, st.1.2 ++ [nodeId]),
          st.2 ++ [(nodeId, st.1.1.dfsStack)]))
      match r with
      | none => none
      | some s => some (({ s.1.1 with dfsStack := s.1.1.dfsStack.dropLast }, s.1.2), s.2)

/-- Body of the neighbour loop of `dfsRecursiveSnap`. -/
def dfsNeighborSnap (g : Graph α) (fuel : Nat) (nodeId : α)
    (acc : Option ((View α × List α) × List (α × List α))) (nb : α × Nat) :
    Option ((View α × List α) × List (α × List α)) :=
  match acc with
  | none => none
  | some s =>
    if nb.1 ∈ s.1.2 then some s
    else
      dfsRecursiveSnap g fuel
        ((markEdge { s.1.1 with dfsStack := s.1.1.dfsStack ++ [nb.1] } nodeId nb.1, s.1.2),
          s.2) nb.1

/-- The function `dfs(startId)`, with the record of the stack at every visit. -/
def dfsSnap (g : Graph α) (startId : α) (v : View α) :
    Option (View α × List (α × List α)) :=
  match dfsRecursiveSnap g (2 * g.edges.length + 1)
      (({ (beginRun v) with dfsStack := [startId] }, []), []) startId with
  | none => none
  | some r =>
    some ({ r.1.1 with dfsStack := [], isRunning := false, trace := r.1.1.trace ++ [.done] },
      r.2)

/-- The recorded stack is the chain from the start to the visited node: the start at the
bottom, the node on top, consecutive entries joined by an edge. -/
def GoodSnap (g : Graph α) (startId : α) (sn : α × List α) : Prop :=
  sn.2.head? = some startId ∧ sn.2.getLast? = some sn.1 ∧ sn.2.Chain' (Adj g)

/-- `Hops g u v k`: some path of `k` consecutive edges leads from `u` to `v`. -/
inductive Hops (g : Graph α) (u : α) : α → Nat → Prop where
  | nil : Hops g u u 0
  | snoc {v x : α} {k : Nat} : Hops g u v k → Adj g v x → Hops g u x (k + 1)

/-- Invariant of the loop of `bfs`, with a level attached to every visited node (`vl`,
in visit order) and to every queue entry (`ql`, in queue order); `c` is the level of the
node visited last. -/
structure LvlInv (g : Graph α) (s : α) (vl ql : List (α × Nat)) (c : Nat) : Prop where
  v_dist : ∀ p ∈ vl, Hops g s p.1 p.2 ∧ ∀ k, Hops g s p.1 k → p.2 ≤ k
  v_sorted : vl.Pairwise (fun a b => a.2 ≤ b.2)
  v_le : ∀ p ∈ vl, p.2 ≤ c
  q_hops : ∀ p ∈ ql, Hops g s p.1 p.2
  q_sorted : ql.Pairwise (fun a b => a.2 ≤ b.2)
  q_range : ∀ p ∈ ql, c ≤ p.2 ∧ p.2 ≤ c + 1
  closed : ∀ p ∈ vl, ∀ nb ∈ getNeighbors g p.1,
    nb.1 ∈ vl.map Prod.fst ∨ ∃ q ∈ ql, q.1 = nb.1 ∧ q.2 ≤ p.2 + 1
  start : s ∈ vl.map Prod.fst ∨ (s, 0) ∈ ql

/-- The graph of the concrete scenario: `A-B:1, B-C:2, A-C:4, C-D:1`. -/
def sampleGraph : Graph String :=
  { nodes := ["A", "B", "C", "D"],
    edges := [⟨"A", "B", 1⟩, ⟨"B", "C", 2⟩, ⟨"A", "C", 4⟩, ⟨"C", "D", 1⟩] }

/-- A path whose first edge weighs `2^53`: `A-B:9007199254740992, B-C:1`. -/
def largeGraph : Graph String :=
  { nodes := ["A", "B", "C"], edges := [⟨"A", "B", 9007199254740992⟩, ⟨"B", "C", 1⟩] }

/-- A disconnected graph: nodes `A`, `B`, `C` and the single edge `A-B:1`. -/
def splitGraph : Graph String :=
  { nodes := ["A", "B", "C"], edges := [⟨"A", "B", 1⟩] }

/-- A graph with two neighbours at the same distance from `A`: `A-B:1, A-C:1`. -/
def tieGraph : Graph String :=
  { nodes := ["A", "B", "C"], edges := [⟨"A", "B", 1⟩, ⟨"A", "C", 1⟩] }

/-- The state of `dijkstra` on `tieGraph` from `A` after the first iteration of its
loop. -/
def tieState : DState String × List String :=
  (dijkstraIter tieGraph (dijkstraInit tieGraph "A" View.idle, [])).getD
    (dijkstraInit tieGraph "A" View.idle, [])

end GraphVisualizer

namespace MSTVisualizer

open GraphVisualizer (Edge Graph)

/-! # Spanning-tree engines (`MSTVisualizer.js`)

The graph is the content of `nodesRef.current` and `edgesRef.current` (ids and edge
records in insertion order).  `View` is the React state written by the runs.  Of the
calls `highlightEdge(.., true)` those of the engine bodies are recorded as
`edgeExplore`; `addToMST` is recorded as `mstAdd` and the message of a refused edge
as `mstReject`. -/

/-- Observable steps of a spanning-tree run. -/
inductive Step (α : Type) where
  | edgeExplore (src dst : α)
  | mstAdd (src dst : α) (weight : Nat)
  | mstReject (src dst : α)
  | done
deriving DecidableEq, Repr

/-- React state written by the spanning-tree runs: the `isRunning` flag, the ids of the
nodes flagged `inMST`, the `mstEdges` list and the `totalCost` (a number: `none` stands
for `Infinity`). -/
structure View (α : Type) where
  isRunning : Bool
  nodesInMST : List α
  mstEdges : List (Edge α)
  totalCost : Option Nat
  trace : List (Step α)
deriving DecidableEq, Repr

/-- How an invocation ends: it returns, it throws a `TypeError`, or the bound on the
number of iterations given to the model is exhausted before it returns. -/
inductive Outcome (α : Type) where
  | finished (v : View α)
  | typeError (v : View α)
  | outOfFuel
deriving DecidableEq, Repr

variable {α : Type} [DecidableEq α]

/-- The state of a freshly mounted component. -/
def View.idle : View α :=
  { isRunning := false, nodesInMST := [], mstEdges := [], totalCost := some 0, trace := [] }

/-- Start of a run, after the guard: `setIsRunning(true)` and the reset of the flags,
of `totalCost` and of `mstEdges`. -/
def beginRun (_v : View α) : View α :=
  { isRunning := true, nodesInMST := [], mstEdges := [], totalCost := some 0, trace := [] }

/-- The function `addToMST(fromId, toId, weight)`.  The update
`setTotalCost(prev => prev + weight)` adds two doubles. -/
def addToMST (v : View α) (fromId toId : α) (weight : Nat) : View α :=
  { v with
    nodesInMST := v.nodesInMST ++ [fromId, toId],
    mstEdges := v.mstEdges ++ [⟨fromId, toId, weight⟩],
    totalCost := JsNumber.costAdd v.totalCost weight,
    trace := v.trace ++ [.mstAdd fromId toId weight] }

/-! ## Prim (lines 325-395) -/

/-- The test `(fromInMST && !toInMST) || (!fromInMST && toInMST)`. -/
def crossing (visited : List α) (e : Edge α) : Bool :=
  (decide (e.src ∈ visited) && !decide (e.dst ∈ visited)) ||
  (!decide (e.src ∈ visited) && decide (e.dst ∈ visited))

/-- Body of `for (const edge of currentEdges)` in `runPrim`.  The second component is
`minEdge` (`none` for `null`); `minWeight` is its weight, or `Infinity` while it is
`null`. -/
def primScan (visited : List α) (acc : View α × Option (Edge α)) (edge : Edge α) :
    View α × Option (Edge α) :=
  if crossing visited edge then
    let v1 := { acc.1 with trace := acc.1.trace ++ [.edgeExplore edge.src edge.dst] }
    match acc.2 with
    | none => (v1, some edge)
    | some m => if edge.weight < m.weight then (v1, some edge) else (v1, some m)
  else acc

/-- The loop `while (visited.size < currentNodes.length)` of `runPrim`; the first
argument bounds the number of iterations, the list is the set `visited` in insertion
order. -/
def primLoop (g : Graph α) : Nat → View α → List α → Option (View α × List α)
  | 0, v, visited => if visited.length < g.nodes.length then none else some (v, visited)
  | fuel + 1, v, visited =>
    if visited.length < g.nodes.length then
      let r := g.edges.foldl (primScan visited) (v, none)
      match r.2 with
      | some minEdge =>
        let newNode := if minEdge.src ∈ visited then minEdge.dst else minEdge.src
        let visited1 := if newNode ∈ visited then visited else visited ++ [newNode]
        primLoop g fuel (addToMST r.1 minEdge.src minEdge.dst minEdge.weight) visited1
      | none => primLoop g fuel r.1 visited
    else some (v, visited)

/-- The function `runPrim`, with a bound `fuel` on the iterations of its `while` loop.
`currentNodes[0].id` throws when there is no node. -/
def runPrim (g : Graph α) (fuel : Nat) (v : View α) : Outcome α :=
  if v.isRunning then .finished v
  else
    match g.nodes with
    | [] => .typeError (beginRun v)
    | startNode :: _ =>
      match primLoop g fuel { (beginRun v) with nodesInMST := [startNode] } [startNode] with
      | none => .outOfFuel
      | some r => .finished { r.1 with isRunning := false, trace := r.1.trace ++ [.done] }

/-! ## Kruskal (lines 398-479)

`parent` and `rank` are objects keyed by node id; they are represented by total
functions, initialised as the code initialises them on the node ids.  The embedding
is faithful for graphs whose edges join listed nodes: only then every key that is
read has been initialised. -/

/-- The union-find maps `parent` and `rank`. -/
structure UnionFind (α : Type) where
  parent : α → α
  rank : α → Nat

/-- The function `find(x)` with path compression; the first argument bounds the
recursion depth.  The result is the returned root and the updated `parent`. -/
def find : Nat → (α → α) → α → Option (α × (α → α))
  | 0, _, _ => none
  | fuel + 1, parent, x =>
    if parent x ≠ x then
      match find fuel parent (parent x) with
      | none => none
      | some r => some (r.1, fun y => if y = x then r.1 else r.2 y)
    else some (parent x, parent)

/-- The function `union(x, y)`. -/
def union (fuel : Nat) (uf : UnionFind α) (x y : α) : Option (UnionFind α) :=
  match find fuel uf.parent x with
  | none => none
  | some rx =>
    match find fuel rx.2 y with
    | none => none
    | some ry =>
      let rootX := rx.1
      let rootY := ry.1
      if uf.rank rootX < uf.rank rootY then
        some { uf with parent := fun z => if z = rootX then rootY else ry.2 z }
      else if uf.rank rootX > uf.rank rootY then
        some { uf with parent := fun z => if z = rootY then rootX else ry.2 z }
      else
        some { parent := fun z => if z = rootY then rootX else ry.2 z,
               rank := fun z => if z = rootX then uf.rank rootX + 1 else uf.rank z }

/-- The copy `[...currentEdges].sort((a, b) => a.weight - b.weight)`: a stable sort by
weight. -/
def sortEdges (edges : List (Edge α)) : List (Edge α) :=
  edges.insertionSort (fun a b => a.weight ≤ b.weight)

/-- The loop `for (const edge of sortedEdges)` of `runKruskal`; `n` is
`currentNodes.length`, `fuel` the depth bound handed to `find`, the last argument is
`edgesAdded`.  The test `edgesAdded >= currentNodes.length - 1` is written
`edgesAdded + 1 ≥ n`, which also covers `n = 0`. -/
def kruskalLoop (n fuel : Nat) :
    List (Edge α) → View α → UnionFind α → Nat → Option (View α × UnionFind α × Nat)
  | [], v, uf, edgesAdded => some (v, uf, edgesAdded)
  | edge :: rest, v, uf, edgesAdded =>
    if edgesAdded + 1 ≥ n then some (v, uf, edgesAdded)
    else
      let v1 := { v with trace := v.trace ++ [.edgeExplore edge.src edge.dst] }
      match find fuel uf.parent edge.src with
      | none => none
      | some rf =>
        match find fuel rf.2 edge.dst with
        | none => none
        | some rt =>
          if rf.1 ≠ rt.1 then
            match union fuel { uf with parent := rt.2 } edge.src edge.dst with
            | none => none
            | some uf2 =>
              kruskalLoop n fuel rest (addToMST v1 edge.src edge.dst edge.weight) uf2
                (edgesAdded + 1)
          else
            kruskalLoop n fuel rest
              { v1 with trace := v1.trace ++ [.mstReject edge.src edge.dst] }
              { uf with parent := rt.2 } edgesAdded

/-- The state in which the iteration of the loop of `runKruskal` that examines `edge`
is suspended inside `addToMST` (at `await highlightEdge(..)` and `await sleep(500)`),
when the roots differ: `union(edge.from, edge.to)` has run, `setMstEdges` and
`setTotalCost` have not.  `none` when the iteration does not commit the edge. -/
def kruskalCommitPoint (fuel : Nat) (edge : Edge α) (v : View α) (uf : UnionFind α) :
    Option (View α × UnionFind α) :=
  let v1 := { v with trace := v.trace ++ [.edgeExplore edge.src edge.dst] }
  match find fuel uf.parent edge.src with
  | none => none
  | some rf =>
    match find fuel rf.2 edge.dst with
    | none => none
    | some rt =>
      if rf.1 ≠ rt.1 then
        match union fuel { uf with parent := rt.2 } edge.src edge.dst with
        | none => none
        | some uf2 => some (v1, uf2)
      else none

/-- The function `runKruskal`.  A chain of parents never holds more links than there
are nodes, which bounds the depth of `find`. -/
def runKruskal (g : Graph α) (v : View α) : Outcome α :=
  if v.isRunning then .finished v
  else
    match kruskalLoop g.nodes.length (g.nodes.length + 1) (sortEdges g.edges) (beginRun v)
        { parent := fun x => x, rank := fun _ => 0 } 0 with
    | none => .outOfFuel
    | some r => .finished { r.1 with isRunning := false, trace := r.1.trace ++ [.done] }

/-! ## Specification vocabulary -/

/-- Two ids are connected by the edges of `F` (in either direction, through any number
of edges). -/
def Conn (F : List (Edge α)) : α → α → Prop :=
  Relation.EqvGen (fun u v => ∃ e ∈ F, e.src = u ∧ e.dst = v)

/-- The edge list contains no cycle: no edge has its endpoints connected by the other
edges of the list. -/
def Acyclic (F : List (Edge α)) : Prop :=
  ∀ (F1 : List (Edge α)) (e : Edge α) (F2 : List (Edge α)),
    F = F1 ++ e :: F2 → ¬ Conn (F1 ++ F2) e.src e.dst

/-- Every edge of `A` joins two ids that the edges after it in `A`, together with those
of `C`, leave unconnected. -/
def ForestOver (C : List (Edge α)) : List (Edge α) → Prop
  | [] => True
  | a :: A => ¬ Conn (A ++ C) a.src a.dst ∧ ForestOver C A

/-- Total weight of an edge list. -/
def totalWeight (F : List (Edge α)) : Nat := (F.map (fun e => e.weight)).sum

/-- The cost that `addToMST` accumulates over the edges of `F`, committed in the order
of the list: the sum of doubles `((0 + w1) + w2) + ...`. -/
def sumCost (F : List (Edge α)) : Option Nat :=
  F.foldl (fun c e => JsNumber.costAdd c e.weight) (some 0)

/-- The edges of `F` of weight at most `w`. -/
def lightEdges (F : List (Edge α)) (w : Nat) : List (Edge α) :=
  F.filter (fun e => decide (e.weight ≤ w))

/-- The edge list is a spanning forest of the graph: its edges are edges of the graph,
it contains no cycle, and it connects two ids exactly when the graph does. -/
def SpanningForest (g : Graph α) (F : List (Edge α)) : Prop :=
  (∀ e ∈ F, e ∈ g.edges) ∧ Acyclic F ∧ ∀ u v, Conn F u v ↔ Conn g.edges u v

/-- Consistency of the union-find maps with a choice `rep` of one representative per
class: following `parent` stays in the class, the representative is the root of its
class, ranks grow strictly towards the root and are bounded by `R`. -/
structure UFInv (parent : α → α) (rank : α → Nat) (rep : α → α) (R : Nat) : Prop where
  step : ∀ x, rep (parent x) = rep x
  root : ∀ x, parent x = x → rep x = x
  isRoot : ∀ x, parent (rep x) = rep x
  rankLt : ∀ x, parent x ≠ x → rank x < rank (parent x)
  rankLe : ∀ x, rank x ≤ R

/-- Invariant of the loop of `runKruskal` once the edges `seen` have been examined. -/
structure KInv (seen : List (Edge α)) (v : View α) (uf : UnionFind α) (k : Nat) : Prop where
  uf_ok : ∃ rep, UFInv uf.parent uf.rank rep k ∧ ∀ u w, rep u = rep w ↔ Conn v.mstEdges u w
  count : k = v.mstEdges.length
  forest : ForestOver [] v.mstEdges.reverse
  sub : ∀ e ∈ v.mstEdges, e ∈ seen
  span : ∀ e ∈ seen, Conn (lightEdges v.mstEdges e.weight) e.src e.dst
  cost : v.totalCost = sumCost v.mstEdges

/-- A path whose first edge weighs `2^53`: `A-B:9007199254740992, B-C:1, C-D:1`. -/
def largePath : Graph String :=
  { nodes := ["A", "B", "C", "D"],
    edges := [⟨"A", "B", 9007199254740992⟩, ⟨"B", "C", 1⟩, ⟨"C", "D", 1⟩] }

/-- The edges from the first id of the list to each of the others. -/
def star : List α → List (Edge α)
  | [] => []
  | x :: xs => xs.map (fun y => ⟨x, y, 0⟩)

/-- The value of `minEdge` after the scan of the edges `es`: a lightest edge of `es`
that crosses the cut, or `null` when no edge of `es` crosses it. -/
def Best (visited : List α) (es : List (Edge α)) (o : Option (Edge α)) : Prop :=
  (∀ m, o = some m → m ∈ es ∧ crossing visited m = true ∧
    ∀ e ∈ es, crossing visited e = true → m.weight ≤ e.weight) ∧
  (o = none → ∀ e ∈ es, crossing visited e = false)

/-- Invariant of the `while` loop of `runPrim`. -/
structure PInv (g : Graph α) (v : View α) (visited : List α) : Prop where
  nodup : visited.Nodup
  sub_nodes : ∀ x ∈ visited, x ∈ g.nodes
  nonempty : visited ≠ []
  count : v.mstEdges.length + 1 = visited.length
  edges_sub : ∀ e ∈ v.mstEdges, e ∈ g.edges
  ends : ∀ e ∈ v.mstEdges, e.src ∈ visited ∧ e.dst ∈ visited
  forest : ForestOver [] v.mstEdges.reverse
  light : ∀ w u z, u ∈ visited → z ∈ visited → Conn (lightEdges g.edges w) u z →
    Conn (lightEdges v.mstEdges w) u z
  cost : v.totalCost = sumCost v.mstEdges

/-- The value of `minEdge` after the scan of the edges `es`, with its position: the
first of the lightest edges of `es` that cross the cut, or `null` when no edge of `es`
crosses it. -/
def FirstBest (visited : List α) (es : List (Edge α)) (o : Option (Edge α)) : Prop :=
  (∀ m, o = some m → crossing visited m = true ∧ ∃ pre post, es = pre ++ m :: post ∧
    (∀ e ∈ pre, crossing visited e = true → m.weight < e.weight) ∧
    (∀ e ∈ post, crossing visited e = true → m.weight ≤ e.weight)) ∧
  (o = none → ∀ e ∈ es, crossing visited e = false)

/-- The union-find states that calls of `find` and `union` produce from the singleton
initialisation of `runKruskal`. -/
inductive UFReach : UnionFind α → Prop where
  | initial : UFReach { parent := fun x => x, rank := fun _ => 0 }
  | afterFind (uf : UnionFind α) (fuel : Nat) (x : α) (r : α × (α → α)) :
      UFReach uf → find fuel uf.parent x = some r → UFReach { uf with parent := r.2 }
  | afterUnion (uf uf1 : UnionFind α) (fuel : Nat) (x y : α) :
      UFReach uf → union fuel uf x y = some uf1 → UFReach uf1

/-! ## Kruskal as the specification words it

The union-find of the specification is kept as one class label per id: `find` reads the
label, `union` gives the label of the first id to the whole class of the second. -/

/-- Process the edges in the given order: stop once `nodeCount - 1` edges are committed;
emit `edge-explore`; if the roots of the endpoints differ, unite them, commit the edge
and accumulate its cost, else emit `mst-reject`. -/
def kruskalSpecLoop (n : Nat) : List (Edge α) → View α → (α → α) → Nat → View α
  | [], v, _, _ => v
  | edge :: rest, v, label, committed =>
    if committed + 1 ≥ n then v
    else
      let v1 := { v with trace := v.trace ++ [.edgeExplore edge.src edge.dst] }
      if label edge.src ≠ label edge.dst then
        kruskalSpecLoop n rest (addToMST v1 edge.src edge.dst edge.weight)
          (fun z => if label z = label edge.dst then label edge.src else label z)
          (committed + 1)
      else
        kruskalSpecLoop n rest { v1 with trace := v1.trace ++ [.mstReject edge.src edge.dst] }
          label committed

/-- The specified run on the edges sorted ascending by weight, from singleton classes. -/
def kruskalSpec (g : Graph α) : View α :=
  let v := kruskalSpecLoop g.nodes.length (sortEdges g.edges) (beginRun View.idle)
    (fun x => x) 0
  { v with isRunning := false, trace := v.trace ++ [.done] }

end MSTVisualizer

namespace GraphVisualizer

/-! # The graph generators (`generateEdges` of both visualizers)

The node at index `i` of the generated node array has the one-character id
`String.fromCharCode(65 + i)`; it is named here by the code unit of that character.
The outcome of the calls of `Math.random()` is a list of draws, consumed from the
front: the draw `u` stands for the number `u / 2^53`.  A generator returns `none` when
the list is not the outcome of a complete run (it is too short, or holds a value that
`Math.random()` cannot return). -/

/-- The id of the node at index `i`: the code unit of `String.fromCharCode(65 + i)`. -/
def nodeId (i : Nat) : Nat := (65 + i) % 65536

/-- The ids of the nodes returned by `generateNodes(count)`. -/
def generateNodeIds (count : Nat) : List Nat := (List.range count).map nodeId

/-- `Math.floor(Math.random() * k)` for the draw `u`.  The product is a product of
doubles: the double nearest to `u * k / 2^53`, that is `u * k` rounded to 53 significant
bits and divided by `2^53`; it is below `k`, so it is finite. -/
def scaleDraw (u k : Nat) : Nat := JsNumber.roundSig (u * k) / 2 ^ 53

/-- `Math.random() < 0.3` for the draw `u`.  The literal `0.3` is the double
`5404319552844595 / 2^54`; on integers `u` the test against it and the test against
`3 / 10` agree. -/
def below03 (u : Nat) : Bool := decide (u * 10 < 3 * 2 ^ 53)

/-- One call of `Math.random()`. -/
def nextDraw : List Nat → Option (Nat × List Nat)
  | [] => none
  | u :: ds => if u < 2 ^ 53 then some (u, ds) else none

/-- Runs the body `f x` for every `x` of the list, in order, on a state that may fail. -/
def forEach {σ β : Type} (l : List β) (f : β → σ → Option σ) (s : σ) : Option σ :=
  l.foldl (fun acc x => acc.bind (f x)) (some s)

/-- The graph on the `n` generated nodes with the given edges. -/
def genGraph (n : Nat) (es : List (Edge Nat)) : Graph Nat := ⟨generateNodeIds n, es⟩

/-- The step `f` keeps the property `G` of the state and only adds edges (`E` reads the
edge list of a state). -/
def StepOk {σ : Type} (E : σ → List (Edge Nat)) (G : σ → Prop) (f : σ → Option σ) : Prop :=
  ∀ s s1, f s = some s1 → G s → G s1 ∧ ∀ e ∈ E s, e ∈ E s1

/-- Local state of `generateEdges` of the graph visualizer: `edges`, the keys of
`edgeSet` (the key `from-to` is the pair of the two ids) and the draws left. -/
structure GenState where
  edges : List (Edge Nat)
  edgeSet : List (Nat × Nat)
  draws : List Nat
deriving DecidableEq, Repr

/-- The helper `addEdge(from, to, weight)`. -/
def addEdge (s : GenState) (src dst weight : Nat) : GenState :=
  if (src, dst) ∉ s.edgeSet ∧ (dst, src) ∉ s.edgeSet then
    { s with edges := s.edges ++ [⟨src, dst, weight⟩],
             edgeSet := s.edgeSet ++ [(src, dst), (dst, src)] }
  else s

/-- The call `addEdge(nodes[i].id, nodes[j].id, Math.floor(Math.random() * 5) + 1)`. -/
def addEdgeDrawn (i j : Nat) (s : GenState) : Option GenState :=
  match nextDraw s.draws with
  | none => none
  | some (u, ds) => some (addEdge { s with draws := ds } (nodeId i) (nodeId j) (scaleDraw u 5 + 1))

/-- The loop `while (to === from) to = Math.floor(Math.random() * nodeCount)`, entered
after a first draw of `to`: the first drawn index other than `src`. -/
def drawOther (n src : Nat) : List Nat → Option (Nat × List Nat)
  | [] => none
  | u :: ds =>
    if u < 2 ^ 53 then
      if scaleDraw u n = src then drawOther n src ds else some (scaleDraw u n, ds)
    else none

/-- Body of the loops that add a random connection: draw `from`, draw `to` until it
differs, add the edge. -/
def randomEdge (n : Nat) (s : GenState) : Option GenState :=
  match nextDraw s.draws with
  | none => none
  | some (u, ds) =>
    match drawOther n (scaleDraw u n) ds with
    | none => none
    | some (dst, ds2) => addEdgeDrawn (scaleDraw u n) dst { s with draws := ds2 }

/-- Branch `nodeCount <= 4`: every pair of nodes. -/
def completeEdges (n : Nat) (s : GenState) : Option GenState :=
  forEach (List.range n)
    (fun i => forEach (List.range' (i + 1) (n - (i + 1))) (fun j => addEdgeDrawn i j)) s

/-- Branch `nodeCount <= 8`: the tree `i - floor(i / 2)`, then the ring and the chords
`i - (i + 2)`, then `Math.min(3, Math.floor(nodeCount / 2))` random connections. -/
def mediumEdges (n : Nat) (s : GenState) : Option GenState :=
  ((forEach (List.range' 1 (n - 1)) (fun i => addEdgeDrawn i (i / 2)) s).bind
    (forEach (List.range n)
      (fun i s1 =>
        (addEdgeDrawn i ((i + 1) % n) s1).bind
          (fun s2 => if i + 2 < n then addEdgeDrawn i (i + 2) s2 else some s2)))).bind
    (forEach (List.range (min 3 (n / 2))) (fun _ => randomEdge n))

/-- The value `Math.ceil(Math.sqrt(nodeCount))`: the least `c` with `nodeCount ≤ c * c`. -/
def ceilSqrt (n : Nat) : Nat :=
  ((List.range (n + 1)).find? (fun c => decide (n ≤ c * c))).getD n

/-- Body of the loop over the nodes in the grid branch: right neighbour, bottom
neighbour, and a diagonal on a draw below `0.3`. -/
def gridStep (n cols i : Nat) (s : GenState) : Option GenState :=
  ((if i % cols < cols - 1 ∧ i + 1 < n then addEdgeDrawn i (i + 1) s else some s).bind
    (fun s1 =>
      if i / cols < (n - 1) / cols ∧ i + cols < n then addEdgeDrawn i (i + cols) s1
      else some s1)).bind
    (fun s2 =>
      if i % cols < cols - 1 ∧ i + cols + 1 < n then
        match nextDraw s2.draws with
        | none => none
        | some (u, ds) =>
          if below03 u then addEdgeDrawn i (i + cols + 1) { s2 with draws := ds }
          else some { s2 with draws := ds }
      else some s2)

/-- Branch of the larger graphs: the grid, then the random long connections, one for
every integer `i < Math.min(nodeCount / 3, 5)`. -/
def gridEdges (n : Nat) (s : GenState) : Option GenState :=
  (forEach (List.range n) (gridStep n (ceilSqrt n)) s).bind
    (forEach (List.range (min ((n + 2) / 3) 5)) (fun _ => randomEdge n))

/-- The function `generateEdges(nodes)` of the graph visualizer, for the `n` generated
nodes and the given draws. -/
def generateEdges (n : Nat) (draws : List Nat) : Option (List (Edge Nat)) :=
  let s0 : GenState := { edges := [], edgeSet := [], draws := draws }
  ((if n ≤ 4 then completeEdges n s0
    else if n ≤ 8 then mediumEdges n s0
    else gridEdges n s0)).map (fun s => s.edges)

/-- The keys of `edgeSet` name pairs that an edge joins, and every edge joins two of the
`n` nodes. -/
def GenGood (n : Nat) (s : GenState) : Prop :=
  (∀ k ∈ s.edgeSet, Adj (genGraph n s.edges) k.1 k.2) ∧ (genGraph n s.edges).WellFormed

end GraphVisualizer

namespace MSTVisualizer

open GraphVisualizer (Edge Graph nodeId generateNodeIds scaleDraw below03 nextDraw forEach
  genGraph)

/-- Body of the loop over the pairs `i < j` in `generateEdges` of the spanning-tree
visualizer; `near i j` is the test `distance < 200` on the two positions.  The draw for
`Math.random() < 0.3` is made only when the test fails. -/
def pairStep (near : Nat → Nat → Bool) (i j : Nat) (s : List (Edge Nat) × List Nat) :
    Option (List (Edge Nat) × List Nat) :=
  if near i j then
    match nextDraw s.2 with
    | none => none
    | some (w, ds) => some (s.1 ++ [⟨nodeId i, nodeId j, scaleDraw w 9 + 1⟩], ds)
  else
    match nextDraw s.2 with
    | none => none
    | some (u, ds) =>
      if below03 u then
        match nextDraw ds with
        | none => none
        | some (w, ds2) => some (s.1 ++ [⟨nodeId i, nodeId j, scaleDraw w 9 + 1⟩], ds2)
      else some (s.1, ds)

/-- Body of the loop `for (let i = 0; i < nodeCount - 1; i++)` that ensures
connectivity. -/
def ensureStep (i : Nat) (s : List (Edge Nat) × List Nat) :
    Option (List (Edge Nat) × List Nat) :=
  if s.1.any (fun e =>
      (decide (e.src = nodeId i) && decide (e.dst = nodeId (i + 1))) ||
      (decide (e.src = nodeId (i + 1)) && decide (e.dst = nodeId i))) then some s
  else
    match nextDraw s.2 with
    | none => none
    | some (w, ds) => some (s.1 ++ [⟨nodeId i, nodeId (i + 1), scaleDraw w 5 + 1⟩], ds)

/-- The function `generateEdges(nodes)` of the spanning-tree visualizer, for the `n`
generated nodes, the test `near` and the given draws. -/
def generateEdges (n : Nat) (near : Nat → Nat → Bool) (draws : List Nat) :
    Option (List (Edge Nat)) :=
  ((forEach (List.range n)
      (fun i => forEach (List.range' (i + 1) (n - (i + 1))) (fun j => pairStep near i j))
      (([] : List (Edge Nat)), draws)).bind
    (forEach (List.range (n - 1)) ensureStep)).map (fun s => s.1)

/-- A list of draws that alternates between `0` and the largest value below `1`. -/
def sampleDraws : List Nat :=
  (List.range 80).map (fun k => if k % 2 = 0 then 0 else 2 ^ 53 - 1)

end MSTVisualizer
namespace SortingVisualizer

/-! ## Generic facts on arrays as lists -/

theorem length_swap (l : List Int) (i j : Nat) : (swap l i j).length = l.length := by
  simp [swap]

theorem getD_set_int (l : List Int) (i k : Nat) (v : Int) (hi : i < l.length) :
    (l.set i v).getD k 0 = if k = i then v else l.getD k 0 := by
  simp only [List.getD_eq_getElem?_getD, List.getElem?_set]
  by_cases h : i = k
  · subst h; simp [hi]
  · have h2 : ¬ k = i := fun e => h e.symm
    simp [h, h2]

theorem getD_swap (l : List Int) (i j k : Nat) (hi : i < l.length) (hj : j < l.length) :
    (swap l i j).getD k 0 =
      if k = j then l.getD i 0 else if k = i then l.getD j 0 else l.getD k 0 := by
  unfold swap
  rw [getD_set_int _ _ _ _ (by simpa using hj), getD_set_int _ _ _ _ hi]

theorem count_set_int (l : List Int) (i : Nat) (v b : Int) (hi : i < l.length) :
    (l.set i v).count b + (if l.getD i 0 = b then 1 else 0) =
      l.count b + (if v = b then 1 else 0) := by
  rw [List.count_set v b l i hi, List.getD_eq_getElem l 0 hi]
  have hmem : l[i] ∈ l := List.getElem_mem hi
  by_cases h : l[i] = b
  · have hpos : 0 < l.count b := by
      rw [List.count_pos_iff]; exact h ▸ hmem
    simp [h]
    omega
  · simp [h]

theorem perm_swap (l : List Int) (i j : Nat) (hi : i < l.length) (hj : j < l.length) :
    (swap l i j).Perm l := by
  rw [List.perm_iff_count]
  intro b
  unfold swap
  have h1 := count_set_int (l.set i (l.getD j 0)) j (l.getD i 0) b (by simpa using hj)
  have h2 := count_set_int l i (l.getD j 0) b hi
  rw [getD_set_int _ _ _ _ hi] at h1
  by_cases hji : j = i
  · subst hji
    simp only [if_true] at h1
    omega
  · simp only [hji, if_false] at h1
    omega

theorem foldl_range_succ {β : Type} (f : β → Nat → β) (b : β) (n : Nat) :
    (List.range (n + 1)).foldl f b = f ((List.range n).foldl f b) n := by
  rw [List.range_succ, List.foldl_append]
  rfl

theorem sorted_of_sortedIdx (l : List Int) (h : SortedIdx l) : l.Sorted (· ≤ ·) := by
  unfold List.Sorted
  rw [List.pairwise_iff_getElem]
  intro i j hi hj hij
  have := h i j (Nat.le_of_lt hij) hj
  rwa [List.getD_eq_getElem l 0 hi, List.getD_eq_getElem l 0 hj] at this

end SortingVisualizer
namespace SortingVisualizer

/-! ## Bubble sort: uncancelled runs -/

/-- Array effect of one uncancelled inner iteration. -/
theorem bubbleInner_none (s : Run Int) (j : Nat) (hs : s.stopped = false) :
    (bubbleInner none s j).stopped = false ∧
    (bubbleInner none s j).arr =
      (if s.arr.getD j 0 > s.arr.getD (j + 1) 0 then swap s.arr j (j + 1) else s.arr) := by
  unfold bubbleInner
  simp only [hs, stopRequested, Run.sleep, Run.emit, Bool.false_eq_true, if_false]
  by_cases h : s.arr.getD j 0 > s.arr.getD (j + 1) 0
  · simp only [h, if_true]; exact ⟨trivial, trivial⟩
  · simp only [h, if_false]; exact ⟨trivial, trivial⟩

theorem bubbleInner_fold_none (s : Run Int) (m : Nat) (hs : s.stopped = false) :
    ((List.range m).foldl (bubbleInner none) s).stopped = false ∧
    ((List.range m).foldl (bubbleInner none) s).arr = (List.range m).foldl cmpSwap s.arr := by
  induction m with
  | zero => simp [hs]
  | succ k ih =>
    rw [foldl_range_succ, foldl_range_succ]
    obtain ⟨h1, h2⟩ := ih
    obtain ⟨h3, h4⟩ := bubbleInner_none _ k h1
    refine ⟨h3, ?_⟩
    rw [h4, h2]
    rfl

theorem bubbleOuter_none (s : Run Int) (i : Nat) (hs : s.stopped = false) :
    (bubbleOuter none s i).stopped = false ∧
    (bubbleOuter none s i).arr = (List.range (s.arr.length - i - 1)).foldl cmpSwap s.arr := by
  unfold bubbleOuter
  obtain ⟨h1, h2⟩ := bubbleInner_fold_none s (s.arr.length - i - 1) hs
  simp only [hs, h1, Run.sleep, Run.emit]
  simp [h2]

theorem bubbleOuter_fold_none (s : Run Int) (n : Nat) (hs : s.stopped = false) :
    ((List.range n).foldl (bubbleOuter none) s).stopped = false ∧
    ((List.range n).foldl (bubbleOuter none) s).arr = (List.range n).foldl bubblePass s.arr := by
  induction n with
  | zero => simp [hs]
  | succ k ih =>
    rw [foldl_range_succ, foldl_range_succ]
    obtain ⟨h1, h2⟩ := ih
    obtain ⟨h3, h4⟩ := bubbleOuter_none _ k h1
    refine ⟨h3, ?_⟩
    rw [h4, h2]
    rfl

theorem bubbleSort_none_arr (a : List Int) :
    (bubbleSort none a).stopped = false ∧
    (bubbleSort none a).arr = (List.range a.length).foldl bubblePass a := by
  unfold bubbleSort
  obtain ⟨h1, h2⟩ := bubbleOuter_fold_none (Run.start a) a.length rfl
  simp only [h1, Run.emit, Bool.false_eq_true, if_false]
  exact ⟨trivial, h2⟩

theorem cmpSwap_length (l : List Int) (j : Nat) : (cmpSwap l j).length = l.length := by
  unfold cmpSwap; split <;> simp [length_swap]

theorem cmpSwap_perm (l : List Int) (j : Nat) (hj : j + 1 < l.length) :
    (cmpSwap l j).Perm l := by
  unfold cmpSwap; split
  · exact perm_swap l j (j + 1) (by omega) hj
  · exact List.Perm.refl _

/-- Invariant of the inner loop after `k` iterations. -/
theorem cmpSwap_fold (l : List Int) (k : Nat) (hk : k < l.length) :
    ((List.range k).foldl cmpSwap l).length = l.length ∧
    ((List.range k).foldl cmpSwap l).Perm l ∧
    (∀ p, k < p → ((List.range k).foldl cmpSwap l).getD p 0 = l.getD p 0) ∧
    (∀ p, p ≤ k → ((List.range k).foldl cmpSwap l).getD p 0 ≤
        ((List.range k).foldl cmpSwap l).getD k 0) ∧
    (∀ p, p ≤ k → ∃ q, q ≤ k ∧ ((List.range k).foldl cmpSwap l).getD p 0 = l.getD q 0) := by
  induction k with
  | zero =>
    refine ⟨rfl, List.Perm.refl _, fun _ _ => rfl, ?_, ?_⟩
    · intro p hp
      have : p = 0 := by omega
      subst this; exact le_refl _
    · intro p hp; exact ⟨p, hp, rfl⟩
  | succ k ih =>
    obtain ⟨hlen, hperm, hhi, hmax, hex⟩ := ih (by omega)
    rw [foldl_range_succ]
    generalize (List.range k).foldl cmpSwap l = m at *
    have hk1 : k + 1 < m.length := by omega
    have hk0 : k < m.length := by omega
    refine ⟨by rw [cmpSwap_length, hlen], (cmpSwap_perm m k hk1).trans hperm, ?_, ?_, ?_⟩
    · intro p hp
      unfold cmpSwap; split
      · rw [getD_swap m k (k + 1) p hk0 hk1]
        rw [if_neg (by omega), if_neg (by omega)]
        exact hhi p (by omega)
      · exact hhi p (by omega)
    · intro p hp
      unfold cmpSwap; split
      · rename_i hgt
        rw [getD_swap m k (k + 1) p hk0 hk1, getD_swap m k (k + 1) (k + 1) hk0 hk1]
        simp only [if_true]
        by_cases h1 : p = k + 1
        · simp [h1]
        · rw [if_neg h1]
          by_cases h2 : p = k
          · rw [if_pos h2]; exact le_of_lt hgt
          · rw [if_neg h2]; exact hmax p (by omega)
      · rename_i hgt
        by_cases h1 : p = k + 1
        · subst h1; exact le_refl _
        · exact le_trans (hmax p (by omega)) (not_lt.mp hgt)
    · intro p hp
      have hk1' := hhi (k + 1) (by omega)
      unfold cmpSwap; split
      · rw [getD_swap m k (k + 1) p hk0 hk1]
        by_cases h1 : p = k + 1
        · rw [if_pos h1]
          obtain ⟨q, hq, e⟩ := hex k (le_refl _)
          exact ⟨q, by omega, e⟩
        · rw [if_neg h1]
          by_cases h2 : p = k
          · rw [if_pos h2]; exact ⟨k + 1, le_refl _, hk1'⟩
          · rw [if_neg h2]
            obtain ⟨q, hq, e⟩ := hex p (by omega)
            exact ⟨q, by omega, e⟩
      · by_cases h1 : p = k + 1
        · subst h1; exact ⟨k + 1, le_refl _, hk1'⟩
        · obtain ⟨q, hq, e⟩ := hex p (by omega)
          exact ⟨q, by omega, e⟩

/-- Invariant of the outer loop after `i` passes: the last `i` positions hold their
final values. -/
theorem bubblePass_fold (l : List Int) (i : Nat) (hi : i ≤ l.length) :
    ((List.range i).foldl bubblePass l).length = l.length ∧
    ((List.range i).foldl bubblePass l).Perm l ∧
    (∀ p q, p ≤ q → q < l.length → l.length - i ≤ q →
      ((List.range i).foldl bubblePass l).getD p 0 ≤
        ((List.range i).foldl bubblePass l).getD q 0) := by
  induction i with
  | zero =>
    refine ⟨rfl, List.Perm.refl _, ?_⟩
    intro p q _ h1 h2; omega
  | succ i ih =>
    obtain ⟨hlen, hperm, hinv⟩ := ih (by omega)
    rw [foldl_range_succ]
    generalize (List.range i).foldl bubblePass l = m at *
    unfold bubblePass
    obtain ⟨clen, cperm, chi, cmax, cex⟩ := cmpSwap_fold m (m.length - i - 1) (by omega)
    generalize (List.range (m.length - i - 1)).foldl cmpSwap m = m2 at *
    refine ⟨by omega, cperm.trans hperm, ?_⟩
    intro p q hpq hq hle
    by_cases h1 : q = m.length - i - 1
    · subst h1; exact cmax p hpq
    · have hq2 : m.length - i - 1 < q := by omega
      rw [chi q hq2]
      by_cases h2 : m.length - i - 1 < p
      · rw [chi p h2]; exact hinv p q hpq hq (by omega)
      · obtain ⟨r, hr, e⟩ := cex p (by omega)
        rw [e]; exact hinv r q (by omega) hq (by omega)

/-- C1: for every integer array, the uncancelled run of `bubbleSort` reaches its end
(no cancellation return is taken) and the array it ends with is sorted ascending and is
a permutation of the input. -/
theorem bubbleSort_sorted_perm (a : List Int) :
    (bubbleSort none a).stopped = false ∧
    (bubbleSort none a).arr.Sorted (· ≤ ·) ∧
    (bubbleSort none a).arr.Perm a := by
  obtain ⟨h1, h2⟩ := bubbleSort_none_arr a
  obtain ⟨hlen, hperm, hinv⟩ := bubblePass_fold a a.length (le_refl _)
  rw [h2]
  refine ⟨h1, sorted_of_sortedIdx _ ?_, hperm⟩
  intro p q hpq hq
  rw [hlen] at hq
  exact hinv p q hpq hq (by omega)

end SortingVisualizer
namespace SortingVisualizer

/-! ## Selection sort: uncancelled runs -/

theorem foldl_range'_succ {β : Type} (f : β → Nat → β) (b : β) (s n : Nat) :
    (List.range' s (n + 1)).foldl f b = f ((List.range' s n).foldl f b) (s + n) := by
  rw [List.range'_1_concat, List.foldl_append]
  rfl

theorem selectionInner_none (st : Run Int × Nat) (j : Nat) (hs : st.1.stopped = false) :
    (selectionInner none st j).1.stopped = false ∧
    (selectionInner none st j).1.arr = st.1.arr ∧
    (selectionInner none st j).2 = selScan st.1.arr st.2 j := by
  unfold selectionInner selScan
  simp only [hs, stopRequested, Run.sleep, Run.emit, Bool.false_eq_true, if_false]
  by_cases h : st.1.arr.getD j 0 < st.1.arr.getD st.2 0
  · simp only [h, if_true]; exact ⟨trivial, trivial, trivial⟩
  · simp only [h, if_false]; exact ⟨trivial, trivial, trivial⟩

theorem selectionInner_fold_none (st : Run Int × Nat) (b k : Nat) (hs : st.1.stopped = false) :
    ((List.range' b k).foldl (selectionInner none) st).1.stopped = false ∧
    ((List.range' b k).foldl (selectionInner none) st).1.arr = st.1.arr ∧
    ((List.range' b k).foldl (selectionInner none) st).2 =
      (List.range' b k).foldl (selScan st.1.arr) st.2 := by
  induction k with
  | zero => simp [hs]
  | succ k ih =>
    rw [foldl_range'_succ, foldl_range'_succ]
    obtain ⟨h1, h2, h3⟩ := ih
    obtain ⟨h4, h5, h6⟩ := selectionInner_none _ (b + k) h1
    refine ⟨h4, by rw [h5, h2], ?_⟩
    rw [h6, h2, h3]

theorem selectionOuter_none (s : Run Int) (i : Nat) (hs : s.stopped = false) :
    (selectionOuter none s i).stopped = false ∧
    (selectionOuter none s i).arr = selPass s.arr i := by
  unfold selectionOuter selPass
  obtain ⟨h1, h2, h3⟩ := selectionInner_fold_none ((s.emit (.announce i)).sleep, i)
    (i + 1) (s.arr.length - (i + 1)) hs
  have e : ((s.emit (.announce i)).sleep).arr = s.arr := rfl
  simp only [hs, Bool.false_eq_true, if_false, e] at h1 h2 h3 ⊢
  generalize List.foldl (selectionInner none) ((s.emit (.announce i)).sleep, i)
    (List.range' (i + 1) (s.arr.length - (i + 1))) = r at *
  obtain ⟨r1, m⟩ := r
  simp only at h1 h2 h3
  subst h3
  simp only [h1, Bool.false_eq_true, if_false, Run.emit, Run.sleep]
  split
  · exact ⟨rfl, by show swap r1.arr _ _ = _; rw [h2]⟩
  · exact ⟨h1, h2⟩

theorem selectionOuter_fold_none (s : Run Int) (n : Nat) (hs : s.stopped = false) :
    ((List.range n).foldl (selectionOuter none) s).stopped = false ∧
    ((List.range n).foldl (selectionOuter none) s).arr = (List.range n).foldl selPass s.arr := by
  induction n with
  | zero => simp [hs]
  | succ k ih =>
    rw [foldl_range_succ, foldl_range_succ]
    obtain ⟨h1, h2⟩ := ih
    obtain ⟨h3, h4⟩ := selectionOuter_none _ k h1
    refine ⟨h3, ?_⟩
    rw [h4, h2]

theorem selectionSort_none_arr (a : List Int) :
    (selectionSort none a).stopped = false ∧
    (selectionSort none a).arr = (List.range a.length).foldl selPass a := by
  unfold selectionSort
  obtain ⟨h1, h2⟩ := selectionOuter_fold_none (Run.start a) a.length rfl
  simp only [h1, Run.emit, Bool.false_eq_true, if_false]
  exact ⟨trivial, h2⟩

/-- The scan of positions `i+1 .. i+k` leaves in `minIdx` a position of `i .. i+k`
holding a least value of that range. -/
theorem selScan_fold (l : List Int) (i k : Nat) :
    i ≤ (List.range' (i + 1) k).foldl (selScan l) i ∧
    (List.range' (i + 1) k).foldl (selScan l) i ≤ i + k ∧
    (∀ p, i ≤ p → p ≤ i + k →
      l.getD ((List.range' (i + 1) k).foldl (selScan l) i) 0 ≤ l.getD p 0) := by
  induction k with
  | zero =>
    refine ⟨le_refl _, le_refl _, ?_⟩
    intro p h1 h2
    have : p = i := by omega
    subst this; exact le_refl _
  | succ k ih =>
    obtain ⟨h1, h2, h3⟩ := ih
    rw [foldl_range'_succ]
    generalize (List.range' (i + 1) k).foldl (selScan l) i = m at *
    unfold selScan
    by_cases h : l.getD (i + 1 + k) 0 < l.getD m 0
    · rw [if_pos h]
      refine ⟨by omega, by omega, ?_⟩
      intro p hp1 hp2
      by_cases e : p = i + 1 + k
      · subst e; exact le_refl _
      · exact le_trans (le_of_lt h) (h3 p hp1 (by omega))
    · rw [if_neg h]
      refine ⟨h1, by omega, ?_⟩
      intro p hp1 hp2
      by_cases e : p = i + 1 + k
      · subst e; exact not_lt.mp h
      · exact h3 p hp1 (by omega)

theorem selPass_spec (l : List Int) (i : Nat) (hi : i < l.length) :
    (selPass l i).length = l.length ∧ (selPass l i).Perm l ∧
    (∀ p, p < i → (selPass l i).getD p 0 = l.getD p 0) ∧
    (∀ p, i ≤ p → p < l.length → ∃ q, i ≤ q ∧ q < l.length ∧
      (selPass l i).getD p 0 = l.getD q 0) ∧
    (∀ p, i ≤ p → p < l.length → (selPass l i).getD i 0 ≤ (selPass l i).getD p 0) := by
  obtain ⟨h1, h2, h3⟩ := selScan_fold l i (l.length - (i + 1))
  unfold selPass
  generalize (List.range' (i + 1) (l.length - (i + 1))).foldl (selScan l) i = m at *
  have hm : m < l.length := by omega
  have hmin : ∀ p, i ≤ p → p < l.length → l.getD m 0 ≤ l.getD p 0 :=
    fun p hp1 hp2 => h3 p hp1 (by omega)
  by_cases e : m = i
  · subst e
    rw [if_neg (not_not.mpr rfl)]
    exact ⟨rfl, List.Perm.refl _, fun _ _ => rfl, fun p hp1 hp2 => ⟨p, hp1, hp2, rfl⟩, hmin⟩
  · rw [if_pos e]
    refine ⟨length_swap _ _ _, perm_swap l i m hi hm, ?_, ?_, ?_⟩
    · intro p hp
      rw [getD_swap l i m p hi hm, if_neg (by omega), if_neg (by omega)]
    · intro p hp1 hp2
      rw [getD_swap l i m p hi hm]
      by_cases e1 : p = m
      · rw [if_pos e1]; exact ⟨i, le_refl _, hi, rfl⟩
      · rw [if_neg e1]
        by_cases e2 : p = i
        · rw [if_pos e2]; exact ⟨m, h1, hm, rfl⟩
        · rw [if_neg e2]; exact ⟨p, hp1, hp2, rfl⟩
    · intro p hp1 hp2
      rw [getD_swap l i m p hi hm, getD_swap l i m i hi hm]
      rw [if_neg (fun h => e h.symm), if_pos rfl]
      by_cases e1 : p = m
      · rw [if_pos e1]; exact hmin i (le_refl _) hi
      · rw [if_neg e1]
        by_cases e2 : p = i
        · rw [if_pos e2]
        · rw [if_neg e2]; exact hmin p hp1 hp2

/-- Invariant of the outer loop after `i` passes: the first `i` positions hold their
final values. -/
theorem selPass_fold (l : List Int) (i : Nat) (hi : i ≤ l.length) :
    ((List.range i).foldl selPass l).length = l.length ∧
    ((List.range i).foldl selPass l).Perm l ∧
    (∀ p q, p ≤ q → q < l.length → p < i →
      ((List.range i).foldl selPass l).getD p 0 ≤ ((List.range i).foldl selPass l).getD q 0) := by
  induction i with
  | zero =>
    refine ⟨rfl, List.Perm.refl _, ?_⟩
    intro p q _ _ h; omega
  | succ i ih =>
    obtain ⟨hlen, hperm, hinv⟩ := ih (by omega)
    rw [foldl_range_succ]
    generalize (List.range i).foldl selPass l = m at *
    obtain ⟨slen, sperm, slo, sex, smin⟩ := selPass_spec m i (by omega)
    refine ⟨by omega, sperm.trans hperm, ?_⟩
    intro p q hpq hq hp
    by_cases h1 : p < i
    · rw [slo p h1]
      by_cases h2 : q < i
      · rw [slo q h2]; exact hinv p q hpq hq h1
      · obtain ⟨r, hr1, hr2, e⟩ := sex q (by omega) (by omega)
        rw [e]; exact hinv p r (by omega) (by omega) h1
    · have : p = i := by omega
      subst this
      exact smin q hpq (by omega)

/-- C2: for every integer array, the uncancelled run of `selectionSort` reaches its end
and the array it ends with is sorted ascending and is a permutation of the input. -/
theorem selectionSort_sorted_perm (a : List Int) :
    (selectionSort none a).stopped = false ∧
    (selectionSort none a).arr.Sorted (· ≤ ·) ∧
    (selectionSort none a).arr.Perm a := by
  obtain ⟨h1, h2⟩ := selectionSort_none_arr a
  obtain ⟨hlen, hperm, hinv⟩ := selPass_fold a a.length (le_refl _)
  rw [h2]
  refine ⟨h1, sorted_of_sortedIdx _ ?_, hperm⟩
  intro p q hpq hq
  rw [hlen] at hq
  exact hinv p q hpq hq (by omega)

end SortingVisualizer
namespace SortingVisualizer

/-! ## Insertion sort: uncancelled runs -/

theorem insertionWhile_none (key : Int) (p : Nat) (s : Run Int) (hs : s.stopped = false) :
    (insertionWhile none key p s).1.stopped = false ∧
    ((insertionWhile none key p s).1.arr.set (insertionWhile none key p s).2 key) =
      insAt key p s.arr := by
  induction p generalizing s with
  | zero => exact ⟨hs, rfl⟩
  | succ p ih =>
    unfold insertionWhile insAt
    by_cases h : s.arr.getD p 0 > key
    · simp only [h, if_true, stopRequested, Bool.false_eq_true, if_false]
      exact ih _ hs
    · simp only [h, if_false]
      exact ⟨hs, trivial⟩

theorem insertionOuter_none (s : Run Int) (i : Nat) (hs : s.stopped = false) :
    (insertionOuter none s i).stopped = false ∧
    (insertionOuter none s i).arr = insPass s.arr i := by
  unfold insertionOuter insPass
  obtain ⟨h1, h2⟩ := insertionWhile_none (s.arr.getD i 0) i ((s.emit (.announce i)).sleep) hs
  simp only [hs, Bool.false_eq_true, if_false]
  generalize insertionWhile none (s.arr.getD i 0) i ((s.emit (.announce i)).sleep) = r at *
  simp only [h1, Bool.false_eq_true, if_false, Run.emit, Run.sleep]
  exact ⟨trivial, h2⟩

theorem insertionOuter_fold_none (s : Run Int) (b n : Nat) (hs : s.stopped = false) :
    ((List.range' b n).foldl (insertionOuter none) s).stopped = false ∧
    ((List.range' b n).foldl (insertionOuter none) s).arr =
      (List.range' b n).foldl insPass s.arr := by
  induction n with
  | zero => simp [hs]
  | succ k ih =>
    rw [foldl_range'_succ, foldl_range'_succ]
    obtain ⟨h1, h2⟩ := ih
    obtain ⟨h3, h4⟩ := insertionOuter_none _ (b + k) h1
    refine ⟨h3, ?_⟩
    rw [h4, h2]

theorem insertionSort_none_arr (a : List Int) :
    (insertionSort none a).stopped = false ∧
    (insertionSort none a).arr = (List.range' 1 (a.length - 1)).foldl insPass a := by
  unfold insertionSort
  obtain ⟨h1, h2⟩ := insertionOuter_fold_none (Run.start a) 1 (a.length - 1) rfl
  simp only [h1, Run.emit, Bool.false_eq_true, if_false]
  exact ⟨trivial, h2⟩

theorem perm_set_self (l : List Int) (i : Nat) (hi : i < l.length) :
    (l.set i (l.getD i 0)).Perm l := by
  rw [List.perm_iff_count]
  intro b
  have := count_set_int l i (l.getD i 0) b hi
  omega

theorem set_set_eq_swap (l : List Int) (p : Nat) (key : Int) (hp : p + 1 < l.length) :
    (l.set (p + 1) (l.getD p 0)).set p key = swap (l.set (p + 1) key) p (p + 1) := by
  unfold swap
  have hp0 : p < l.length := by omega
  rw [getD_set_int l (p + 1) (p + 1) key hp, getD_set_int l (p + 1) p key hp,
    if_pos rfl, if_neg (by omega)]
  rw [List.set_comm key key l (by omega : p + 1 ≠ p), List.set_set]
  rw [List.set_comm (l.getD p 0) key l (by omega : p + 1 ≠ p)]

/-- Effect of the shifting loop entered with the hole at `p`: positions `0 .. i` end up
sorted, positions above `i` are untouched, and no value is lost. -/
theorem insAt_spec (key : Int) (i p : Nat) (l : List Int) (hp : p ≤ i) (hi : i < l.length)
    (h1 : ∀ a b, a ≤ b → b < p → l.getD a 0 ≤ l.getD b 0)
    (h2 : ∀ a b, a ≤ b → p < a → b ≤ i → l.getD a 0 ≤ l.getD b 0)
    (h3 : ∀ a b, a < p → p < b → b ≤ i → l.getD a 0 ≤ l.getD b 0)
    (h4 : ∀ b, p < b → b ≤ i → key < l.getD b 0) :
    (insAt key p l).length = l.length ∧
    (insAt key p l).Perm (l.set p key) ∧
    (∀ q, i < q → (insAt key p l).getD q 0 = l.getD q 0) ∧
    (∀ a b, a ≤ b → b ≤ i → (insAt key p l).getD a 0 ≤ (insAt key p l).getD b 0) := by
  induction p generalizing l with
  | zero =>
    unfold insAt
    have h0 : 0 < l.length := by omega
    refine ⟨by simp, List.Perm.refl _, ?_, ?_⟩
    · intro q hq
      rw [getD_set_int _ _ _ _ h0, if_neg (by omega)]
    · intro a b hab hb
      rw [getD_set_int _ _ _ _ h0, getD_set_int _ _ _ _ h0]
      by_cases ea : a = 0
      · rw [if_pos ea]
        by_cases eb : b = 0
        · rw [if_pos eb]
        · rw [if_neg eb]; exact le_of_lt (h4 b (by omega) hb)
      · rw [if_neg ea, if_neg (by omega)]
        exact h2 a b hab (by omega) hb
  | succ p ih =>
    have hp1 : p + 1 < l.length := by omega
    have hp0 : p < l.length := by omega
    unfold insAt
    by_cases h : l.getD p 0 > key
    · rw [if_pos h]
      have G : ∀ q, (l.set (p + 1) (l.getD p 0)).getD q 0 =
          if q = p + 1 then l.getD p 0 else l.getD q 0 :=
        fun q => getD_set_int _ _ _ _ hp1
      obtain ⟨r1, r2, r3, r4⟩ := ih (l.set (p + 1) (l.getD p 0)) (by omega) (by simpa using hi)
        (by
          intro a b hab hb
          rw [G, G, if_neg (by omega), if_neg (by omega)]
          exact h1 a b hab (by omega))
        (by
          intro a b hab ha hb
          rw [G, G]
          by_cases ea : a = p + 1
          · rw [if_pos ea]
            by_cases eb : b = p + 1
            · rw [if_pos eb]
            · rw [if_neg eb]; exact h3 p b (by omega) (by omega) hb
          · rw [if_neg ea, if_neg (by omega)]
            exact h2 a b hab (by omega) hb)
        (by
          intro a b ha hb hbi
          rw [G, G, if_neg (by omega)]
          by_cases eb : b = p + 1
          · rw [if_pos eb]; exact h1 a p (by omega) (by omega)
          · rw [if_neg eb]; exact h3 a b (by omega) (by omega) hbi)
        (by
          intro b hb hbi
          rw [G]
          by_cases eb : b = p + 1
          · rw [if_pos eb]; exact h
          · rw [if_neg eb]; exact h4 b (by omega) hbi)
      refine ⟨by simpa using r1, ?_, ?_, r4⟩
      · refine r2.trans ?_
        rw [set_set_eq_swap l p key hp1]
        exact perm_swap _ _ _ (by simpa using hp0) (by simpa using hp1)
      · intro q hq
        rw [r3 q hq, G, if_neg (by omega)]
    · rw [if_neg h]
      have G : ∀ q, (l.set (p + 1) key).getD q 0 = if q = p + 1 then key else l.getD q 0 :=
        fun q => getD_set_int _ _ _ _ hp1
      refine ⟨by simp, List.Perm.refl _, ?_, ?_⟩
      · intro q hq
        rw [G, if_neg (by omega)]
      · intro a b hab hb
        rw [G, G]
        by_cases ea : a = p + 1
        · rw [if_pos ea]
          by_cases eb : b = p + 1
          · rw [if_pos eb]
          · rw [if_neg eb]; exact le_of_lt (h4 b (by omega) hb)
        · rw [if_neg ea]
          by_cases eb : b = p + 1
          · rw [if_pos eb]
            exact le_trans (h1 a p (by omega) (by omega)) (not_lt.mp h)
          · rw [if_neg eb]
            by_cases hbp : b < p + 1
            · exact h1 a b hab hbp
            · by_cases hap : a < p + 1
              · exact h3 a b hap (by omega) hb
              · exact h2 a b hab (by omega) hb

theorem insPass_spec (l : List Int) (i : Nat) (hi : i < l.length)
    (h1 : ∀ a b, a ≤ b → b < i → l.getD a 0 ≤ l.getD b 0) :
    (insPass l i).length = l.length ∧ (insPass l i).Perm l ∧
    (∀ a b, a ≤ b → b ≤ i → (insPass l i).getD a 0 ≤ (insPass l i).getD b 0) := by
  obtain ⟨r1, r2, _, r4⟩ := insAt_spec (l.getD i 0) i i l (le_refl _) hi h1
    (by intro a b _ h3 h4; omega) (by intro a b _ h3 h4; omega) (by intro b h3 h4; omega)
  exact ⟨r1, r2.trans (perm_set_self l i hi), r4⟩

/-- Invariant of the outer loop after the passes `i = 1 .. k`: positions `0 .. k` are
sorted. -/
theorem insPass_fold (l : List Int) (k : Nat) (hk : k + 1 ≤ l.length) :
    ((List.range' 1 k).foldl insPass l).length = l.length ∧
    ((List.range' 1 k).foldl insPass l).Perm l ∧
    (∀ a b, a ≤ b → b ≤ k →
      ((List.range' 1 k).foldl insPass l).getD a 0 ≤
        ((List.range' 1 k).foldl insPass l).getD b 0) := by
  induction k with
  | zero =>
    refine ⟨rfl, List.Perm.refl _, ?_⟩
    intro a b hab hb
    have e1 : b = 0 := by omega
    have e2 : a = 0 := by omega
    subst e1; subst e2; exact le_refl _
  | succ k ih =>
    obtain ⟨hlen, hperm, hinv⟩ := ih (by omega)
    rw [foldl_range'_succ]
    generalize (List.range' 1 k).foldl insPass l = m at *
    obtain ⟨r1, r2, r3⟩ := insPass_spec m (1 + k) (by omega)
      (fun a b hab hb => hinv a b hab (by omega))
    refine ⟨by omega, r2.trans hperm, ?_⟩
    intro a b hab hb
    exact r3 a b hab (by omega)

/-- C3: for every integer array, the uncancelled run of `insertionSort` reaches its end
and the array it ends with is sorted ascending and is a permutation of the input. -/
theorem insertionSort_sorted_perm (a : List Int) :
    (insertionSort none a).stopped = false ∧
    (insertionSort none a).arr.Sorted (· ≤ ·) ∧
    (insertionSort none a).arr.Perm a := by
  obtain ⟨h1, h2⟩ := insertionSort_none_arr a
  rw [h2]
  refine ⟨h1, ?_⟩
  cases a with
  | nil => exact ⟨List.sorted_nil, List.Perm.refl _⟩
  | cons x xs =>
    obtain ⟨hlen, hperm, hinv⟩ := insPass_fold (x :: xs) ((x :: xs).length - 1) (by simp)
    refine ⟨sorted_of_sortedIdx _ ?_, hperm⟩
    intro p q hpq hq
    rw [hlen] at hq
    exact hinv p q hpq (by omega)

end SortingVisualizer
namespace SortingVisualizer

/-! ## Merge sort: uncancelled runs -/

section MergeLists

variable {β : Type} (val : β → Int)

theorem lmerge_nil_left (l : List β) : lmerge val [] l = l := by
  simp [lmerge]

theorem lmerge_nil_right (l : List β) : lmerge val l [] = l := by
  cases l <;> simp [lmerge]

theorem lmerge_perm (A B : List β) : (lmerge val A B).Perm (A ++ B) := by
  induction A generalizing B with
  | nil => rw [lmerge_nil_left]; exact List.Perm.refl _
  | cons a as iha =>
    induction B with
    | nil => rw [lmerge_nil_right]; simp
    | cons b bs ihb =>
      unfold lmerge
      split
      · exact List.Perm.cons a (iha (b :: bs))
      · refine (List.Perm.cons b ihb).trans ?_
        exact (@List.perm_middle β b (a :: as) bs).symm

theorem lmerge_length (A B : List β) : (lmerge val A B).length = A.length + B.length := by
  rw [(lmerge_perm val A B).length_eq, List.length_append]

theorem lmerge_sorted (A B : List β)
    (hA : A.Sorted (fun a b => val a ≤ val b)) (hB : B.Sorted (fun a b => val a ≤ val b)) :
    (lmerge val A B).Sorted (fun a b => val a ≤ val b) := by
  induction A generalizing B with
  | nil => rw [lmerge_nil_left]; exact hB
  | cons a as iha =>
    induction B with
    | nil => rw [lmerge_nil_right]; exact hA
    | cons b bs ihb =>
      unfold lmerge
      have hA' := List.sorted_cons.mp hA
      have hB' := List.sorted_cons.mp hB
      split
      · rename_i hab
        refine List.sorted_cons.mpr ⟨?_, iha (b :: bs) hA'.2 hB⟩
        intro x hx
        have hx' := (lmerge_perm val as (b :: bs)).subset hx
        rcases List.mem_append.mp hx' with h | h
        · exact hA'.1 x h
        · rcases List.mem_cons.mp h with h | h
          · rw [h]; exact hab
          · exact le_trans hab (hB'.1 x h)
      · rename_i hab
        have hba : val b ≤ val a := le_of_lt (not_le.mp hab)
        refine List.sorted_cons.mpr ⟨?_, ihb hB'.2⟩
        intro x hx
        have hx' := (lmerge_perm val (a :: as) bs).subset hx
        rcases List.mem_append.mp hx' with h | h
        · rcases List.mem_cons.mp h with h | h
          · rw [h]; exact hba
          · exact le_trans hba (hA'.1 x h)
        · exact hB'.1 x h

/-- Taking the left element on ties keeps equal values in their order: the elements of
a given value in the merge are those of the left list followed by those of the right
list. -/
theorem lmerge_filter (A B : List β) (hA : A.Sorted (fun a b => val a ≤ val b)) (v : Int) :
    (lmerge val A B).filter (fun x => decide (val x = v)) =
      A.filter (fun x => decide (val x = v)) ++ B.filter (fun x => decide (val x = v)) := by
  induction A generalizing B with
  | nil => rw [lmerge_nil_left]; rfl
  | cons a as iha =>
    induction B with
    | nil => rw [lmerge_nil_right]; simp
    | cons b bs ihb =>
      unfold lmerge
      have hA' := List.sorted_cons.mp hA
      split
      · rw [List.filter_cons, iha (b :: bs) hA'.2, List.filter_cons (x := a)]
        by_cases ha : val a = v <;> simp [ha]
      · rename_i hab
        rw [List.filter_cons, ihb]
        by_cases hb : val b = v
        · have hnone : (a :: as).filter (fun x => decide (val x = v)) = [] := by
            rw [List.filter_eq_nil_iff]
            intro x hx
            have hxa : val a ≤ val x := by
              rcases List.mem_cons.mp hx with h | h
              · rw [h]
              · exact hA'.1 x h
            simp only [decide_eq_true_eq]
            omega
          rw [hnone]
          simp [hb]
        · simp [hb]

end MergeLists

section MergeLoops

variable {β : Type} (val : β → Int) (d : β)

/-- Array effect of the write-back loop. -/
theorem mergeWrite_fold (left : Nat) (T : List β) (s : Run β) (b n : Nat) :
    ((List.range' b n).foldl (mergeWrite d left T) s).stopped = s.stopped ∧
    ((List.range' b n).foldl (mergeWrite d left T) s).arr =
      (List.range' b n).foldl (fun a k => a.set k (T.getD (k - left) d)) s.arr := by
  induction n with
  | zero => exact ⟨rfl, rfl⟩
  | succ n ih =>
    rw [foldl_range'_succ, foldl_range'_succ]
    obtain ⟨h1, h2⟩ := ih
    refine ⟨?_, ?_⟩
    · rw [← h1]; rfl
    · rw [← h2]; rfl

theorem writeBack_append (left : Nat) (temp : List β) :
    ∀ (done seg pre post : List β), pre.length = left → seg.length = temp.length →
      (List.range' (left + done.length) temp.length).foldl
        (fun a k => a.set k ((done ++ temp).getD (k - left) d)) (pre ++ done ++ seg ++ post) =
      pre ++ done ++ temp ++ post := by
  induction temp with
  | nil =>
    intro done seg pre post _ hseg
    have : seg = [] := List.length_eq_zero.mp hseg
    subst this
    simp
  | cons x temp ih =>
    intro done seg pre post hpre hseg
    cases seg with
    | nil => simp at hseg
    | cons c seg =>
      rw [List.length_cons, List.range'_succ, List.foldl_cons]
      have hidx : left + done.length = (pre ++ done).length := by simp [hpre]
      have hset : (pre ++ done ++ c :: seg ++ post).set (left + done.length)
          ((done ++ x :: temp).getD (left + done.length - left) d) =
          pre ++ (done ++ [x]) ++ seg ++ post := by
        have e1 : left + done.length - left = done.length := by omega
        rw [e1]
        have e2 : (done ++ x :: temp).getD done.length d = x := by
          rw [List.getD_eq_getElem?_getD, List.getElem?_append_right (le_refl _), Nat.sub_self]
          simp
        rw [e2, hidx]
        have e3 : pre ++ done ++ c :: seg ++ post = (pre ++ done) ++ c :: (seg ++ post) := by
          simp
        rw [e3, List.set_append_right _ _ (le_refl _)]
        simp
      rw [hset]
      have hlen : left + done.length + 1 = left + (done ++ [x]).length := by simp; omega
      have hT : done ++ x :: temp = (done ++ [x]) ++ temp := by simp
      rw [hlen, hT]
      rw [ih (done ++ [x]) seg pre post hpre (by simpa using hseg)]
      simp

theorem writeBack_eq (left right : Nat) (temp seg pre post : List β)
    (hpre : pre.length = left) (hseg : seg.length = temp.length)
    (hr : right + 1 - left = temp.length) :
    (List.range' left (right + 1 - left)).foldl
        (fun a k => a.set k (temp.getD (k - left) d)) (pre ++ seg ++ post) =
      pre ++ temp ++ post := by
  have := writeBack_append d left temp [] seg pre post hpre hseg
  simp only [List.length_nil, Nat.add_zero, List.append_nil, List.nil_append] at this
  rw [hr]; exact this

/-- The third loop copies what is left of the right run, then the write-back loop
runs. -/
theorem mergeRight_none (left right : Nat) (l : List β) (B2 : List β) :
    ∀ (fuel : Nat) (s : Run β) (j : Nat) (temp : List β), s.arr = l →
      j + B2.length = right + 1 → B2.length < fuel →
      (∀ k, k < B2.length → l.getD (j + k) d = B2.getD k d) →
      ∃ s2, mergeRight none d left right fuel s j temp = some s2 ∧
        s2.stopped = s.stopped ∧
        s2.arr = (List.range' left (right + 1 - left)).foldl
          (fun a k => a.set k ((temp ++ B2).getD (k - left) d)) l := by
  induction B2 with
  | nil =>
    intro fuel s j temp hs hj hf _
    cases fuel with
    | zero => simp at hf
    | succ fuel =>
      unfold mergeRight
      have hj2 : ¬ j ≤ right := by simp at hj; omega
      rw [if_neg hj2]
      obtain ⟨h1, h2⟩ := mergeWrite_fold d left temp s left (right + 1 - left)
      exact ⟨_, rfl, h1, by rw [h2, hs, List.append_nil]⟩
  | cons b B2 ih =>
    intro fuel s j temp hs hj hf hB
    cases fuel with
    | zero => simp at hf
    | succ fuel =>
      unfold mergeRight
      have hj2 : j ≤ right := by simp at hj; omega
      rw [if_pos hj2]
      simp only [stopRequested, Bool.false_eq_true, if_false]
      have hb : l.getD j d = b := by
        have := hB 0 (by simp)
        simpa using this
      obtain ⟨s2, e1, e2, e3⟩ := ih fuel ((s.emit (.announce j)).sleep.sleep) (j + 1)
        (temp ++ [b]) hs (by simp at hj; omega) (by simp at hf; omega)
        (by
          intro k hk
          have := hB (k + 1) (by simp; omega)
          rw [show j + 1 + k = j + (k + 1) by omega, this]
          simp)
      refine ⟨s2, ?_, e2, ?_⟩
      · rw [← e1]
        show mergeRight none d left right fuel _ (j + 1) (temp ++ [s.arr.getD j d]) = _
        rw [hs, hb]
      · rw [e3]; simp

/-- The second loop copies what is left of the left run. -/
theorem mergeLeft_none (left mid right : Nat) (l : List β) (A2 B2 : List β) :
    ∀ (fuel : Nat) (s : Run β) (i j : Nat) (temp : List β), s.arr = l →
      i + A2.length = mid + 1 → j + B2.length = right + 1 → A2.length + B2.length < fuel →
      (∀ k, k < A2.length → l.getD (i + k) d = A2.getD k d) →
      (∀ k, k < B2.length → l.getD (j + k) d = B2.getD k d) →
      ∃ s2, mergeLeft none d left mid right fuel s i j temp = some s2 ∧
        s2.stopped = s.stopped ∧
        s2.arr = (List.range' left (right + 1 - left)).foldl
          (fun a k => a.set k ((temp ++ (A2 ++ B2)).getD (k - left) d)) l := by
  induction A2 with
  | nil =>
    intro fuel s i j temp hs hi hj hf _ hB
    cases fuel with
    | zero => simp at hf
    | succ fuel =>
      unfold mergeLeft
      have hi2 : ¬ i ≤ mid := by simp at hi; omega
      rw [if_neg hi2]
      exact mergeRight_none d left right l B2 (fuel + 1) s j temp hs hj (by simpa using hf) hB
  | cons a A2 ih =>
    intro fuel s i j temp hs hi hj hf hA hB
    cases fuel with
    | zero => simp at hf
    | succ fuel =>
      unfold mergeLeft
      have hi2 : i ≤ mid := by simp at hi; omega
      rw [if_pos hi2]
      simp only [stopRequested, Bool.false_eq_true, if_false]
      have ha : l.getD i d = a := by
        have := hA 0 (by simp)
        simpa using this
      obtain ⟨s2, e1, e2, e3⟩ := ih fuel ((s.emit (.announce i)).sleep.sleep) (i + 1) j
        (temp ++ [a]) hs (by simp at hi; omega) hj (by simp at hf; omega)
        (by
          intro k hk
          have := hA (k + 1) (by simp; omega)
          rw [show i + 1 + k = i + (k + 1) by omega, this]
          simp)
        hB
      refine ⟨s2, ?_, e2, ?_⟩
      · rw [← e1]
        show mergeLeft none d left mid right fuel _ (i + 1) j (temp ++ [s.arr.getD i d]) = _
        rw [hs, ha]
      · rw [e3]; simp

/-- The first loop merges the two runs, taking the left element on ties. -/
theorem mergeBoth_none (left mid right : Nat) (l : List β) :
    ∀ (fuel : Nat) (A2 B2 : List β) (s : Run β) (i j : Nat) (temp : List β), s.arr = l →
      i + A2.length = mid + 1 → j + B2.length = right + 1 → A2.length + B2.length < fuel →
      (∀ k, k < A2.length → l.getD (i + k) d = A2.getD k d) →
      (∀ k, k < B2.length → l.getD (j + k) d = B2.getD k d) →
      ∃ s2, mergeBoth none val d left mid right fuel s i j temp = some s2 ∧
        s2.stopped = s.stopped ∧
        s2.arr = (List.range' left (right + 1 - left)).foldl
          (fun a k => a.set k ((temp ++ lmerge val A2 B2).getD (k - left) d)) l := by
  intro fuel
  induction fuel with
  | zero => intro A2 B2 s i j temp _ _ _ hf; simp at hf
  | succ fuel ih =>
    intro A2 B2 s i j temp hs hi hj hf hA hB
    unfold mergeBoth
    cases A2 with
    | nil =>
      have hi2 : ¬ (i ≤ mid ∧ j ≤ right) := by simp at hi; omega
      rw [if_neg hi2]
      have := mergeLeft_none d left mid right l [] B2 (fuel + 1) s i j temp hs hi hj hf hA hB
      simpa [lmerge] using this
    | cons a A2 =>
      cases B2 with
      | nil =>
        have hj2 : ¬ (i ≤ mid ∧ j ≤ right) := by simp at hj; omega
        rw [if_neg hj2]
        have := mergeLeft_none d left mid right l (a :: A2) [] (fuel + 1) s i j temp hs hi hj
          hf hA hB
        simpa [lmerge] using this
      | cons b B2 =>
        have hij : i ≤ mid ∧ j ≤ right := by simp at hi hj; omega
        rw [if_pos hij]
        simp only [stopRequested, Bool.false_eq_true, if_false]
        have ha : l.getD i d = a := by
          have := hA 0 (by simp)
          simpa using this
        have hb : l.getD j d = b := by
          have := hB 0 (by simp)
          simpa using this
        have hsa : ((s.emit (.compare i j)).sleep).arr = l := hs
        simp only [hsa, ha, hb]
        by_cases hab : val a ≤ val b
        · rw [if_pos hab]
          obtain ⟨s2, e1, e2, e3⟩ := ih A2 (b :: B2) ((s.emit (.compare i j)).sleep.sleep)
            (i + 1) j (temp ++ [a]) hs (by simp at hi; omega) hj (by simp at hf ⊢; omega)
            (by
              intro k hk
              have := hA (k + 1) (by simp; omega)
              rw [show i + 1 + k = i + (k + 1) by omega, this]
              simp)
            hB
          refine ⟨s2, e1, e2, ?_⟩
          rw [e3]
          conv_rhs => unfold lmerge
          rw [if_pos hab]; simp
        · rw [if_neg hab]
          obtain ⟨s2, e1, e2, e3⟩ := ih (a :: A2) B2 ((s.emit (.compare i j)).sleep.sleep)
            i (j + 1) (temp ++ [b]) hs hi (by simp at hj; omega) (by simp at hf ⊢; omega)
            hA
            (by
              intro k hk
              have := hB (k + 1) (by simp; omega)
              rw [show j + 1 + k = j + (k + 1) by omega, this]
              simp)
          refine ⟨s2, e1, e2, ?_⟩
          rw [e3]
          conv_rhs => unfold lmerge
          rw [if_neg hab]; simp

theorem getD_append_mid (pre A post : List β) (k : Nat) (hk : k < A.length) :
    (pre ++ A ++ post).getD (pre.length + k) d = A.getD k d := by
  simp only [List.getD_eq_getElem?_getD]
  rw [List.append_assoc, List.getElem?_append_right (by omega)]
  rw [show pre.length + k - pre.length = k by omega, List.getElem?_append_left hk]

/-- An uncancelled `merge(left, mid, right)` replaces the two adjacent runs by their
merge and leaves the rest of the array alone. -/
theorem merge_none (s : Run β) (pre A B post : List β) (left mid right : Nat)
    (hs : s.arr = pre ++ A ++ B ++ post) (hl : left = pre.length)
    (hm : mid + 1 = pre.length + A.length) (hr : right + 1 = pre.length + A.length + B.length) :
    ∃ s2, merge none val d s left mid right = some s2 ∧ s2.stopped = s.stopped ∧
      s2.arr = pre ++ lmerge val A B ++ post := by
  unfold merge
  obtain ⟨s2, e1, e2, e3⟩ := mergeBoth_none val d left mid right (pre ++ A ++ B ++ post)
    (right + 2 - left) A B s left (mid + 1) [] hs (by omega) (by omega) (by omega)
    (by
      intro k hk
      rw [hl, List.append_assoc (pre ++ A)]
      exact getD_append_mid d pre A (B ++ post) k hk)
    (by
      intro k hk
      have := getD_append_mid d (pre ++ A) B post k hk
      rw [← this, hm, List.length_append])
  refine ⟨s2, e1, e2, ?_⟩
  rw [e3, List.nil_append]
  have := writeBack_eq d left right (lmerge val A B) (A ++ B) pre post hl.symm
    (by rw [lmerge_length, List.length_append])
    (by rw [lmerge_length]; omega)
  rw [← this]
  simp

end MergeLoops

section MergeSortRuns

variable {β : Type} (val : β → Int) (d : β)

theorem stablySorted_single (x : β) : StablySorted val [x] [x] :=
  ⟨List.sorted_singleton x, List.Perm.refl _, fun _ => rfl⟩

theorem stablySorted_merge (A B A2 B2 : List β) (hA : StablySorted val A A2)
    (hB : StablySorted val B B2) : StablySorted val (A ++ B) (lmerge val A2 B2) := by
  obtain ⟨a1, a2, a3⟩ := hA
  obtain ⟨b1, b2, b3⟩ := hB
  refine ⟨lmerge_sorted val A2 B2 a1 b1, (lmerge_perm val A2 B2).trans (a2.append b2), ?_⟩
  intro v
  rw [lmerge_filter val A2 B2 a1 v, a3 v, b3 v, List.filter_append]

/-- An uncancelled `mergeSortHelper(left, right)` returns, having replaced the segment
`left .. right` by its stably sorted version and left the rest of the array alone. -/
theorem mergeSortHelper_none :
    ∀ (fuel : Nat) (s : Run β) (pre seg post : List β) (left right : Nat),
      s.arr = pre ++ seg ++ post → left = pre.length →
      right + 1 = pre.length + seg.length → right - left < fuel →
      ∃ s2 out, mergeSortHelper none val d fuel s left right = some s2 ∧
        s2.stopped = s.stopped ∧ s2.arr = pre ++ out ++ post ∧ StablySorted val seg out := by
  intro fuel
  induction fuel with
  | zero => intro s pre seg post left right _ _ _ hf; simp at hf
  | succ fuel ih =>
    intro s pre seg post left right hs hl hr hf
    unfold mergeSortHelper
    by_cases h : left ≥ right
    · rw [if_pos h]
      have h1 : seg.length ≤ 1 := by omega
      refine ⟨s, seg, rfl, rfl, hs, ?_⟩
      cases seg with
      | nil => exact ⟨List.sorted_nil, List.Perm.refl _, fun _ => rfl⟩
      | cons x rest =>
        have : rest = [] := by
          apply List.length_eq_zero.mp
          have := h1
          rw [List.length_cons] at this
          omega
        subst this
        exact stablySorted_single val x
    · rw [if_neg h]
      have hmid1 : left ≤ (left + right) / 2 := by omega
      have hmid2 : (left + right) / 2 < right := by omega
      generalize (left + right) / 2 = mid at hmid1 hmid2
      have hsplit : seg = seg.take (mid + 1 - left) ++ seg.drop (mid + 1 - left) :=
        (List.take_append_drop _ _).symm
      have hA : (seg.take (mid + 1 - left)).length = mid + 1 - left := by
        rw [List.length_take]; omega
      have hB : (seg.drop (mid + 1 - left)).length = right - mid := by
        rw [List.length_drop]; omega
      generalize seg.take (mid + 1 - left) = A at hsplit hA
      generalize seg.drop (mid + 1 - left) = B at hsplit hB
      subst hsplit
      obtain ⟨s1, A2, e1, st1, ar1, ss1⟩ := ih ((s.emit (.announce mid)).sleep) pre A (B ++ post)
        left mid (by show s.arr = _; rw [hs]; simp) hl (by omega) (by omega)
      have hA2 : A2.length = A.length := ss1.2.1.length_eq
      obtain ⟨s2, B2, e2, st2, ar2, ss2⟩ := ih s1 (pre ++ A2) B post (mid + 1) right
        (by rw [ar1]; simp) (by rw [List.length_append]; omega)
        (by rw [List.length_append]; omega) (by omega)
      have hB2 : B2.length = B.length := ss2.2.1.length_eq
      obtain ⟨s3, e3, st3, ar3⟩ := merge_none val d s2 pre A2 B2 post left mid right ar2 hl
        (by omega) (by omega)
      refine ⟨s3, lmerge val A2 B2, ?_, ?_, ar3, stablySorted_merge val A B A2 B2 ss1 ss2⟩
      · simp only [e1, e2, e3]
      · rw [st3, st2, st1]; rfl

/-- An uncancelled `mergeSort` run returns, no cancellation return is taken, and the
array it ends with is the stably sorted version of the input. -/
theorem mergeSort_none (a : List β) :
    ∃ r, mergeSort none val d a = some r ∧ r.stopped = false ∧ StablySorted val a r.arr := by
  unfold mergeSort
  cases a with
  | nil =>
    refine ⟨(Run.start []).emit .done, rfl, rfl, ?_⟩
    exact ⟨List.sorted_nil, List.Perm.refl _, fun _ => rfl⟩
  | cons x xs =>
    obtain ⟨s2, out, e, st, ar, ss⟩ := mergeSortHelper_none val d ((x :: xs).length + 1)
      (Run.start (x :: xs)) [] (x :: xs) [] 0 ((x :: xs).length - 1) (by simp [Run.start]) rfl
      (by simp) (by simp; omega)
    refine ⟨s2.emit .done, by rw [e], st, ?_⟩
    have : (s2.emit .done).arr = out := by
      show s2.arr = out
      rw [ar]; simp
    rw [this]; exact ss

end MergeSortRuns

/-- C4: for every integer array, the uncancelled run of `mergeSort` (the helper called
on `0 .. n-1`, `merge` writing back into the shared buffer) returns, and the array it
ends with is sorted ascending and is a permutation of the input. -/
theorem mergeSort_sorted_perm (a : List Int) :
    ∃ r, mergeSort none id 0 a = some r ∧ r.stopped = false ∧
      r.arr.Sorted (· ≤ ·) ∧ r.arr.Perm a := by
  obtain ⟨r, e, st, ss⟩ := mergeSort_none id 0 a
  exact ⟨r, e, st, ss.1, ss.2.1⟩

/-- C6: merge sort is stable.  For every array of tagged values (elements of any type
`β`, compared only through their value `val`), the uncancelled run returns and, for
every value `v`, the elements of value `v` occur in the output in exactly the order in
which they occur in the input. -/
theorem mergeSort_stable {β : Type} (val : β → Int) (d : β) (a : List β) :
    ∃ r, mergeSort none val d a = some r ∧
      ∀ v : Int, r.arr.filter (fun x => decide (val x = v)) =
        a.filter (fun x => decide (val x = v)) := by
  obtain ⟨r, e, _, ss⟩ := mergeSort_none val d a
  exact ⟨r, e, ss.2.2⟩

end SortingVisualizer
namespace SortingVisualizer

/-! ## Heap sort: uncancelled runs -/

theorem heapify_none (fuel : Nat) :
    ∀ (s : Run Int) (i hs : Nat),
      (heapify none fuel s i hs).map (fun r => r.arr) = siftDown fuel s.arr i hs ∧
      ∀ r, heapify none fuel s i hs = some r → r.stopped = s.stopped := by
  induction fuel with
  | zero => intro s i hs; exact ⟨rfl, fun r h => by simp [heapify] at h⟩
  | succ fuel ih =>
    intro s i hs
    unfold heapify siftDown
    simp only [stopRequested, Bool.false_eq_true, if_false]
    generalize hr1 : (if 2 * i + 1 < hs then
        if ((s.emit (.compare (2 * i + 1) i)).sleep).arr.getD (2 * i + 1) 0 >
            ((s.emit (.compare (2 * i + 1) i)).sleep).arr.getD i 0 then
          (((s.emit (.compare (2 * i + 1) i)).sleep.emit (.announce (2 * i + 1))).sleep,
            2 * i + 1)
        else ((s.emit (.compare (2 * i + 1) i)).sleep, i)
      else (s, i) : Run Int × Nat) = r1
    have h1 : r1.1.arr = s.arr ∧ r1.1.stopped = s.stopped ∧
        r1.2 = (if 2 * i + 1 < hs ∧ s.arr.getD (2 * i + 1) 0 > s.arr.getD i 0
          then 2 * i + 1 else i) := by
      rw [← hr1]
      by_cases c1 : 2 * i + 1 < hs
      · rw [if_pos c1]
        by_cases c2 : s.arr.getD (2 * i + 1) 0 > s.arr.getD i 0
        · have c2' : ((s.emit (.compare (2 * i + 1) i)).sleep).arr.getD (2 * i + 1) 0 >
              ((s.emit (.compare (2 * i + 1) i)).sleep).arr.getD i 0 := c2
          rw [if_pos c2', if_pos ⟨c1, c2⟩]
          exact ⟨rfl, rfl, rfl⟩
        · have c2' : ¬ ((s.emit (.compare (2 * i + 1) i)).sleep).arr.getD (2 * i + 1) 0 >
              ((s.emit (.compare (2 * i + 1) i)).sleep).arr.getD i 0 := c2
          rw [if_neg c2', if_neg (fun h => c2 h.2)]
          exact ⟨rfl, rfl, rfl⟩
      · rw [if_neg c1, if_neg (fun h => c1 h.1)]
        exact ⟨rfl, rfl, rfl⟩
    generalize hr2 : (if 2 * i + 2 < hs then
        if ((r1.1.emit (.compare (2 * i + 2) r1.2)).sleep).arr.getD (2 * i + 2) 0 >
            ((r1.1.emit (.compare (2 * i + 2) r1.2)).sleep).arr.getD r1.2 0 then
          (((r1.1.emit (.compare (2 * i + 2) r1.2)).sleep.emit (.announce (2 * i + 2))).sleep,
            2 * i + 2)
        else ((r1.1.emit (.compare (2 * i + 2) r1.2)).sleep, r1.2)
      else r1 : Run Int × Nat) = r2
    have h2 : r2.1.arr = s.arr ∧ r2.1.stopped = s.stopped ∧
        r2.2 = heapLargest s.arr i hs := by
      rw [← hr2]
      unfold heapLargest
      simp only [← h1.2.2]
      by_cases c1 : 2 * i + 2 < hs
      · rw [if_pos c1]
        by_cases c2 : s.arr.getD (2 * i + 2) 0 > s.arr.getD r1.2 0
        · have c2' : ((r1.1.emit (.compare (2 * i + 2) r1.2)).sleep).arr.getD (2 * i + 2) 0 >
              ((r1.1.emit (.compare (2 * i + 2) r1.2)).sleep).arr.getD r1.2 0 := by
            show r1.1.arr.getD (2 * i + 2) 0 > r1.1.arr.getD r1.2 0
            rw [h1.1]; exact c2
          rw [if_pos c2', if_pos ⟨c1, c2⟩]
          exact ⟨h1.1, h1.2.1, rfl⟩
        · have c2' : ¬ ((r1.1.emit (.compare (2 * i + 2) r1.2)).sleep).arr.getD (2 * i + 2) 0 >
              ((r1.1.emit (.compare (2 * i + 2) r1.2)).sleep).arr.getD r1.2 0 := by
            show ¬ r1.1.arr.getD (2 * i + 2) 0 > r1.1.arr.getD r1.2 0
            rw [h1.1]; exact c2
          rw [if_neg c2', if_neg (fun h => c2 h.2)]
          exact ⟨h1.1, h1.2.1, rfl⟩
      · rw [if_neg c1, if_neg (fun h => c1 h.1)]
        exact ⟨h1.1, h1.2.1, rfl⟩
    obtain ⟨a1, a2, a3⟩ := h2
    rw [← a3]
    by_cases c : r2.2 = i
    · simp only [c, ne_eq, not_true_eq_false, if_false]
      refine ⟨by simp [a1], ?_⟩
      intro r hr
      injection hr with hr
      rw [← hr, a2]
    · simp only [ne_eq, c, not_false_eq_true, if_true]
      obtain ⟨b1, b2⟩ := ih
        (({ (r2.1.emit (.announce i)).sleep with
            arr := swap ((r2.1.emit (.announce i)).sleep).arr i r2.2 }.emit
          (.swap i r2.2)).sleep) r2.2 hs
      refine ⟨?_, ?_⟩
      · rw [b1]
        show siftDown fuel (swap r2.1.arr i r2.2) r2.2 hs = _
        rw [a1]
      · intro r hr
        rw [b2 r hr]
        exact a2

theorem getD_swap_left (l : List Int) (i j : Nat) (hi : i < l.length) (hj : j < l.length) :
    (swap l i j).getD i 0 = l.getD j 0 := by
  rw [getD_swap l i j i hi hj]
  by_cases h : i = j
  · rw [if_pos h, h]
  · rw [if_neg h, if_pos rfl]

theorem getD_swap_right (l : List Int) (i j : Nat) (hi : i < l.length) (hj : j < l.length) :
    (swap l i j).getD j 0 = l.getD i 0 := by
  rw [getD_swap l i j j hi hj, if_pos rfl]

theorem getD_swap_other (l : List Int) (i j q : Nat) (hi : i < l.length) (hj : j < l.length)
    (h1 : q ≠ i) (h2 : q ≠ j) : (swap l i j).getD q 0 = l.getD q 0 := by
  rw [getD_swap l i j q hi hj, if_neg h2, if_neg h1]

theorem heapLargest_spec (l : List Int) (i hs : Nat) :
    (heapLargest l i hs = i ∨ heapLargest l i hs = 2 * i + 1 ∨ heapLargest l i hs = 2 * i + 2) ∧
    (heapLargest l i hs ≠ i → heapLargest l i hs < hs ∧
      l.getD i 0 < l.getD (heapLargest l i hs) 0) ∧
    (2 * i + 1 < hs → l.getD (2 * i + 1) 0 ≤ l.getD (heapLargest l i hs) 0) ∧
    (2 * i + 2 < hs → l.getD (2 * i + 2) 0 ≤ l.getD (heapLargest l i hs) 0) := by
  unfold heapLargest
  by_cases c1 : 2 * i + 1 < hs ∧ l.getD (2 * i + 1) 0 > l.getD i 0
  · simp only [c1, and_self, if_true]
    by_cases c2 : 2 * i + 2 < hs ∧ l.getD (2 * i + 2) 0 > l.getD (2 * i + 1) 0
    · rw [if_pos c2]
      refine ⟨Or.inr (Or.inr rfl), fun _ => ⟨c2.1, by omega⟩, fun _ => by omega, fun _ => le_refl _⟩
    · rw [if_neg c2]
      refine ⟨Or.inr (Or.inl rfl), fun _ => ⟨c1.1, c1.2⟩, fun _ => le_refl _, ?_⟩
      intro h
      by_contra hc
      exact c2 ⟨h, by omega⟩
  · rw [if_neg c1]
    by_cases c2 : 2 * i + 2 < hs ∧ l.getD (2 * i + 2) 0 > l.getD i 0
    · rw [if_pos c2]
      refine ⟨Or.inr (Or.inr rfl), fun _ => ⟨c2.1, c2.2⟩, ?_, fun _ => le_refl _⟩
      intro h
      by_contra hc
      exact c1 ⟨h, by omega⟩
    · rw [if_neg c2]
      refine ⟨Or.inl rfl, fun h => absurd rfl h, ?_, ?_⟩
      · intro h
        by_contra hc
        exact c1 ⟨h, by omega⟩
      · intro h
        by_contra hc
        exact c2 ⟨h, by omega⟩

/-- Sifting position `i` down restores the heap order at every position from `k` on,
provided it held everywhere from `k` on except at `i` and the parent of `i` dominates
the children of `i`. -/
theorem siftDown_spec (hs k : Nat) :
    ∀ (fuel : Nat) (l : List Int) (i : Nat), k ≤ i → hs ≤ i + fuel → 1 ≤ fuel →
      hs ≤ l.length →
      (∀ j, k ≤ j → j ≠ i → HeapAt l hs j) →
      (∀ p, k ≤ p → (i = 2 * p + 1 ∨ i = 2 * p + 2) →
        ∀ c, (c = 2 * i + 1 ∨ c = 2 * i + 2) → c < hs → l.getD c 0 ≤ l.getD p 0) →
      ∃ l2, siftDown fuel l i hs = some l2 ∧ l2.length = l.length ∧ l2.Perm l ∧
        (∀ j, k ≤ j → HeapAt l2 hs j) ∧
        (∀ q, hs ≤ q → l2.getD q 0 = l.getD q 0) ∧
        (∀ q, q < i → l2.getD q 0 = l.getD q 0) ∧
        (∀ q, q < hs → ∃ q2, q2 < hs ∧ l2.getD q 0 = l.getD q2 0) := by
  intro fuel
  induction fuel with
  | zero => intro l i _ _ h; omega
  | succ fuel ih =>
    intro l i hki hfuel _ hlen hheap hpar
    unfold siftDown
    obtain ⟨m1, m2, m3, m4⟩ := heapLargest_spec l i hs
    generalize heapLargest l i hs = m at m1 m2 m3 m4
    by_cases hm : m = i
    · rw [if_neg (not_not.mpr hm)]
      subst hm
      refine ⟨l, rfl, rfl, List.Perm.refl _, ?_, fun _ _ => rfl, fun _ _ => rfl,
        fun q hq => ⟨q, hq, rfl⟩⟩
      intro j hj
      by_cases hji : j = m
      · subst hji; exact ⟨m3, m4⟩
      · exact hheap j hj hji
    · rw [if_pos hm]
      obtain ⟨mlt, mgt⟩ := m2 hm
      have mch : m = 2 * i + 1 ∨ m = 2 * i + 2 := by
        rcases m1 with h | h
        · exact absurd h hm
        · exact h
      have hi : i < l.length := by omega
      have hml : m < l.length := by omega
      have G1 := getD_swap_left l i m hi hml
      have G2 := getD_swap_right l i m hi hml
      have G3 := fun q h1 h2 => getD_swap_other l i m q hi hml h1 h2
      obtain ⟨l2, e, r1, r2, r3, r4, r5, r6⟩ := ih (swap l i m) m (by omega) (by omega) (by omega)
        (by rw [length_swap]; exact hlen)
        (by
          intro j hj hjm
          by_cases hji : j = i
          · subst hji
            constructor
            · intro hc
              rw [G1]
              by_cases e1 : 2 * j + 1 = m
              · rw [e1, G2]; omega
              · rw [G3 _ (by omega) e1]; exact m3 hc
            · intro hc
              rw [G1]
              by_cases e1 : 2 * j + 2 = m
              · rw [e1, G2]; omega
              · rw [G3 _ (by omega) e1]; exact m4 hc
          · obtain ⟨a1, a2⟩ := hheap j hj hji
            rw [HeapAt, G3 j hji hjm]
            constructor
            · intro hc
              by_cases e1 : 2 * j + 1 = i
              · rw [e1, G1]
                exact hpar j hj (by omega) m mch mlt
              · rw [G3 _ e1 (by omega)]; exact a1 hc
            · intro hc
              by_cases e1 : 2 * j + 2 = i
              · rw [e1, G1]
                exact hpar j hj (by omega) m mch mlt
              · rw [G3 _ e1 (by omega)]; exact a2 hc)
        (by
          intro p hp hpm c hc hclt
          have hpi : p = i := by omega
          subst hpi
          rw [G1, G3 c (by omega) (by omega)]
          obtain ⟨a1, a2⟩ := hheap m (by omega) hm
          rcases hc with h | h
          · rw [h]; exact a1 (by omega)
          · rw [h]; exact a2 (by omega))
      refine ⟨l2, e, by rw [r1, length_swap], r2.trans (perm_swap l i m hi hml), r3, ?_, ?_, ?_⟩
      · intro q hq
        rw [r4 q hq, G3 q (by omega) (by omega)]
      · intro q hq
        rw [r5 q (by omega), G3 q (by omega) (by omega)]
      · intro q hq
        obtain ⟨q2, hq2, e2⟩ := r6 q hq
        rw [e2]
        by_cases c1 : q2 = m
        · exact ⟨i, by omega, by rw [c1, G2]⟩
        · by_cases c2 : q2 = i
          · exact ⟨m, mlt, by rw [c2, G1]⟩
          · exact ⟨q2, hq2, G3 q2 c2 c1⟩

theorem heap_root_max (l : List Int) (h : Nat) (hh : ∀ j, HeapAt l h j) :
    ∀ x, x < h → l.getD x 0 ≤ l.getD 0 0 := by
  intro x
  induction x using Nat.strong_induction_on with
  | _ x ih =>
    intro hx
    by_cases h0 : x = 0
    · subst h0; exact le_refl _
    · have hp := ih ((x - 1) / 2) (by omega) (by omega)
      obtain ⟨a1, a2⟩ := hh ((x - 1) / 2)
      have hc : x = 2 * ((x - 1) / 2) + 1 ∨ x = 2 * ((x - 1) / 2) + 2 := by omega
      rcases hc with hc | hc
      · have := a1 (by omega)
        rw [← hc] at this
        exact le_trans this hp
      · have := a2 (by omega)
        rw [← hc] at this
        exact le_trans this hp

theorem heapBuildStep_none (n : Nat) (s : Run Int) (i : Nat) (l2 : List Int)
    (h : siftDown n s.arr i n = some l2) :
    ∃ s2, heapBuildStep none n (some (s, false)) i = some (s2, false) ∧
      s2.stopped = s.stopped ∧ s2.arr = l2 := by
  unfold heapBuildStep
  simp only [stopRequested, Bool.false_eq_true, if_false]
  obtain ⟨h1, h2⟩ := heapify_none n (s.emit (.announce i)) i n
  have h1' : (heapify none n (s.emit (.announce i)) i n).map (fun r => r.arr) = some l2 := by
    rw [h1]; exact h
  cases hh : heapify none n (s.emit (.announce i)) i n with
  | none => rw [hh] at h1'; simp at h1'
  | some s1 =>
    rw [hh] at h1'
    simp only [Option.map_some', Option.some.injEq] at h1'
    exact ⟨s1, rfl, h2 s1 hh, h1'⟩

/-- The build phase: after the passes `i = m-1 .. 0` every position satisfies the heap
order. -/
theorem heapBuild_fold (n : Nat) :
    ∀ (m : Nat) (s : Run Int), m ≤ n / 2 → s.stopped = false → s.arr.length = n →
      (∀ j, m ≤ j → HeapAt s.arr n j) →
      ∃ s2, (List.range m).reverse.foldl (heapBuildStep none n) (some (s, false)) =
          some (s2, false) ∧
        s2.stopped = false ∧ s2.arr.length = n ∧ s2.arr.Perm s.arr ∧
        (∀ j, HeapAt s2.arr n j) := by
  intro m
  induction m with
  | zero =>
    intro s _ hs hl hh
    exact ⟨s, rfl, hs, hl, List.Perm.refl _, fun j => hh j (Nat.zero_le _)⟩
  | succ m ih =>
    intro s hm hs hl hh
    rw [List.range_succ, List.reverse_append, List.reverse_singleton, List.singleton_append,
      List.foldl_cons]
    obtain ⟨l2, e, r1, r2, r3, _, _, _⟩ := siftDown_spec n m n s.arr m (le_refl _) (by omega)
      (by omega) (by omega) (fun j h1 h2 => hh j (by omega)) (by intro p h1 h2; omega)
    obtain ⟨s1, e1, st1, ar1⟩ := heapBuildStep_none n s m l2 e
    rw [e1]
    obtain ⟨s2, e2, st2, len2, perm2, heap2⟩ := ih s1 (by omega) (by rw [st1, hs])
      (by rw [ar1, r1, hl]) (by rw [ar1]; exact r3)
    exact ⟨s2, e2, st2, len2, perm2.trans (by rw [ar1]; exact r2), heap2⟩

theorem heapExtractStep_none (s : Run Int) (e : Nat) (l2 : List Int)
    (h : siftDown e (swap s.arr 0 e) 0 e = some l2) :
    ∃ s2, heapExtractStep none (some (s, false)) e = some (s2, false) ∧
      s2.stopped = s.stopped ∧ s2.arr = l2 := by
  unfold heapExtractStep
  simp only [stopRequested, Bool.false_eq_true, if_false]
  generalize hs2 : (({ (s.emit (.announce e)).sleep with
      arr := swap ((s.emit (.announce e)).sleep).arr 0 e }.emit (.swap 0 e)).sleep).emit
        (.setFinal e) = s2
  have a1 : s2.arr = swap s.arr 0 e := by rw [← hs2]; rfl
  have a2 : s2.stopped = s.stopped := by rw [← hs2]; rfl
  obtain ⟨h1, h2⟩ := heapify_none e s2 0 e
  have h1' : (heapify none e s2 0 e).map (fun r => r.arr) = some l2 := by
    rw [h1, a1]; exact h
  cases hh : heapify none e s2 0 e with
  | none => rw [hh] at h1'; simp at h1'
  | some s3 =>
    rw [hh] at h1'
    simp only [Option.map_some', Option.some.injEq] at h1'
    exact ⟨s3, rfl, by rw [h2 s3 hh, a2], h1'⟩

/-- The extraction phase: with a heap on the first `k + 1` entries, the rest sorted
and not below the heap, the passes `end = k .. 1` leave the array sorted. -/
theorem heapExtract_fold (n : Nat) :
    ∀ (k : Nat) (s : Run Int), k + 1 ≤ n → s.stopped = false → s.arr.length = n →
      (∀ j, HeapAt s.arr (k + 1) j) →
      (∀ p q, k + 1 ≤ p → p ≤ q → q < n → s.arr.getD p 0 ≤ s.arr.getD q 0) →
      (∀ p q, p < k + 1 → k + 1 ≤ q → q < n → s.arr.getD p 0 ≤ s.arr.getD q 0) →
      ∃ s2, (List.range' 1 k).reverse.foldl (heapExtractStep none) (some (s, false)) =
          some (s2, false) ∧
        s2.stopped = false ∧ s2.arr.Perm s.arr ∧ SortedIdx s2.arr := by
  intro k
  induction k with
  | zero =>
    intro s _ hs hl _ hb hc
    refine ⟨s, rfl, hs, List.Perm.refl _, ?_⟩
    intro p q hpq hq
    rw [hl] at hq
    by_cases hp : p = 0
    · by_cases hq0 : q = 0
      · rw [hp, hq0]
      · exact hc p q (by omega) (by omega) hq
    · exact hb p q (by omega) hpq hq
  | succ k ih =>
    intro s hk hs hl hh hb hc
    rw [List.range'_1_concat, List.reverse_append, List.reverse_singleton,
      List.singleton_append, List.foldl_cons]
    have h0 : 0 < s.arr.length := by omega
    have he : 1 + k < s.arr.length := by omega
    have G1 := getD_swap_left s.arr 0 (1 + k) h0 he
    have G2 := getD_swap_right s.arr 0 (1 + k) h0 he
    have G3 := fun q h1 h2 => getD_swap_other s.arr 0 (1 + k) q h0 he h1 h2
    have hmax := heap_root_max s.arr (k + 1 + 1) hh
    obtain ⟨l2, e, r1, r2, r3, r4, _, r6⟩ := siftDown_spec (1 + k) 0 (1 + k)
      (swap s.arr 0 (1 + k)) 0 (le_refl _) (by omega) (by omega)
      (by rw [length_swap]; omega)
      (by
        intro j _ hj0
        obtain ⟨a1, a2⟩ := hh j
        constructor
        · intro hcl
          rw [G3 _ (by omega) (by omega), G3 j hj0 (by omega)]
          exact a1 (by omega)
        · intro hcl
          rw [G3 _ (by omega) (by omega), G3 j hj0 (by omega)]
          exact a2 (by omega))
      (by intro p _ h2; omega)
    obtain ⟨s1, e1, st1, ar1⟩ := heapExtractStep_none s (1 + k) l2 e
    rw [e1]
    have hsw : ∀ x, x < 1 + k + 1 → ∃ y, y < k + 1 + 1 ∧
        (swap s.arr 0 (1 + k)).getD x 0 = s.arr.getD y 0 := by
      intro x hx
      by_cases c1 : x = 1 + k
      · exact ⟨0, by omega, by rw [c1, G2]⟩
      · by_cases c2 : x = 0
        · exact ⟨1 + k, by omega, by rw [c2, G1]⟩
        · exact ⟨x, by omega, G3 x c2 c1⟩
    obtain ⟨s2, e2, st2, perm2, sorted2⟩ := ih s1 (by omega) (by rw [st1, hs])
      (by rw [ar1, r1, length_swap, hl])
      (by
        rw [ar1]
        intro j
        have := r3 j (Nat.zero_le _)
        rwa [show 1 + k = k + 1 by omega] at this)
      (by
        rw [ar1]
        intro p q hp hpq hq
        rw [r4 p (by omega), r4 q (by omega)]
        by_cases c1 : p = 1 + k
        · rw [c1, G2]
          by_cases c2 : q = 1 + k
          · rw [c2, G2]
          · rw [G3 q (by omega) c2]
            exact hc 0 q (by omega) (by omega) hq
        · rw [G3 p (by omega) c1, G3 q (by omega) (by omega)]
          exact hb p q (by omega) hpq hq)
      (by
        rw [ar1]
        intro p q hp hq1 hq
        obtain ⟨p2, hp2, ep⟩ := r6 p (by omega)
        obtain ⟨y, hy, ey⟩ := hsw p2 (by omega)
        rw [ep, ey, r4 q (by omega)]
        by_cases c2 : q = 1 + k
        · rw [c2, G2]
          exact hmax y hy
        · rw [G3 q (by omega) c2]
          exact hc y q hy (by omega) hq)
    refine ⟨s2, e2, st2, ?_, sorted2⟩
    refine perm2.trans ?_
    rw [ar1]
    exact r2.trans (perm_swap s.arr 0 (1 + k) h0 he)

/-- An uncancelled `heapSort` run on a non-empty array returns, takes no cancellation
return, and ends with a sorted permutation of the input. -/
theorem heapSort_none (a : List Int) (ha : a ≠ []) :
    ∃ r, heapSort none a = some (.returned r) ∧ r.stopped = false ∧ Step.done ∈ r.trace ∧
      SortedIdx r.arr ∧ r.arr.Perm a := by
  unfold heapSort
  obtain ⟨s1, e1, st1, len1, perm1, heap1⟩ := heapBuild_fold a.length (a.length / 2)
    (Run.start a) (le_refl _) rfl rfl
    (by
      intro j hj
      constructor <;> intro h <;> omega)
  simp only [e1]
  cases a with
  | nil => exact absurd rfl ha
  | cons x xs =>
    obtain ⟨s2, e2, st2, perm2, sorted2⟩ := heapExtract_fold (x :: xs).length
      ((x :: xs).length - 1) s1 (by simp) st1 len1
      (by
        intro j
        have := heap1 j
        rwa [show (x :: xs).length - 1 + 1 = (x :: xs).length by simp])
      (by intro p q h1 h2 h3; simp at h1 h3; omega)
      (by intro p q h1 h2 h3; simp at h2 h3; omega)
    rw [e2]
    have hn : ¬ (x :: xs).length = 0 := by simp
    simp only [hn, if_false]
    exact ⟨(s2.emit (.setFinal 0)).emit .done, rfl, st2, by simp [Run.emit], sorted2,
      perm2.trans perm1⟩

/-- C5 (failing input): on the empty array `heapSort` throws.  Both loops are skipped and
`bars[0].style` is read although there is no bar: the call ends with a `TypeError`, no
completion step is emitted and `handleSortStart` leaves `isSorting` set.  The four
other sorts return on the empty array with their completion step.  On every non-empty
array the uncancelled run of `heapSort` returns, and the array it ends with is sorted
ascending and is a permutation of the input. -/
theorem heapSort_throws_on_empty_array :
    heapSort none [] =
      some (.typeError { arr := [], t := 0, trace := [], stopped := false }) ∧
    handleSortStart .heapSort none
        { array := [], isSorting := false, stopFlag := false, trace := [] } =
      some { array := [], isSorting := true, stopFlag := false, trace := [] } ∧
    (∀ kind, kind ≠ Algorithm.heapSort →
      handleSortStart kind none
          { array := [], isSorting := false, stopFlag := false, trace := [] } =
        some { array := [], isSorting := false, stopFlag := false, trace := [.done] }) ∧
    ∀ a : List Int, a ≠ [] →
      ∃ r, heapSort none a = some (.returned r) ∧ r.stopped = false ∧
        Step.done ∈ r.trace ∧ r.arr.Sorted (· ≤ ·) ∧ r.arr.Perm a := by
  refine ⟨by decide, by decide, ?_, ?_⟩
  · intro kind hk
    cases kind with
    | bubbleSort => decide
    | selectionSort => decide
    | insertionSort => decide
    | mergeSort => decide
    | heapSort => exact absurd rfl hk
  · intro a ha
    obtain ⟨r, e, st, hd, so, pe⟩ := heapSort_none a ha
    exact ⟨r, e, st, hd, sorted_of_sortedIdx _ so, pe⟩

end SortingVisualizer
namespace SortingVisualizer

/-! ## Heap sort: the build phase -/

theorem isMaxHeap_of_heapAt (l : List Int) (n : Nat) (h : ∀ j, HeapAt l n j) :
    IsMaxHeap l n := by
  intro c h1 h2
  have hp := h ((c - 1) / 2)
  rcases Nat.even_or_odd (c - 1) with ⟨k, hk⟩ | ⟨k, hk⟩
  · have e : (c - 1) / 2 = k := by omega
    rw [e] at hp ⊢
    have e2 : c = 2 * k + 1 := by omega
    rw [e2]
    exact hp.1 (by omega)
  · have e : (c - 1) / 2 = k := by omega
    rw [e] at hp ⊢
    have e2 : c = 2 * k + 2 := by omega
    rw [e2]
    exact hp.2 (by omega)

/-- C28: for every integer array of length `n`, the build loop of `heapSort`
(`heapify(i, n)` for `i` from `floor(n/2) - 1` down to `0`), when not cancelled, runs
to its end without setting the stop mark, and the array it leaves is a permutation of
the input in which every index `c` with `1 ≤ c < n` holds a value that is at most the
value at `floor((c - 1) / 2)`. -/
theorem heapSort_build_max_heap (a : List Int) :
    ∃ s, (List.range (a.length / 2)).reverse.foldl (heapBuildStep none a.length)
        (some (Run.start a, false)) = some (s, false) ∧
      s.stopped = false ∧ s.arr.length = a.length ∧ s.arr.Perm a ∧
      ∀ c, 1 ≤ c → c < a.length → s.arr.getD c 0 ≤ s.arr.getD ((c - 1) / 2) 0 := by
  obtain ⟨s, e, st, len, perm, heap⟩ := heapBuild_fold a.length (a.length / 2) (Run.start a)
    (le_refl _) rfl rfl (by
      intro j hj
      constructor <;> intro h <;> exfalso <;> omega)
  exact ⟨s, e, st, len, perm, isMaxHeap_of_heapAt s.arr a.length heap⟩

end SortingVisualizer
namespace SortingVisualizer

/-! ## Bubble sort: the steps of an uncancelled run -/

theorem bubbleInner_trace (s : Run Int) (j : Nat) (hs : s.stopped = false) :
    (bubbleInner none s j).stopped = false ∧
    ((bubbleInner none s j).arr, (bubbleInner none s j).trace) =
      bubbleSpecInner (s.arr, s.trace) j := by
  unfold bubbleInner bubbleSpecInner
  simp only [hs, stopRequested, Run.sleep, Run.emit, Bool.false_eq_true, if_false]
  by_cases h : s.arr.getD j 0 > s.arr.getD (j + 1) 0
  · simp only [h, if_true, List.append_assoc, List.singleton_append]
    exact ⟨trivial, trivial⟩
  · simp only [h, if_false]
    exact ⟨trivial, trivial⟩

theorem bubbleInner_fold_trace (s : Run Int) (m : Nat) (hs : s.stopped = false) :
    ((List.range m).foldl (bubbleInner none) s).stopped = false ∧
    (((List.range m).foldl (bubbleInner none) s).arr,
      ((List.range m).foldl (bubbleInner none) s).trace) =
      (List.range m).foldl bubbleSpecInner (s.arr, s.trace) := by
  induction m with
  | zero => exact ⟨hs, rfl⟩
  | succ k ih =>
    rw [foldl_range_succ, foldl_range_succ]
    obtain ⟨h1, h2⟩ := ih
    obtain ⟨h3, h4⟩ := bubbleInner_trace _ k h1
    exact ⟨h3, by rw [h4, h2]⟩

theorem bubbleSpecInner_fold_length (st : List Int × List Step) (m : Nat) :
    ((List.range m).foldl bubbleSpecInner st).1.length = st.1.length := by
  induction m with
  | zero => rfl
  | succ k ih =>
    rw [foldl_range_succ]
    generalize (List.range k).foldl bubbleSpecInner st = r at ih ⊢
    unfold bubbleSpecInner
    split
    · rw [length_swap, ih]
    · exact ih

theorem bubbleOuter_trace (s : Run Int) (i : Nat) (hs : s.stopped = false) :
    (bubbleOuter none s i).stopped = false ∧
    ((bubbleOuter none s i).arr, (bubbleOuter none s i).trace) =
      bubbleSpecOuter s.arr.length (s.arr, s.trace) i := by
  unfold bubbleOuter bubbleSpecOuter
  obtain ⟨h1, h2⟩ := bubbleInner_fold_trace s (s.arr.length - i - 1) hs
  have hlen := bubbleSpecInner_fold_length (s.arr, s.trace) (s.arr.length - i - 1)
  rw [← h2] at hlen
  simp only [hs, h1, Run.sleep, Run.emit, Bool.false_eq_true, if_false]
  rw [← h2]
  simp only at hlen ⊢
  rw [hlen, Nat.sub_right_comm]
  exact ⟨trivial, rfl⟩

theorem bubbleSpecOuter_length (n : Nat) (st : List Int × List Step) (i : Nat) :
    (bubbleSpecOuter n st i).1.length = st.1.length := by
  unfold bubbleSpecOuter
  exact bubbleSpecInner_fold_length st _

theorem bubbleOuter_fold_trace (s : Run Int) (m : Nat) (hs : s.stopped = false) :
    ((List.range m).foldl (bubbleOuter none) s).stopped = false ∧
    (((List.range m).foldl (bubbleOuter none) s).arr,
      ((List.range m).foldl (bubbleOuter none) s).trace) =
      (List.range m).foldl (bubbleSpecOuter s.arr.length) (s.arr, s.trace) ∧
    ((List.range m).foldl (bubbleOuter none) s).arr.length = s.arr.length := by
  induction m with
  | zero => exact ⟨hs, rfl, rfl⟩
  | succ k ih =>
    rw [foldl_range_succ, foldl_range_succ]
    obtain ⟨h1, h2, h3⟩ := ih
    obtain ⟨h4, h5⟩ := bubbleOuter_trace _ k h1
    rw [h3, h2] at h5
    refine ⟨h4, h5, ?_⟩
    have := congrArg (fun p => p.1.length) h5
    simp only at this
    rw [this, bubbleSpecOuter_length, ← h2]
    exact h3

theorem bubbleSort_trace (a : List Int) :
    (bubbleSort none a).arr = (bubbleSpec a).1 ∧
    (bubbleSort none a).trace = (bubbleSpec a).2 ++ [.done] := by
  unfold bubbleSort bubbleSpec
  obtain ⟨h1, h2, _⟩ := bubbleOuter_fold_trace (Run.start a) a.length rfl
  simp only [h1, Run.emit, Bool.false_eq_true, if_false]
  have e1 := congrArg Prod.fst h2
  have e2 := congrArg Prod.snd h2
  simp only at e1 e2
  exact ⟨e1, by rw [e2]; rfl⟩

theorem bubbleSpecInner_fold_compare (st : List Int × List Step) (m : Nat) :
    ((List.range m).foldl bubbleSpecInner st).2.filter Step.isCompare =
      st.2.filter Step.isCompare ++ (List.range m).map (fun j => Step.compare j (j + 1)) ∧
    ((List.range m).foldl bubbleSpecInner st).2.filter Step.isSetFinal =
      st.2.filter Step.isSetFinal := by
  induction m with
  | zero => simp
  | succ k ih =>
    rw [foldl_range_succ, List.range_succ, List.map_append, ← List.append_assoc, ← ih.1, ← ih.2]
    generalize (List.range k).foldl bubbleSpecInner st = r
    unfold bubbleSpecInner
    split <;> simp [List.filter_append, Step.isCompare, Step.isSetFinal]

theorem bubbleSpecOuter_fold_compare (n : Nat) (st : List Int × List Step) (m : Nat) :
    ((List.range m).foldl (bubbleSpecOuter n) st).2.filter Step.isCompare =
      st.2.filter Step.isCompare ++
        (List.range m).flatMap
          (fun i => (List.range (n - i - 1)).map (fun j => Step.compare j (j + 1))) ∧
    ((List.range m).foldl (bubbleSpecOuter n) st).2.filter Step.isSetFinal =
      st.2.filter Step.isSetFinal ++ (List.range m).map (fun i => Step.setFinal (n - 1 - i)) := by
  induction m with
  | zero => simp
  | succ k ih =>
    rw [foldl_range_succ, List.range_succ, List.flatMap_append, List.map_append,
      ← List.append_assoc, ← List.append_assoc, ← ih.1, ← ih.2]
    generalize (List.range k).foldl (bubbleSpecOuter n) st = r
    unfold bubbleSpecOuter
    obtain ⟨c1, c2⟩ := bubbleSpecInner_fold_compare r (n - k - 1)
    simp only [List.filter_append, c1, c2]
    simp [Step.isCompare, Step.isSetFinal]

/-- C20: the steps of an uncancelled `bubbleSort` run on an array of length `n`.  The
run emits exactly the steps the specification words (`bubbleSpec`: for each outer pass
`i = 0..n-1` and each `j = 0..n-i-2` a `compare(j, j+1)`, followed by `swap(j, j+1)`
iff `a[j] > a[j+1]` at that moment, and `set-final(n-1-i)` after each pass), then the
completion message; its comparisons are, in order, `compare(j, j+1)` for `i = 0..n-1`
and `j = 0..n-i-2`; its final marks are `n-1-i` for `i = 0..n-1`; and on `[5,3,8,1]`
the trace begins `compare(0,1), swap(0,1)` and the result is `[1,3,5,8]`. -/
theorem bubbleSort_trace_spec (a : List Int) :
    ((bubbleSort none a).arr = (bubbleSpec a).1 ∧
      (bubbleSort none a).trace = (bubbleSpec a).2 ++ [.done]) ∧
    (bubbleSort none a).trace.filter Step.isCompare =
      (List.range a.length).flatMap
        (fun i => (List.range (a.length - i - 1)).map (fun j => Step.compare j (j + 1))) ∧
    (bubbleSort none a).trace.filter Step.isSetFinal =
      (List.range a.length).map (fun i => Step.setFinal (a.length - 1 - i)) ∧
    (bubbleSort none [5, 3, 8, 1]).trace.take 2 = [.compare 0 1, .swap 0 1] ∧
    (bubbleSort none [5, 3, 8, 1]).arr = [1, 3, 5, 8] := by
  obtain ⟨h1, h2⟩ := bubbleSort_trace a
  obtain ⟨c1, c2⟩ := bubbleSpecOuter_fold_compare a.length (a, []) a.length
  refine ⟨⟨h1, h2⟩, ?_, ?_, by decide, by decide⟩
  · rw [h2, List.filter_append]
    unfold bubbleSpec
    rw [c1]
    simp [Step.isCompare]
  · rw [h2, List.filter_append]
    unfold bubbleSpec
    rw [c2]
    simp [Step.isSetFinal]

end SortingVisualizer
namespace SortingVisualizer

/-! ## Cancelled runs -/

/-- C15 (what the code does at the failing input): `mergeSort` on `[4,3,2,1]` with the
cancellation request arriving during the second suspension.  The first `merge` sees
the flag and returns (`stopped`), after which the helper still announces the division
of `2..3` and the run shows its completion message; the array is left unsorted. -/
theorem mergeSort_cancel_reports_done :
    mergeSort (some 1) id 0 [4, 3, 2, 1] =
      some { arr := [4, 3, 2, 1], t := 3,
             trace := [.announce 1, .announce 0, .announce 2, .done], stopped := true } := by
  decide

/-- C17 (what the code does at the failing input): `insertionSort` on `[3,2,1]` with
the cancellation request arriving during the sixth suspension.  The run returns in
the middle of the shifting loop, before `arr[j + 1] = key`: the published array is
`[2,3,3]`, which is not a permutation of the input. -/
theorem insertionSort_cancel_loses_key :
    (insertionSort (some 5) [3, 2, 1]).stopped = true ∧
    (insertionSort (some 5) [3, 2, 1]).arr = [2, 3, 3] ∧
    ¬ (insertionSort (some 5) [3, 2, 1]).arr.Perm [3, 2, 1] := by
  refine ⟨by decide, by decide, ?_⟩
  have h : (insertionSort (some 5) [3, 2, 1]).arr = [2, 3, 3] := by decide
  rw [h]
  intro hp
  have := hp.count_eq 1
  simp at this

end SortingVisualizer
namespace SortingVisualizer

/-! ## The invoker: a request raised before the run starts -/

theorem bubbleSort_none_done (a : List Int) :
    (bubbleSort none a).stopped = false ∧ Step.done ∈ (bubbleSort none a).trace ∧
    (bubbleSort none a).arr.Sorted (· ≤ ·) ∧ (bubbleSort none a).arr.Perm a := by
  obtain ⟨h1, h2⟩ := bubbleSort_none_arr a
  obtain ⟨hlen, hperm, hinv⟩ := bubblePass_fold a a.length (le_refl _)
  obtain ⟨_, t2⟩ := bubbleSort_trace a
  refine ⟨h1, by rw [t2]; simp, ?_, by rw [h2]; exact hperm⟩
  rw [h2]
  refine sorted_of_sortedIdx _ ?_
  intro p q hpq hq
  rw [hlen] at hq
  exact hinv p q hpq hq (by omega)

theorem selectionSort_none_done (a : List Int) :
    (selectionSort none a).stopped = false ∧ Step.done ∈ (selectionSort none a).trace ∧
    (selectionSort none a).arr.Sorted (· ≤ ·) ∧ (selectionSort none a).arr.Perm a := by
  obtain ⟨h1, h2⟩ := selectionSort_none_arr a
  obtain ⟨hlen, hperm, hinv⟩ := selPass_fold a a.length (le_refl _)
  have hd : Step.done ∈ (selectionSort none a).trace := by
    obtain ⟨g1, _⟩ := selectionOuter_fold_none (Run.start a) a.length rfl
    unfold selectionSort
    simp only [g1, Run.emit, Bool.false_eq_true, if_false]
    simp
  refine ⟨h1, hd, ?_, by rw [h2]; exact hperm⟩
  rw [h2]
  refine sorted_of_sortedIdx _ ?_
  intro p q hpq hq
  rw [hlen] at hq
  exact hinv p q hpq hq (by omega)

theorem insertionSort_none_done (a : List Int) :
    (insertionSort none a).stopped = false ∧ Step.done ∈ (insertionSort none a).trace ∧
    (insertionSort none a).arr.Sorted (· ≤ ·) ∧ (insertionSort none a).arr.Perm a := by
  obtain ⟨h1, h2⟩ := insertionSort_none_arr a
  have hd : Step.done ∈ (insertionSort none a).trace := by
    obtain ⟨g1, _⟩ := insertionOuter_fold_none (Run.start a) 1 (a.length - 1) rfl
    unfold insertionSort
    simp only [g1, Run.emit, Bool.false_eq_true, if_false]
    simp
  refine ⟨h1, hd, ?_⟩
  rw [h2]
  cases a with
  | nil => exact ⟨List.sorted_nil, List.Perm.refl _⟩
  | cons x xs =>
    obtain ⟨hlen, hperm, hinv⟩ := insPass_fold (x :: xs) ((x :: xs).length - 1) (by simp)
    refine ⟨sorted_of_sortedIdx _ ?_, hperm⟩
    intro p q hpq hq
    rw [hlen] at hq
    exact hinv p q hpq (by omega)

theorem mergeSort_none_done (a : List Int) :
    ∃ r, mergeSort none id 0 a = some r ∧ r.stopped = false ∧ Step.done ∈ r.trace ∧
      r.arr.Sorted (· ≤ ·) ∧ r.arr.Perm a := by
  obtain ⟨r, e, st, ss⟩ := mergeSort_none id 0 a
  refine ⟨r, e, st, ?_, ss.1, ss.2.1⟩
  unfold mergeSort at e
  split at e
  · simp at e
  · injection e with e
    rw [← e]
    simp [Run.emit]

/-- Every sort, run without any cancellation request arriving, returns, shows its
completion message and leaves a sorted permutation of the input; for `heapSort` the
array is not empty. -/
theorem runSort_none (kind : Algorithm) (a : List Int) (h : kind ≠ .heapSort ∨ a ≠ []) :
    ∃ r, runSort kind none a = some (.returned r) ∧ r.stopped = false ∧
      Step.done ∈ r.trace ∧ r.arr.Sorted (· ≤ ·) ∧ r.arr.Perm a := by
  cases kind with
  | bubbleSort => exact ⟨_, rfl, bubbleSort_none_done a⟩
  | selectionSort => exact ⟨_, rfl, selectionSort_none_done a⟩
  | insertionSort => exact ⟨_, rfl, insertionSort_none_done a⟩
  | mergeSort =>
    obtain ⟨r, e, hr⟩ := mergeSort_none_done a
    exact ⟨r, by show (mergeSort none id 0 a).map SortEnd.returned = _; rw [e]; rfl, hr⟩
  | heapSort =>
    have ha : a ≠ [] := by
      rcases h with h | h
      · exact absurd rfl h
      · exact h
    obtain ⟨r, e, st, hd, so, pe⟩ := heapSort_none a ha
    exact ⟨r, e, st, hd, sorted_of_sortedIdx _ so, pe⟩

/-- C16 (counterexample): a request raised before the run is invoked is cleared on
entry: `bubbleSort` on `[2,1]` with the flag raised and no later request ends completed
with `[1,2]`, not aborted with `[2,1]`.  A request arriving during the first
suspension is seen only at the next test, after the pending swap: on `[3,2,1]` the run
ends aborted with `[2,3,1]`. -/
theorem cancel_before_first_suspension_fails :
    handleSortStart .bubbleSort none
        { array := [2, 1], isSorting := false, stopFlag := true, trace := [] } =
      some { array := [1, 2], isSorting := false, stopFlag := false,
             trace := [.compare 0 1, .swap 0 1, .setFinal 1, .setFinal 0, .done] } ∧
    handleSortStart .bubbleSort (some 0)
        { array := [3, 2, 1], isSorting := false, stopFlag := false, trace := [] } =
      some { array := [2, 3, 1], isSorting := false, stopFlag := true,
             trace := [.compare 0 1, .swap 0 1] } := by
  decide

/-- C16 (amended): for every sort kind and every input array, `heapSort` on the empty
array apart (that call throws), a cancellation request raised before the run is invoked
has no effect: the run clears the flag on entry and, when no request arrives during the
run, it ends with status completed, `isSorting` and the flag clear, and the array a
sorted permutation of the input. -/
theorem request_before_start_is_cleared (kind : Algorithm) (a : List Int) (flag : Bool)
    (shown : List Step) (h : kind ≠ .heapSort ∨ a ≠ []) :
    ∃ ui, handleSortStart kind none
        { array := a, isSorting := false, stopFlag := flag, trace := shown } = some ui ∧
      ui.isSorting = false ∧ ui.stopFlag = false ∧ Step.done ∈ ui.trace ∧
      ui.array.Sorted (· ≤ ·) ∧ ui.array.Perm a := by
  obtain ⟨r, e, _, hd, so, pe⟩ := runSort_none kind a h
  unfold handleSortStart
  simp only [Bool.false_eq_true, if_false, e]
  exact ⟨_, rfl, rfl, rfl, hd, so, pe⟩

/-- Witness of `request_before_start_is_cleared`: `heapSort` on `[2, 1]` with the flag
raised before the call. -/
theorem request_before_start_is_cleared_witness :
    (Algorithm.heapSort ≠ .heapSort ∨ ([2, 1] : List Int) ≠ []) ∧
    ∃ ui, handleSortStart .heapSort none
        { array := [2, 1], isSorting := false, stopFlag := true, trace := [] } = some ui ∧
      ui.isSorting = false ∧ ui.stopFlag = false ∧ Step.done ∈ ui.trace ∧
      ui.array.Sorted (· ≤ ·) ∧ ui.array.Perm [2, 1] :=
  ⟨Or.inr (by decide),
    request_before_start_is_cleared .heapSort [2, 1] true [] (Or.inr (by decide))⟩

end SortingVisualizer
namespace JsNumber

/-! ## Rounding to a double -/

theorem ulpExp_small (fuel x : Nat) (h : x < 2 ^ 53) : ulpExp fuel x = 0 := by
  cases fuel with
  | zero => rfl
  | succ fuel => unfold ulpExp; rw [if_pos h]

/-- Above `2^53` the exponent `e` places `x` between `2^(52+e)` and `2^(53+e)`. -/
theorem ulpExp_spec : ∀ (fuel x : Nat), x ≤ fuel → 2 ^ 53 ≤ x →
    2 ^ (52 + ulpExp fuel x) ≤ x ∧ x < 2 ^ (53 + ulpExp fuel x) := by
  intro fuel
  induction fuel with
  | zero =>
    intro x h1 h2
    have : 0 < 2 ^ 53 := Nat.pos_pow_of_pos _ (by norm_num)
    omega
  | succ fuel ih =>
    intro x h1 h2
    unfold ulpExp
    rw [if_neg (by omega)]
    by_cases hx : x / 2 < 2 ^ 53
    · rw [ulpExp_small fuel _ hx]
      have e1 : (2 : Nat) ^ (52 + (0 + 1)) = 2 ^ 53 := rfl
      have e2 : (2 : Nat) ^ (53 + (0 + 1)) = 2 * 2 ^ 53 := by rw [show 53 + (0 + 1) = 53 + 1 from rfl, pow_succ]; ring
      rw [e1, e2]
      omega
    · have h3 : x / 2 ≤ fuel := by omega
      obtain ⟨a, b⟩ := ih (x / 2) h3 (by omega)
      have e1 : (2 : Nat) ^ (52 + (ulpExp fuel (x / 2) + 1)) =
          2 * 2 ^ (52 + ulpExp fuel (x / 2)) := by
        rw [← Nat.add_assoc, pow_succ]; ring
      have e2 : (2 : Nat) ^ (53 + (ulpExp fuel (x / 2) + 1)) =
          2 * 2 ^ (53 + ulpExp fuel (x / 2)) := by
        rw [← Nat.add_assoc, pow_succ]; ring
      rw [e1, e2]
      omega

/-- The exponent is determined by the two powers of two around `x`. -/
theorem ulpExp_unique (x e : Nat) (h1 : 2 ^ (52 + e) ≤ x) (h2 : x < 2 ^ (53 + e)) :
    ulpExp x x = e := by
  by_cases hx : x < 2 ^ 53
  · rw [ulpExp_small x x hx]
    by_contra hne
    have : (2 : Nat) ^ 53 ≤ 2 ^ (52 + e) := Nat.pow_le_pow_right (by norm_num) (by omega)
    omega
  · obtain ⟨a, b⟩ := ulpExp_spec x x (le_refl _) (by omega)
    by_contra hne
    rcases Nat.lt_or_gt_of_ne hne with h | h
    · have : (2 : Nat) ^ (53 + ulpExp x x) ≤ 2 ^ (52 + e) :=
        Nat.pow_le_pow_right (by norm_num) (by omega)
      omega
    · have : (2 : Nat) ^ (53 + e) ≤ 2 ^ (52 + ulpExp x x) :=
        Nat.pow_le_pow_right (by norm_num) (by omega)
      omega

/-- Integers up to `2^53` are doubles: rounding leaves them as they are. -/
theorem roundDouble_exact (x : Nat) (h : x ≤ 2 ^ 53) : roundDouble x = some x := by
  rcases Nat.lt_or_eq_of_le h with h1 | h1
  · unfold roundDouble roundSig
    simp only [ulpExp_small x x h1, pow_zero, Nat.div_one, Nat.mod_one, Nat.mul_one,
      Nat.mul_zero]
    have h2 : ¬ ((1 : Nat) < 0 ∨ ((0 : Nat) = 1 ∧ x % 2 = 1)) := by omega
    rw [if_neg h2, ulpExp_small x x h1]
    simp
  · rw [h1]; decide

/-- A sum that does not exceed `2^53` is exact. -/
theorem numAdd_exact (a b : Nat) (h : a + b ≤ 2 ^ 53) : numAdd a b = some (a + b) :=
  roundDouble_exact (a + b) h

/-- What rounding returns: a value that is a double, at least as large as every double
below the argument. -/
theorem roundDouble_spec (x y : Nat) (h : roundDouble x = some y) :
    IsDouble y ∧ ∀ d, IsDouble d → d ≤ x → d ≤ y := by
  by_cases hx : x < 2 ^ 53
  · rw [roundDouble_exact x (le_of_lt hx)] at h
    injection h with h
    subst h
    refine ⟨?_, fun d _ hd => hd⟩
    unfold IsDouble
    rw [ulpExp_small x x hx]
    simp
  · obtain ⟨a, b⟩ := ulpExp_spec x x (le_refl _) (by omega)
    unfold roundDouble roundSig at h
    simp only at h
    generalize he : ulpExp x x = e at h a b
    have hpos : 0 < 2 ^ e := Nat.pos_pow_of_pos _ (by norm_num)
    have he1 : 1 ≤ e := by
      by_contra hc
      have h0 : e = 0 := by omega
      rw [h0] at b
      exact hx b
    have ha : 2 ^ 52 * 2 ^ e ≤ x := by rw [← pow_add]; exact a
    have hb : x < 2 ^ 53 * 2 ^ e := by rw [← pow_add]; exact b
    have hq1 : 2 ^ 52 ≤ x / 2 ^ e := (Nat.le_div_iff_mul_le hpos).mpr ha
    have hq2 : x / 2 ^ e < 2 ^ 53 := (Nat.div_lt_iff_lt_mul hpos).mpr hb
    generalize hq : x / 2 ^ e = q at h hq1 hq2
    have hlow : ∀ d, IsDouble d → d ≤ x → d ≤ q * 2 ^ e := by
      intro d hd hdx
      by_cases hd53 : d < 2 ^ 53
      · have : 2 ^ 52 * 2 ^ e ≤ q * 2 ^ e := Nat.mul_le_mul_right _ hq1
        have h2 : (2 : Nat) ^ 53 ≤ 2 ^ 52 * 2 ^ e := by
          rw [← pow_add]; exact Nat.pow_le_pow_right (by norm_num) (by omega)
        omega
      · obtain ⟨a1, b1⟩ := ulpExp_spec d d (le_refl _) (by omega)
        unfold IsDouble at hd
        generalize hed : ulpExp d d = ed at hd a1 b1
        have hle : ed ≤ e := by
          by_contra hc
          have : (2 : Nat) ^ (53 + e) ≤ 2 ^ (52 + ed) :=
            Nat.pow_le_pow_right (by norm_num) (by omega)
          omega
        rcases Nat.lt_or_eq_of_le hle with h1 | h1
        · have h2 : (2 : Nat) ^ (53 + ed) ≤ 2 ^ (52 + e) :=
            Nat.pow_le_pow_right (by norm_num) (by omega)
          have h3 : 2 ^ 52 * 2 ^ e ≤ q * 2 ^ e := Nat.mul_le_mul_right _ hq1
          rw [← pow_add] at h3
          omega
        · rw [h1] at hd
          obtain ⟨k, hk⟩ := hd
          have hk1 : k ≤ q := by
            rw [← hq]
            apply (Nat.le_div_iff_mul_le hpos).mpr
            rw [Nat.mul_comm, ← hk]; exact hdx
          rw [hk, Nat.mul_comm]
          exact Nat.mul_le_mul_right _ hk1
    have hdbl : ∀ q1, 2 ^ 52 ≤ q1 → q1 ≤ 2 ^ 53 → IsDouble (q1 * 2 ^ e) := by
      intro q1 h1 h2
      unfold IsDouble
      rcases Nat.lt_or_eq_of_le h2 with h3 | h3
      · have e1 : ulpExp (q1 * 2 ^ e) (q1 * 2 ^ e) = e := by
          apply ulpExp_unique
          · rw [pow_add]; exact Nat.mul_le_mul_right _ h1
          · rw [pow_add]; exact Nat.mul_lt_mul_of_pos_right h3 hpos
        rw [e1]
        exact Dvd.intro_left _ rfl
      · have e1 : ulpExp (q1 * 2 ^ e) (q1 * 2 ^ e) = e + 1 := by
          apply ulpExp_unique
          · rw [h3, ← pow_add]
            exact Nat.pow_le_pow_right (by norm_num) (by omega)
          · rw [h3, ← pow_add]
            exact Nat.pow_lt_pow_right (by norm_num) (by omega)
        rw [e1, h3, ← pow_add]
        exact pow_dvd_pow 2 (by omega)
    split at h
    · split at h
      · injection h with h
        subst h
        refine ⟨hdbl (q + 1) (by omega) (by omega), ?_⟩
        intro d hd hdx
        have := hlow d hd hdx
        have : q * 2 ^ e ≤ (q + 1) * 2 ^ e := Nat.mul_le_mul_right _ (Nat.le_succ q)
        omega
      · cases h
    · split at h
      · injection h with h
        subst h
        exact ⟨hdbl q hq1 (le_of_lt hq2), hlow⟩
      · cases h

/-- A sum is a double, and it is not below its first operand when that is a double. -/
theorem numAdd_spec (a b y : Nat) (ha : IsDouble a) (h : numAdd a b = some y) :
    IsDouble y ∧ a ≤ y := by
  obtain ⟨h1, h2⟩ := roundDouble_spec (a + b) y h
  exact ⟨h1, h2 a ha (Nat.le_add_right a b)⟩

/-- The product of a draw below `1` and a bound `n`, rounded, stays below `n`: with `u`
standing for `u / 2^53`, the rounded value of `u * n` is below `2^53 * n`. -/
theorem roundSig_mul_lt (u n : Nat) (hu : u < 2 ^ 53) (hn : 1 ≤ n) :
    roundSig (u * n) < 2 ^ 53 * n := by
  have hx : u * n + n ≤ 2 ^ 53 * n := by
    have : (u + 1) * n ≤ 2 ^ 53 * n := Nat.mul_le_mul_right _ hu
    rw [Nat.add_mul, Nat.one_mul] at this
    exact this
  by_cases h53 : u * n < 2 ^ 53
  · unfold roundSig
    simp only [ulpExp_small _ _ h53, pow_zero, Nat.div_one, Nat.mod_one, Nat.mul_one,
      Nat.mul_zero]
    have h2 : ¬ ((1 : Nat) < 0 ∨ ((0 : Nat) = 1 ∧ u * n % 2 = 1)) := by omega
    rw [if_neg h2]
    omega
  · obtain ⟨a, _⟩ := ulpExp_spec (u * n) (u * n) (le_refl _) (by omega)
    unfold roundSig
    simp only
    generalize ulpExp (u * n) (u * n) = e at a
    generalize hxx : u * n = x at a hx h53
    have hpos : 0 < 2 ^ e := Nat.pos_pow_of_pos _ (by norm_num)
    have ha : 2 ^ 52 * 2 ^ e ≤ x := by rw [← pow_add]; exact a
    have hdm := Nat.div_add_mod x (2 ^ e)
    have hr := Nat.mod_lt x hpos
    have hmul : 2 ^ e * (x / 2 ^ e) = x / 2 ^ e * 2 ^ e := Nat.mul_comm _ _
    have h3 : (2 : Nat) ^ 53 = 2 * 2 ^ 52 := by norm_num
    have hen : 2 ^ 52 * 2 ^ e < 2 ^ 52 * (2 * n) := by
      have : 2 ^ 52 * (2 * n) = 2 ^ 53 * n := by rw [h3]; ring
      omega
    have hen2 : 2 ^ e < 2 * n := Nat.lt_of_mul_lt_mul_left hen
    split
    · rename_i hup
      rw [Nat.add_mul, Nat.one_mul]
      rcases hup with h | h
      · omega
      · omega
    · omega

theorem isDouble_zero : IsDouble 0 := by
  unfold IsDouble
  exact dvd_zero _

end JsNumber

namespace GraphVisualizer

/-! ## Traversals: start ids outside the graph, and invocations during a run -/

section

variable {α : Type} [DecidableEq α]

theorem getNeighbors_eq_nil (g : Graph α) (id : α)
    (h : ∀ e ∈ g.edges, e.src ≠ id ∧ e.dst ≠ id) : getNeighbors g id = [] := by
  unfold getNeighbors
  rw [List.map_eq_nil_iff, List.filter_eq_nil_iff]
  intro e he
  obtain ⟨h1, h2⟩ := h e he
  simp [h1, h2]

theorem getNeighbors_outside (g : Graph α) (id : α) (hg : g.WellFormed) (hid : id ∉ g.nodes) :
    getNeighbors g id = [] := by
  apply getNeighbors_eq_nil
  intro e he
  obtain ⟨h1, h2⟩ := hg e he
  exact ⟨fun h => hid (h ▸ h1), fun h => hid (h ▸ h2)⟩

theorem bfs_isolated (g : Graph α) (startId : α) (v : View α)
    (hn : getNeighbors g startId = []) :
    ∃ r, bfs g startId v = some r ∧ r.visitedOrder = [startId] ∧ r.activeEdges = [] ∧
      r.trace = [.visit startId none, .done] := by
  unfold bfs
  rw [show 2 * g.edges.length + 2 = (2 * g.edges.length + 1) + 1 from rfl]
  simp only [bfsLoop, List.not_mem_nil, if_false, hn, List.foldl_nil]
  exact ⟨_, rfl, rfl, rfl, rfl⟩

theorem dfs_isolated (g : Graph α) (startId : α) (v : View α)
    (hn : getNeighbors g startId = []) :
    ∃ r, dfs g startId v = some r ∧ r.visitedOrder = [startId] ∧ r.activeEdges = [] ∧
      r.trace = [.visit startId none, .done] := by
  unfold dfs
  simp only [dfsRecursive, List.not_mem_nil, if_false, hn, List.foldl_nil]
  exact ⟨_, rfl, rfl, rfl, rfl⟩

theorem dijkstra_isolated (g : Graph α) (startId : α) (v : View α)
    (hn : getNeighbors g startId = []) :
    ∃ r, dijkstra g startId v = some r ∧ r.visitedOrder = [startId] ∧ r.activeEdges = [] ∧
      r.trace = [.visit startId (some 0), .done] := by
  unfold dijkstra
  rw [show 2 * g.edges.length + 2 = (2 * g.edges.length + 1) + 1 from rfl]
  simp only [dijkstraLoop, sortPq, List.insertionSort, List.orderedInsert, List.not_mem_nil,
    if_false, hn, List.foldl_nil]
  exact ⟨_, rfl, rfl, rfl, rfl⟩

end

/-- C13 (counterexample): on the four-node sample graph with the start id `"Z"`, which
is not a node, none of the three engines fails: each run starts, completes and leaves
the visit order `["Z"]`, not the empty one. -/
theorem start_outside_graph_runs :
    "Z" ∉ sampleGraph.nodes ∧
    (bfs sampleGraph "Z" View.idle).map (fun r => r.visitedOrder) = some ["Z"] ∧
    (dfs sampleGraph "Z" View.idle).map (fun r => r.visitedOrder) = some ["Z"] ∧
    (dijkstra sampleGraph "Z" View.idle).map (fun r => r.visitedOrder) = some ["Z"] := by
  decide

/-- C13 (amended): for every graph whose edges join its nodes and every start id that
is not a node, `bfs`, `dfs` and `dijkstra` raise no error: the run starts and
completes, visits exactly the start id and emits no edge step. -/
theorem start_outside_graph_visits_start {α : Type} [DecidableEq α] (g : Graph α)
    (startId : α) (v : View α) (hg : g.WellFormed) (hs : startId ∉ g.nodes) :
    (∃ r, bfs g startId v = some r ∧ r.visitedOrder = [startId] ∧ r.activeEdges = [] ∧
      r.trace = [.visit startId none, .done]) ∧
    (∃ r, dfs g startId v = some r ∧ r.visitedOrder = [startId] ∧ r.activeEdges = [] ∧
      r.trace = [.visit startId none, .done]) ∧
    (∃ r, dijkstra g startId v = some r ∧ r.visitedOrder = [startId] ∧ r.activeEdges = [] ∧
      r.trace = [.visit startId (some 0), .done]) :=
  ⟨bfs_isolated g startId v (getNeighbors_outside g startId hg hs),
   dfs_isolated g startId v (getNeighbors_outside g startId hg hs),
   dijkstra_isolated g startId v (getNeighbors_outside g startId hg hs)⟩

theorem sampleGraph_wellFormed : sampleGraph.WellFormed := by
  unfold Graph.WellFormed
  decide

/-- Witness of `start_outside_graph_visits_start`: the sample graph and start `"Z"`. -/
theorem start_outside_graph_visits_start_witness :
    sampleGraph.WellFormed ∧ "Z" ∉ sampleGraph.nodes ∧
    ((∃ r, bfs sampleGraph "Z" View.idle = some r ∧ r.visitedOrder = ["Z"] ∧
        r.activeEdges = [] ∧ r.trace = [.visit "Z" none, .done]) ∧
     (∃ r, dfs sampleGraph "Z" View.idle = some r ∧ r.visitedOrder = ["Z"] ∧
        r.activeEdges = [] ∧ r.trace = [.visit "Z" none, .done]) ∧
     (∃ r, dijkstra sampleGraph "Z" View.idle = some r ∧ r.visitedOrder = ["Z"] ∧
        r.activeEdges = [] ∧ r.trace = [.visit "Z" (some 0), .done])) :=
  ⟨sampleGraph_wellFormed, by decide,
    start_outside_graph_visits_start sampleGraph "Z" View.idle sampleGraph_wellFormed
      (by decide)⟩

end GraphVisualizer
namespace MSTVisualizer

open GraphVisualizer (Graph sampleGraph)

/-! ## Spanning-tree runs on concrete graphs -/

/-- C14 (what the code does at the failing input): on the graph without nodes
`runKruskal` completes at once with no edge step, no committed edge and cost `0`, but
`runPrim` throws on `currentNodes[0].id`, whatever the iteration bound, and leaves
`isRunning` set. -/
theorem empty_graph_runs (fuel : Nat) :
    runKruskal (⟨[], []⟩ : Graph String) View.idle =
      .finished { isRunning := false, nodesInMST := [], mstEdges := [], totalCost := some 0,
                  trace := [.done] } ∧
    runPrim (⟨[], []⟩ : Graph String) fuel View.idle =
      .typeError { isRunning := true, nodesInMST := [], mstEdges := [], totalCost := some 0,
                   trace := [] } :=
  ⟨by decide, rfl⟩

/-- C18 (counterexample): on the sample graph `runKruskal` finishes without ever
examining or refusing `A-C`: the loop is left once three edges are committed. -/
theorem kruskal_sample_never_examines_AC :
    ∃ v, runKruskal sampleGraph View.idle = .finished v ∧
      Step.mstReject "A" "C" ∉ v.trace ∧ Step.edgeExplore "A" "C" ∉ v.trace :=
  ⟨{ isRunning := false,
     nodesInMST := ["A", "B", "C", "D", "B", "C"],
     mstEdges := [⟨"A", "B", 1⟩, ⟨"C", "D", 1⟩, ⟨"B", "C", 2⟩],
     totalCost := some 4,
     trace := [.edgeExplore "A" "B", .mstAdd "A" "B" 1, .edgeExplore "C" "D",
               .mstAdd "C" "D" 1, .edgeExplore "B" "C", .mstAdd "B" "C" 2, .done] },
   by decide, by decide, by decide⟩

/-- C18 (amended): on the sample graph (edges inserted in the order `A-B:1`, `B-C:2`,
`A-C:4`, `C-D:1`) `runKruskal` commits `A-B(1)`, `C-D(1)`, `B-C(2)` in that order,
leaves the loop before examining `A-C(4)`, and reports `totalCost = 4`. -/
theorem kruskal_sample_run :
    runKruskal sampleGraph View.idle =
      .finished
        { isRunning := false,
          nodesInMST := ["A", "B", "C", "D", "B", "C"],
          mstEdges := [⟨"A", "B", 1⟩, ⟨"C", "D", 1⟩, ⟨"B", "C", 2⟩],
          totalCost := some 4,
          trace := [.edgeExplore "A" "B", .mstAdd "A" "B" 1, .edgeExplore "C" "D",
                    .mstAdd "C" "D" 1, .edgeExplore "B" "C", .mstAdd "B" "C" 2, .done] } := by
  decide

/-- C19 (what the code does at the failing input): an invocation made while a run is
active.  `handleSortStart`, `runPrim` and `runKruskal` return with the state unchanged;
`bfs`, `dfs` and `dijkstra` have no such test: called on a view whose run has so far
visited `"B"`, each resets the view and runs to completion. -/
theorem invocation_while_running :
    SortingVisualizer.handleSortStart .bubbleSort none
        { array := [2, 1], isSorting := true, stopFlag := false, trace := [] } =
      some { array := [2, 1], isSorting := true, stopFlag := false, trace := [] } ∧
    runPrim sampleGraph 4
        { isRunning := true, nodesInMST := ["A"], mstEdges := [], totalCost := some 0, trace := [] } =
      .finished
        { isRunning := true, nodesInMST := ["A"], mstEdges := [], totalCost := some 0, trace := [] } ∧
    runKruskal sampleGraph
        { isRunning := true, nodesInMST := ["A"], mstEdges := [], totalCost := some 0, trace := [] } =
      .finished
        { isRunning := true, nodesInMST := ["A"], mstEdges := [], totalCost := some 0, trace := [] } ∧
    (GraphVisualizer.bfs sampleGraph "A"
        { GraphVisualizer.View.idle with isRunning := true, visitedOrder := ["B"] }).map
      (fun r => (r.isRunning, r.visitedOrder)) = some (false, ["A", "B", "C", "D"]) ∧
    (GraphVisualizer.dfs sampleGraph "A"
        { GraphVisualizer.View.idle with isRunning := true, visitedOrder := ["B"] }).map
      (fun r => (r.isRunning, r.visitedOrder)) = some (false, ["A", "B", "C", "D"]) ∧
    (GraphVisualizer.dijkstra sampleGraph "A"
        { GraphVisualizer.View.idle with isRunning := true, visitedOrder := ["B"] }).map
      (fun r => (r.isRunning, r.visitedOrder)) = some (false, ["A", "B", "C", "D"]) := by
  decide

end MSTVisualizer
namespace GraphVisualizer

/-! ## Breadth-first search visits exactly the reachable nodes -/

section

variable {α : Type} [DecidableEq α]

theorem mem_getNeighbors (g : Graph α) (u : α) (nb : α × Nat) :
    nb ∈ getNeighbors g u ↔
      ∃ e ∈ g.edges, (e.src = u ∨ e.dst = u) ∧
        nb = (if e.src = u then e.dst else e.src, e.weight) := by
  unfold getNeighbors
  simp only [List.mem_map, List.mem_filter, Bool.or_eq_true, decide_eq_true_eq]
  constructor
  · rintro ⟨e, ⟨he, hinc⟩, rfl⟩
    exact ⟨e, he, hinc, rfl⟩
  · rintro ⟨e, he, hinc, rfl⟩
    exact ⟨e, ⟨he, hinc⟩, rfl⟩

theorem adj_of_mem_getNeighbors (g : Graph α) (u : α) (nb : α × Nat)
    (h : nb ∈ getNeighbors g u) : Adj g u nb.1 := by
  obtain ⟨e, he, hinc, rfl⟩ := (mem_getNeighbors g u nb).mp h
  refine ⟨e, he, ?_⟩
  by_cases hs : e.src = u
  · rw [if_pos hs]; exact Or.inl ⟨hs, rfl⟩
  · rcases hinc with h1 | h1
    · exact absurd h1 hs
    · rw [if_neg hs]; exact Or.inr ⟨rfl, h1⟩

theorem mem_getNeighbors_of_adj (g : Graph α) (u x : α) (h : Adj g u x) :
    ∃ w, (x, w) ∈ getNeighbors g u := by
  obtain ⟨e, he, h1 | h1⟩ := h
  · refine ⟨e.weight, (mem_getNeighbors g u _).mpr ⟨e, he, Or.inl h1.1, ?_⟩⟩
    rw [if_pos h1.1, h1.2]
  · refine ⟨e.weight, (mem_getNeighbors g u _).mpr ⟨e, he, Or.inr h1.2, ?_⟩⟩
    by_cases hs : e.src = u
    · rw [if_pos hs, h1.2, ← h1.1, hs]
    · rw [if_neg hs, h1.1]

/-- A set of nodes that holds the start and is closed under `getNeighbors` holds every
reachable node. -/
theorem mem_of_reachable_of_closed (g : Graph α) (s : α) (vis : List α) (hs : s ∈ vis)
    (hc : ∀ u ∈ vis, ∀ nb ∈ getNeighbors g u, nb.1 ∈ vis) (x : α) (hx : Reachable g s x) :
    x ∈ vis := by
  induction hx with
  | refl => exact hs
  | tail _ hadj ih =>
    obtain ⟨w, hw⟩ := mem_getNeighbors_of_adj g _ _ hadj
    exact hc _ ih _ hw

theorem bfsNeighbor_fold (cur : α) (vis : List α) (ns : List (α × Nat)) :
    ∀ (v : View α) (q : List α),
      (ns.foldl (bfsNeighbor cur vis) (v, q)).2 =
        q ++ (ns.map Prod.fst).filter (fun x => decide (x ∉ vis)) ∧
      (ns.foldl (bfsNeighbor cur vis) (v, q)).1.visitedOrder = v.visitedOrder := by
  induction ns with
  | nil => intro v q; simp
  | cons nb ns ih =>
    intro v q
    rw [List.foldl_cons]
    by_cases h : nb.1 ∈ vis
    · have e : bfsNeighbor cur vis (v, q) nb = (v, q) := by
        unfold bfsNeighbor; rw [if_pos h]
      rw [e]
      obtain ⟨h1, h2⟩ := ih v q
      refine ⟨?_, h2⟩
      rw [h1]; simp [h]
    · have e : bfsNeighbor cur vis (v, q) nb =
          ({ (markEdge v cur nb.1) with bfsQueue := q ++ [nb.1] }, q ++ [nb.1]) := by
        unfold bfsNeighbor; rw [if_neg h]
      rw [e]
      obtain ⟨h1, h2⟩ := ih { (markEdge v cur nb.1) with bfsQueue := q ++ [nb.1] } (q ++ [nb.1])
      refine ⟨?_, ?_⟩
      · rw [h1]; simp [h]
      · rw [h2]; rfl

theorem unseen_nil (es : List (Edge α)) : unseen es [] = 2 * es.length := by
  induction es with
  | nil => rfl
  | cons e es ih =>
    unfold unseen at ih ⊢
    simp only [List.map_cons, List.sum_cons, List.not_mem_nil, if_false,
      List.length_cons] at ih ⊢
    omega

theorem unseen_visit (es : List (Edge α)) (vis : List α) (cur : α) (h : cur ∉ vis) :
    unseen es (vis ++ [cur]) +
      (es.filter (fun e => decide (e.src = cur) || decide (e.dst = cur))).length ≤
      unseen es vis := by
  induction es with
  | nil => simp [unseen]
  | cons e es ih =>
    unfold unseen at ih ⊢
    simp only [List.map_cons, List.sum_cons, List.filter_cons, List.mem_append,
      List.mem_singleton]
    by_cases hs : e.src = cur <;> by_cases hd : e.dst = cur <;>
      by_cases ms : e.src ∈ vis <;> by_cases md : e.dst ∈ vis <;>
      simp [hs, hd, ms, md, h] at ih ⊢ <;>
      omega

theorem getNeighbors_length (g : Graph α) (cur : α) :
    (getNeighbors g cur).length =
      (g.edges.filter (fun e => decide (e.src = cur) || decide (e.dst = cur))).length := by
  unfold getNeighbors
  rw [List.length_map]

/-- The loop ends within the bound, and at its end the visit order is the local set
`visited`, has no repetition, holds only reachable nodes, holds the start and is closed
under `getNeighbors`. -/
theorem bfsLoop_spec (g : Graph α) (s : α) :
    ∀ (fuel : Nat) (v : View α) (vis q : List α),
      q.length + unseen g.edges vis ≤ fuel →
      v.visitedOrder = vis → vis.Nodup →
      (∀ x ∈ vis, Reachable g s x) → (∀ x ∈ q, Reachable g s x) →
      (∀ u ∈ vis, ∀ nb ∈ getNeighbors g u, nb.1 ∈ vis ∨ nb.1 ∈ q) →
      (s ∈ vis ∨ s ∈ q) →
      ∃ r, bfsLoop g fuel v vis q = some r ∧ r.1.visitedOrder = r.2 ∧ r.2.Nodup ∧
        (∀ x ∈ r.2, Reachable g s x) ∧ s ∈ r.2 ∧
        (∀ u ∈ r.2, ∀ nb ∈ getNeighbors g u, nb.1 ∈ r.2) := by
  intro fuel
  induction fuel with
  | zero =>
    intro v vis q hf hv hnd hr _ hc hs
    have hq : q = [] := List.length_eq_zero.mp (by omega)
    subst hq
    refine ⟨(v, vis), by simp [bfsLoop], hv, hnd, hr, ?_, ?_⟩
    · rcases hs with h | h
      · exact h
      · simp at h
    · intro u hu nb hnb
      rcases hc u hu nb hnb with h | h
      · exact h
      · simp at h
  | succ fuel ih =>
    intro v vis q hf hv hnd hr hqr hc hs
    cases q with
    | nil =>
      refine ⟨(v, vis), by simp [bfsLoop], hv, hnd, hr, ?_, ?_⟩
      · rcases hs with h | h
        · exact h
        · simp at h
      · intro u hu nb hnb
        rcases hc u hu nb hnb with h | h
        · exact h
        · simp at h
    | cons cur rest =>
      simp only [bfsLoop]
      by_cases hcur : cur ∈ vis
      · rw [if_pos hcur]
        apply ih
        · simp only [List.length_cons] at hf; omega
        · exact hv
        · exact hnd
        · exact hr
        · exact fun x hx => hqr x (List.mem_cons_of_mem _ hx)
        · intro u hu nb hnb
          rcases hc u hu nb hnb with h | h
          · exact Or.inl h
          · rcases List.mem_cons.mp h with h | h
            · exact Or.inl (h ▸ hcur)
            · exact Or.inr h
        · rcases hs with h | h
          · exact Or.inl h
          · rcases List.mem_cons.mp h with h | h
            · exact Or.inl (h ▸ hcur)
            · exact Or.inr h
      · rw [if_neg hcur]
        obtain ⟨f1, f2⟩ := bfsNeighbor_fold cur (vis ++ [cur]) (getNeighbors g cur)
          (markVisited { v with bfsQueue := rest } cur none) rest
        have hcr : Reachable g s cur := hqr cur (List.mem_cons_self _ _)
        apply ih
        · rw [f1, List.length_append]
          have h1 := unseen_visit g.edges vis cur hcur
          have h2 := getNeighbors_length g cur
          have h3 : ((List.map Prod.fst (getNeighbors g cur)).filter
              (fun x => decide (x ∉ vis ++ [cur]))).length ≤ (getNeighbors g cur).length := by
            refine le_trans (List.length_filter_le _ _) ?_
            rw [List.length_map]
          simp only [List.length_cons] at hf
          omega
        · rw [f2]
          show v.visitedOrder ++ [cur] = vis ++ [cur]
          rw [hv]
        · exact List.Nodup.append hnd (List.nodup_singleton cur)
            (by
              intro x hx1 hx2
              rw [List.mem_singleton] at hx2
              exact hcur (hx2 ▸ hx1))
        · intro x hx
          rcases List.mem_append.mp hx with h | h
          · exact hr x h
          · rw [List.mem_singleton] at h; rw [h]; exact hcr
        · intro x hx
          rw [f1] at hx
          rcases List.mem_append.mp hx with h | h
          · exact hqr x (List.mem_cons_of_mem _ h)
          · have h' := (List.mem_filter.mp h).1
            obtain ⟨nb, hnb, rfl⟩ := List.mem_map.mp h'
            exact Relation.ReflTransGen.tail hcr (adj_of_mem_getNeighbors g cur nb hnb)
        · intro u hu nb hnb
          rw [f1]
          rcases List.mem_append.mp hu with h | h
          · rcases hc u h nb hnb with h2 | h2
            · exact Or.inl (List.mem_append_left _ h2)
            · rcases List.mem_cons.mp h2 with h3 | h3
              · exact Or.inl (List.mem_append_right _ (by rw [h3]; exact List.mem_singleton_self _))
              · exact Or.inr (List.mem_append_left _ h3)
          · rw [List.mem_singleton] at h
            subst h
            by_cases hm : nb.1 ∈ vis ++ [u]
            · exact Or.inl hm
            · refine Or.inr (List.mem_append_right _ (List.mem_filter.mpr ⟨?_, by simpa using hm⟩))
              exact List.mem_map.mpr ⟨nb, hnb, rfl⟩
        · rcases hs with h | h
          · exact Or.inl (List.mem_append_left _ h)
          · rcases List.mem_cons.mp h with h | h
            · exact Or.inl (List.mem_append_right _ (by rw [h]; exact List.mem_singleton_self _))
            · exact Or.inr (by rw [f1]; exact List.mem_append_left _ h)

/-- The run of `bfs` returns; its visit order has no repetition and holds exactly the
nodes reachable from the start. -/
theorem bfs_spec (g : Graph α) (startId : α) (v : View α) :
    ∃ r, bfs g startId v = some r ∧ r.visitedOrder.Nodup ∧
      ∀ x, x ∈ r.visitedOrder ↔ Reachable g startId x := by
  obtain ⟨r, e, h1, h2, h3, h4, h5⟩ := bfsLoop_spec g startId (2 * g.edges.length + 2)
    { (beginRun v) with bfsQueue := [startId] } [] [startId]
    (by rw [unseen_nil]; simp; omega) rfl List.nodup_nil (by simp)
    (by
      intro x hx
      rw [List.mem_singleton] at hx
      rw [hx]; exact Relation.ReflTransGen.refl)
    (by simp) (Or.inr (List.mem_singleton_self _))
  unfold bfs
  rw [e]
  refine ⟨_, rfl, ?_, ?_⟩
  · show r.1.visitedOrder.Nodup
    rw [h1]; exact h2
  · intro x
    show x ∈ r.1.visitedOrder ↔ _
    rw [h1]
    exact ⟨h3 x, mem_of_reachable_of_closed g startId r.2 h4 h5 x⟩

end

/-- C11: for every graph and every start id, `bfs` terminates and its visit order
holds exactly the nodes reachable from the start, each exactly once; in particular a
node that cannot be reached from the start is not visited. -/
theorem bfs_visits_reachable {α : Type} [DecidableEq α] (g : Graph α) (startId : α)
    (v : View α) :
    ∃ r, bfs g startId v = some r ∧ r.visitedOrder.Nodup ∧
      (∀ x, x ∈ r.visitedOrder ↔ Reachable g startId x) ∧
      (∀ x, ¬ Reachable g startId x → x ∉ r.visitedOrder) := by
  obtain ⟨r, e, h1, h2⟩ := bfs_spec g startId v
  exact ⟨r, e, h1, h2, fun x hx hm => hx ((h2 x).mp hm)⟩

end GraphVisualizer
namespace GraphVisualizer

/-! ## Depth-first search visits exactly the reachable nodes -/

section

variable {α : Type} [DecidableEq α]

theorem dfsRecursive_succ (g : Graph α) (fuel : Nat) (st : View α × List α) (u : α) :
    dfsRecursive g (fuel + 1) st u =
      if u ∈ st.2 then some ({ st.1 with dfsStack := st.1.dfsStack.dropLast }, st.2)
      else
        match (getNeighbors g u).foldl (dfsNeighbor g fuel u)
            (some (markVisited st.1 u none, st.2 ++ [u])) with
        | none => none
        | some s => some ({ s.1 with dfsStack := s.1.dfsStack.dropLast }, s.2) := by
  rfl

theorem unseen_mono (es : List (Edge α)) (a b : List α) (h : ∀ x ∈ a, x ∈ b) :
    unseen es b ≤ unseen es a := by
  induction es with
  | nil => simp [unseen]
  | cons e es ih =>
    unfold unseen at ih ⊢
    simp only [List.map_cons, List.sum_cons]
    have h1 : (if e.src ∈ b then 0 else 1) ≤ (if e.src ∈ a then 0 else 1) := by
      by_cases m : e.src ∈ a
      · simp [m, h _ m]
      · simp only [m, if_false]; split <;> omega
    have h2 : (if e.dst ∈ b then 0 else 1) ≤ (if e.dst ∈ a then 0 else 1) := by
      by_cases m : e.dst ∈ a
      · simp [m, h _ m]
      · simp only [m, if_false]; split <;> omega
    omega

theorem unseen_visit_neighbor (g : Graph α) (vis : List α) (u : α) (nb : α × Nat)
    (hnb : nb ∈ getNeighbors g u) (h : nb.1 ∉ vis) :
    unseen g.edges (vis ++ [nb.1]) + 1 ≤ unseen g.edges vis := by
  have h1 := unseen_visit g.edges vis nb.1 h
  have h2 : 1 ≤ (g.edges.filter
      (fun e => decide (e.src = nb.1) || decide (e.dst = nb.1))).length := by
    obtain ⟨e, he, hinc, rfl⟩ := (mem_getNeighbors g u nb).mp hnb
    apply List.length_pos_of_mem (a := e)
    rw [List.mem_filter]
    refine ⟨he, ?_⟩
    by_cases hs : e.src = u
    · simp [hs]
    · simp [hs]
  omega

/-- Invariant of a depth-first run started at `u` from the visited set `vis`: the set
has grown, holds `u`, its new members are reachable from `u`, and every new member
other than those in `skip` has all its neighbours in the set. -/
theorem dfs_spec_aux (g : Graph α) :
    ∀ (fuel : Nat) (v : View α) (vis : List α) (u : α),
      u ∉ vis → v.visitedOrder = vis → vis.Nodup → unseen g.edges (vis ++ [u]) < fuel →
      ∃ r, dfsRecursive g fuel (v, vis) u = some r ∧ r.1.visitedOrder = r.2 ∧ r.2.Nodup ∧
        (∀ x ∈ vis, x ∈ r.2) ∧ u ∈ r.2 ∧
        (∀ x ∈ r.2, x ∈ vis ∨ Reachable g u x) ∧
        (∀ x ∈ r.2, x ∉ vis → ∀ nb ∈ getNeighbors g x, nb.1 ∈ r.2) := by
  intro fuel
  induction fuel with
  | zero => intro v vis u _ _ _ hf; omega
  | succ fuel ih =>
    intro v vis u hu hv hnd hf
    -- the loop over the neighbours of `u`
    have loop : ∀ (ns : List (α × Nat)) (st : View α × List α),
        (∀ nb ∈ ns, nb ∈ getNeighbors g u) →
        st.1.visitedOrder = st.2 → st.2.Nodup →
        (∀ x ∈ vis ++ [u], x ∈ st.2) →
        (∀ x ∈ st.2, x ∈ vis ∨ Reachable g u x) →
        (∀ x ∈ st.2, x ∉ vis → x ≠ u → ∀ nb ∈ getNeighbors g x, nb.1 ∈ st.2) →
        ∃ r, ns.foldl (dfsNeighbor g fuel u) (some st) = some r ∧
          r.1.visitedOrder = r.2 ∧ r.2.Nodup ∧
          (∀ x ∈ st.2, x ∈ r.2) ∧
          (∀ x ∈ r.2, x ∈ vis ∨ Reachable g u x) ∧
          (∀ x ∈ r.2, x ∉ vis → x ≠ u → ∀ nb ∈ getNeighbors g x, nb.1 ∈ r.2) ∧
          (∀ nb ∈ ns, nb.1 ∈ r.2) := by
      intro ns
      induction ns with
      | nil =>
        intro st _ h1 h2 _ h4 h5
        exact ⟨st, rfl, h1, h2, fun x hx => hx, h4, h5, by simp⟩
      | cons nb ns ihn =>
        intro st hns h1 h2 h3 h4 h5
        rw [List.foldl_cons]
        have hnb : nb ∈ getNeighbors g u := hns nb (List.mem_cons_self _ _)
        have hns' : ∀ x ∈ ns, x ∈ getNeighbors g u :=
          fun x hx => hns x (List.mem_cons_of_mem _ hx)
        by_cases hm : nb.1 ∈ st.2
        · have e : dfsNeighbor g fuel u (some st) nb = some st := by
            unfold dfsNeighbor; simp only [hm, if_true]
          rw [e]
          obtain ⟨r, r0, r1, r2, r3, r4, r5, r6⟩ := ihn st hns' h1 h2 h3 h4 h5
          refine ⟨r, r0, r1, r2, r3, r4, r5, ?_⟩
          intro x hx
          rcases List.mem_cons.mp hx with h | h
          · rw [h]; exact r3 _ hm
          · exact r6 x h
        · have e : dfsNeighbor g fuel u (some st) nb =
              dfsRecursive g fuel
                (markEdge { st.1 with dfsStack := st.1.dfsStack ++ [nb.1] } u nb.1, st.2)
                nb.1 := by
            unfold dfsNeighbor; simp only [hm, if_false]
          rw [e]
          have hfuel : unseen g.edges (st.2 ++ [nb.1]) < fuel := by
            have a1 := unseen_visit_neighbor g st.2 u nb hnb hm
            have a2 := unseen_mono g.edges (vis ++ [u]) st.2 h3
            omega
          obtain ⟨r, r0, r1, r2, r3, r4, r5, r6⟩ := ih
            (markEdge { st.1 with dfsStack := st.1.dfsStack ++ [nb.1] } u nb.1) st.2 nb.1
            hm h1 h2 hfuel
          rw [r0]
          have hreach : Reachable g u nb.1 :=
            Relation.ReflTransGen.single (adj_of_mem_getNeighbors g u nb hnb)
          obtain ⟨q, q0, q1, q2, q3, q4, q5, q6⟩ := ihn r hns' r1 r2
            (fun x hx => r3 x (h3 x hx))
            (by
              intro x hx
              rcases r5 x hx with h | h
              · exact h4 x h
              · exact Or.inr (Relation.ReflTransGen.trans hreach h))
            (by
              intro x hx hxv hxu y hy
              by_cases hxs : x ∈ st.2
              · exact r3 _ (h5 x hxs hxv hxu y hy)
              · exact r6 x hx hxs y hy)
          refine ⟨q, q0, q1, q2, fun x hx => q3 x (r3 x hx), q4, q5, ?_⟩
          intro x hx
          rcases List.mem_cons.mp hx with h | h
          · rw [h]; exact q3 _ r4
          · exact q6 x h
    rw [dfsRecursive_succ]
    simp only [hu, if_false]
    obtain ⟨r, r0, r1, r2, r3, r4, r5, r6⟩ := loop (getNeighbors g u)
      (markVisited v u none, vis ++ [u]) (fun nb h => h)
      (by show v.visitedOrder ++ [u] = vis ++ [u]; rw [hv])
      (List.Nodup.append hnd (List.nodup_singleton u)
        (by
          intro x hx1 hx2
          rw [List.mem_singleton] at hx2
          exact hu (hx2 ▸ hx1)))
      (fun x hx => hx)
      (by
        intro x hx
        rcases List.mem_append.mp hx with h | h
        · exact Or.inl h
        · rw [List.mem_singleton] at h
          rw [h]; exact Or.inr Relation.ReflTransGen.refl)
      (by
        intro x hx hxv hxu
        rcases List.mem_append.mp hx with h | h
        · exact absurd h hxv
        · rw [List.mem_singleton] at h
          exact absurd h hxu)
    rw [r0]
    refine ⟨_, rfl, r1, r2, ?_, ?_, r4, ?_⟩
    · exact fun x hx => r3 x (List.mem_append_left _ hx)
    · exact r3 u (List.mem_append_right _ (List.mem_singleton_self _))
    · intro x hx hxv y hy
      by_cases hxu : x = u
      · subst hxu; exact r6 y hy
      · exact r5 x hx hxv hxu y hy

/-- The run of `dfs` returns; its visit order has no repetition and holds exactly the
nodes reachable from the start. -/
theorem dfs_spec (g : Graph α) (startId : α) (v : View α) :
    ∃ r, dfs g startId v = some r ∧ r.visitedOrder.Nodup ∧
      ∀ x, x ∈ r.visitedOrder ↔ Reachable g startId x := by
  obtain ⟨r, e, h1, h2, _, h4, h5, h6⟩ := dfs_spec_aux g (2 * g.edges.length + 1)
    { (beginRun v) with dfsStack := [startId] } [] startId (by simp) rfl List.nodup_nil
    (by
      have := unseen_mono g.edges [] ([] ++ [startId]) (by simp)
      rw [unseen_nil] at this
      omega)
  unfold dfs
  rw [e]
  refine ⟨_, rfl, ?_, ?_⟩
  · show r.1.visitedOrder.Nodup
    rw [h1]; exact h2
  · intro x
    show x ∈ r.1.visitedOrder ↔ _
    rw [h1]
    constructor
    · intro hx
      rcases h5 x hx with h | h
      · simp at h
      · exact h
    · exact mem_of_reachable_of_closed g startId r.2 h4
        (fun u hu nb hnb => h6 u hu (by simp) nb hnb) x

end

/-- C12: for every connected graph (edges joining nodes of the node list, every node
reachable from every node) and every start node in it, `dfs` and `bfs` both return and
visit the same set of nodes, namely the whole node set. -/
theorem dfs_bfs_same_nodes {α : Type} [DecidableEq α] (g : Graph α) (startId : α)
    (v w : View α) (hwf : g.WellFormed) (hc : g.Connected) (hs : startId ∈ g.nodes) :
    ∃ rd rb, dfs g startId v = some rd ∧ bfs g startId w = some rb ∧
      (∀ x, x ∈ rd.visitedOrder ↔ x ∈ rb.visitedOrder) ∧
      (∀ x, x ∈ rd.visitedOrder ↔ x ∈ g.nodes) := by
  obtain ⟨rd, ed, _, hd⟩ := dfs_spec g startId v
  obtain ⟨rb, eb, _, hb⟩ := bfs_spec g startId w
  refine ⟨rd, rb, ed, eb, fun x => by rw [hd, hb], ?_⟩
  intro x
  rw [hd]
  constructor
  · intro hr
    induction hr with
    | refl => exact hs
    | tail _ hadj _ =>
      obtain ⟨e, he, h | h⟩ := hadj
      · exact h.2 ▸ (hwf e he).2
      · exact h.1 ▸ (hwf e he).1
  · exact fun hx => hc startId hs x hx

theorem sampleGraph_connected : sampleGraph.Connected := by
  have hAB : Adj sampleGraph "A" "B" := ⟨⟨"A", "B", 1⟩, by decide, Or.inl ⟨rfl, rfl⟩⟩
  have hBC : Adj sampleGraph "B" "C" := ⟨⟨"B", "C", 2⟩, by decide, Or.inl ⟨rfl, rfl⟩⟩
  have hCD : Adj sampleGraph "C" "D" := ⟨⟨"C", "D", 1⟩, by decide, Or.inl ⟨rfl, rfl⟩⟩
  have hBA : Adj sampleGraph "B" "A" := ⟨⟨"A", "B", 1⟩, by decide, Or.inr ⟨rfl, rfl⟩⟩
  have hCB : Adj sampleGraph "C" "B" := ⟨⟨"B", "C", 2⟩, by decide, Or.inr ⟨rfl, rfl⟩⟩
  have hDC : Adj sampleGraph "D" "C" := ⟨⟨"C", "D", 1⟩, by decide, Or.inr ⟨rfl, rfl⟩⟩
  have toA : ∀ u ∈ sampleGraph.nodes, Reachable sampleGraph u "A" := by
    intro u hu
    simp only [sampleGraph, List.mem_cons, List.mem_singleton, List.not_mem_nil, or_false] at hu
    rcases hu with rfl | rfl | rfl | rfl
    · exact Relation.ReflTransGen.refl
    · exact Relation.ReflTransGen.single hBA
    · exact (Relation.ReflTransGen.single hCB).tail hBA
    · exact ((Relation.ReflTransGen.single hDC).tail hCB).tail hBA
  have fromA : ∀ u ∈ sampleGraph.nodes, Reachable sampleGraph "A" u := by
    intro u hu
    simp only [sampleGraph, List.mem_cons, List.mem_singleton, List.not_mem_nil, or_false] at hu
    rcases hu with rfl | rfl | rfl | rfl
    · exact Relation.ReflTransGen.refl
    · exact Relation.ReflTransGen.single hAB
    · exact (Relation.ReflTransGen.single hAB).tail hBC
    · exact ((Relation.ReflTransGen.single hAB).tail hBC).tail hCD
  intro u hu x hx
  exact (toA u hu).trans (fromA x hx)

/-- Witness of `dfs_bfs_same_nodes`: the sample graph, start `"A"`. -/
theorem dfs_bfs_same_nodes_witness :
    sampleGraph.WellFormed ∧ sampleGraph.Connected ∧ "A" ∈ sampleGraph.nodes ∧
    ∃ rd rb, dfs sampleGraph "A" View.idle = some rd ∧ bfs sampleGraph "A" View.idle = some rb ∧
      (∀ x, x ∈ rd.visitedOrder ↔ x ∈ rb.visitedOrder) ∧
      (∀ x, x ∈ rd.visitedOrder ↔ x ∈ sampleGraph.nodes) :=
  ⟨sampleGraph_wellFormed, sampleGraph_connected, by decide,
    dfs_bfs_same_nodes sampleGraph "A" View.idle View.idle sampleGraph_wellFormed
      sampleGraph_connected (by decide)⟩

end GraphVisualizer
namespace GraphVisualizer

/-! ## Dijkstra computes the least path weights -/

section

variable {α : Type} [DecidableEq α]

theorem wadj_of_mem_getNeighbors (g : Graph α) (u : α) (nb : α × Nat)
    (h : nb ∈ getNeighbors g u) : WAdj g u nb.1 nb.2 := by
  obtain ⟨e, he, hinc, rfl⟩ := (mem_getNeighbors g u nb).mp h
  refine ⟨e, he, rfl, ?_⟩
  by_cases hs : e.src = u
  · rw [if_pos hs]; exact Or.inl ⟨hs, rfl⟩
  · rcases hinc with h1 | h1
    · exact absurd h1 hs
    · rw [if_neg hs]; exact Or.inr ⟨rfl, h1⟩

theorem mem_getNeighbors_of_wadj (g : Graph α) (u x : α) (c : Nat) (h : WAdj g u x c) :
    (x, c) ∈ getNeighbors g u := by
  obtain ⟨e, he, hw, h1 | h1⟩ := h
  · refine (mem_getNeighbors g u _).mpr ⟨e, he, Or.inl h1.1, ?_⟩
    rw [if_pos h1.1, h1.2, hw]
  · refine (mem_getNeighbors g u _).mpr ⟨e, he, Or.inr h1.2, ?_⟩
    by_cases hs : e.src = u
    · rw [if_pos hs, h1.2, ← h1.1, hs, hw]
    · rw [if_neg hs, h1.1, hw]

theorem reachable_of_walk (g : Graph α) (u x : α) (w : Nat) (h : Walk g u x w) :
    Reachable g u x := by
  induction h with
  | nil => exact Relation.ReflTransGen.refl
  | snoc _ hadj ih =>
    obtain ⟨e, he, _, h1⟩ := hadj
    exact Relation.ReflTransGen.tail ih ⟨e, he, h1⟩

theorem mem_nodes_of_neighbor (g : Graph α) (hg : g.WellFormed) (u : α) (nb : α × Nat)
    (h : nb ∈ getNeighbors g u) : nb.1 ∈ g.nodes := by
  obtain ⟨e, he, _, rfl⟩ := (mem_getNeighbors g u nb).mp h
  obtain ⟨h1, h2⟩ := hg e he
  show (if e.src = u then e.dst else e.src) ∈ g.nodes
  split
  · exact h2
  · exact h1

/-- One iteration of the neighbour loop keeps the invariant and records the entry as
relaxed, when the sums stay exact. -/
theorem dijkstraNeighbor_inv (g : Graph α) (hg : g.WellFormed) (start cur : α)
    (hb : ExactSums g start) (d : Nat)
    (visited : List α) (rel : α → α × Nat → Prop) (s : DState α) (nb : α × Nat)
    (hinv : DInv g start s visited rel) (hcur : cur ∈ visited)
    (hd : s.newDistances cur = some (some d)) (hnb : nb ∈ getNeighbors g cur) :
    DInv g start (dijkstraNeighbor cur d visited s nb) visited
      (fun u x => rel u x ∨ (u = cur ∧ x = nb)) ∧
    (dijkstraNeighbor cur d visited s nb).pq.length ≤ s.pq.length + 1 ∧
    (dijkstraNeighbor cur d visited s nb).newDistances cur = some (some d) := by
  have hwalk : Walk g start nb.1 (d + nb.2) :=
    Walk.snoc (hinv.sound cur d hd) (wadj_of_mem_getNeighbors g cur nb hnb)
  have hkey : s.newDistances nb.1 ≠ none :=
    hinv.keys nb.1 (mem_nodes_of_neighbor g hg cur nb hnb)
  have hadd : JsNumber.numAdd d nb.2 = some (d + nb.2) := by
    obtain ⟨a, ha1, ha2⟩ := hinv.opt cur hcur
    rw [hd] at ha1
    have had : d = a := by simpa using ha1
    exact JsNumber.numAdd_exact _ _ (hb cur d nb.1 nb.2 (hinv.sound cur d hd)
      (by rw [had]; exact ha2) (wadj_of_mem_getNeighbors g cur nb hnb))
  unfold dijkstraNeighbor
  by_cases hv : nb.1 ∈ visited
  · simp only [hv, if_true]
    refine ⟨⟨hinv.view_eq, hinv.order, hinv.keys, hinv.sound, hinv.opt, ?_, ?_, hinv.queued,
      hinv.stale, hinv.start0⟩, Nat.le_succ _, hd⟩
    · rintro u x (h | ⟨rfl, rfl⟩)
      · exact hinv.rel_vis u x h
      · exact ⟨hcur, hnb⟩
    · rintro u x (h | ⟨rfl, rfl⟩)
      · exact hinv.relaxed u x h
      · obtain ⟨b, hb1, hb2⟩ := hinv.opt x.1 hv
        exact ⟨d, b, hd, hb1, hb2 _ hwalk⟩
  · simp only [hv, if_false, hadd]
    by_cases hlt : distLt (d + nb.2) (s.newDistances nb.1) = true
    · simp only [hlt, if_true]
      have hne : nb.1 ≠ cur := fun h => hv (h ▸ hcur)
      have hlow : ∀ b, s.newDistances nb.1 = some (some b) → d + nb.2 < b := by
        intro b hb
        rw [hb] at hlt
        simpa [distLt] using hlt
      have hns : nb.1 ≠ start := by
        intro h
        have := hlow 0 (h ▸ hinv.start0)
        omega
      refine ⟨⟨rfl, hinv.order, ?_, ?_, ?_, ?_, ?_, ?_, ?_, ?_⟩, by simp, ?_⟩
      rotate_right
      · show (if cur = nb.1 then some (some (d + nb.2)) else s.newDistances cur) = _
        rw [if_neg (fun e => hne e.symm)]; exact hd
      · intro x hx
        show (if x = nb.1 then some (some (d + nb.2)) else s.newDistances x) ≠ none
        split
        · simp
        · exact hinv.keys x hx
      · intro x a hx
        have hx' : (if x = nb.1 then some (some (d + nb.2)) else s.newDistances x) =
            some (some a) := hx
        by_cases e : x = nb.1
        · rw [if_pos e] at hx'
          have : d + nb.2 = a := by simpa using hx'
          rw [e, ← this]; exact hwalk
        · rw [if_neg e] at hx'
          exact hinv.sound x a hx'
      · intro x hx
        have e : x ≠ nb.1 := fun h => hv (h ▸ hx)
        obtain ⟨a, ha1, ha2⟩ := hinv.opt x hx
        refine ⟨a, ?_, ha2⟩
        show (if x = nb.1 then some (some (d + nb.2)) else s.newDistances x) = some (some a)
        rw [if_neg e]; exact ha1
      · rintro u x (h | ⟨rfl, rfl⟩)
        · exact hinv.rel_vis u x h
        · exact ⟨hcur, hnb⟩
      · rintro u x (h | ⟨rfl, rfl⟩)
        · obtain ⟨a, b, h1, h2, h3⟩ := hinv.relaxed u x h
          have hu : u ≠ nb.1 := fun e => hv (e ▸ (hinv.rel_vis u x h).1)
          by_cases e : x.1 = nb.1
          · refine ⟨a, d + nb.2, ?_, ?_, ?_⟩
            · show (if u = nb.1 then some (some (d + nb.2)) else s.newDistances u) = _
              rw [if_neg hu]; exact h1
            · show (if x.1 = nb.1 then some (some (d + nb.2)) else s.newDistances x.1) = _
              rw [if_pos e]
            · have := hlow b (e ▸ h2)
              omega
          · refine ⟨a, b, ?_, ?_, h3⟩
            · show (if u = nb.1 then some (some (d + nb.2)) else s.newDistances u) = _
              rw [if_neg hu]; exact h1
            · show (if x.1 = nb.1 then some (some (d + nb.2)) else s.newDistances x.1) = _
              rw [if_neg e]; exact h2
        · refine ⟨d, d + x.2, ?_, ?_, le_refl _⟩
          · show (if u = x.1 then some (some (d + x.2)) else s.newDistances u) = _
            rw [if_neg (fun e => hne e.symm)]; exact hd
          · show (if x.1 = x.1 then some (some (d + x.2)) else s.newDistances x.1) = _
            rw [if_pos rfl]
      · intro x a hx hxa
        have hxa' : (if x = nb.1 then some (some (d + nb.2)) else s.newDistances x) =
            some (some a) := hxa
        show (x, a) ∈ s.pq ++ [(nb.1, d + nb.2)]
        by_cases e : x = nb.1
        · rw [if_pos e] at hxa'
          have : d + nb.2 = a := by simpa using hxa'
          rw [e, ← this]
          exact List.mem_append_right _ (List.mem_singleton_self _)
        · rw [if_neg e] at hxa'
          exact List.mem_append_left _ (hinv.queued x a hx hxa')
      · intro x a hx
        have hx' : (x, a) ∈ s.pq ++ [(nb.1, d + nb.2)] := hx
        show ∃ b, (if x = nb.1 then some (some (d + nb.2)) else s.newDistances x) =
          some (some b) ∧ b ≤ a
        rcases List.mem_append.mp hx' with h | h
        · obtain ⟨b, hb1, hb2⟩ := hinv.stale x a h
          by_cases e : x = nb.1
          · rw [if_pos e]
            have := hlow b (e ▸ hb1)
            exact ⟨d + nb.2, rfl, by omega⟩
          · rw [if_neg e]; exact ⟨b, hb1, hb2⟩
        · rw [List.mem_singleton] at h
          injection h with h1 h2
          rw [if_pos h1]
          exact ⟨d + nb.2, rfl, by omega⟩
      · show (if start = nb.1 then some (some (d + nb.2)) else s.newDistances start) = _
        rw [if_neg (fun e => hns e.symm)]; exact hinv.start0
    · simp only [hlt, Bool.false_eq_true, if_false]
      refine ⟨⟨hinv.view_eq, hinv.order, hinv.keys, hinv.sound, hinv.opt, ?_, ?_, hinv.queued,
        hinv.stale, hinv.start0⟩, Nat.le_succ _, hd⟩
      · rintro u x (h | ⟨rfl, rfl⟩)
        · exact hinv.rel_vis u x h
        · exact ⟨hcur, hnb⟩
      · rintro u x (h | ⟨rfl, rfl⟩)
        · exact hinv.relaxed u x h
        · cases hx : s.newDistances x.1 with
          | none => exact absurd hx hkey
          | some o =>
            cases o with
            | none => rw [hx] at hlt; simp [distLt] at hlt
            | some b =>
              rw [hx] at hlt
              have : ¬ d + x.2 < b := by simpa [distLt] using hlt
              exact ⟨d, b, hd, rfl, by omega⟩

theorem DInv.weaken {g : Graph α} {start : α} {s : DState α} {visited : List α}
    {rel rel2 : α → α × Nat → Prop} (h : DInv g start s visited rel)
    (hr : ∀ u x, rel2 u x → rel u x) : DInv g start s visited rel2 :=
  ⟨h.view_eq, h.order, h.keys, h.sound, h.opt, fun u x hx => h.rel_vis u x (hr u x hx),
    fun u x hx => h.relaxed u x (hr u x hx), h.queued, h.stale, h.start0⟩

/-- The neighbour loop keeps the invariant and relaxes every neighbour entry. -/
theorem dijkstraNeighbor_fold (g : Graph α) (hg : g.WellFormed) (start cur : α)
    (hb : ExactSums g start) (d : Nat) (visited : List α) (hcur : cur ∈ visited) :
    ∀ (ns : List (α × Nat)) (rel : α → α × Nat → Prop) (s : DState α),
      DInv g start s visited rel → s.newDistances cur = some (some d) →
      (∀ nb ∈ ns, nb ∈ getNeighbors g cur) →
      DInv g start (ns.foldl (dijkstraNeighbor cur d visited) s) visited
        (fun u x => rel u x ∨ (u = cur ∧ x ∈ ns)) ∧
      (ns.foldl (dijkstraNeighbor cur d visited) s).pq.length ≤ s.pq.length + ns.length := by
  intro ns
  induction ns with
  | nil =>
    intro rel s hinv _ _
    refine ⟨hinv.weaken ?_, le_refl _⟩
    rintro u x (h | ⟨_, h⟩)
    · exact h
    · simp at h
  | cons nb ns ih =>
    intro rel s hinv hd hns
    rw [List.foldl_cons]
    obtain ⟨i1, l1, d1⟩ := dijkstraNeighbor_inv g hg start cur hb d visited rel s nb hinv hcur hd
      (hns nb (List.mem_cons_self _ _))
    obtain ⟨i2, l2⟩ := ih _ _ i1 d1 (fun x hx => hns x (List.mem_cons_of_mem _ hx))
    refine ⟨i2.weaken ?_, by simp only [List.length_cons]; omega⟩
    rintro u x (h | ⟨h1, h2⟩)
    · exact Or.inl (Or.inl h)
    · rcases List.mem_cons.mp h2 with h3 | h3
      · exact Or.inl (Or.inr ⟨h1, h3⟩)
      · exact Or.inr ⟨h1, h3⟩

/-- A path that ends outside the finalized set passes through a node outside it
whose tentative distance is at most the weight of the path. -/
theorem dijkstra_first_exit (g : Graph α) (start : α) (s : DState α) (visited : List α)
    (hinv : DInv g start s visited (fun u x => u ∈ visited ∧ x ∈ getNeighbors g u))
    (x : α) (w : Nat) (hw : Walk g start x w) :
    x ∉ visited → ∃ y a, y ∉ visited ∧ s.newDistances y = some (some a) ∧ a ≤ w := by
  induction hw with
  | nil => intro hx; exact ⟨start, 0, hx, hinv.start0, le_refl _⟩
  | @snoc v x w c _ hadj ih =>
    intro hx
    by_cases hv : v ∈ visited
    · obtain ⟨a, ha1, ha2⟩ := hinv.opt v hv
      obtain ⟨a2, b, hb1, hb2, hb3⟩ := hinv.relaxed v (x, c)
        ⟨hv, mem_getNeighbors_of_wadj g v x c hadj⟩
      rw [ha1] at hb1
      have : a = a2 := by simpa using hb1
      have := ha2 _ ‹Walk g start v w›
      exact ⟨x, b, hx, hb2, by simp only at hb3; omega⟩
    · obtain ⟨y, a, h1, h2, h3⟩ := ih hv
      exact ⟨y, a, h1, h2, by omega⟩

theorem sortPq_sorted (pq : List (α × Nat)) :
    (sortPq pq).Sorted (fun a b => a.2 ≤ b.2) :=
  @List.sorted_insertionSort (α × Nat) (fun a b => a.2 ≤ b.2) _
    ⟨fun a b => le_total a.2 b.2⟩ ⟨fun _ _ _ h1 h2 => le_trans h1 h2⟩ pq

theorem sortPq_cons (pq : List (α × Nat)) (hd : α × Nat) (rest : List (α × Nat))
    (h : sortPq pq = hd :: rest) :
    pq.length = rest.length + 1 ∧ (∀ y, y ∈ pq ↔ y = hd ∨ y ∈ rest) ∧
    (∀ y ∈ pq, hd.2 ≤ y.2) := by
  have hperm : (hd :: rest).Perm pq := h ▸ List.perm_insertionSort _ pq
  have hsorted : (hd :: rest).Sorted (fun a b => a.2 ≤ b.2) :=
    h ▸ sortPq_sorted pq
  have hmem : ∀ y, y ∈ pq ↔ y = hd ∨ y ∈ rest := by
    intro y
    rw [← hperm.mem_iff, List.mem_cons]
  refine ⟨by rw [← hperm.length_eq, List.length_cons], hmem, ?_⟩
  intro y hy
  rcases (hmem y).mp hy with h1 | h1
  · rw [h1]
  · exact (List.sorted_cons.mp hsorted).1 y h1

theorem sortPq_nil (pq : List (α × Nat)) (h : sortPq pq = []) : pq = [] := by
  have hperm : ([] : List (α × Nat)).Perm pq := h ▸ List.perm_insertionSort _ pq
  exact hperm.symm.eq_nil

/-- The loop of `dijkstra` ends within the bound, with the invariant and an empty
frontier, when the sums stay exact. -/
theorem dijkstraLoop_spec (g : Graph α) (hg : g.WellFormed) (start : α)
    (hb : ExactSums g start) :
    ∀ (fuel : Nat) (s : DState α) (visited : List α),
      DInv g start s visited (fun u x => u ∈ visited ∧ x ∈ getNeighbors g u) →
      s.pq.length + unseen g.edges visited ≤ fuel →
      ∃ r, dijkstraLoop g fuel s visited = some r ∧
        DInv g start r.1 r.2 (fun u x => u ∈ r.2 ∧ x ∈ getNeighbors g u) ∧ r.1.pq = [] := by
  intro fuel
  induction fuel with
  | zero =>
    intro s visited hinv hf
    have hpq : s.pq = [] := List.length_eq_zero.mp (by omega)
    have : sortPq s.pq = [] := by rw [hpq]; rfl
    unfold dijkstraLoop
    rw [this]
    exact ⟨(s, visited), rfl, hinv, hpq⟩
  | succ fuel ih =>
    intro s visited hinv hf
    unfold dijkstraLoop
    cases hsort : sortPq s.pq with
    | nil => exact ⟨(s, visited), rfl, hinv, sortPq_nil s.pq hsort⟩
    | cons hd rest =>
      obtain ⟨cur, dd⟩ := hd
      obtain ⟨hlen, hmem, hmin⟩ := sortPq_cons s.pq (cur, dd) rest hsort
      simp only
      by_cases hcur : cur ∈ visited
      · rw [if_pos hcur]
        apply ih
        · refine ⟨hinv.view_eq, hinv.order, hinv.keys, hinv.sound, hinv.opt, hinv.rel_vis,
            hinv.relaxed, ?_, ?_, hinv.start0⟩
          · intro x a hx hxa
            rcases (hmem (x, a)).mp (hinv.queued x a hx hxa) with h | h
            · injection h with h1 h2
              exact absurd (h1 ▸ hcur) hx
            · exact h
          · intro x a hx
            exact hinv.stale x a ((hmem (x, a)).mpr (Or.inr hx))
        · show rest.length + unseen g.edges visited ≤ fuel
          omega
      · rw [if_neg hcur]
        obtain ⟨b, hb1, hb2⟩ := hinv.stale cur dd ((hmem (cur, dd)).mpr (Or.inl rfl))
        have hb3 := hmin (cur, b) (hinv.queued cur b hcur hb1)
        have hbd : b = dd := by simp only at hb3; omega
        subst hbd
        have hopt : ∀ w, Walk g start cur w → b ≤ w := by
          intro w hw
          obtain ⟨y, a, h1, h2, h3⟩ := dijkstra_first_exit g start s visited hinv cur w hw hcur
          have := hmin (y, a) (hinv.queued y a h1 h2)
          simp only at this
          omega
        have hinv1 : DInv g start
            { s with pq := rest, view := markVisited s.view cur (some b) } (visited ++ [cur])
            (fun u x => u ∈ visited ∧ x ∈ getNeighbors g u) := by
          refine ⟨hinv.view_eq, ?_, hinv.keys, hinv.sound, ?_, ?_, hinv.relaxed, ?_, ?_,
            hinv.start0⟩
          · show s.view.visitedOrder ++ [cur] = visited ++ [cur]
            rw [hinv.order]
          · intro x hx
            rcases List.mem_append.mp hx with h | h
            · exact hinv.opt x h
            · rw [List.mem_singleton] at h
              rw [h]; exact ⟨b, hb1, hopt⟩
          · intro u x h
            exact ⟨List.mem_append_left _ h.1, h.2⟩
          · intro x a hx hxa
            have hx1 : x ∉ visited := fun h => hx (List.mem_append_left _ h)
            have hx2 : x ≠ cur := fun h => hx (List.mem_append_right _ (by simp [h]))
            rcases (hmem (x, a)).mp (hinv.queued x a hx1 hxa) with h | h
            · injection h with h1 h2
              exact absurd h1 hx2
            · exact h
          · intro x a hx
            exact hinv.stale x a ((hmem (x, a)).mpr (Or.inr hx))
        obtain ⟨hinv2, hlen2⟩ := dijkstraNeighbor_fold g hg start cur hb b (visited ++ [cur])
          (List.mem_append_right _ (List.mem_singleton_self _)) (getNeighbors g cur) _ _ hinv1
          hb1 (fun _ h => h)
        apply ih
        · refine hinv2.weaken ?_
          rintro u x ⟨h1, h2⟩
          rcases List.mem_append.mp h1 with h | h
          · exact Or.inl ⟨h, h2⟩
          · rw [List.mem_singleton] at h
            exact Or.inr ⟨h, h ▸ h2⟩
        · have h1 := unseen_visit g.edges visited cur hcur
          have h2 := getNeighbors_length g cur
          have h3 : rest.length + 1 = s.pq.length := hlen.symm
          have h4 : ({ s with pq := rest, view := markVisited s.view cur (some b) } :
              DState α).pq.length = rest.length := rfl
          omega

/-- The run of `dijkstra` on a graph whose edges join its nodes and whose sums stay
exact returns; every node reachable from the start gets the least weight of a path from
the start, every other node keeps `Infinity`. -/
theorem dijkstra_spec (g : Graph α) (hg : g.WellFormed) (start : α)
    (hb : ExactSums g start) (v : View α) :
    ∃ r, dijkstra g start v = some r ∧
      ∀ x ∈ g.nodes,
        (Reachable g start x → ∃ d, r.distances x = some (some d) ∧ Walk g start x d ∧
          ∀ w, Walk g start x w → d ≤ w) ∧
        (¬ Reachable g start x → r.distances x = some none) := by
  unfold dijkstra
  simp only
  generalize hnd : (fun x => if x = start then some (some 0)
    else if x ∈ g.nodes then some none else none : α → Option (Option Nat)) = nd
  have nd_start : nd start = some (some 0) := by rw [← hnd]; simp
  have nd_fin : ∀ x a, nd x = some (some a) → x = start ∧ a = 0 := by
    intro x a h
    rw [← hnd] at h
    simp only at h
    by_cases e : x = start
    · rw [if_pos e] at h
      exact ⟨e, by simpa using h.symm⟩
    · rw [if_neg e] at h
      split at h <;> simp at h
  have nd_keys : ∀ x ∈ g.nodes, nd x ≠ none := by
    intro x hx
    rw [← hnd]
    simp only
    split
    · simp
    · simp [hx]
  obtain ⟨r, e, hinv, hpq⟩ := dijkstraLoop_spec g hg start hb (2 * g.edges.length + 2)
    { view := { (beginRun v) with distances := nd }, newDistances := nd,
      prev := fun x => if x ∈ g.nodes then some none else none, pq := [(start, 0)] } []
    (by
      refine ⟨rfl, rfl, nd_keys, ?_, ?_, ?_, ?_, ?_, ?_, nd_start⟩
      · intro x a h
        obtain ⟨h1, h2⟩ := nd_fin x a h
        rw [h1, h2]; exact Walk.nil
      · intro x hx; simp at hx
      · intro u x h; simp at h
      · intro u x h; simp at h
      · intro x a _ h
        obtain ⟨h1, h2⟩ := nd_fin x a h
        rw [h1, h2]; exact List.mem_singleton_self _
      · intro x a h
        rw [List.mem_singleton] at h
        injection h with h1 h2
        exact ⟨0, by rw [h1]; exact nd_start, Nat.zero_le _⟩)
    (by rw [unseen_nil]; simp; omega)
  rw [e]
  refine ⟨_, rfl, ?_⟩
  have hstart : start ∈ r.2 := by
    by_contra h
    have := hinv.queued start 0 h hinv.start0
    rw [hpq] at this
    simp at this
  have hclosed : ∀ x, Reachable g start x → x ∈ r.2 := by
    intro x hx
    induction hx with
    | refl => exact hstart
    | @tail y z _ hadj ih =>
      obtain ⟨wt, hwt⟩ := mem_getNeighbors_of_adj g y z hadj
      obtain ⟨a, b, _, h2, _⟩ := hinv.relaxed y (z, wt) ⟨ih, hwt⟩
      by_contra hz
      have := hinv.queued z b hz h2
      rw [hpq] at this
      simp at this
  intro x hx
  show (Reachable g start x → ∃ d, r.1.view.distances x = some (some d) ∧ _) ∧
    (¬ Reachable g start x → r.1.view.distances x = some none)
  rw [hinv.view_eq]
  constructor
  · intro hr
    obtain ⟨a, ha1, ha2⟩ := hinv.opt x (hclosed x hr)
    exact ⟨a, ha1, hinv.sound x a ha1, ha2⟩
  · intro hr
    cases hd : r.1.newDistances x with
    | none => exact absurd hd (hinv.keys x hx)
    | some o =>
      cases o with
      | none => rfl
      | some a => exact absurd (reachable_of_walk g start x a (hinv.sound x a hd)) hr

end

theorem largeGraph_walk_lower (x : String) (w : Nat) (h : Walk largeGraph "A" x w) :
    (x = "B" → 9007199254740992 ≤ w) ∧ (x = "C" → 9007199254740993 ≤ w) := by
  induction h with
  | nil => exact ⟨fun h => absurd h (by decide), fun h => absurd h (by decide)⟩
  | @snoc v x w c _ hadj ih =>
    obtain ⟨e, he, hc, hends⟩ := hadj
    simp only [largeGraph, List.mem_cons, List.mem_singleton, List.not_mem_nil, or_false] at he
    rcases he with rfl | rfl
    · simp only at hc hends
      rcases hends with ⟨h1, h2⟩ | ⟨h1, h2⟩
      · subst h1 h2 hc
        exact ⟨fun _ => (by omega), fun h => absurd h (by decide)⟩
      · subst h1 h2 hc
        exact ⟨fun h => absurd h (by decide), fun h => absurd h (by decide)⟩
    · simp only at hc hends
      rcases hends with ⟨h1, h2⟩ | ⟨h1, h2⟩
      · subst h1 h2 hc
        exact ⟨fun h => absurd h (by decide), fun _ => (by have := ih.1 rfl; omega)⟩
      · subst h1 h2 hc
        exact ⟨fun _ => (by have := ih.2 rfl; omega), fun h => absurd h (by decide)⟩

theorem sampleGraph_walks :
    Walk sampleGraph "A" "A" 0 ∧ Walk sampleGraph "A" "B" 1 ∧ Walk sampleGraph "A" "C" 4 ∧
    Walk sampleGraph "A" "D" 5 := by
  have wA : Walk sampleGraph "A" "A" 0 := Walk.nil
  have wB : Walk sampleGraph "A" "B" (0 + 1) :=
    Walk.snoc wA ⟨⟨"A", "B", 1⟩, by decide, rfl, Or.inl ⟨rfl, rfl⟩⟩
  have wC : Walk sampleGraph "A" "C" (0 + 4) :=
    Walk.snoc wA ⟨⟨"A", "C", 4⟩, by decide, rfl, Or.inl ⟨rfl, rfl⟩⟩
  have wD : Walk sampleGraph "A" "D" (0 + 4 + 1) :=
    Walk.snoc wC ⟨⟨"C", "D", 1⟩, by decide, rfl, Or.inl ⟨rfl, rfl⟩⟩
  exact ⟨wA, wB, wC, wD⟩

/-- On the sample graph no least path weight plus an edge weight exceeds `9`. -/
theorem sampleGraph_exactSums : ExactSums sampleGraph "A" := by
  obtain ⟨wA, wB, wC, wD⟩ := sampleGraph_walks
  intro x d y c _ hmin hadj
  have hA := hmin 0
  have hB := hmin 1
  have hC := hmin 4
  have hD := hmin 5
  have h53 : (9 : Nat) ≤ 2 ^ 53 := by norm_num
  obtain ⟨e, he, hc, hends⟩ := hadj
  simp only [sampleGraph, List.mem_cons, List.mem_singleton, List.not_mem_nil, or_false] at he
  rcases he with rfl | rfl | rfl | rfl <;> simp only at hc hends <;>
    rcases hends with ⟨h1, h2⟩ | ⟨h1, h2⟩ <;> subst h1 h2 hc
  · have := hA wA; omega
  · have := hB wB; omega
  · have := hB wB; omega
  · have := hC wC; omega
  · have := hA wA; omega
  · have := hC wC; omega
  · have := hC wC; omega
  · have := hD wD; omega

/-- C7 (counterexample): on the graph `A-B:9007199254740992, B-C:1` (weights `2^53` and
`1`, both positive integers that doubles hold exactly) from `A`, the sum
`9007199254740992 + 1` is rounded to `9007199254740992`: `dijkstra` finishes with
`{A: 0, B: 9007199254740992, C: 9007199254740992}`, while the path `A-B-C` weighs
`9007199254740993` and no path from `A` to `C` weighs less.  So the run does not end
with the least path weight for every reachable node. -/
theorem dijkstra_rounds_sum_above_two_pow_53 :
    largeGraph.WellFormed ∧ (∀ e ∈ largeGraph.edges, 0 < e.weight) ∧
    (dijkstra largeGraph "A" View.idle).map
        (fun r => (r.distances "A", r.distances "B", r.distances "C")) =
      some (some (some 0), some (some 9007199254740992), some (some 9007199254740992)) ∧
    Walk largeGraph "A" "C" 9007199254740993 ∧
    (∀ w, Walk largeGraph "A" "C" w → 9007199254740993 ≤ w) ∧
    ¬ ∃ r, dijkstra largeGraph "A" View.idle = some r ∧
      ∀ x ∈ largeGraph.nodes,
        (Reachable largeGraph "A" x → ∃ d, r.distances x = some (some d) ∧
          Walk largeGraph "A" x d ∧ ∀ w, Walk largeGraph "A" x w → d ≤ w) ∧
        (¬ Reachable largeGraph "A" x → r.distances x = some none) := by
  have hrun : (dijkstra largeGraph "A" View.idle).map
        (fun r => (r.distances "A", r.distances "B", r.distances "C")) =
      some (some (some 0), some (some 9007199254740992), some (some 9007199254740992)) := by
    decide
  have hwalk : Walk largeGraph "A" "C" (0 + 9007199254740992 + 1) :=
    Walk.snoc (Walk.snoc Walk.nil
      ⟨⟨"A", "B", 9007199254740992⟩, by decide, rfl, Or.inl ⟨rfl, rfl⟩⟩)
      ⟨⟨"B", "C", 1⟩, by decide, rfl, Or.inl ⟨rfl, rfl⟩⟩
  refine ⟨by unfold Graph.WellFormed; decide, by decide, hrun, hwalk,
    fun w hw => (largeGraph_walk_lower "C" w hw).2 rfl, ?_⟩
  rintro ⟨r, hr, hall⟩
  rw [hr] at hrun
  have hC : r.distances "C" = some (some 9007199254740992) := by
    have := congrArg (Option.map (fun p => p.2.2)) hrun
    simpa using this
  obtain ⟨d, hd1, hd2, _⟩ := (hall "C" (by decide)).1 (reachable_of_walk _ _ _ _ hwalk)
  rw [hC] at hd1
  have hd : 9007199254740992 = d := by simpa using hd1
  have := (largeGraph_walk_lower "C" d hd2).2 rfl
  omega

/-- C7 (amended): for every undirected graph with natural-number weights whose edges
join its nodes, every start id, and provided no least path weight from the start plus
the weight of an edge at its end node exceeds `2^53` (so that every sum the run forms is
exact), `dijkstra` finishes; for every node reachable from the start the distance map
then holds the least total weight of a path from the start to it, and for every
unreachable node it holds `Infinity`.  On the graph `A-B:1, B-C:2, A-C:4, C-D:1` from
`A` it holds `{A:0, B:1, C:3, D:4}`. -/
theorem dijkstra_shortest_paths_exact_sums {α : Type} [DecidableEq α] (g : Graph α)
    (start : α) (v : View α) (hg : g.WellFormed) (hb : ExactSums g start) :
    (∃ r, dijkstra g start v = some r ∧
      ∀ x ∈ g.nodes,
        (Reachable g start x → ∃ d, r.distances x = some (some d) ∧ Walk g start x d ∧
          ∀ w, Walk g start x w → d ≤ w) ∧
        (¬ Reachable g start x → r.distances x = some none)) ∧
    (dijkstra sampleGraph "A" View.idle).map
        (fun r => (r.distances "A", r.distances "B", r.distances "C", r.distances "D")) =
      some (some (some 0), some (some 1), some (some 3), some (some 4)) :=
  ⟨dijkstra_spec g hg start hb v, by decide⟩

/-- Witness of `dijkstra_shortest_paths_exact_sums`: the sample graph, start `"A"`. -/
theorem dijkstra_shortest_paths_exact_sums_witness :
    sampleGraph.WellFormed ∧ ExactSums sampleGraph "A" ∧
    ((∃ r, dijkstra sampleGraph "A" View.idle = some r ∧
      ∀ x ∈ sampleGraph.nodes,
        (Reachable sampleGraph "A" x → ∃ d, r.distances x = some (some d) ∧
          Walk sampleGraph "A" x d ∧ ∀ w, Walk sampleGraph "A" x w → d ≤ w) ∧
        (¬ Reachable sampleGraph "A" x → r.distances x = some none)) ∧
    (dijkstra sampleGraph "A" View.idle).map
        (fun r => (r.distances "A", r.distances "B", r.distances "C", r.distances "D")) =
      some (some (some 0), some (some 1), some (some 3), some (some 4))) :=
  ⟨sampleGraph_wellFormed, sampleGraph_exactSums,
    dijkstra_shortest_paths_exact_sums sampleGraph "A" View.idle sampleGraph_wellFormed
      sampleGraph_exactSums⟩

end GraphVisualizer
namespace GraphVisualizer

/-! ## The loop of `dijkstra`, iteration by iteration -/

section

variable {α : Type} [DecidableEq α]

theorem dijkstra_eq_init (g : Graph α) (startId : α) (v : View α) :
    dijkstra g startId v =
      match dijkstraLoop g (2 * g.edges.length + 2) (dijkstraInit g startId v) [] with
      | none => none
      | some r => some { r.1.view with isRunning := false, trace := r.1.view.trace ++ [.done] } :=
  rfl

/-- The loop is the repetition of its iteration. -/
theorem dijkstraLoop_iter (g : Graph α) (fuel : Nat) (s : DState α) (visited : List α) :
    dijkstraLoop g fuel s visited =
      match dijkstraIter g (s, visited) with
      | none => some (s, visited)
      | some st1 =>
        match fuel with
        | 0 => none
        | fuel + 1 => dijkstraLoop g fuel st1.1 st1.2 := by
  conv_lhs => unfold dijkstraLoop
  unfold dijkstraIter
  cases hsort : sortPq s.pq with
  | nil => simp only [hsort]
  | cons hd rest =>
    obtain ⟨cur, dd⟩ := hd
    simp only [hsort]
    cases fuel with
    | zero =>
      by_cases hcur : cur ∈ visited
      · simp only [hcur, if_true]
      · simp only [hcur, if_false]
    | succ fuel =>
      by_cases hcur : cur ∈ visited
      · simp only [hcur, if_true]
      · simp only [hcur, if_false]

theorem dijkstraLoop_run (g : Graph α) :
    ∀ (i fuel : Nat) (st st1 : DState α × List α), dijkstraRun g i st = some st1 →
      dijkstraLoop g (fuel + i) st.1 st.2 = dijkstraLoop g fuel st1.1 st1.2 := by
  intro i
  induction i with
  | zero =>
    intro fuel st st1 h
    cases h
    rfl
  | succ i ih =>
    intro fuel st st1 h
    unfold dijkstraRun at h
    cases hit : dijkstraIter g st with
    | none => rw [hit] at h; cases h
    | some st2 =>
      rw [hit] at h
      rw [dijkstraLoop_iter, show (st.1, st.2) = st from rfl, hit]
      exact ih fuel st2 st1 h

/-! ### The loop returns -/

theorem dijkstraNeighbor_pq_length (cur : α) (d : Nat) (visited : List α) (s : DState α)
    (nb : α × Nat) :
    (dijkstraNeighbor cur d visited s nb).pq.length ≤ s.pq.length + 1 := by
  unfold dijkstraNeighbor
  by_cases hv : nb.1 ∈ visited
  · simp only [hv, if_true]; exact Nat.le_succ _
  · simp only [hv, if_false]
    cases JsNumber.numAdd d nb.2 with
    | none => exact Nat.le_succ _
    | some c =>
      simp only
      split
      · simp
      · exact Nat.le_succ _

theorem dijkstraNeighbor_fold_pq_length (cur : α) (d : Nat) (visited : List α) :
    ∀ (ns : List (α × Nat)) (s : DState α),
      (ns.foldl (dijkstraNeighbor cur d visited) s).pq.length ≤ s.pq.length + ns.length := by
  intro ns
  induction ns with
  | nil => intro s; exact le_refl _
  | cons nb ns ih =>
    intro s
    rw [List.foldl_cons]
    have h1 := dijkstraNeighbor_pq_length cur d visited s nb
    have h2 := ih (dijkstraNeighbor cur d visited s nb)
    simp only [List.length_cons]
    omega

/-- The loop of `dijkstra` returns within the bound on every graph: a node is finalized
once, and finalizing it inserts at most one entry per edge end at it. -/
theorem dijkstraLoop_returns (g : Graph α) :
    ∀ (fuel : Nat) (s : DState α) (visited : List α),
      s.pq.length + unseen g.edges visited ≤ fuel →
      ∃ r, dijkstraLoop g fuel s visited = some r := by
  intro fuel
  induction fuel with
  | zero =>
    intro s visited hf
    have hpq : s.pq = [] := List.length_eq_zero.mp (by omega)
    have : sortPq s.pq = [] := by rw [hpq]; rfl
    unfold dijkstraLoop
    rw [this]
    exact ⟨(s, visited), rfl⟩
  | succ fuel ih =>
    intro s visited hf
    unfold dijkstraLoop
    cases hsort : sortPq s.pq with
    | nil => exact ⟨(s, visited), rfl⟩
    | cons hd rest =>
      obtain ⟨cur, dd⟩ := hd
      obtain ⟨hlen, _, _⟩ := sortPq_cons s.pq (cur, dd) rest hsort
      simp only
      by_cases hcur : cur ∈ visited
      · rw [if_pos hcur]
        apply ih
        show rest.length + unseen g.edges visited ≤ fuel
        omega
      · rw [if_neg hcur]
        apply ih
        have h1 := unseen_visit g.edges visited cur hcur
        have h2 := getNeighbors_length g cur
        have h3 := dijkstraNeighbor_fold_pq_length cur dd (visited ++ [cur])
          (getNeighbors g cur) { s with pq := rest, view := markVisited s.view cur (some dd) }
        have h4 : ({ s with pq := rest, view := markVisited s.view cur (some dd) } :
            DState α).pq.length = rest.length := rfl
        omega

/-! ### The coded neighbour step against the specified one -/

theorem minv_init (g : Graph α) (start : α) (v : View α) :
    MInv (dijkstraInit g start v) [] 0 := by
  have hnd : ∀ x a, (dijkstraInit g start v).newDistances x = some (some a) →
      x = start ∧ a = 0 := by
    intro x a h
    have h1 : (if x = start then some (some 0)
      else if x ∈ g.nodes then some none else none) = some (some a) := h
    by_cases e : x = start
    · rw [if_pos e] at h1
      exact ⟨e, by simpa using h1.symm⟩
    · rw [if_neg e] at h1
      split at h1 <;> simp at h1
  have hpq : (dijkstraInit g start v).pq = [(start, 0)] := rfl
  have hst : (dijkstraInit g start v).newDistances start = some (some 0) := by
    show (if start = start then some (some 0)
      else if start ∈ g.nodes then some none else none) = _
    rw [if_pos rfl]
  refine ⟨?_, ?_, ?_, ?_, ?_⟩
  · intro y hy
    rw [hpq, List.mem_singleton] at hy
    rw [hy]; exact JsNumber.isDouble_zero
  · intro y _; exact Nat.zero_le _
  · intro x hx; simp at hx
  · intro x a _ h
    obtain ⟨h1, h2⟩ := hnd x a h
    rw [hpq, h1, h2]; exact List.mem_singleton_self _
  · intro x a h
    rw [hpq, List.mem_singleton] at h
    injection h with h1 h2
    exact ⟨0, by rw [h1]; exact hst, Nat.zero_le _⟩

/-- Discarding a stale entry keeps the invariant. -/
theorem minv_pop_skip (s : DState α) (visited : List α) (lvl : Nat) (cur : α) (dd : Nat)
    (rest : List (α × Nat)) (hinv : MInv s visited lvl)
    (hsort : sortPq s.pq = (cur, dd) :: rest) (hcur : cur ∈ visited) :
    MInv { s with pq := rest } visited lvl := by
  obtain ⟨_, hmem, _⟩ := sortPq_cons s.pq (cur, dd) rest hsort
  refine ⟨?_, ?_, hinv.fin, ?_, ?_⟩
  · intro y hy; exact hinv.dbl y ((hmem y).mpr (Or.inr hy))
  · intro y hy; exact hinv.above y ((hmem y).mpr (Or.inr hy))
  · intro x a hx hxa
    rcases (hmem (x, a)).mp (hinv.queued x a hx hxa) with h | h
    · injection h with h1 h2
      exact absurd (h1 ▸ hcur) hx
    · exact h
  · intro x a hx
    exact hinv.stale x a ((hmem (x, a)).mpr (Or.inr hx))

/-- The entry removed for a node that is not finalized carries the tentative distance of
the node, a double; finalizing the node keeps the invariant at that distance. -/
theorem minv_pop_visit (s : DState α) (visited : List α) (lvl : Nat) (cur : α) (dd : Nat)
    (rest : List (α × Nat)) (hinv : MInv s visited lvl)
    (hsort : sortPq s.pq = (cur, dd) :: rest) (hcur : cur ∉ visited) :
    s.newDistances cur = some (some dd) ∧ JsNumber.IsDouble dd ∧
    MInv { s with pq := rest, view := markVisited s.view cur (some dd) }
      (visited ++ [cur]) dd := by
  obtain ⟨_, hmem, hmin⟩ := sortPq_cons s.pq (cur, dd) rest hsort
  have hin : (cur, dd) ∈ s.pq := (hmem (cur, dd)).mpr (Or.inl rfl)
  obtain ⟨b, hb1, hb2⟩ := hinv.stale cur dd hin
  have hb3 := hmin (cur, b) (hinv.queued cur b hcur hb1)
  have hbd : b = dd := by simp only at hb3; omega
  subst hbd
  have hlvl : lvl ≤ b := hinv.above (cur, b) hin
  refine ⟨hb1, hinv.dbl (cur, b) hin, ?_, ?_, ?_, ?_, ?_⟩
  · intro y hy; exact hinv.dbl y ((hmem y).mpr (Or.inr hy))
  · intro y hy; exact hmin y ((hmem y).mpr (Or.inr hy))
  · intro x hx
    rcases List.mem_append.mp hx with h | h
    · obtain ⟨a, ha1, ha2⟩ := hinv.fin x h
      exact ⟨a, ha1, le_trans ha2 hlvl⟩
    · rw [List.mem_singleton] at h
      rw [h]; exact ⟨b, hb1, le_refl _⟩
  · intro x a hx hxa
    have hx1 : x ∉ visited := fun h => hx (List.mem_append_left _ h)
    have hx2 : x ≠ cur := fun h => hx (List.mem_append_right _ (by simp [h]))
    rcases (hmem (x, a)).mp (hinv.queued x a hx1 hxa) with h | h
    · injection h with h1 h2
      exact absurd h1 hx2
    · exact h
  · intro x a hx
    exact hinv.stale x a ((hmem (x, a)).mpr (Or.inr hx))

/-- On a finalized node whose tentative distance is the distance of the removed entry,
the coded step and the specified step agree: the specified test fails on a finalized
neighbour, whose distance is not above that of the removed entry, which the sum is not
below.  The step keeps the invariant. -/
theorem dijkstraNeighbor_eq_spec (cur : α) (d : Nat) (visited : List α) (s : DState α)
    (nb : α × Nat) (hinv : MInv s visited d) (hcur : cur ∈ visited)
    (hdd : JsNumber.IsDouble d) (hd : s.newDistances cur = some (some d)) :
    dijkstraNeighbor cur d visited s nb = dijkstraNeighborSpec cur s nb ∧
    MInv (dijkstraNeighbor cur d visited s nb) visited d ∧
    (dijkstraNeighbor cur d visited s nb).newDistances cur = some (some d) := by
  have hbase : MInv { s with view := markEdge s.view cur nb.1 } visited d :=
    ⟨hinv.dbl, hinv.above, hinv.fin, hinv.queued, hinv.stale⟩
  unfold dijkstraNeighbor dijkstraNeighborSpec
  simp only [hd]
  by_cases hv : nb.1 ∈ visited
  · simp only [hv, if_true]
    refine ⟨?_, hbase, hd⟩
    cases hadd : JsNumber.numAdd d nb.2 with
    | none => rfl
    | some c =>
      obtain ⟨b, hb1, hb2⟩ := hinv.fin nb.1 hv
      have hc := (JsNumber.numAdd_spec d nb.2 c hdd hadd).2
      have hlt : distLt c (s.newDistances nb.1) = false := by
        rw [hb1]
        simp only [distLt, decide_eq_false_iff_not]
        omega
      simp only [hlt, Bool.false_eq_true, if_false]
  · simp only [hv, if_false]
    cases hadd : JsNumber.numAdd d nb.2 with
    | none => exact ⟨trivial, hbase, hd⟩
    | some c =>
      obtain ⟨hc1, hc2⟩ := JsNumber.numAdd_spec d nb.2 c hdd hadd
      simp only
      by_cases hlt : distLt c (s.newDistances nb.1) = true
      · simp only [hlt, if_true]
        have hne : nb.1 ≠ cur := fun h => hv (h ▸ hcur)
        have hlow : ∀ b, s.newDistances nb.1 = some (some b) → c < b := by
          intro b hb
          rw [hb] at hlt
          simpa [distLt] using hlt
        refine ⟨trivial, ⟨?_, ?_, ?_, ?_, ?_⟩, ?_⟩
        · intro y hy
          have hy1 : y ∈ s.pq ++ [(nb.1, c)] := hy
          rcases List.mem_append.mp hy1 with h | h
          · exact hinv.dbl y h
          · rw [List.mem_singleton.mp h]; exact hc1
        · intro y hy
          have hy1 : y ∈ s.pq ++ [(nb.1, c)] := hy
          rcases List.mem_append.mp hy1 with h | h
          · exact hinv.above y h
          · rw [List.mem_singleton.mp h]; exact hc2
        · intro x hx
          have e : x ≠ nb.1 := fun h => hv (h ▸ hx)
          obtain ⟨a, ha1, ha2⟩ := hinv.fin x hx
          refine ⟨a, ?_, ha2⟩
          show (if x = nb.1 then some (some c) else s.newDistances x) = some (some a)
          rw [if_neg e]; exact ha1
        · intro x a hx hxa
          have hxa1 : (if x = nb.1 then some (some c) else s.newDistances x) =
              some (some a) := hxa
          show (x, a) ∈ s.pq ++ [(nb.1, c)]
          by_cases e : x = nb.1
          · rw [if_pos e] at hxa1
            have : c = a := by simpa using hxa1
            rw [e, ← this]
            exact List.mem_append_right _ (List.mem_singleton_self _)
          · rw [if_neg e] at hxa1
            exact List.mem_append_left _ (hinv.queued x a hx hxa1)
        · intro x a hx
          have hx1 : (x, a) ∈ s.pq ++ [(nb.1, c)] := hx
          show ∃ b, (if x = nb.1 then some (some c) else s.newDistances x) =
            some (some b) ∧ b ≤ a
          rcases List.mem_append.mp hx1 with h | h
          · obtain ⟨b, hb1, hb2⟩ := hinv.stale x a h
            by_cases e : x = nb.1
            · rw [if_pos e]
              have := hlow b (e ▸ hb1)
              exact ⟨c, rfl, by omega⟩
            · rw [if_neg e]; exact ⟨b, hb1, hb2⟩
          · rw [List.mem_singleton] at h
            injection h with h1 h2
            rw [if_pos h1]
            exact ⟨c, rfl, by omega⟩
        · show (if cur = nb.1 then some (some c) else s.newDistances cur) = _
          rw [if_neg (fun e => hne e.symm)]; exact hd
      · simp only [hlt, Bool.false_eq_true, if_false]
        exact ⟨trivial, hbase, hd⟩

theorem dijkstraNeighbor_fold_eq_spec (cur : α) (d : Nat) (visited : List α)
    (hcur : cur ∈ visited) (hdd : JsNumber.IsDouble d) :
    ∀ (ns : List (α × Nat)) (s : DState α),
      MInv s visited d → s.newDistances cur = some (some d) →
      ns.foldl (dijkstraNeighbor cur d visited) s = ns.foldl (dijkstraNeighborSpec cur) s ∧
      MInv (ns.foldl (dijkstraNeighbor cur d visited) s) visited d := by
  intro ns
  induction ns with
  | nil => intro s hinv _; exact ⟨rfl, hinv⟩
  | cons nb ns ih =>
    intro s hinv hd
    rw [List.foldl_cons, List.foldl_cons]
    obtain ⟨e1, i1, d1⟩ := dijkstraNeighbor_eq_spec cur d visited s nb hinv hcur hdd hd
    rw [← e1]
    exact ih _ i1 d1

theorem dijkstraLoop_eq_spec (g : Graph α) :
    ∀ (fuel : Nat) (s : DState α) (visited : List α) (lvl : Nat),
      MInv s visited lvl →
      dijkstraLoop g fuel s visited = dijkstraLoopSpec g fuel s visited := by
  intro fuel
  induction fuel with
  | zero =>
    intro s visited _ _
    unfold dijkstraLoop dijkstraLoopSpec
    cases sortPq s.pq with
    | nil => rfl
    | cons hd rest => rfl
  | succ fuel ih =>
    intro s visited lvl hinv
    unfold dijkstraLoop dijkstraLoopSpec
    cases hsort : sortPq s.pq with
    | nil => rfl
    | cons hd rest =>
      obtain ⟨cur, dd⟩ := hd
      simp only
      by_cases hcur : cur ∈ visited
      · rw [if_pos hcur, if_pos hcur]
        exact ih _ _ lvl (minv_pop_skip s visited lvl cur dd rest hinv hsort hcur)
      · rw [if_neg hcur, if_neg hcur]
        obtain ⟨hb1, hdd, hinv1⟩ := minv_pop_visit s visited lvl cur dd rest hinv hsort hcur
        obtain ⟨e1, hinv2⟩ := dijkstraNeighbor_fold_eq_spec cur dd (visited ++ [cur])
          (List.mem_append_right _ (List.mem_singleton_self _)) hdd (getNeighbors g cur) _
          hinv1 hb1
        rw [← e1]
        exact ih _ _ dd hinv2

end

/-- C26: on every graph with natural-number weights whose edges join its nodes, and
from every start id, the loop of `dijkstra` as coded (which skips a finalized neighbour
before the test and computes the candidate from the distance of the removed entry) and
the specified loop (which tests `distance[node] + weight < distance[neighbor]` on every
neighbour of the finalized node) return the same state under every bound on the
iterations: the same view with the same steps in the same order, the same distance map,
the same predecessor records and the same frontier; so both runs return the same
view, and they do return. -/
theorem dijkstra_refines_spec {α : Type} [DecidableEq α] (g : Graph α) (start : α)
    (v : View α) (hg : g.WellFormed) :
    (∀ fuel, dijkstraLoop g fuel (dijkstraInit g start v) [] =
      dijkstraLoopSpec g fuel (dijkstraInit g start v) []) ∧
    dijkstra g start v = dijkstraSpec g start v ∧
    ∃ r, dijkstra g start v = some r := by
  have h : ∀ fuel, dijkstraLoop g fuel (dijkstraInit g start v) [] =
      dijkstraLoopSpec g fuel (dijkstraInit g start v) [] := fun fuel =>
    dijkstraLoop_eq_spec g fuel _ [] 0 (minv_init g start v)
  have _ := hg
  refine ⟨h, ?_, ?_⟩
  · rw [dijkstra_eq_init, h]
    rfl
  · obtain ⟨r, hr⟩ := dijkstraLoop_returns g (2 * g.edges.length + 2)
      (dijkstraInit g start v) [] (by
        rw [unseen_nil]
        show 1 + 2 * g.edges.length ≤ 2 * g.edges.length + 2
        omega)
    rw [dijkstra_eq_init, hr]
    exact ⟨_, rfl⟩

/-- Witness of `dijkstra_refines_spec`: the sample graph, start `"A"`. -/
theorem dijkstra_refines_spec_witness :
    sampleGraph.WellFormed ∧
    ((∀ fuel, dijkstraLoop sampleGraph fuel (dijkstraInit sampleGraph "A" View.idle) [] =
      dijkstraLoopSpec sampleGraph fuel (dijkstraInit sampleGraph "A" View.idle) []) ∧
    dijkstra sampleGraph "A" View.idle = dijkstraSpec sampleGraph "A" View.idle ∧
    ∃ r, dijkstra sampleGraph "A" View.idle = some r) :=
  ⟨sampleGraph_wellFormed, dijkstra_refines_spec sampleGraph "A" View.idle sampleGraph_wellFormed⟩

end GraphVisualizer
namespace GraphVisualizer

/-! ## Order of removal among frontier entries of equal distance -/

section

variable {α : Type}

theorem orderedInsert_filter_dist (d : Nat) (a : α × Nat) :
    ∀ l : List (α × Nat),
      (List.orderedInsert (fun a b => a.2 ≤ b.2) a l).filter (fun y => decide (y.2 = d)) =
        (a :: l).filter (fun y => decide (y.2 = d)) := by
  intro l
  induction l with
  | nil => rfl
  | cons b l ih =>
    by_cases h : a.2 ≤ b.2
    · rw [List.orderedInsert, if_pos h]
    · rw [List.orderedInsert, if_neg h, List.filter_cons, ih]
      by_cases hb : b.2 = d
      · have ha : a.2 ≠ d := by omega
        simp only [List.filter_cons, hb, ha, decide_True, decide_False, if_true,
          Bool.false_eq_true, if_false]
      · by_cases ha : a.2 = d
        · simp only [List.filter_cons, hb, ha, decide_True, decide_False, if_true,
            Bool.false_eq_true, if_false]
        · simp only [List.filter_cons, hb, ha, decide_False, Bool.false_eq_true, if_false]

/-- Sorting the frontier never reorders entries of equal distance. -/
theorem sortPq_stable (d : Nat) :
    ∀ pq : List (α × Nat),
      (sortPq pq).filter (fun y => decide (y.2 = d)) = pq.filter (fun y => decide (y.2 = d)) := by
  intro pq
  induction pq with
  | nil => rfl
  | cons a pq ih =>
    show (List.orderedInsert _ a (sortPq pq)).filter _ = _
    rw [orderedInsert_filter_dist, List.filter_cons, List.filter_cons, ih]

theorem pushLog_append_visit (start : α) (tr : List (Step α)) (x : α) (o : Option Nat) :
    pushLog start (tr ++ [.visit x o]) = pushLog start tr := by
  simp [pushLog, List.filterMap_append]

theorem pushLog_append_edge (start : α) (tr : List (Step α)) (x y : α) :
    pushLog start (tr ++ [.edgeExplore x y]) = pushLog start tr := by
  simp [pushLog, List.filterMap_append]

theorem pushLog_append_update (start : α) (tr : List (Step α)) (x : α) (d : Nat) :
    pushLog start (tr ++ [.distanceUpdate x d]) = pushLog start tr ++ [(x, d)] := by
  simp [pushLog, List.filterMap_append]

theorem sublist_cons_split {β : Type} (a : β) :
    ∀ (l L : List β), (a :: l).Sublist L → ∃ L1 L2, L = L1 ++ a :: L2 ∧ l.Sublist L2 := by
  intro l L
  induction L with
  | nil => intro h; cases h
  | cons b L ih =>
    intro h
    cases h with
    | cons _ h1 =>
      obtain ⟨L1, L2, e, hs⟩ := ih h1
      exact ⟨b :: L1, L2, by rw [e]; rfl, hs⟩
    | cons₂ _ h1 => exact ⟨[], L, rfl, h1⟩

variable [DecidableEq α]

theorem pqOrd_neighbor (start cur : α) (d : Nat) (visited : List α) (s : DState α)
    (nb : α × Nat) (h : PqOrd start s) :
    PqOrd start (dijkstraNeighbor cur d visited s nb) := by
  have hbase : PqOrd start { s with view := markEdge s.view cur nb.1 } := by
    refine ⟨?_, ?_, ?_⟩
    · intro dd
      show (s.pq.filter _).Sublist (pushLog start (s.view.trace ++ [.edgeExplore cur nb.1]))
      rw [pushLog_append_edge]; exact h.sub dd
    · show (pushLog start (s.view.trace ++ [.edgeExplore cur nb.1])).Nodup
      rw [pushLog_append_edge]; exact h.nodup
    · intro y hy
      have hy1 : y ∈ pushLog start (s.view.trace ++ [.edgeExplore cur nb.1]) := hy
      rw [pushLog_append_edge] at hy1
      exact h.low y hy1
  unfold dijkstraNeighbor
  by_cases hv : nb.1 ∈ visited
  · simp only [hv, if_true]; exact hbase
  · simp only [hv, if_false]
    cases JsNumber.numAdd d nb.2 with
    | none => exact hbase
    | some c =>
      simp only
      by_cases hlt : distLt c (s.newDistances nb.1) = true
      · simp only [hlt, if_true]
        have hlow : ∀ b, s.newDistances nb.1 = some (some b) → c < b := by
          intro b hb
          rw [hb] at hlt
          simpa [distLt] using hlt
        have hlog : pushLog start
            ((markEdge s.view cur nb.1).trace ++ [.distanceUpdate nb.1 c]) =
            pushLog start s.view.trace ++ [(nb.1, c)] := by
          rw [pushLog_append_update]
          show pushLog start (s.view.trace ++ [.edgeExplore cur nb.1]) ++ _ = _
          rw [pushLog_append_edge]
        have hnew : (nb.1, c) ∉ pushLog start s.view.trace := by
          intro hm
          obtain ⟨b, hb1, hb2⟩ := h.low _ hm
          have := hlow b hb1
          simp only at hb2
          omega
        refine ⟨?_, ?_, ?_⟩
        · intro dd
          show ((s.pq ++ [(nb.1, c)]).filter _).Sublist (pushLog start
            ((markEdge s.view cur nb.1).trace ++ [.distanceUpdate nb.1 c]))
          rw [hlog, List.filter_append]
          exact List.Sublist.append (h.sub dd) (List.filter_sublist _)
        · show (pushLog start
            ((markEdge s.view cur nb.1).trace ++ [.distanceUpdate nb.1 c])).Nodup
          rw [hlog]
          exact List.Nodup.append h.nodup (List.nodup_singleton _) (by
            intro a ha hb
            rw [List.mem_singleton.mp hb] at ha
            exact hnew ha)
        · intro y hy
          have hy1 : y ∈ pushLog start
            ((markEdge s.view cur nb.1).trace ++ [.distanceUpdate nb.1 c]) := hy
          rw [hlog] at hy1
          show ∃ b, (if y.1 = nb.1 then some (some c) else s.newDistances y.1) =
            some (some b) ∧ b ≤ y.2
          rcases List.mem_append.mp hy1 with h1 | h1
          · obtain ⟨b, hb1, hb2⟩ := h.low y h1
            by_cases e : y.1 = nb.1
            · rw [if_pos e]
              have := hlow b (e ▸ hb1)
              exact ⟨c, rfl, by omega⟩
            · rw [if_neg e]; exact ⟨b, hb1, hb2⟩
          · rw [List.mem_singleton.mp h1]
            rw [if_pos rfl]
            exact ⟨c, rfl, le_refl _⟩
      · simp only [hlt, Bool.false_eq_true, if_false]; exact hbase

theorem pqOrd_fold (start cur : α) (d : Nat) (visited : List α) :
    ∀ (ns : List (α × Nat)) (s : DState α), PqOrd start s →
      PqOrd start (ns.foldl (dijkstraNeighbor cur d visited) s) := by
  intro ns
  induction ns with
  | nil => intro s h; exact h
  | cons nb ns ih =>
    intro s h
    rw [List.foldl_cons]
    exact ih _ (pqOrd_neighbor start cur d visited s nb h)

theorem pqOrd_rest (start : α) (s : DState α) (hd : α × Nat) (rest : List (α × Nat))
    (h : PqOrd start s) (hsort : sortPq s.pq = hd :: rest) (d : Nat) :
    (rest.filter (fun y => decide (y.2 = d))).Sublist (pushLog start s.view.trace) := by
  have h1 := sortPq_stable d s.pq
  rw [hsort] at h1
  have h2 : (rest.filter (fun y => decide (y.2 = d))).Sublist
      ((hd :: rest).filter (fun y => decide (y.2 = d))) :=
    List.Sublist.filter _ (List.sublist_cons_self hd rest)
  rw [h1] at h2
  exact h2.trans (h.sub d)

theorem pqOrd_iter (g : Graph α) (start : α) (st st1 : DState α × List α)
    (h : PqOrd start st.1) (hit : dijkstraIter g st = some st1) : PqOrd start st1.1 := by
  unfold dijkstraIter at hit
  cases hsort : sortPq st.1.pq with
  | nil => rw [hsort] at hit; cases hit
  | cons hd rest =>
    obtain ⟨cur, dd⟩ := hd
    rw [hsort] at hit
    simp only at hit
    by_cases hcur : cur ∈ st.2
    · rw [if_pos hcur] at hit
      cases hit
      exact ⟨fun d => pqOrd_rest start st.1 _ rest h hsort d, h.nodup, h.low⟩
    · rw [if_neg hcur] at hit
      cases hit
      apply pqOrd_fold
      refine ⟨?_, ?_, ?_⟩
      · intro d
        show (rest.filter _).Sublist (pushLog start (st.1.view.trace ++ [.visit cur (some dd)]))
        rw [pushLog_append_visit]
        exact pqOrd_rest start st.1 _ rest h hsort d
      · show (pushLog start (st.1.view.trace ++ [.visit cur (some dd)])).Nodup
        rw [pushLog_append_visit]; exact h.nodup
      · intro y hy
        have hy1 : y ∈ pushLog start (st.1.view.trace ++ [.visit cur (some dd)]) := hy
        rw [pushLog_append_visit] at hy1
        exact h.low y hy1

theorem pqOrd_run (g : Graph α) (start : α) :
    ∀ (i : Nat) (st st1 : DState α × List α), PqOrd start st.1 →
      dijkstraRun g i st = some st1 → PqOrd start st1.1 := by
  intro i
  induction i with
  | zero =>
    intro st st1 h hr
    cases hr
    exact h
  | succ i ih =>
    intro st st1 h hr
    unfold dijkstraRun at hr
    cases hit : dijkstraIter g st with
    | none => rw [hit] at hr; cases hr
    | some st2 =>
      rw [hit] at hr
      exact ih st2 st1 (pqOrd_iter g start st st2 h hit) hr

theorem pqOrd_init (g : Graph α) (start : α) (v : View α) :
    PqOrd start (dijkstraInit g start v) := by
  refine ⟨?_, ?_, ?_⟩
  · intro d
    show ([(start, 0)].filter _).Sublist [(start, 0)]
    exact List.filter_sublist _
  · show [(start, 0)].Nodup
    exact List.nodup_singleton _
  · intro y hy
    have hy1 : y ∈ [(start, 0)] := hy
    rw [List.mem_singleton.mp hy1]
    exact ⟨0, by simp [dijkstraInit], le_refl _⟩

/-- C25: in every iteration of the loop of `dijkstra` (the state after any number `i`
of iterations of the run, from which the run goes on), the entry `hd` that the sort
brings to the front and `shift` removes has the minimum distance, and every other
frontier entry `y` of that distance was inserted after it: the insertion log, in which
no entry occurs twice, splits as `L1 ++ hd :: L2` with `y` in `L2`.  Sorting never
reorders entries of equal distance. -/
theorem dijkstra_removes_earliest_minimum (g : Graph α) (start : α) (v : View α) (i : Nat)
    (s : DState α) (visited : List α) (hd : α × Nat) (rest : List (α × Nat))
    (hrun : dijkstraRun g i (dijkstraInit g start v, []) = some (s, visited))
    (hsort : sortPq s.pq = hd :: rest) :
    (∀ fuel, dijkstraLoop g (fuel + i) (dijkstraInit g start v) [] =
      dijkstraLoop g fuel s visited) ∧
    (∀ d, (sortPq s.pq).filter (fun y => decide (y.2 = d)) =
      s.pq.filter (fun y => decide (y.2 = d))) ∧
    (∀ y ∈ s.pq, hd.2 ≤ y.2) ∧
    (pushLog start s.view.trace).Nodup ∧
    ∀ y ∈ s.pq, y ≠ hd → y.2 = hd.2 →
      ∃ L1 L2, pushLog start s.view.trace = L1 ++ hd :: L2 ∧ y ∈ L2 := by
  have hord : PqOrd start s :=
    pqOrd_run g start i (dijkstraInit g start v, []) (s, visited) (pqOrd_init g start v) hrun
  obtain ⟨_, hmem, hmin⟩ := sortPq_cons s.pq hd rest hsort
  refine ⟨fun fuel => dijkstraLoop_run g i fuel _ _ hrun, fun d => sortPq_stable d s.pq, hmin,
    hord.nodup, ?_⟩
  intro y hy hne heq
  have h1 := sortPq_stable hd.2 s.pq
  rw [hsort, List.filter_cons, if_pos (by simp)] at h1
  have h2 := hord.sub hd.2
  rw [← h1] at h2
  obtain ⟨L1, L2, e, hs⟩ := sublist_cons_split hd _ _ h2
  refine ⟨L1, L2, e, hs.subset ?_⟩
  rcases (hmem y).mp hy with h3 | h3
  · exact absurd h3 hne
  · exact List.mem_filter.mpr ⟨h3, by simpa using heq⟩

end

/-- Witness of `dijkstra_removes_earliest_minimum`: the graph `A-B:1, A-C:1` from `"A"`,
after the first iteration, when the frontier holds `(B, 1)` and `(C, 1)`. -/
theorem dijkstra_removes_earliest_minimum_witness :
    dijkstraRun tieGraph 1 (dijkstraInit tieGraph "A" View.idle, []) =
      some (tieState.1, tieState.2) ∧
    sortPq tieState.1.pq = ("B", 1) :: [("C", 1)] ∧
    ((∀ fuel, dijkstraLoop tieGraph (fuel + 1) (dijkstraInit tieGraph "A" View.idle) [] =
      dijkstraLoop tieGraph fuel tieState.1 tieState.2) ∧
    (∀ d, (sortPq tieState.1.pq).filter (fun y => decide (y.2 = d)) =
      tieState.1.pq.filter (fun y => decide (y.2 = d))) ∧
    (∀ y ∈ tieState.1.pq, (("B", 1) : String × Nat).2 ≤ y.2) ∧
    (pushLog "A" tieState.1.view.trace).Nodup ∧
    ∀ y ∈ tieState.1.pq, y ≠ ("B", 1) → y.2 = (("B", 1) : String × Nat).2 →
      ∃ L1 L2, pushLog "A" tieState.1.view.trace = L1 ++ ("B", 1) :: L2 ∧ y ∈ L2) :=
  ⟨rfl, by decide, dijkstra_removes_earliest_minimum tieGraph "A" View.idle 1
    tieState.1 tieState.2 ("B", 1) [("C", 1)] rfl (by decide)⟩

end GraphVisualizer
namespace GraphVisualizer

/-! ## The active-path stack of `dfs` -/

section

variable {α : Type} [DecidableEq α]

theorem dfsRecursiveSnap_succ (g : Graph α) (fuel : Nat)
    (st : (View α × List α) × List (α × List α)) (u : α) :
    dfsRecursiveSnap g (fuel + 1) st u =
      if u ∈ st.1.2 then
        some (({ st.1.1 with dfsStack := st.1.1.dfsStack.dropLast }, st.1.2), st.2)
      else
        match (getNeighbors g u).foldl (dfsNeighborSnap g fuel u)
            (some ((markVisited st.1.1 u none, st.1.2 ++ [u]),
              st.2 ++ [(u, st.1.1.dfsStack)])) with
        | none => none
        | some s => some (({ s.1.1 with dfsStack := s.1.1.dfsStack.dropLast }, s.1.2), s.2) := by
  rfl

theorem dfsNeighbor_fold_none (g : Graph α) (fuel : Nat) (u : α) (ns : List (α × Nat)) :
    ns.foldl (dfsNeighbor g fuel u) none = none := by
  induction ns with
  | nil => rfl
  | cons nb ns ih => rw [List.foldl_cons]; exact ih

theorem dfsNeighborSnap_fold_none (g : Graph α) (fuel : Nat) (u : α) (ns : List (α × Nat)) :
    ns.foldl (dfsNeighborSnap g fuel u) none = none := by
  induction ns with
  | nil => rfl
  | cons nb ns ih => rw [List.foldl_cons]; exact ih

/-- Forgetting the record gives back `dfsRecursive`. -/
theorem dfsRecursiveSnap_erase (g : Graph α) :
    ∀ (fuel : Nat) (st : (View α × List α) × List (α × List α)) (u : α),
      (dfsRecursiveSnap g fuel st u).map Prod.fst = dfsRecursive g fuel st.1 u := by
  intro fuel
  induction fuel with
  | zero => intro st u; rfl
  | succ fuel ih =>
    intro st u
    have hfold : ∀ (ns : List (α × Nat)) (acc : Option ((View α × List α) × List (α × List α))),
        (ns.foldl (dfsNeighborSnap g fuel u) acc).map Prod.fst =
          ns.foldl (dfsNeighbor g fuel u) (acc.map Prod.fst) := by
      intro ns
      induction ns with
      | nil => intro acc; rfl
      | cons nb ns ihn =>
        intro acc
        rw [List.foldl_cons, List.foldl_cons, ihn]
        congr 1
        cases acc with
        | none => rfl
        | some s =>
          show (dfsNeighborSnap g fuel u (some s) nb).map Prod.fst =
            dfsNeighbor g fuel u (some s.1) nb
          unfold dfsNeighborSnap dfsNeighbor
          by_cases h : nb.1 ∈ s.1.2
          · simp only [h, if_true, Option.map_some']
          · simp only [h, if_false]
            exact ih _ nb.1
    rw [dfsRecursiveSnap_succ, dfsRecursive_succ]
    by_cases hu : u ∈ st.1.2
    · rw [if_pos hu, if_pos hu]; rfl
    · rw [if_neg hu, if_neg hu]
      have := hfold (getNeighbors g u)
        (some ((markVisited st.1.1 u none, st.1.2 ++ [u]), st.2 ++ [(u, st.1.1.dfsStack)]))
      simp only [Option.map_some'] at this
      rw [← this]
      cases (getNeighbors g u).foldl (dfsNeighborSnap g fuel u)
        (some ((markVisited st.1.1 u none, st.1.2 ++ [u]), st.2 ++ [(u, st.1.1.dfsStack)])) with
      | none => rfl
      | some s => rfl

/-- Every call of `dfsRecursive` that returns has removed the top entry of the stack it
was entered with: the entry pushed for it. -/
theorem dfsRecursive_pops (g : Graph α) :
    ∀ (fuel : Nat) (st : View α × List α) (u : α) (r : View α × List α),
      dfsRecursive g fuel st u = some r → r.1.dfsStack = st.1.dfsStack.dropLast := by
  intro fuel
  induction fuel with
  | zero => intro st u r h; cases h
  | succ fuel ih =>
    intro st u r h
    have hfold : ∀ (ns : List (α × Nat)) (s r1 : View α × List α),
        ns.foldl (dfsNeighbor g fuel u) (some s) = some r1 →
        r1.1.dfsStack = s.1.dfsStack := by
      intro ns
      induction ns with
      | nil => intro s r1 h1; cases h1; rfl
      | cons nb ns ihn =>
        intro s r1 h1
        rw [List.foldl_cons] at h1
        cases hstep : dfsNeighbor g fuel u (some s) nb with
        | none => rw [hstep, dfsNeighbor_fold_none] at h1; cases h1
        | some s2 =>
          rw [hstep] at h1
          rw [ihn s2 r1 h1]
          unfold dfsNeighbor at hstep
          by_cases hv : nb.1 ∈ s.2
          · simp only [hv, if_true] at hstep
            cases hstep; rfl
          · simp only [hv, if_false] at hstep
            rw [ih _ _ _ hstep]
            show (s.1.dfsStack ++ [nb.1]).dropLast = s.1.dfsStack
            exact List.dropLast_concat
    rw [dfsRecursive_succ] at h
    by_cases hu : u ∈ st.2
    · rw [if_pos hu] at h
      cases h; rfl
    · rw [if_neg hu] at h
      cases hf : (getNeighbors g u).foldl (dfsNeighbor g fuel u)
          (some (markVisited st.1 u none, st.2 ++ [u])) with
      | none => rw [hf] at h; cases h
      | some s =>
        rw [hf] at h
        cases h
        show s.1.dfsStack.dropLast = st.1.dfsStack.dropLast
        rw [hfold _ _ _ hf]
        rfl

theorem goodSnap_push (g : Graph α) (start u : α) (S : List α) (nb : α × Nat)
    (h : GoodSnap g start (u, S)) (hnb : nb ∈ getNeighbors g u) :
    GoodSnap g start (nb.1, S ++ [nb.1]) := by
  obtain ⟨h1, h2, h3⟩ := h
  have hne : S ≠ [] := by
    intro e
    rw [e] at h1
    cases h1
  refine ⟨?_, ?_, ?_⟩
  · show (S ++ [nb.1]).head? = some start
    rw [List.head?_append_of_ne_nil _ hne]; exact h1
  · show (S ++ [nb.1]).getLast? = some nb.1
    simp
  · show (S ++ [nb.1]).Chain' (Adj g)
    refine List.Chain'.append h3 (List.chain'_singleton _) ?_
    intro x hx y hy
    have hx1 : S.getLast? = some x := hx
    have hxu : x = u := by
      have h2' : S.getLast? = some u := h2
      rw [h2'] at hx1
      exact (Option.some.inj hx1).symm
    have hy1 : y = nb.1 := by simpa using hy.symm
    rw [hxu, hy1]
    exact adj_of_mem_getNeighbors g u nb hnb

/-- Every stack recorded by a call entered on an unvisited node with the chain from the
start on the stack is the chain from the start to the visited node, and one stack is
recorded per visit. -/
theorem dfsRecursiveSnap_good (g : Graph α) (start : α) :
    ∀ (fuel : Nat) (st : (View α × List α) × List (α × List α)) (u : α)
      (r : (View α × List α) × List (α × List α)),
      dfsRecursiveSnap g fuel st u = some r → u ∉ st.1.2 →
      GoodSnap g start (u, st.1.1.dfsStack) →
      (∀ sn ∈ st.2, GoodSnap g start sn) →
      st.2.map Prod.fst = st.1.1.visitedOrder →
      (∀ sn ∈ r.2, GoodSnap g start sn) ∧ r.2.map Prod.fst = r.1.1.visitedOrder := by
  intro fuel
  induction fuel with
  | zero => intro st u r h; cases h
  | succ fuel ih =>
    intro st u r h hu hgood hall hvis
    have hfold : ∀ (ns : List (α × Nat)) (s r1 : (View α × List α) × List (α × List α)),
        (∀ nb ∈ ns, nb ∈ getNeighbors g u) →
        ns.foldl (dfsNeighborSnap g fuel u) (some s) = some r1 →
        s.1.1.dfsStack = st.1.1.dfsStack →
        (∀ sn ∈ s.2, GoodSnap g start sn) → s.2.map Prod.fst = s.1.1.visitedOrder →
        (∀ sn ∈ r1.2, GoodSnap g start sn) ∧ r1.2.map Prod.fst = r1.1.1.visitedOrder := by
      intro ns
      induction ns with
      | nil => intro s r1 _ h1 _ h3 h4; cases h1; exact ⟨h3, h4⟩
      | cons nb ns ihn =>
        intro s r1 hns h1 h2 h3 h4
        rw [List.foldl_cons] at h1
        cases hstep : dfsNeighborSnap g fuel u (some s) nb with
        | none => rw [hstep, dfsNeighborSnap_fold_none] at h1; cases h1
        | some s2 =>
          rw [hstep] at h1
          have hns1 : ∀ x ∈ ns, x ∈ getNeighbors g u :=
            fun x hx => hns x (List.mem_cons_of_mem _ hx)
          unfold dfsNeighborSnap at hstep
          by_cases hv : nb.1 ∈ s.1.2
          · simp only [hv, if_true] at hstep
            cases hstep
            exact ihn s r1 hns1 h1 h2 h3 h4
          · simp only [hv, if_false] at hstep
            have hg : GoodSnap g start (nb.1, s.1.1.dfsStack ++ [nb.1]) := by
              rw [h2]
              exact goodSnap_push g start u _ nb hgood (hns nb (List.mem_cons_self _ _))
            obtain ⟨k1, k2⟩ := ih _ nb.1 s2 hstep hv hg h3 h4
            have hstack : s2.1.1.dfsStack = st.1.1.dfsStack := by
              have e := dfsRecursiveSnap_erase g fuel
                ((markEdge { s.1.1 with dfsStack := s.1.1.dfsStack ++ [nb.1] } u nb.1, s.1.2),
                  s.2) nb.1
              rw [hstep] at e
              have := dfsRecursive_pops g fuel _ nb.1 s2.1 e.symm
              rw [this]
              show (s.1.1.dfsStack ++ [nb.1]).dropLast = _
              rw [List.dropLast_concat, h2]
            exact ihn s2 r1 hns1 h1 hstack k1 k2
    rw [dfsRecursiveSnap_succ, if_neg hu] at h
    cases hf : (getNeighbors g u).foldl (dfsNeighborSnap g fuel u)
        (some ((markVisited st.1.1 u none, st.1.2 ++ [u]), st.2 ++ [(u, st.1.1.dfsStack)])) with
    | none => rw [hf] at h; cases h
    | some s =>
      rw [hf] at h
      cases h
      have := hfold _ _ _ (fun _ hx => hx) hf rfl (by
          intro sn hsn
          rcases List.mem_append.mp hsn with h1 | h1
          · exact hall sn h1
          · rw [List.mem_singleton.mp h1]; exact hgood) (by
          show (st.2 ++ [(u, st.1.1.dfsStack)]).map Prod.fst = st.1.1.visitedOrder ++ [u]
          rw [List.map_append, hvis]
          rfl)
      exact this

/-- C27: for every graph and start id, `dfs` returns; for every visit of a node `v`, in
the order of the visits, the stack shown at that moment has the start at the bottom and
`v` on top, with consecutive entries joined by an edge; every call of `dfsRecursive`
returns with the stack it was entered with less its top entry (one pop for the push made
for it), the outermost call returns with the empty stack, and the stack is empty when
`dfs` returns. -/
theorem dfs_stack_is_active_path (g : Graph α) (startId : α) (v : View α) :
    ∃ r snaps r0,
      dfsSnap g startId v = some (r, snaps) ∧ dfs g startId v = some r ∧
      snaps.map Prod.fst = r.visitedOrder ∧
      (∀ sn ∈ snaps, sn.2.head? = some startId ∧ sn.2.getLast? = some sn.1 ∧
        sn.2.Chain' (Adj g)) ∧
      (∀ (fuel : Nat) (st : View α × List α) (u : α) (r1 : View α × List α),
        dfsRecursive g fuel st u = some r1 → r1.1.dfsStack = st.1.dfsStack.dropLast) ∧
      dfsRecursive g (2 * g.edges.length + 1)
        ({ (beginRun v) with dfsStack := [startId] }, []) startId = some r0 ∧
      r0.1.dfsStack = [] ∧ r.dfsStack = [] := by
  obtain ⟨r, hr, _⟩ := dfs_spec g startId v
  have herase := dfsRecursiveSnap_erase g (2 * g.edges.length + 1)
    (({ (beginRun v) with dfsStack := [startId] }, []), []) startId
  cases hsnap : dfsRecursiveSnap g (2 * g.edges.length + 1)
      (({ (beginRun v) with dfsStack := [startId] }, []), []) startId with
  | none =>
    rw [hsnap] at herase
    unfold dfs at hr
    rw [← herase] at hr
    cases hr
  | some rs =>
    rw [hsnap] at herase
    have hrec : dfsRecursive g (2 * g.edges.length + 1)
        ({ (beginRun v) with dfsStack := [startId] }, []) startId = some (Prod.fst rs) :=
      herase.symm
    have hdfs := hr
    unfold dfs at hr
    rw [hrec] at hr
    simp only [Option.some.injEq] at hr
    subst hr
    obtain ⟨k1, k2⟩ := dfsRecursiveSnap_good g startId _ _ startId rs hsnap
      (by simp) ⟨rfl, rfl, List.chain'_singleton _⟩ (by intro sn h; simp at h) rfl
    refine ⟨_, rs.2, rs.1, ?_, hdfs, k2, k1, dfsRecursive_pops g, hrec, ?_, rfl⟩
    · unfold dfsSnap
      rw [hsnap]
    · rw [dfsRecursive_pops g _ _ _ _ hrec]; rfl

end

end GraphVisualizer
namespace GraphVisualizer

/-! ## Breadth-first search visits level by level -/

section

variable {α : Type} [DecidableEq α]

/-- A property of the set `visited` and the queue that every iteration of the loop of
`bfs` keeps holds when the loop returns. -/
theorem bfsLoop_invariant (g : Graph α) (Inv : List α → List α → Prop)
    (hskip : ∀ V c Q, Inv V (c :: Q) → c ∈ V → Inv V Q)
    (hvisit : ∀ V c Q, Inv V (c :: Q) → c ∉ V →
      Inv (V ++ [c])
        (Q ++ ((getNeighbors g c).map Prod.fst).filter (fun x => decide (x ∉ V ++ [c])))) :
    ∀ (fuel : Nat) (v : View α) (V Q : List α) (r : View α × List α),
      bfsLoop g fuel v V Q = some r → Inv V Q → Inv r.2 [] := by
  intro fuel
  induction fuel with
  | zero =>
    intro v V Q r h hinv
    cases Q with
    | nil =>
      unfold bfsLoop at h
      cases h
      exact hinv
    | cons c Q =>
      unfold bfsLoop at h
      cases h
  | succ fuel ih =>
    intro v V Q r h hinv
    cases Q with
    | nil =>
      unfold bfsLoop at h
      cases h
      exact hinv
    | cons c Q =>
      unfold bfsLoop at h
      by_cases hc : c ∈ V
      · simp only [hc, if_true] at h
        exact ih _ _ _ r h (hskip V c Q hinv hc)
      · simp only [hc, if_false] at h
        have hq := (bfsNeighbor_fold c (V ++ [c]) (getNeighbors g c)
          (markVisited { v with bfsQueue := Q } c none) Q).1
        refine ih _ _ _ r h ?_
        rw [hq]
        exact hvisit V c Q hinv hc

/-- A path of `k` edges from the start ends in a visited node or some queue entry has a
level of at most `k`. -/
theorem lvlInv_path (g : Graph α) (s : α) (vl ql : List (α × Nat)) (c : Nat)
    (h : LvlInv g s vl ql c) (x : α) (k : Nat) (hx : Hops g s x k) :
    x ∈ vl.map Prod.fst ∨ ∃ q ∈ ql, q.2 ≤ k := by
  induction hx with
  | nil =>
    rcases h.start with h1 | h1
    · exact Or.inl h1
    · exact Or.inr ⟨(s, 0), h1, le_refl _⟩
  | @snoc y z k hy hadj ih =>
    rcases ih with h1 | ⟨q, hq, hqk⟩
    · obtain ⟨p, hp, hpy⟩ := List.mem_map.mp h1
      obtain ⟨w, hw⟩ := mem_getNeighbors_of_adj g y z hadj
      have hlev : p.2 ≤ k := (h.v_dist p hp).2 k (hpy ▸ hy)
      rcases h.closed p hp (z, w) (hpy ▸ hw) with h2 | ⟨q, hq, _, hq2⟩
      · exact Or.inl h2
      · exact Or.inr ⟨q, hq, by omega⟩
    · exact Or.inr ⟨q, hq, by omega⟩

theorem lvlInv_skip (g : Graph α) (s : α) (vl ql : List (α × Nat)) (c : Nat) (hd : α × Nat)
    (h : LvlInv g s vl (hd :: ql) c) (hv : hd.1 ∈ vl.map Prod.fst) :
    LvlInv g s vl ql c := by
  refine ⟨h.v_dist, h.v_sorted, h.v_le, fun p hp => h.q_hops p (List.mem_cons_of_mem _ hp),
    (List.pairwise_cons.mp h.q_sorted).2, fun p hp => h.q_range p (List.mem_cons_of_mem _ hp),
    ?_, ?_⟩
  · intro p hp nb hnb
    rcases h.closed p hp nb hnb with h1 | ⟨q, hq, hq1, hq2⟩
    · exact Or.inl h1
    · rcases List.mem_cons.mp hq with h2 | h2
      · left
        rw [← hq1, h2]; exact hv
      · exact Or.inr ⟨q, h2, hq1, hq2⟩
  · rcases h.start with h1 | h1
    · exact Or.inl h1
    · rcases List.mem_cons.mp h1 with h2 | h2
      · left
        rw [← h2] at hv; exact hv
      · exact Or.inr h2

theorem lvlInv_visit (g : Graph α) (s : α) (vl ql : List (α × Nat)) (c : Nat) (hd : α × Nat)
    (h : LvlInv g s vl (hd :: ql) c) (hv : hd.1 ∉ vl.map Prod.fst) :
    LvlInv g s (vl ++ [hd])
      (ql ++ (((getNeighbors g hd.1).map Prod.fst).filter
        (fun x => decide (x ∉ vl.map Prod.fst ++ [hd.1]))).map (fun x => (x, hd.2 + 1)))
      hd.2 := by
  have hhead : ∀ q ∈ hd :: ql, hd.2 ≤ q.2 := by
    intro q hq
    rcases List.mem_cons.mp hq with h1 | h1
    · rw [h1]
    · exact (List.pairwise_cons.mp h.q_sorted).1 q h1
  have hrange := h.q_range hd (List.mem_cons_self _ _)
  have hnew : ∀ p ∈ (((getNeighbors g hd.1).map Prod.fst).filter
      (fun x => decide (x ∉ vl.map Prod.fst ++ [hd.1]))).map (fun x => (x, hd.2 + 1)),
      p.2 = hd.2 + 1 ∧ ∃ w, (p.1, w) ∈ getNeighbors g hd.1 := by
    intro p hp
    obtain ⟨x, hx, rfl⟩ := List.mem_map.mp hp
    obtain ⟨hx1, _⟩ := List.mem_filter.mp hx
    obtain ⟨nb, hnb, rfl⟩ := List.mem_map.mp hx1
    exact ⟨rfl, nb.2, hnb⟩
  refine ⟨?_, ?_, ?_, ?_, ?_, ?_, ?_, ?_⟩
  · intro p hp
    rcases List.mem_append.mp hp with h1 | h1
    · exact h.v_dist p h1
    · rw [List.mem_singleton.mp h1]
      refine ⟨h.q_hops hd (List.mem_cons_self _ _), ?_⟩
      intro k hk
      rcases lvlInv_path g s vl (hd :: ql) c h hd.1 k hk with h2 | ⟨q, hq, hqk⟩
      · exact absurd h2 hv
      · have := hhead q hq
        omega
  · refine List.pairwise_append.mpr ⟨h.v_sorted, List.pairwise_singleton _ _, ?_⟩
    intro a ha b hb
    rw [List.mem_singleton.mp hb]
    have := h.v_le a ha
    omega
  · intro p hp
    rcases List.mem_append.mp hp with h1 | h1
    · have := h.v_le p h1
      omega
    · rw [List.mem_singleton.mp h1]
  · intro p hp
    rcases List.mem_append.mp hp with h1 | h1
    · exact h.q_hops p (List.mem_cons_of_mem _ h1)
    · obtain ⟨e1, w, hw⟩ := hnew p h1
      rw [e1]
      exact Hops.snoc (h.q_hops hd (List.mem_cons_self _ _))
        (adj_of_mem_getNeighbors g hd.1 (p.1, w) hw)
  · refine List.pairwise_append.mpr ⟨(List.pairwise_cons.mp h.q_sorted).2, ?_, ?_⟩
    · rw [List.pairwise_map]
      exact List.pairwise_of_forall (fun _ _ => le_refl _)
    · intro a ha b hb
      have := (h.q_range a (List.mem_cons_of_mem _ ha)).2
      rw [(hnew b hb).1]
      omega
  · intro p hp
    rcases List.mem_append.mp hp with h1 | h1
    · have := hhead p (List.mem_cons_of_mem _ h1)
      have := (h.q_range p (List.mem_cons_of_mem _ h1)).2
      omega
    · rw [(hnew p h1).1]
      omega
  · intro p hp nb hnb
    rcases List.mem_append.mp hp with h1 | h1
    · rcases h.closed p h1 nb hnb with h2 | ⟨q, hq, hq1, hq2⟩
      · left
        rw [List.map_append]
        exact List.mem_append_left _ h2
      · rcases List.mem_cons.mp hq with h3 | h3
        · left
          rw [List.map_append, ← hq1, h3]
          exact List.mem_append_right _ (by simp)
        · exact Or.inr ⟨q, List.mem_append_left _ h3, hq1, hq2⟩
    · rw [List.mem_singleton.mp h1] at hnb ⊢
      by_cases hin : nb.1 ∈ vl.map Prod.fst ++ [hd.1]
      · left
        rw [List.map_append]
        exact hin
      · right
        refine ⟨(nb.1, hd.2 + 1), List.mem_append_right _ ?_, rfl, le_refl _⟩
        refine List.mem_map.mpr ⟨nb.1, List.mem_filter.mpr ⟨?_, by simpa using hin⟩, rfl⟩
        exact List.mem_map.mpr ⟨nb, hnb, rfl⟩
  · rcases h.start with h1 | h1
    · left
      rw [List.map_append]
      exact List.mem_append_left _ h1
    · rcases List.mem_cons.mp h1 with h2 | h2
      · left
        rw [List.map_append, ← h2]
        exact List.mem_append_right _ (by simp)
      · exact Or.inr (List.mem_append_left _ h2)

/-- When the loop of `bfs` returns, the levels attached to the visited nodes are their
least numbers of edges from the start and do not decrease along the visit order. -/
theorem bfsLoop_levels (g : Graph α) (s : α) (fuel : Nat) (v : View α)
    (r : View α × List α) (h : bfsLoop g fuel v [] [s] = some r) :
    r.2.Pairwise (fun a b => ∀ k, Hops g s b k → ∃ j, j ≤ k ∧ Hops g s a j) := by
  have hinv := bfsLoop_invariant g
    (fun V Q => ∃ vl ql c, vl.map Prod.fst = V ∧ ql.map Prod.fst = Q ∧ LvlInv g s vl ql c)
    (by
      rintro V c Q ⟨vl, ql, lev, hV, hQ, hl⟩ hc
      cases ql with
      | nil => simp at hQ
      | cons hd ql =>
        simp only [List.map_cons, List.cons.injEq] at hQ
        refine ⟨vl, ql, lev, hV, hQ.2, lvlInv_skip g s vl ql lev hd hl ?_⟩
        rw [hV, hQ.1]; exact hc)
    (by
      rintro V c Q ⟨vl, ql, lev, hV, hQ, hl⟩ hc
      cases ql with
      | nil => simp at hQ
      | cons hd ql =>
        simp only [List.map_cons, List.cons.injEq] at hQ
        have hl2 := lvlInv_visit g s vl ql lev hd hl (by rw [hV, hQ.1]; exact hc)
        refine ⟨_, _, _, ?_, ?_, hl2⟩
        · rw [List.map_append, hV, ← hQ.1]; rfl
        · rw [List.map_append, List.map_map, hQ.2, hV, hQ.1]
          congr 1
          exact List.map_id _)
    fuel v [] [s] r h
    ⟨[], [(s, 0)], 0, rfl, rfl,
      ⟨by intro p hp; simp at hp, List.Pairwise.nil, by intro p hp; simp at hp,
        by
          intro p hp
          rw [List.mem_singleton.mp hp]
          exact Hops.nil,
        List.pairwise_singleton _ _,
        by
          intro p hp
          rw [List.mem_singleton.mp hp]
          exact ⟨le_refl _, Nat.le_succ _⟩,
        by intro p hp; simp at hp, Or.inr (List.mem_singleton_self _)⟩⟩
  obtain ⟨vl, ql, lev, hV, _, hl⟩ := hinv
  rw [← hV, List.pairwise_map]
  refine List.Pairwise.imp_of_mem ?_ hl.v_sorted
  intro a b ha hb hab k hk
  exact ⟨a.2, le_trans hab ((hl.v_dist b hb).2 k hk), (hl.v_dist a ha).1⟩

/-- C30: for every graph and every start id, `bfs` returns, and for any two nodes `u`,
`v` with `u` before `v` in its visit order, every path from the start to `v` is at least
as long (in edges) as some path from the start to `u`: the least number of edges to `u`
is at most that to `v`. -/
theorem bfs_visits_level_by_level (g : Graph α) (startId : α) (v : View α) :
    ∃ r, bfs g startId v = some r ∧
      r.visitedOrder.Pairwise
        (fun a b => ∀ k, Hops g startId b k → ∃ j, j ≤ k ∧ Hops g startId a j) := by
  obtain ⟨r, e, h1, _⟩ := bfsLoop_spec g startId (2 * g.edges.length + 2)
    { (beginRun v) with bfsQueue := [startId] } [] [startId]
    (by rw [unseen_nil]; simp; omega) rfl List.nodup_nil (by simp)
    (by
      intro x hx
      rw [List.mem_singleton] at hx
      rw [hx]; exact Relation.ReflTransGen.refl)
    (by simp) (Or.inr (List.mem_singleton_self _))
  have hlev := bfsLoop_levels g startId _ _ r e
  unfold bfs
  rw [e]
  refine ⟨_, rfl, ?_⟩
  show r.1.visitedOrder.Pairwise _
  rw [h1]
  exact hlev

end

end GraphVisualizer
namespace GraphVisualizer

/-! ## The generated graphs are connected -/

section

theorem fold_bind_none {σ β : Type} (f : β → σ → Option σ) (l : List β) :
    l.foldl (fun acc x => acc.bind (f x)) none = none := by
  induction l with
  | nil => rfl
  | cons x l ih => exact ih

theorem forEach_cons {σ β : Type} (x : β) (l : List β) (f : β → σ → Option σ) (s : σ) :
    forEach (x :: l) f s = (f x s).bind (forEach l f) := by
  unfold forEach
  rw [List.foldl_cons]
  cases h : f x s with
  | none =>
    show l.foldl (fun acc x => acc.bind (f x)) ((some s).bind (f x)) = none
    rw [show (some s).bind (f x) = f x s from rfl, h]
    exact fold_bind_none f l
  | some s1 =>
    show l.foldl (fun acc x => acc.bind (f x)) ((some s).bind (f x)) = _
    rw [show (some s).bind (f x) = f x s from rfl, h]
    rfl

/-- A property of the part of the list already treated that every step extends holds of
the whole list when the loop returns. -/
theorem forEach_inv {σ β : Type} (f : β → σ → Option σ) (Inv : List β → σ → Prop) :
    ∀ (l pre : List β) (s s1 : σ), forEach l f s = some s1 → Inv pre s →
      (∀ x ∈ l, ∀ (pre : List β) (s s1 : σ), Inv pre s → f x s = some s1 → Inv (pre ++ [x]) s1) →
      Inv (pre ++ l) s1 := by
  intro l
  induction l with
  | nil =>
    intro pre s s1 h hinv _
    cases h
    rw [List.append_nil]; exact hinv
  | cons x l ih =>
    intro pre s s1 h hinv hstep
    rw [forEach_cons] at h
    cases hx : f x s with
    | none => rw [hx] at h; cases h
    | some s2 =>
      rw [hx] at h
      have := ih (pre ++ [x]) s2 s1 h (hstep x (List.mem_cons_self _ _) pre s s2 hinv hx)
        (fun y hy => hstep y (List.mem_cons_of_mem _ hy))
      rw [List.append_assoc] at this
      exact this

theorem stepOk_forEach {σ β : Type} (E : σ → List (Edge Nat)) (G : σ → Prop)
    (f : β → σ → Option σ) (l : List β) (h : ∀ x ∈ l, StepOk E G (f x)) :
    StepOk E G (forEach l f) := by
  intro s s1 hs hg
  have := forEach_inv f (fun _ t => G t ∧ ∀ e ∈ E s, e ∈ E t) l [] s s1 hs
    ⟨hg, fun e he => he⟩ (by
      intro x hx pre t t1 hinv hf
      obtain ⟨k1, k2⟩ := h x hx t t1 hf hinv.1
      exact ⟨k1, fun e he => k2 e (hinv.2 e he)⟩)
  exact this

theorem stepOk_bind {σ : Type} (E : σ → List (Edge Nat)) (G : σ → Prop)
    (f h : σ → Option σ) (hf : StepOk E G f) (hh : StepOk E G h) :
    StepOk E G (fun s => (f s).bind h) := by
  intro s s1 hs hg
  cases hfs : f s with
  | none => simp only [hfs] at hs; cases hs
  | some s2 =>
    simp only [hfs] at hs
    obtain ⟨k1, k2⟩ := hf s s2 hfs hg
    obtain ⟨k3, k4⟩ := hh s2 s1 hs k1
    exact ⟨k3, fun e he => k4 e (k2 e he)⟩

theorem stepOk_some {σ : Type} (E : σ → List (Edge Nat)) (G : σ → Prop) :
    StepOk E G (fun s => some s) := by
  intro s s1 hs hg
  cases hs
  exact ⟨hg, fun e he => he⟩

/-- A fact on the edges that the step for `x` establishes and that adding edges keeps
holds for every `x` of the list when the loop returns. -/
theorem forEach_establish {σ β : Type} (E : σ → List (Edge Nat)) (G : σ → Prop)
    (f : β → σ → Option σ) (P : β → List (Edge Nat) → Prop) (l : List β)
    (hstep : ∀ x ∈ l, StepOk E G (f x))
    (hfact : ∀ x ∈ l, ∀ s s1, f x s = some s1 → G s → P x (E s1))
    (hmono : ∀ x es es1, (∀ e ∈ es, e ∈ es1) → P x es → P x es1)
    (s s1 : σ) (hs : forEach l f s = some s1) (hg : G s) :
    ∀ x ∈ l, P x (E s1) := by
  have := forEach_inv f (fun pre t => G t ∧ ∀ x ∈ pre, P x (E t)) l [] s s1 hs
    ⟨hg, fun x hx => by simp at hx⟩ (by
      intro x hx pre t t1 hinv hf
      obtain ⟨k1, k2⟩ := hstep x hx t t1 hf hinv.1
      refine ⟨k1, ?_⟩
      intro y hy
      rcases List.mem_append.mp hy with h1 | h1
      · exact hmono y _ _ k2 (hinv.2 y h1)
      · rw [List.mem_singleton.mp h1]
        exact hfact x hx t t1 hf hinv.1)
  exact this.2

theorem adj_mono (n : Nat) (es es1 : List (Edge Nat)) (h : ∀ e ∈ es, e ∈ es1) (a b : Nat)
    (hab : Adj (genGraph n es) a b) : Adj (genGraph n es1) a b := by
  obtain ⟨e, he, h1⟩ := hab
  exact ⟨e, h e he, h1⟩

theorem adj_symm {α : Type} [DecidableEq α] (g : Graph α) (a b : α) (h : Adj g a b) :
    Adj g b a := by
  obtain ⟨e, he, h1 | h1⟩ := h
  · exact ⟨e, he, Or.inr h1⟩
  · exact ⟨e, he, Or.inl h1⟩

theorem reachable_symm {α : Type} [DecidableEq α] (g : Graph α) (a b : α)
    (h : Reachable g a b) : Reachable g b a := by
  induction h with
  | refl => exact Relation.ReflTransGen.refl
  | tail _ hadj ih => exact Relation.ReflTransGen.head (adj_symm g _ _ hadj) ih

theorem mem_generateNodeIds (n i : Nat) (h : i < n) : nodeId i ∈ generateNodeIds n :=
  List.mem_map.mpr ⟨i, List.mem_range.mpr h, rfl⟩

/-- If every node but the first is joined to a node of smaller index, the graph on the
generated nodes is connected. -/
theorem connected_of_down_edges (n : Nat) (es : List (Edge Nat))
    (h : ∀ i, 1 ≤ i → i < n → ∃ j, j < i ∧ Adj (genGraph n es) (nodeId i) (nodeId j)) :
    (genGraph n es).Connected := by
  have key : ∀ i, i < n → Reachable (genGraph n es) (nodeId 0) (nodeId i) := by
    intro i
    induction i using Nat.strong_induction_on with
    | _ i ih =>
      intro hi
      by_cases h0 : i = 0
      · rw [h0]; exact Relation.ReflTransGen.refl
      · obtain ⟨j, hj, hadj⟩ := h i (by omega) hi
        exact Relation.ReflTransGen.tail (ih j hj (by omega)) (adj_symm _ _ _ hadj)
  intro u hu v hv
  obtain ⟨i, hi, rfl⟩ := List.mem_map.mp hu
  obtain ⟨j, hj, rfl⟩ := List.mem_map.mp hv
  exact Relation.ReflTransGen.trans (reachable_symm _ _ _ (key i (List.mem_range.mp hi)))
    (key j (List.mem_range.mp hj))

theorem nextDraw_lt (ds ds1 : List Nat) (u : Nat) (h : nextDraw ds = some (u, ds1)) :
    u < 2 ^ 53 := by
  cases ds with
  | nil => cases h
  | cons x xs =>
    have h1 : (if x < 2 ^ 53 then some (x, xs) else none) = some (u, ds1) := h
    by_cases hx : x < 2 ^ 53
    · rw [if_pos hx] at h1
      cases h1
      exact hx
    · rw [if_neg hx] at h1
      cases h1

/-- The test `Math.random() < 0.3` against the double nearest to `0.3`. -/
theorem below03_double (u : Nat) : below03 u = decide (2 * u < 5404319552844595) := by
  unfold below03
  have h : (2 : Nat) ^ 53 = 9007199254740992 := by norm_num
  rw [h]
  by_cases h1 : 2 * u < 5404319552844595
  · rw [decide_eq_true h1, decide_eq_true (by omega)]
  · rw [decide_eq_false h1, decide_eq_false (by omega)]

/-- The rounding of the product is visible in the index: for the draw
`5404319552844595 / 2^53` and the bound `5` the exact product is just below `3`, the
double product is `3`. -/
theorem scaleDraw_rounded_product :
    scaleDraw 5404319552844595 5 = 3 ∧ 5404319552844595 * 5 / 2 ^ 53 = 2 := by
  decide

theorem scaleDraw_lt (u n : Nat) (hu : u < 2 ^ 53) (hn : 1 ≤ n) : scaleDraw u n < n := by
  unfold scaleDraw
  apply Nat.div_lt_of_lt_mul
  exact JsNumber.roundSig_mul_lt u n hu hn

theorem addEdge_good (n : Nat) (s : GenState) (a b w : Nat) (hg : GenGood n s)
    (ha : a ∈ generateNodeIds n) (hb : b ∈ generateNodeIds n) :
    GenGood n (addEdge s a b w) ∧ (∀ e ∈ s.edges, e ∈ (addEdge s a b w).edges) ∧
      Adj (genGraph n (addEdge s a b w).edges) a b := by
  unfold addEdge
  by_cases hk : (a, b) ∉ s.edgeSet ∧ (b, a) ∉ s.edgeSet
  · rw [if_pos hk]
    have hmono : ∀ e ∈ s.edges, e ∈ s.edges ++ [(⟨a, b, w⟩ : Edge Nat)] :=
      fun e he => List.mem_append_left _ he
    have hnew : Adj (genGraph n (s.edges ++ [(⟨a, b, w⟩ : Edge Nat)])) a b :=
      ⟨⟨a, b, w⟩, List.mem_append_right _ (List.mem_singleton_self _), Or.inl ⟨rfl, rfl⟩⟩
    refine ⟨⟨?_, ?_⟩, hmono, hnew⟩
    · intro k hk1
      have hk2 : k ∈ s.edgeSet ++ [(a, b), (b, a)] := hk1
      rcases List.mem_append.mp hk2 with h1 | h1
      · exact adj_mono n _ _ hmono _ _ (hg.1 k h1)
      · simp only [List.mem_cons, List.mem_singleton, List.not_mem_nil, or_false] at h1
        rcases h1 with h2 | h2
        · rw [h2]; exact hnew
        · rw [h2]; exact adj_symm _ _ _ hnew
    · intro e he
      have he1 : e ∈ s.edges ++ [(⟨a, b, w⟩ : Edge Nat)] := he
      rcases List.mem_append.mp he1 with h1 | h1
      · exact hg.2 e h1
      · rw [List.mem_singleton.mp h1]
        exact ⟨ha, hb⟩
  · rw [if_neg hk]
    refine ⟨hg, fun e he => he, ?_⟩
    by_cases h1 : (a, b) ∈ s.edgeSet
    · exact hg.1 (a, b) h1
    · have h2 : (b, a) ∈ s.edgeSet := by
        by_contra h3
        exact hk ⟨h1, h3⟩
      exact adj_symm _ _ _ (hg.1 (b, a) h2)

theorem addEdgeDrawn_good (n i j : Nat) (hi : i < n) (hj : j < n) (s s1 : GenState)
    (h : addEdgeDrawn i j s = some s1) (hg : GenGood n s) :
    GenGood n s1 ∧ (∀ e ∈ s.edges, e ∈ s1.edges) ∧
      Adj (genGraph n s1.edges) (nodeId i) (nodeId j) := by
  unfold addEdgeDrawn at h
  cases hd : nextDraw s.draws with
  | none => rw [hd] at h; cases h
  | some r =>
    obtain ⟨u, ds⟩ := r
    rw [hd] at h
    simp only [Option.some.injEq] at h
    rw [← h]
    exact addEdge_good n { s with draws := ds } (nodeId i) (nodeId j) _ hg
      (mem_generateNodeIds n i hi) (mem_generateNodeIds n j hj)

theorem stepOk_addEdgeDrawn (n i j : Nat) (hi : i < n) (hj : j < n) :
    StepOk GenState.edges (GenGood n) (addEdgeDrawn i j) := by
  intro s s1 h hg
  obtain ⟨k1, k2, _⟩ := addEdgeDrawn_good n i j hi hj s s1 h hg
  exact ⟨k1, k2⟩

theorem drawOther_lt (n src : Nat) (hn : 1 ≤ n) :
    ∀ (ds ds1 : List Nat) (d : Nat), drawOther n src ds = some (d, ds1) → d < n := by
  intro ds
  induction ds with
  | nil => intro ds1 d h; cases h
  | cons u ds ih =>
    intro ds1 d h
    unfold drawOther at h
    by_cases hu : u < 2 ^ 53
    · rw [if_pos hu] at h
      by_cases he : scaleDraw u n = src
      · rw [if_pos he] at h
        exact ih ds1 d h
      · rw [if_neg he] at h
        cases h
        exact scaleDraw_lt u n hu hn
    · rw [if_neg hu] at h
      cases h

theorem stepOk_randomEdge (n : Nat) (hn : 1 ≤ n) :
    StepOk GenState.edges (GenGood n) (randomEdge n) := by
  intro s s1 h hg
  unfold randomEdge at h
  cases hd : nextDraw s.draws with
  | none => rw [hd] at h; cases h
  | some r =>
    obtain ⟨u, ds⟩ := r
    rw [hd] at h
    simp only at h
    cases ho : drawOther n (scaleDraw u n) ds with
    | none => rw [ho] at h; cases h
    | some r2 =>
      obtain ⟨d, ds2⟩ := r2
      rw [ho] at h
      simp only at h
      exact stepOk_addEdgeDrawn n _ d (scaleDraw_lt u n (nextDraw_lt _ _ _ hd) hn)
        (drawOther_lt n _ hn ds ds2 d ho) { s with draws := ds2 } s1 h hg

theorem genGood_init (n : Nat) (draws : List Nat) :
    GenGood n { edges := [], edgeSet := [], draws := draws } :=
  ⟨fun k hk => by simp at hk, fun e he => by simp [genGraph] at he⟩

/-! ### The three branches -/

theorem completeEdges_spec (n : Nat) (s s1 : GenState) (h : completeEdges n s = some s1)
    (hg : GenGood n s) :
    GenGood n s1 ∧ (genGraph n s1.edges).Connected := by
  have hinner : ∀ i ∈ List.range n, StepOk GenState.edges (GenGood n)
      (forEach (List.range' (i + 1) (n - (i + 1))) (fun j => addEdgeDrawn i j)) := by
    intro i hi
    have hi1 := List.mem_range.mp hi
    apply stepOk_forEach
    intro j hj
    obtain ⟨_, hj2⟩ := List.mem_range'_1.mp hj
    exact stepOk_addEdgeDrawn n i j hi1 (by omega)
  have hgood := (stepOk_forEach _ _ _ _ hinner s s1 h hg).1
  have hfacts := forEach_establish GenState.edges (GenGood n) _
    (fun i es => ∀ j, i < j → j < n → Adj (genGraph n es) (nodeId i) (nodeId j))
    (List.range n) hinner (by
      intro i hi t t1 ht htg j hij hjn
      have hi1 := List.mem_range.mp hi
      exact forEach_establish GenState.edges (GenGood n) (fun j => addEdgeDrawn i j)
        (fun j es => Adj (genGraph n es) (nodeId i) (nodeId j))
        (List.range' (i + 1) (n - (i + 1)))
        (fun j hj => stepOk_addEdgeDrawn n i j hi1 (by
          have := (List.mem_range'_1.mp hj).2
          omega))
        (fun j hj u u1 hu hug => (addEdgeDrawn_good n i j hi1 (by
          have := (List.mem_range'_1.mp hj).2
          omega) u u1 hu hug).2.2)
        (fun j es es1 hm hp => adj_mono n es es1 hm _ _ hp)
        t t1 ht htg j (List.mem_range'_1.mpr ⟨by omega, by omega⟩))
    (fun i es es1 hm hp j hij hjn => adj_mono n es es1 hm _ _ (hp j hij hjn))
    s s1 h hg
  refine ⟨hgood, connected_of_down_edges n s1.edges ?_⟩
  intro i hi1 hin
  exact ⟨0, by omega, adj_symm _ _ _
    (hfacts 0 (List.mem_range.mpr (by omega)) i (by omega) hin)⟩

theorem mediumEdges_spec (n : Nat) (hn : 1 ≤ n) (s s1 : GenState)
    (h : mediumEdges n s = some s1) (hg : GenGood n s) :
    GenGood n s1 ∧ (genGraph n s1.edges).Connected := by
  unfold mediumEdges at h
  have htree : ∀ i ∈ List.range' 1 (n - 1),
      StepOk GenState.edges (GenGood n) (fun t => addEdgeDrawn i (i / 2) t) := by
    intro i hi
    obtain ⟨hi1, hi2⟩ := List.mem_range'_1.mp hi
    exact stepOk_addEdgeDrawn n i (i / 2) (by omega) (by omega)
  have hring : StepOk GenState.edges (GenGood n) (forEach (List.range n)
      (fun i s1 =>
        (addEdgeDrawn i ((i + 1) % n) s1).bind
          (fun s2 => if i + 2 < n then addEdgeDrawn i (i + 2) s2 else some s2))) := by
    apply stepOk_forEach
    intro i hi
    have hi1 := List.mem_range.mp hi
    apply stepOk_bind
    · exact stepOk_addEdgeDrawn n i _ hi1 (Nat.mod_lt _ (by omega))
    · by_cases h2 : i + 2 < n
      · simp only [h2, if_true]
        exact stepOk_addEdgeDrawn n i _ hi1 h2
      · simp only [h2, if_false]
        exact stepOk_some _ _
  have hrand : StepOk GenState.edges (GenGood n)
      (forEach (List.range (min 3 (n / 2))) (fun _ => randomEdge n)) :=
    stepOk_forEach _ _ _ _ (fun _ _ => stepOk_randomEdge n hn)
  cases h1 : forEach (List.range' 1 (n - 1)) (fun i => addEdgeDrawn i (i / 2)) s with
  | none => rw [h1] at h; cases h
  | some t1 =>
    rw [h1] at h
    simp only [Option.some_bind] at h
    cases h2 : forEach (List.range n)
        (fun i s1 =>
          (addEdgeDrawn i ((i + 1) % n) s1).bind
            (fun s2 => if i + 2 < n then addEdgeDrawn i (i + 2) s2 else some s2)) t1 with
    | none => rw [h2] at h; cases h
    | some t2 =>
      rw [h2] at h
      simp only [Option.some_bind] at h
      have hg1 := (stepOk_forEach _ _ _ _ htree s t1 h1 hg).1
      have hfacts := forEach_establish GenState.edges (GenGood n)
        (fun i => addEdgeDrawn i (i / 2))
        (fun i es => Adj (genGraph n es) (nodeId i) (nodeId (i / 2)))
        (List.range' 1 (n - 1)) htree (by
          intro i hi u u1 hu hug
          obtain ⟨hi1, hi2⟩ := List.mem_range'_1.mp hi
          exact (addEdgeDrawn_good n i (i / 2) (by omega) (by omega) u u1 hu hug).2.2)
        (fun i es es1 hm hp => adj_mono n es es1 hm _ _ hp) s t1 h1 hg
      obtain ⟨hg2, hm2⟩ := hring t1 t2 h2 hg1
      obtain ⟨hg3, hm3⟩ := hrand t2 s1 h hg2
      refine ⟨hg3, connected_of_down_edges n s1.edges ?_⟩
      intro i hi1 hin
      refine ⟨i / 2, by omega, ?_⟩
      exact adj_mono n _ _ (fun e he => hm3 e (hm2 e he)) _ _
        (hfacts i (List.mem_range'_1.mpr ⟨hi1, by omega⟩))

theorem ceilSqrt_pos (n : Nat) (hn : 1 ≤ n) : 1 ≤ ceilSqrt n := by
  unfold ceilSqrt
  cases h : (List.range (n + 1)).find? (fun c => decide (n ≤ c * c)) with
  | none => exact hn
  | some c =>
    have h1 := List.find?_some h
    simp only [decide_eq_true_eq] at h1
    show 1 ≤ c
    rcases Nat.eq_zero_or_pos c with h0 | h0
    · rw [h0] at h1
      omega
    · exact h0

theorem stepOk_gridStep (n cols i : Nat) (hi : i < n) :
    StepOk GenState.edges (GenGood n) (gridStep n cols i) := by
  unfold gridStep
  apply stepOk_bind
  · apply stepOk_bind
    · by_cases h1 : i % cols < cols - 1 ∧ i + 1 < n
      · simp only [h1, and_self, if_true]
        exact stepOk_addEdgeDrawn n i _ hi h1.2
      · simp only [h1, if_false]
        exact stepOk_some _ _
    · by_cases h2 : i / cols < (n - 1) / cols ∧ i + cols < n
      · simp only [h2, and_self, if_true]
        exact stepOk_addEdgeDrawn n i _ hi h2.2
      · simp only [h2, if_false]
        exact stepOk_some _ _
  · by_cases h3 : i % cols < cols - 1 ∧ i + cols + 1 < n
    · simp only [h3, and_self, if_true]
      intro t t1 ht htg
      cases hd : nextDraw t.draws with
      | none => simp only [hd] at ht; cases ht
      | some r =>
        obtain ⟨u, ds⟩ := r
        simp only [hd] at ht
        by_cases hb : below03 u = true
        · rw [if_pos hb] at ht
          exact stepOk_addEdgeDrawn n i _ hi h3.2 { t with draws := ds } t1 ht htg
        · rw [if_neg hb] at ht
          cases ht
          exact ⟨htg, fun e he => he⟩
    · simp only [h3, if_false]
      exact stepOk_some _ _

theorem gridStep_facts (n cols i : Nat) (hi : i < n) (s s1 : GenState)
    (h : gridStep n cols i s = some s1) (hg : GenGood n s) :
    (i % cols < cols - 1 ∧ i + 1 < n → Adj (genGraph n s1.edges) (nodeId i) (nodeId (i + 1))) ∧
    (i / cols < (n - 1) / cols ∧ i + cols < n →
      Adj (genGraph n s1.edges) (nodeId i) (nodeId (i + cols))) := by
  -- split the step in its three parts
  have hthird : StepOk GenState.edges (GenGood n)
      (fun s2 : GenState =>
        if i % cols < cols - 1 ∧ i + cols + 1 < n then
          match nextDraw s2.draws with
          | none => none
          | some (u, ds) =>
            if below03 u then addEdgeDrawn i (i + cols + 1) { s2 with draws := ds }
            else some { s2 with draws := ds }
        else some s2) := by
    by_cases h3 : i % cols < cols - 1 ∧ i + cols + 1 < n
    · simp only [h3, and_self, if_true]
      intro t t1 ht htg
      cases hd : nextDraw t.draws with
      | none => simp only [hd] at ht; cases ht
      | some r =>
        obtain ⟨u, ds⟩ := r
        simp only [hd] at ht
        by_cases hb : below03 u = true
        · rw [if_pos hb] at ht
          exact stepOk_addEdgeDrawn n i _ hi h3.2 { t with draws := ds } t1 ht htg
        · rw [if_neg hb] at ht
          cases ht
          exact ⟨htg, fun e he => he⟩
    · simp only [h3, if_false]
      exact stepOk_some _ _
  unfold gridStep at h
  cases ha : (if i % cols < cols - 1 ∧ i + 1 < n then addEdgeDrawn i (i + 1) s else some s) with
  | none => rw [ha] at h; cases h
  | some t1 =>
    rw [ha] at h
    simp only [Option.some_bind] at h
    cases hb : (if i / cols < (n - 1) / cols ∧ i + cols < n then addEdgeDrawn i (i + cols) t1
        else some t1) with
    | none => rw [hb] at h; cases h
    | some t2 =>
      rw [hb] at h
      simp only [Option.some_bind] at h
      have k1 : GenGood n t1 ∧ (∀ e ∈ s.edges, e ∈ t1.edges) ∧
          (i % cols < cols - 1 ∧ i + 1 < n →
            Adj (genGraph n t1.edges) (nodeId i) (nodeId (i + 1))) := by
        by_cases c : i % cols < cols - 1 ∧ i + 1 < n
        · rw [if_pos c] at ha
          obtain ⟨a1, a2, a3⟩ := addEdgeDrawn_good n i (i + 1) hi c.2 s t1 ha hg
          exact ⟨a1, a2, fun _ => a3⟩
        · rw [if_neg c] at ha
          cases ha
          exact ⟨hg, fun e he => he, fun hc => absurd hc c⟩
      have k2 : GenGood n t2 ∧ (∀ e ∈ t1.edges, e ∈ t2.edges) ∧
          (i / cols < (n - 1) / cols ∧ i + cols < n →
            Adj (genGraph n t2.edges) (nodeId i) (nodeId (i + cols))) := by
        by_cases c : i / cols < (n - 1) / cols ∧ i + cols < n
        · rw [if_pos c] at hb
          obtain ⟨a1, a2, a3⟩ := addEdgeDrawn_good n i (i + cols) hi c.2 t1 t2 hb k1.1
          exact ⟨a1, a2, fun _ => a3⟩
        · rw [if_neg c] at hb
          cases hb
          exact ⟨k1.1, fun e he => he, fun hc => absurd hc c⟩
      obtain ⟨_, k3⟩ := hthird t2 s1 h k2.1
      exact ⟨fun c => adj_mono n _ _ (fun e he => k3 e (k2.2.1 e he)) _ _ (k1.2.2 c),
        fun c => adj_mono n _ _ k3 _ _ (k2.2.2 c)⟩

theorem gridEdges_spec (n : Nat) (hn : 1 ≤ n) (s s1 : GenState)
    (h : gridEdges n s = some s1) (hg : GenGood n s) :
    GenGood n s1 ∧ (genGraph n s1.edges).Connected := by
  unfold gridEdges at h
  have hcols := ceilSqrt_pos n hn
  generalize ceilSqrt n = cols at h hcols
  have hstep : ∀ i ∈ List.range n, StepOk GenState.edges (GenGood n) (gridStep n cols i) :=
    fun i hi => stepOk_gridStep n cols i (List.mem_range.mp hi)
  have hrand : StepOk GenState.edges (GenGood n)
      (forEach (List.range (min ((n + 2) / 3) 5)) (fun _ => randomEdge n)) :=
    stepOk_forEach _ _ _ _ (fun _ _ => stepOk_randomEdge n hn)
  cases h1 : forEach (List.range n) (gridStep n cols) s with
  | none => rw [h1] at h; cases h
  | some t1 =>
    rw [h1] at h
    simp only [Option.some_bind] at h
    have hg1 := (stepOk_forEach _ _ _ _ hstep s t1 h1 hg).1
    have hfacts := forEach_establish GenState.edges (GenGood n) (gridStep n cols)
      (fun i es =>
        (i % cols < cols - 1 ∧ i + 1 < n → Adj (genGraph n es) (nodeId i) (nodeId (i + 1))) ∧
        (i / cols < (n - 1) / cols ∧ i + cols < n →
          Adj (genGraph n es) (nodeId i) (nodeId (i + cols))))
      (List.range n) hstep
      (fun i hi u u1 hu hug => gridStep_facts n cols i (List.mem_range.mp hi) u u1 hu hug)
      (fun i es es1 hm hp =>
        ⟨fun c => adj_mono n es es1 hm _ _ (hp.1 c), fun c => adj_mono n es es1 hm _ _ (hp.2 c)⟩)
      s t1 h1 hg
    obtain ⟨hg2, hm2⟩ := hrand t1 s1 h hg1
    refine ⟨hg2, connected_of_down_edges n s1.edges ?_⟩
    intro i hi1 hin
    have hdm := Nat.div_add_mod i cols
    have hml : i % cols < cols := Nat.mod_lt _ (by omega)
    have hcp : 0 < cols := by omega
    by_cases hr : i % cols = 0
    · -- first column: the node above
      rw [hr, Nat.add_zero] at hdm
      generalize hqd : i / cols = q at hdm
      have hq : 1 ≤ q := by
        rcases Nat.eq_zero_or_pos q with h0 | h0
        · rw [h0, Nat.mul_zero] at hdm
          omega
        · exact h0
      have e1 : i - cols = cols * (q - 1) := by
        rw [Nat.mul_sub_one]; omega
      have hmul : cols * 1 ≤ cols * q := Nat.mul_le_mul_left _ hq
      refine ⟨i - cols, by omega, ?_⟩
      have hdiv : (i - cols) / cols = q - 1 := by
        rw [e1]; exact Nat.mul_div_cancel_left _ hcp
      have hle : q ≤ (n - 1) / cols := by
        rw [Nat.le_div_iff_mul_le hcp, Nat.mul_comm]
        omega
      have hlt : (i - cols) / cols < (n - 1) / cols := by
        rw [hdiv]
        exact Nat.lt_of_lt_of_le (Nat.sub_lt hq Nat.one_pos) hle
      have := (hfacts (i - cols) (List.mem_range.mpr (by omega))).2 ⟨hlt, by omega⟩
      rw [show i - cols + cols = i by omega] at this
      exact adj_symm _ _ _ (adj_mono n _ _ hm2 _ _ this)
    · -- the node to the left
      refine ⟨i - 1, by omega, ?_⟩
      have hmod : (i - 1) % cols = i % cols - 1 := by
        generalize i / cols = q at hdm
        generalize i % cols = r at hdm hml hr
        have e : i - 1 = (r - 1) + cols * q := by omega
        rw [e, Nat.add_mul_mod_self_left]
        exact Nat.mod_eq_of_lt (by omega)
      have hlt : (i - 1) % cols < cols - 1 := by
        rw [hmod]
        generalize i % cols = r at hml hr
        omega
      have := (hfacts (i - 1) (List.mem_range.mpr (by omega))).1 ⟨hlt, by omega⟩
      rw [show i - 1 + 1 = i by omega] at this
      exact adj_symm _ _ _ (adj_mono n _ _ hm2 _ _ this)

/-- Every edge list returned by `generateEdges` of the graph visualizer describes a
connected graph on the generated nodes. -/
theorem generateEdges_connected (n : Nat) (hn : 1 ≤ n) (draws : List Nat)
    (es : List (Edge Nat)) (h : generateEdges n draws = some es) :
    (genGraph n es).WellFormed ∧ (genGraph n es).Connected := by
  unfold generateEdges at h
  simp only [Option.map_eq_some'] at h
  obtain ⟨s1, hs, rfl⟩ := h
  have hg := genGood_init n draws
  by_cases h4 : n ≤ 4
  · rw [if_pos h4] at hs
    obtain ⟨k1, k2⟩ := completeEdges_spec n _ s1 hs hg
    exact ⟨k1.2, k2⟩
  · rw [if_neg h4] at hs
    by_cases h8 : n ≤ 8
    · rw [if_pos h8] at hs
      obtain ⟨k1, k2⟩ := mediumEdges_spec n hn _ s1 hs hg
      exact ⟨k1.2, k2⟩
    · rw [if_neg h8] at hs
      obtain ⟨k1, k2⟩ := gridEdges_spec n hn _ s1 hs hg
      exact ⟨k1.2, k2⟩

end

end GraphVisualizer
namespace MSTVisualizer

open GraphVisualizer (Graph splitGraph)

/-! ## Prim on a disconnected graph -/

theorem runPrim_of_primLoop_none {α : Type} [DecidableEq α] (g : Graph α) (fuel : Nat)
    (v : View α) (s : α) (rest : List α) (hn : g.nodes = s :: rest)
    (hv : v.isRunning = false)
    (h : primLoop g fuel { (beginRun v) with nodesInMST := [s] } [s] = none) :
    runPrim g fuel v = .outOfFuel := by
  unfold runPrim
  simp only [hv, Bool.false_eq_true, if_false, hn, h]

theorem primLoop_split_stuck (fuel : Nat) :
    ∀ v : View String, primLoop splitGraph fuel v ["A", "B"] = none := by
  induction fuel with
  | zero => intro v; rfl
  | succ fuel ih =>
    intro v
    have hscan : splitGraph.edges.foldl (primScan ["A", "B"]) (v, none) = (v, none) := by
      simp [splitGraph, primScan, crossing]
    unfold primLoop
    rw [hscan]
    simp only [splitGraph, List.length_cons, List.length_nil]
    exact ih v

/-- C10 (what the code does at the failing input): on the disconnected graph with nodes
`A`, `B`, `C` and the single edge `A-B:1`, `runPrim` commits `A-B` and then repeats its
`while` loop for ever: no edge crosses the cut, `minEdge` stays `null`, and nothing
leaves the loop.  Whatever bound is put on the number of iterations, the run has not
returned. -/
theorem runPrim_disconnected_never_returns (fuel : Nat) :
    runPrim splitGraph fuel View.idle = .outOfFuel := by
  cases fuel with
  | zero => rfl
  | succ fuel =>
    have hstep : ∀ v : View String, primLoop splitGraph (fuel + 1) v ["A"] = none := by
      intro v
      have hscan : splitGraph.edges.foldl (primScan ["A"]) (v, none) =
          ({ v with trace := v.trace ++ [.edgeExplore "A" "B"] }, some ⟨"A", "B", 1⟩) := by
        simp [splitGraph, primScan, crossing]
      unfold primLoop
      rw [hscan]
      simp only [splitGraph, List.length_cons, List.length_nil]
      exact primLoop_split_stuck fuel _
    exact runPrim_of_primLoop_none splitGraph (fuel + 1) View.idle "A" ["B", "C"] rfl rfl
      (hstep _)

end MSTVisualizer
namespace MSTVisualizer

open GraphVisualizer (Edge Graph)

/-! ## Connectivity and forests of edge lists -/

section

variable {α : Type}

theorem Conn.refl (F : List (Edge α)) (u : α) : Conn F u u := Relation.EqvGen.refl u

theorem Conn.symm {F : List (Edge α)} {u v : α} (h : Conn F u v) : Conn F v u :=
  Relation.EqvGen.symm u v h

theorem Conn.trans {F : List (Edge α)} {u v w : α} (h1 : Conn F u v) (h2 : Conn F v w) :
    Conn F u w := Relation.EqvGen.trans u v w h1 h2

theorem Conn.edge {F : List (Edge α)} {e : Edge α} (h : e ∈ F) : Conn F e.src e.dst :=
  Relation.EqvGen.rel _ _ ⟨e, h, rfl, rfl⟩

/-- Connectivity by `A` is contained in any equivalence that holds the edges of `A`. -/
theorem Conn.of_span {A B : List (Edge α)} (h : ∀ e ∈ A, Conn B e.src e.dst) {u v : α}
    (huv : Conn A u v) : Conn B u v := by
  induction huv with
  | rel x y hxy =>
    obtain ⟨e, he, rfl, rfl⟩ := hxy
    exact h e he
  | refl x => exact Conn.refl B x
  | symm x y _ ih => exact ih.symm
  | trans x y z _ _ ih1 ih2 => exact ih1.trans ih2

theorem Conn.mono {A B : List (Edge α)} (h : ∀ e ∈ A, e ∈ B) {u v : α} (huv : Conn A u v) :
    Conn B u v :=
  Conn.of_span (fun e he => Conn.edge (h e he)) huv

/-- Connectivity after adding one edge. -/
theorem conn_cons_iff (e : Edge α) (F : List (Edge α)) (u v : α) :
    Conn (e :: F) u v ↔
      Conn F u v ∨ (Conn F u e.src ∧ Conn F e.dst v) ∨ (Conn F u e.dst ∧ Conn F e.src v) := by
  constructor
  · intro h
    induction h with
    | rel x y hxy =>
      obtain ⟨f, hf, rfl, rfl⟩ := hxy
      rcases List.mem_cons.mp hf with h1 | h1
      · subst h1
        exact Or.inr (Or.inl ⟨Conn.refl F _, Conn.refl F _⟩)
      · exact Or.inl (Conn.edge h1)
    | refl x => exact Or.inl (Conn.refl F x)
    | symm x y _ ih =>
      rcases ih with h1 | ⟨h1, h2⟩ | ⟨h1, h2⟩
      · exact Or.inl h1.symm
      · exact Or.inr (Or.inr ⟨h2.symm, h1.symm⟩)
      · exact Or.inr (Or.inl ⟨h2.symm, h1.symm⟩)
    | trans x y z _ _ ih1 ih2 =>
      rcases ih1 with a | ⟨a1, a2⟩ | ⟨a1, a2⟩ <;> rcases ih2 with b | ⟨b1, b2⟩ | ⟨b1, b2⟩
      · exact Or.inl (a.trans b)
      · exact Or.inr (Or.inl ⟨a.trans b1, b2⟩)
      · exact Or.inr (Or.inr ⟨a.trans b1, b2⟩)
      · exact Or.inr (Or.inl ⟨a1, a2.trans b⟩)
      · exact Or.inr (Or.inl ⟨a1, b2⟩)
      · exact Or.inl (a1.trans b2)
      · exact Or.inr (Or.inr ⟨a1, a2.trans b⟩)
      · exact Or.inl (a1.trans b2)
      · exact Or.inr (Or.inr ⟨a1, b2⟩)
  · intro h
    have hm : ∀ x ∈ F, x ∈ e :: F := fun x hx => List.mem_cons_of_mem _ hx
    have he : Conn (e :: F) e.src e.dst := Conn.edge (List.mem_cons_self _ _)
    rcases h with h1 | ⟨h1, h2⟩ | ⟨h1, h2⟩
    · exact Conn.mono hm h1
    · exact ((Conn.mono hm h1).trans he).trans (Conn.mono hm h2)
    · exact ((Conn.mono hm h1).trans he.symm).trans (Conn.mono hm h2)

/-- Exchange: if adding `e` connects `u` and `v`, then adding an edge between `u` and `v`
connects the endpoints of `e`. -/
theorem conn_exchange (e f : Edge α) (S : List (Edge α))
    (h : Conn (e :: S) f.src f.dst) (hn : ¬ Conn S f.src f.dst) :
    Conn (f :: S) e.src e.dst := by
  have hm : ∀ x ∈ S, x ∈ f :: S := fun x hx => List.mem_cons_of_mem _ hx
  have hf : Conn (f :: S) f.src f.dst := Conn.edge (List.mem_cons_self _ _)
  rcases (conn_cons_iff e S f.src f.dst).mp h with h1 | ⟨h1, h2⟩ | ⟨h1, h2⟩
  · exact absurd h1 hn
  · exact ((Conn.mono hm h1).symm.trans hf).trans (Conn.mono hm h2).symm
  · exact ((Conn.mono hm h2).trans hf.symm).trans (Conn.mono hm h1)

theorem conn_nil (u v : α) (h : Conn ([] : List (Edge α)) u v) : u = v := by
  induction h with
  | rel x y hxy => obtain ⟨e, he, _⟩ := hxy; simp at he
  | refl x => rfl
  | symm x y _ ih => exact ih.symm
  | trans x y z _ _ ih1 ih2 => exact ih1.trans ih2

theorem forestOver_nil_iff (a : Edge α) (A : List (Edge α)) :
    ForestOver [] (a :: A) ↔ ¬ Conn A a.src a.dst ∧ ForestOver [] A := by
  show (¬ Conn (A ++ []) a.src a.dst ∧ ForestOver [] A) ↔ _
  rw [List.append_nil]

/-- Moving an edge of a forest into the base keeps the rest a forest over the larger
base. -/
theorem forestOver_move_head (C : List (Edge α)) (a : Edge α) :
    ∀ A2 : List (Edge α), ¬ Conn (A2 ++ C) a.src a.dst → ForestOver C A2 →
      ForestOver (a :: C) A2 := by
  intro A2
  induction A2 with
  | nil => intro _ _; trivial
  | cons x A2 ih =>
    intro hna hf
    obtain ⟨hx, hrest⟩ := hf
    have hna' : ¬ Conn (A2 ++ C) a.src a.dst :=
      fun h => hna (Conn.mono (fun y hy => List.mem_cons_of_mem _ hy) h)
    refine ⟨?_, ih hna' hrest⟩
    intro hc
    have hc' : Conn (a :: (A2 ++ C)) x.src x.dst :=
      Conn.mono (by
        intro y hy
        rcases List.mem_append.mp hy with h | h
        · exact List.mem_cons_of_mem _ (List.mem_append_left _ h)
        · rcases List.mem_cons.mp h with h | h
          · rw [h]; exact List.mem_cons_self _ _
          · exact List.mem_cons_of_mem _ (List.mem_append_right _ h)) hc
    exact hna (conn_exchange a x (A2 ++ C) hc' hx)

theorem forestOver_remove (C : List (Edge α)) (a : Edge α) (A2 : List (Edge α)) :
    ∀ A1 : List (Edge α), ForestOver C (A1 ++ a :: A2) → ForestOver (a :: C) (A1 ++ A2) := by
  intro A1
  induction A1 with
  | nil =>
    intro h
    exact forestOver_move_head C a A2 h.1 h.2
  | cons y A1 ih =>
    intro h
    have h' : ¬ Conn ((A1 ++ a :: A2) ++ C) y.src y.dst ∧ ForestOver C (A1 ++ a :: A2) := h
    obtain ⟨hy, hrest⟩ := h'
    refine ⟨?_, ih hrest⟩
    intro hc
    have hc' : Conn ((A1 ++ A2) ++ a :: C) y.src y.dst := hc
    apply hy
    refine Conn.mono ?_ hc'
    intro z hz
    simp only [List.mem_append, List.mem_cons] at hz ⊢
    tauto

/-- A forest whose edges all lie in the span of `B` (over a common base `C`) has at
most as many edges as `B`. -/
theorem forest_length_le :
    ∀ (B A C : List (Edge α)), ForestOver C A →
      (∀ a ∈ A, Conn (B ++ C) a.src a.dst) → A.length ≤ B.length := by
  intro B
  induction B with
  | nil =>
    intro A C hf hspan
    cases A with
    | nil => exact le_refl _
    | cons a A =>
      exfalso
      apply hf.1
      exact Conn.mono (fun y hy => List.mem_append_right _ hy)
        (hspan a (List.mem_cons_self _ _))
  | cons b B ih =>
    intro A C hf hspan
    by_cases hall : ∀ a ∈ A, Conn (B ++ C) a.src a.dst
    · exact le_trans (ih A C hf hall) (Nat.le_succ _)
    · push_neg at hall
      obtain ⟨a, haA, hna⟩ := hall
      obtain ⟨A1, A2, rfl⟩ := List.append_of_mem haA
      have hb : Conn (a :: (B ++ C)) b.src b.dst :=
        conn_exchange b a (B ++ C) (hspan a haA) hna
      have hf' := forestOver_remove C a A2 A1 hf
      have hlen := ih (A1 ++ A2) (a :: C) hf' (by
        intro x hx
        have hx' : x ∈ A1 ++ a :: A2 := by
          simp only [List.mem_append, List.mem_cons] at hx ⊢
          tauto
        have h1 := hspan x hx'
        have h2 : Conn (a :: (B ++ C)) x.src x.dst := by
          refine Conn.of_span ?_ h1
          intro y hy
          rcases List.mem_cons.mp hy with h | h
          · rw [h]; exact hb
          · exact Conn.edge (List.mem_cons_of_mem _ h)
        refine Conn.mono ?_ h2
        intro z hz
        simp only [List.mem_append, List.mem_cons] at hz ⊢
        tauto)
      simp only [List.length_append, List.length_cons] at hlen ⊢
      omega

theorem forestOver_sublist (C : List (Edge α)) {A B : List (Edge α)} (h : A.Sublist B) :
    ForestOver C B → ForestOver C A := by
  induction h with
  | slnil => exact fun h => h
  | cons b _ ih => exact fun hf => ih hf.2
  | @cons₂ A B b hs ih =>
    intro hf
    refine ⟨?_, ih hf.2⟩
    intro hc
    apply hf.1
    refine Conn.mono ?_ hc
    intro z hz
    rcases List.mem_append.mp hz with h1 | h1
    · exact List.mem_append_left _ (hs.subset h1)
    · exact List.mem_append_right _ h1

/-- An acyclic list is a forest in the incremental sense. -/
theorem forestOver_of_acyclic : ∀ F : List (Edge α), Acyclic F → ForestOver [] F := by
  intro F
  induction F with
  | nil => intro _; trivial
  | cons e F ih =>
    intro h
    refine (forestOver_nil_iff e F).mpr ⟨?_, ih ?_⟩
    · exact h [] e F rfl
    · intro F1 f F2 hF hc
      apply h (e :: F1) f F2 (by rw [hF]; rfl)
      exact Conn.mono (fun z hz => List.mem_cons_of_mem _ hz) hc

/-- A forest in the incremental sense contains no cycle. -/
theorem acyclic_of_forestOver : ∀ F : List (Edge α), ForestOver [] F → Acyclic F := by
  intro F
  induction F with
  | nil =>
    intro _ F1 e F2 h
    simp at h
  | cons e0 F ih =>
    intro hf F1 e F2 hF
    obtain ⟨h0, hrest⟩ := (forestOver_nil_iff e0 F).mp hf
    cases F1 with
    | nil =>
      simp only [List.nil_append, List.cons.injEq] at hF
      obtain ⟨rfl, rfl⟩ := hF
      exact h0
    | cons x F1 =>
      simp only [List.cons_append, List.cons.injEq] at hF
      obtain ⟨rfl, rfl⟩ := hF
      have hih := ih hrest F1 e F2 rfl
      intro hc
      have hc' : Conn (e0 :: (F1 ++ F2)) e.src e.dst := hc
      have := conn_exchange e0 e (F1 ++ F2) hc' hih
      apply h0
      refine Conn.mono ?_ this
      intro z hz
      simp only [List.mem_append, List.mem_cons] at hz ⊢
      tauto

theorem acyclic_reverse (F : List (Edge α)) (h : Acyclic F) : Acyclic F.reverse := by
  intro F1 e F2 hF hc
  have hF' : F = F2.reverse ++ e :: F1.reverse := by
    have := congrArg List.reverse hF
    simpa using this
  apply h _ _ _ hF'
  refine Conn.mono ?_ hc
  intro z hz
  simp only [List.mem_append, List.mem_reverse] at hz ⊢
  tauto

theorem conn_append_single (K : List (Edge α)) (e : Edge α) (u w : α) :
    Conn (K ++ [e]) u w ↔ Conn (e :: K) u w := by
  constructor <;> intro h <;> refine Conn.mono ?_ h <;> intro z hz <;>
    simp only [List.mem_append, List.mem_cons, List.mem_singleton, List.not_mem_nil,
      or_false] at hz ⊢ <;> tauto

theorem UFInv.rep_rep {parent : α → α} {rank : α → Nat} {rep : α → α} {R : Nat}
    (h : UFInv parent rank rep R) (x : α) : rep (rep x) = rep x :=
  h.root _ (h.isRoot x)

/-- All ids of the list are connected by its star. -/
theorem star_conn (nodes : List α) (u v : α) (hu : u ∈ nodes) (hv : v ∈ nodes) :
    Conn (star nodes) u v := by
  cases nodes with
  | nil => simp at hu
  | cons x xs =>
    have key : ∀ z, z ∈ x :: xs → Conn (star (x :: xs)) x z := by
      intro z hz
      rcases List.mem_cons.mp hz with h | h
      · rw [h]; exact Conn.refl _ _
      · have hm : (⟨x, z, 0⟩ : Edge α) ∈ star (x :: xs) :=
          List.mem_map.mpr ⟨z, h, rfl⟩
        exact Conn.edge hm
    exact (key u hu).symm.trans (key v hv)

theorem star_length (nodes : List α) (h : nodes ≠ []) :
    (star nodes).length + 1 = nodes.length := by
  cases nodes with
  | nil => exact absurd rfl h
  | cons x xs => simp [star]

/-- A forest on the listed ids has fewer edges than there are ids. -/
theorem forest_length_lt (nodes : List α) (F : List (Edge α)) (hf : ForestOver [] F)
    (hn : ∀ e ∈ F, e.src ∈ nodes ∧ e.dst ∈ nodes) (hne : nodes ≠ []) :
    F.length + 1 ≤ nodes.length := by
  have h := forest_length_le (star nodes) F [] hf (by
    intro a ha
    rw [List.append_nil]
    exact star_conn nodes _ _ (hn a ha).1 (hn a ha).2)
  have := star_length nodes hne
  omega

end

end MSTVisualizer
namespace MSTVisualizer

open GraphVisualizer (Edge Graph)

/-! ## Comparing total weights through weight thresholds -/

section

variable {α : Type}

theorem sum_threshold (n : Nat) :
    ∀ W : Nat, Finset.sum (Finset.range W) (fun w => if w + 1 ≤ n then 1 else 0) = min n W := by
  intro W
  induction W with
  | zero => simp
  | succ W ih =>
    rw [Finset.sum_range_succ, ih]
    by_cases h : W + 1 ≤ n
    · rw [if_pos h]; simp only [Nat.min_def]; split <;> split <;> omega
    · rw [if_neg h]; simp only [Nat.min_def]; split <;> split <;> omega

theorem heavy_add_light (w : Nat) :
    ∀ F : List (Edge α),
      (F.filter (fun e => decide (w + 1 ≤ e.weight))).length + (lightEdges F w).length
        = F.length := by
  intro F
  induction F with
  | nil => rfl
  | cons e F ih =>
    unfold lightEdges at ih ⊢
    by_cases h : e.weight ≤ w
    · have h' : ¬ w + 1 ≤ e.weight := by omega
      simp only [List.filter_cons, h, h', decide_True, decide_False, if_true,
        Bool.false_eq_true, if_false, List.length_cons]
      omega
    · have h' : w + 1 ≤ e.weight := by omega
      simp only [List.filter_cons, h, h', decide_True, decide_False, if_true,
        Bool.false_eq_true, if_false, List.length_cons]
      omega

theorem totalWeight_cons (e : Edge α) (F : List (Edge α)) :
    totalWeight (e :: F) = e.weight + totalWeight F := by
  simp [totalWeight]

theorem totalWeight_append (A B : List (Edge α)) :
    totalWeight (A ++ B) = totalWeight A + totalWeight B := by
  simp [totalWeight]

theorem sumCost_snoc (F : List (Edge α)) (e : Edge α) :
    sumCost (F ++ [e]) = JsNumber.costAdd (sumCost F) e.weight := by
  unfold sumCost
  rw [List.foldl_append]
  rfl

/-- While the sum of the weights does not exceed `2^53`, the accumulated cost is that
sum. -/
theorem sumCost_exact (F : List (Edge α)) (h : totalWeight F ≤ 2 ^ 53) :
    sumCost F = some (totalWeight F) := by
  induction F using List.reverseRecOn with
  | nil => rfl
  | append_singleton F e ih =>
    rw [totalWeight_append] at h ⊢
    have he : totalWeight [e] = e.weight := by simp [totalWeight]
    rw [he] at h ⊢
    rw [sumCost_snoc, ih (by omega)]
    exact JsNumber.numAdd_exact _ _ h

theorem totalWeight_reverse (A : List (Edge α)) : totalWeight A.reverse = totalWeight A := by
  induction A with
  | nil => rfl
  | cons a A ih =>
    rw [List.reverse_cons, totalWeight_append, ih, totalWeight_cons, totalWeight_cons]
    simp [totalWeight]
    omega

theorem weight_le_totalWeight : ∀ (F : List (Edge α)) (e : Edge α), e ∈ F →
    e.weight ≤ totalWeight F := by
  intro F
  induction F with
  | nil => intro e he; simp at he
  | cons x F ih =>
    intro e he
    rw [totalWeight_cons]
    rcases List.mem_cons.mp he with h | h
    · rw [h]; omega
    · have := ih e h; omega

theorem totalWeight_layers (W : Nat) :
    ∀ F : List (Edge α), (∀ e ∈ F, e.weight ≤ W) →
      totalWeight F =
        Finset.sum (Finset.range W)
          (fun w => (F.filter (fun e => decide (w + 1 ≤ e.weight))).length) := by
  intro F
  induction F with
  | nil => intro _; simp [totalWeight]
  | cons e F ih =>
    intro h
    have he : e.weight ≤ W := h e (List.mem_cons_self _ _)
    rw [totalWeight_cons, ih (fun x hx => h x (List.mem_cons_of_mem _ hx))]
    have h1 : e.weight = Finset.sum (Finset.range W)
        (fun w => if w + 1 ≤ e.weight then 1 else 0) := by
      rw [sum_threshold]; omega
    conv_lhs => rw [h1]
    rw [← Finset.sum_add_distrib]
    apply Finset.sum_congr rfl
    intro w _
    by_cases hw : w + 1 ≤ e.weight
    · simp only [List.filter_cons, hw, decide_True, if_true, List.length_cons]
      omega
    · simp only [List.filter_cons, hw, decide_False, if_false, Bool.false_eq_true]
      omega

theorem mem_lightEdges (F : List (Edge α)) (w : Nat) (e : Edge α) :
    e ∈ lightEdges F w ↔ e ∈ F ∧ e.weight ≤ w := by
  simp [lightEdges]

/-- If every edge of `G` has its endpoints connected by the edges of `F` that are no
heavier than itself, then `F` weighs no more than any forest `T` of edges of `G` that has
at least as many edges. -/
theorem weight_le_of_light_span (G F T : List (Edge α)) (hT : ForestOver [] T)
    (hTG : ∀ t ∈ T, t ∈ G)
    (hF : ∀ e ∈ G, Conn (lightEdges F e.weight) e.src e.dst)
    (hlen : F.length ≤ T.length) : totalWeight F ≤ totalWeight T := by
  have hbF : ∀ e ∈ F, e.weight ≤ totalWeight F + totalWeight T := fun e he => by
    have := weight_le_totalWeight F e he; omega
  have hbT : ∀ e ∈ T, e.weight ≤ totalWeight F + totalWeight T := fun e he => by
    have := weight_le_totalWeight T e he; omega
  have eF := totalWeight_layers _ F hbF
  have eT := totalWeight_layers _ T hbT
  generalize totalWeight F + totalWeight T = W at eF eT
  rw [eF, eT]
  apply Finset.sum_le_sum
  intro w _
  have h1 := heavy_add_light w F
  have h2 := heavy_add_light w T
  have h3 : (lightEdges T w).length ≤ (lightEdges F w).length := by
    apply forest_length_le (lightEdges F w) (lightEdges T w) []
    · exact forestOver_sublist [] (List.filter_sublist T) hT
    · intro t ht
      rw [List.append_nil]
      obtain ⟨htT, htw⟩ := (mem_lightEdges T w t).mp ht
      refine Conn.mono ?_ (hF t (hTG t htT))
      intro x hx
      obtain ⟨hxF, hxw⟩ := (mem_lightEdges F _ x).mp hx
      exact (mem_lightEdges F w x).mpr ⟨hxF, le_trans hxw htw⟩
  show (F.filter (fun e => decide (w + 1 ≤ e.weight))).length
      ≤ (T.filter (fun e => decide (w + 1 ≤ e.weight))).length
  omega

end

end MSTVisualizer
namespace MSTVisualizer

open GraphVisualizer (Edge Graph)

/-! ## The union-find maps of `runKruskal` -/

section

variable {α : Type} [DecidableEq α]

/-- The function `find` returns the representative within the depth bound, and path
compression keeps the maps consistent. -/
theorem find_spec (rank : α → Nat) (rep : α → α) (R : Nat) :
    ∀ (fuel : Nat) (parent : α → α) (x : α), UFInv parent rank rep R → R < fuel + rank x →
      ∃ p, find fuel parent x = some (rep x, p) ∧ UFInv p rank rep R ∧
        (rep x ≠ x → rank x < rank (rep x)) ∧ p x = rep x := by
  intro fuel
  induction fuel with
  | zero =>
    intro parent x h hf
    have := h.rankLe x
    omega
  | succ fuel ih =>
    intro parent x h hf
    by_cases hp : parent x = x
    · refine ⟨parent, ?_, h, ?_, ?_⟩
      · unfold find
        rw [if_neg (by simpa using hp), hp, h.root x hp]
      · intro hne; exact absurd (h.root x hp) hne
      · rw [hp, h.root x hp]
    · have hlt := h.rankLt x hp
      obtain ⟨p1, e1, h1, hr1, _⟩ := ih parent (parent x) h (by omega)
      rw [h.step x] at e1 hr1
      have hrank : rank x < rank (rep x) := by
        by_cases hq : rep x = parent x
        · rw [hq]; exact hlt
        · exact lt_trans hlt (hr1 hq)
      refine ⟨fun y => if y = x then rep x else p1 y, ?_, ?_, fun _ => hrank, if_pos rfl⟩
      · unfold find
        rw [if_pos hp, e1]
      · constructor
        · intro y
          show rep (if y = x then rep x else p1 y) = rep y
          by_cases hy : y = x
          · rw [if_pos hy, hy]; exact h.rep_rep x
          · rw [if_neg hy]; exact h1.step y
        · intro y
          show (if y = x then rep x else p1 y) = y → rep y = y
          by_cases hy : y = x
          · rw [if_pos hy, hy]; exact fun e => e
          · rw [if_neg hy]; exact h1.root y
        · intro y
          show (if rep y = x then rep x else p1 (rep y)) = rep y
          by_cases hy : rep y = x
          · rw [if_pos hy, ← hy]; exact h.rep_rep y
          · rw [if_neg hy]; exact h1.isRoot y
        · intro y
          show (if y = x then rep x else p1 y) ≠ y →
            rank y < rank (if y = x then rep x else p1 y)
          by_cases hy : y = x
          · rw [if_pos hy, hy]; exact fun _ => hrank
          · rw [if_neg hy]; exact h1.rankLt y
        · exact h.rankLe

/-- Hanging the root `a` below the root `b`. -/
theorem ufinv_link {parent : α → α} {rank : α → Nat} {rep : α → α} {R : Nat}
    (h : UFInv parent rank rep R) (a b : α) (ha : rep a = a) (hb : rep b = b) (hab : a ≠ b)
    (rank1 : α → Nat) (hr1 : ∀ z, rank z ≤ rank1 z) (hr2 : ∀ z, rank1 z ≤ R + 1)
    (hr3 : rank1 a < rank1 b) (hr4 : ∀ z, parent z ≠ z → rank1 z = rank z) :
    UFInv (fun z => if z = a then b else parent z) rank1
      (fun z => if rep z = a then b else rep z) (R + 1) := by
  have hpa : parent a = a := by have := h.isRoot a; rwa [ha] at this
  have hpb : parent b = b := by have := h.isRoot b; rwa [hb] at this
  constructor
  · intro x
    show (if rep (if x = a then b else parent x) = a then b
        else rep (if x = a then b else parent x)) = (if rep x = a then b else rep x)
    by_cases hx : x = a
    · rw [if_pos hx, hb, if_neg (Ne.symm hab), hx, ha, if_pos rfl]
    · rw [if_neg hx, h.step x]
  · intro x
    show (if x = a then b else parent x) = x → (if rep x = a then b else rep x) = x
    by_cases hx : x = a
    · rw [if_pos hx, hx]; intro e; exact absurd e.symm hab
    · rw [if_neg hx]
      intro e
      rw [h.root x e, if_neg hx]
  · intro x
    show (if (if rep x = a then b else rep x) = a then b
        else parent (if rep x = a then b else rep x)) = (if rep x = a then b else rep x)
    by_cases hx : rep x = a
    · rw [if_pos hx, if_neg (Ne.symm hab), hpb]
    · rw [if_neg hx, if_neg hx, h.isRoot x]
  · intro x
    show (if x = a then b else parent x) ≠ x →
      rank1 x < rank1 (if x = a then b else parent x)
    by_cases hx : x = a
    · rw [if_pos hx, hx]; exact fun _ => hr3
    · rw [if_neg hx]
      intro hne
      have := h.rankLt x hne
      have := hr1 (parent x)
      have := hr4 x hne
      omega
  · exact hr2

/-- Merging the classes of the endpoints of `e` is adding `e` to the edges. -/
theorem rep_link_conn (rep : α → α) (K : List (Edge α))
    (hc : ∀ u w, rep u = rep w ↔ Conn K u w) (e : Edge α) (a b : α)
    (hab : (a = rep e.src ∧ b = rep e.dst) ∨ (a = rep e.dst ∧ b = rep e.src)) (u w : α) :
    ((if rep u = a then b else rep u) = (if rep w = a then b else rep w)) ↔
      Conn (K ++ [e]) u w := by
  rw [conn_append_single, conn_cons_iff, ← hc, ← hc, ← hc, ← hc, ← hc]
  rcases hab with ⟨rfl, rfl⟩ | ⟨rfl, rfl⟩
  · by_cases h1 : rep u = rep e.src <;> by_cases h2 : rep w = rep e.src
    · rw [if_pos h1, if_pos h2]
      exact ⟨fun _ => Or.inl (h1.trans h2.symm), fun _ => rfl⟩
    · rw [if_pos h1, if_neg h2]
      constructor
      · intro h; exact Or.inr (Or.inl ⟨h1, h⟩)
      · rintro (h | ⟨_, h⟩ | ⟨_, h3⟩)
        · exact absurd (h.symm.trans h1) h2
        · exact h
        · exact absurd h3.symm h2
    · rw [if_neg h1, if_pos h2]
      constructor
      · intro h; exact Or.inr (Or.inr ⟨h, h2.symm⟩)
      · rintro (h | ⟨h, _⟩ | ⟨h, _⟩)
        · exact absurd (h.trans h2) h1
        · exact absurd h h1
        · exact h
    · rw [if_neg h1, if_neg h2]
      constructor
      · intro h; exact Or.inl h
      · rintro (h | ⟨h, _⟩ | ⟨_, h⟩)
        · exact h
        · exact absurd h h1
        · exact absurd h.symm h2
  · by_cases h1 : rep u = rep e.dst <;> by_cases h2 : rep w = rep e.dst
    · rw [if_pos h1, if_pos h2]
      exact ⟨fun _ => Or.inl (h1.trans h2.symm), fun _ => rfl⟩
    · rw [if_pos h1, if_neg h2]
      constructor
      · intro h; exact Or.inr (Or.inr ⟨h1, h⟩)
      · rintro (h | ⟨_, h3⟩ | ⟨_, h⟩)
        · exact absurd (h.symm.trans h1) h2
        · exact absurd h3.symm h2
        · exact h
    · rw [if_neg h1, if_pos h2]
      constructor
      · intro h; exact Or.inr (Or.inl ⟨h, h2.symm⟩)
      · rintro (h | ⟨h, _⟩ | ⟨h, _⟩)
        · exact absurd (h.trans h2) h1
        · exact h
        · exact absurd h h1
    · rw [if_neg h1, if_neg h2]
      constructor
      · intro h; exact Or.inl h
      · rintro (h | ⟨_, h⟩ | ⟨h, _⟩)
        · exact h
        · exact absurd h.symm h2
        · exact absurd h h1

/-- The function `union` on two ids of different classes returns within the depth bound
and merges the two classes. -/
theorem union_spec (fuel : Nat) (uf : UnionFind α) (rep : α → α) (R : Nat)
    (K : List (Edge α)) (e : Edge α)
    (h : UFInv uf.parent uf.rank rep R) (hc : ∀ u w, rep u = rep w ↔ Conn K u w)
    (hne : rep e.src ≠ rep e.dst) (hfuel : R < fuel) :
    ∃ uf1, union fuel uf e.src e.dst = some uf1 ∧
      ∃ rep1, UFInv uf1.parent uf1.rank rep1 (R + 1) ∧
        ∀ u w, rep1 u = rep1 w ↔ Conn (K ++ [e]) u w := by
  obtain ⟨p1, e1, h1, _⟩ := find_spec uf.rank rep R fuel uf.parent e.src h (by omega)
  obtain ⟨p2, e2, h2, _⟩ := find_spec uf.rank rep R fuel p1 e.dst h1 (by omega)
  have hX : rep (rep e.src) = rep e.src := h.rep_rep _
  have hY : rep (rep e.dst) = rep e.dst := h.rep_rep _
  unfold union
  simp only [e1, e2]
  by_cases c1 : uf.rank (rep e.src) < uf.rank (rep e.dst)
  · rw [if_pos c1]
    refine ⟨_, rfl, fun z => if rep z = rep e.src then rep e.dst else rep z, ?_, ?_⟩
    · exact ufinv_link h2 _ _ hX hY hne uf.rank (fun _ => le_refl _)
        (fun z => le_trans (h.rankLe z) (Nat.le_succ _)) c1 (fun _ _ => rfl)
    · exact rep_link_conn rep K hc e _ _ (Or.inl ⟨rfl, rfl⟩)
  · rw [if_neg c1]
    by_cases c2 : uf.rank (rep e.src) > uf.rank (rep e.dst)
    · rw [if_pos c2]
      refine ⟨_, rfl, fun z => if rep z = rep e.dst then rep e.src else rep z, ?_, ?_⟩
      · exact ufinv_link h2 _ _ hY hX (Ne.symm hne) uf.rank (fun _ => le_refl _)
          (fun z => le_trans (h.rankLe z) (Nat.le_succ _)) c2 (fun _ _ => rfl)
      · exact rep_link_conn rep K hc e _ _ (Or.inr ⟨rfl, rfl⟩)
    · rw [if_neg c2]
      have hpX : p2 (rep e.src) = rep e.src := h2.isRoot e.src
      refine ⟨_, rfl, fun z => if rep z = rep e.dst then rep e.src else rep z, ?_, ?_⟩
      · refine ufinv_link h2 _ _ hY hX (Ne.symm hne) _ ?_ ?_ ?_ ?_
        · intro z
          show uf.rank z ≤ (if z = rep e.src then uf.rank (rep e.src) + 1 else uf.rank z)
          by_cases hz : z = rep e.src
          · rw [if_pos hz, hz]; exact Nat.le_succ _
          · rw [if_neg hz]
        · intro z
          show (if z = rep e.src then uf.rank (rep e.src) + 1 else uf.rank z) ≤ R + 1
          have := h.rankLe z
          have := h.rankLe (rep e.src)
          split <;> omega
        · show (if rep e.dst = rep e.src then uf.rank (rep e.src) + 1
              else uf.rank (rep e.dst)) <
            (if rep e.src = rep e.src then uf.rank (rep e.src) + 1 else uf.rank (rep e.src))
          rw [if_neg (Ne.symm hne), if_pos rfl]
          omega
        · intro z hz
          show (if z = rep e.src then uf.rank (rep e.src) + 1 else uf.rank z) = uf.rank z
          rw [if_neg]
          intro hz1
          exact hz (by rw [hz1]; exact hpX)
      · exact rep_link_conn rep K hc e _ _ (Or.inr ⟨rfl, rfl⟩)

end

end MSTVisualizer
namespace MSTVisualizer

open GraphVisualizer (Edge Graph)

/-! ## The loop of `runKruskal` -/

section

variable {α : Type}

theorem sortEdges_sorted (es : List (Edge α)) :
    (sortEdges es).Pairwise (fun a b => a.weight ≤ b.weight) :=
  @List.sorted_insertionSort (Edge α) (fun a b => a.weight ≤ b.weight) _
    ⟨fun a b => le_total a.weight b.weight⟩ ⟨fun _ _ _ h1 h2 => le_trans h1 h2⟩ es

theorem mem_sortEdges (es : List (Edge α)) (e : Edge α) : e ∈ sortEdges es ↔ e ∈ es :=
  (List.perm_insertionSort _ es).mem_iff

theorem lightEdges_mono (K : List (Edge α)) (e : Edge α) (w : Nat) (x : Edge α)
    (h : x ∈ lightEdges K w) : x ∈ lightEdges (K ++ [e]) w := by
  obtain ⟨h1, h2⟩ := (mem_lightEdges K w x).mp h
  exact (mem_lightEdges _ w x).mpr ⟨List.mem_append_left _ h1, h2⟩

variable [DecidableEq α]

/-- The loop returns within the depth bound of `find`, and when it stops the invariant
holds for the edges it has examined; it stops at the end of the list or once one edge
fewer than there are nodes is committed. -/
theorem kruskalLoop_spec (n : Nat) :
    ∀ (rest seen : List (Edge α)) (v : View α) (uf : UnionFind α) (k : Nat),
      KInv seen v uf k →
      (∀ x ∈ seen, ∀ y ∈ rest, x.weight ≤ y.weight) →
      rest.Pairwise (fun a b => a.weight ≤ b.weight) →
      ∃ r, kruskalLoop n (n + 1) rest v uf k = some r ∧
        ∃ seen1 rest1, seen1 ++ rest1 = seen ++ rest ∧ KInv seen1 r.1 r.2.1 r.2.2 ∧
          (rest1 = [] ∨ n ≤ r.2.2 + 1) ∧ (∀ x ∈ seen1, ∀ y ∈ rest1, x.weight ≤ y.weight) := by
  intro rest
  induction rest with
  | nil =>
    intro seen v uf k inv hsw _
    exact ⟨(v, uf, k), rfl, seen, [], rfl, inv, Or.inl rfl, hsw⟩
  | cons edge rest ih =>
    intro seen v uf k inv hsw hsorted
    by_cases hk : k + 1 ≥ n
    · refine ⟨(v, uf, k), ?_, seen, edge :: rest, rfl, inv, Or.inr hk, hsw⟩
      unfold kruskalLoop
      rw [if_pos hk]
    · obtain ⟨rep, hU, hC⟩ := inv.uf_ok
      obtain ⟨p1, e1, h1, _⟩ := find_spec uf.rank rep k (n + 1) uf.parent edge.src hU (by omega)
      obtain ⟨p2, e2, h2, _⟩ := find_spec uf.rank rep k (n + 1) p1 edge.dst h1 (by omega)
      have hsw1 : ∀ x ∈ seen ++ [edge], ∀ y ∈ rest, x.weight ≤ y.weight := by
        intro x hx y hy
        rcases List.mem_append.mp hx with h | h
        · exact hsw x h y (List.mem_cons_of_mem _ hy)
        · rw [List.mem_singleton.mp h]
          exact List.rel_of_pairwise_cons hsorted hy
      have hsorted1 := (List.pairwise_cons.mp hsorted).2
      have hKle : ∀ x ∈ v.mstEdges, x.weight ≤ edge.weight := fun x hx =>
        hsw x (inv.sub x hx) edge (List.mem_cons_self _ _)
      by_cases hr : rep edge.src = rep edge.dst
      · have inv1 : KInv (seen ++ [edge])
            { v with trace := v.trace ++ [.edgeExplore edge.src edge.dst] ++
                [.mstReject edge.src edge.dst] }
            { uf with parent := p2 } k := by
          refine ⟨⟨rep, h2, hC⟩, inv.count, inv.forest, ?_, ?_, inv.cost⟩
          · intro e he; exact List.mem_append_left _ (inv.sub e he)
          · intro e he
            rcases List.mem_append.mp he with h | h
            · exact inv.span e h
            · rw [List.mem_singleton.mp h]
              refine Conn.mono ?_ ((hC _ _).mp hr)
              intro x hx
              exact (mem_lightEdges _ _ x).mpr ⟨hx, hKle x hx⟩
        obtain ⟨r, er, seen1, rest1, hs, hinv, hstop, hw⟩ := ih _ _ _ _ inv1 hsw1 hsorted1
        refine ⟨r, ?_, seen1, rest1, by rw [hs]; simp, hinv, hstop, hw⟩
        unfold kruskalLoop
        rw [if_neg hk]
        simp only [e1, e2, hr, ne_eq, not_true_eq_false, if_false]
        exact er
      · obtain ⟨uf1, eu, rep1, hU1, hC1⟩ :=
          union_spec (n + 1) { uf with parent := p2 } rep k v.mstEdges edge h2 hC hr (by omega)
        have inv1 : KInv (seen ++ [edge])
            (addToMST { v with trace := v.trace ++ [.edgeExplore edge.src edge.dst] }
              edge.src edge.dst edge.weight) uf1 (k + 1) := by
          refine ⟨⟨rep1, hU1, hC1⟩, ?_, ?_, ?_, ?_, ?_⟩
          · show k + 1 = (v.mstEdges ++ [edge]).length
            rw [List.length_append, inv.count]; rfl
          · show ForestOver [] (v.mstEdges ++ [edge]).reverse
            rw [List.reverse_append]
            refine (forestOver_nil_iff edge _).mpr ⟨?_, inv.forest⟩
            intro hc
            apply hr
            refine (hC _ _).mpr (Conn.mono ?_ hc)
            intro x hx
            exact List.mem_reverse.mp hx
          · intro e he
            have he1 : e ∈ v.mstEdges ++ [edge] := he
            rcases List.mem_append.mp he1 with h | h
            · exact List.mem_append_left _ (inv.sub e h)
            · exact List.mem_append_right _ h
          · intro e he
            show Conn (lightEdges (v.mstEdges ++ [edge]) e.weight) e.src e.dst
            rcases List.mem_append.mp he with h | h
            · exact Conn.mono (lightEdges_mono _ edge _) (inv.span e h)
            · rw [List.mem_singleton.mp h]
              exact Conn.edge ((mem_lightEdges _ _ edge).mpr
                ⟨List.mem_append_right _ (List.mem_singleton.mpr rfl), le_refl _⟩)
          · show JsNumber.costAdd v.totalCost edge.weight = sumCost (v.mstEdges ++ [edge])
            rw [sumCost_snoc, inv.cost]
        obtain ⟨r, er, seen1, rest1, hs, hinv, hstop, hw⟩ := ih _ _ _ _ inv1 hsw1 hsorted1
        refine ⟨r, ?_, seen1, rest1, by rw [hs]; simp, hinv, hstop, hw⟩
        unfold kruskalLoop
        rw [if_neg hk]
        simp only [e1, e2, hr, ne_eq, not_false_eq_true, if_true, eu]
        exact er

/-- What a run of `runKruskal` from the idle state commits, on a graph whose edges join
listed nodes: a forest of edges of the graph, in which every edge of the graph has its
endpoints connected by committed edges that are no heavier. -/
theorem runKruskal_spec (g : Graph α) (hwf : g.WellFormed) :
    ∃ v, runKruskal g View.idle = .finished v ∧
      ForestOver [] v.mstEdges.reverse ∧
      (∀ e ∈ v.mstEdges, e ∈ g.edges) ∧
      (∀ e ∈ g.edges, Conn (lightEdges v.mstEdges e.weight) e.src e.dst) ∧
      v.totalCost = sumCost v.mstEdges := by
  have inv0 : KInv ([] : List (Edge α)) (beginRun (View.idle : View α))
      { parent := fun x => x, rank := fun _ => 0 } 0 := by
    refine ⟨⟨fun x => x, ⟨fun _ => rfl, fun _ _ => rfl, fun _ => rfl, ?_, fun _ => le_refl _⟩, ?_⟩,
      rfl, trivial, ?_, ?_, rfl⟩
    · intro x h; exact absurd rfl h
    · intro u w
      exact ⟨fun h => by have h1 : u = w := h; rw [h1]; exact Conn.refl _ _, conn_nil u w⟩
    · intro e he; exact he
    · intro e he; simp at he
  obtain ⟨r, er, seen1, rest1, hs, hinv, hstop, hw⟩ :=
    kruskalLoop_spec g.nodes.length (sortEdges g.edges) [] _ _ 0 inv0
      (fun x hx => by simp at hx) (sortEdges_sorted g.edges)
  have hmem : ∀ e, e ∈ g.edges ↔ e ∈ seen1 ∨ e ∈ rest1 := by
    intro e
    rw [← mem_sortEdges, ← List.mem_append, hs, List.nil_append]
  have hsub : ∀ e ∈ r.1.mstEdges, e ∈ g.edges := fun e he =>
    (hmem e).mpr (Or.inl (hinv.sub e he))
  refine ⟨{ r.1 with isRunning := false, trace := r.1.trace ++ [.done] }, ?_, hinv.forest,
    hsub, ?_, hinv.cost⟩
  · unfold runKruskal
    simp only [View.idle, Bool.false_eq_true, if_false]
    have er1 : kruskalLoop g.nodes.length (g.nodes.length + 1) (sortEdges g.edges)
        (beginRun (View.idle : View α)) { parent := fun x => x, rank := fun _ => 0 } 0
          = some r := er
    simp only [View.idle] at er1
    rw [er1]
  · intro e he
    rcases (hmem e).mp he with h | h
    · exact hinv.span e h
    · show Conn (lightEdges r.1.mstEdges e.weight) e.src e.dst
      have hK : Conn r.1.mstEdges e.src e.dst := by
        by_contra hcon
        rcases hstop with h0 | hn
        · rw [h0] at h; simp at h
        · have hfor : ForestOver [] (e :: r.1.mstEdges.reverse) :=
            (forestOver_nil_iff e _).mpr
              ⟨fun hc => hcon (Conn.mono (fun x hx => List.mem_reverse.mp hx) hc), hinv.forest⟩
          have hne : g.nodes ≠ [] := List.ne_nil_of_mem (hwf e he).1
          have := forest_length_lt g.nodes _ hfor (by
            intro x hx
            rcases List.mem_cons.mp hx with h1 | h1
            · rw [h1]; exact hwf e he
            · exact hwf x (hsub x (List.mem_reverse.mp h1))) hne
          have hc := hinv.count
          simp only [List.length_cons, List.length_reverse] at this
          omega
      refine Conn.mono ?_ hK
      intro x hx
      exact (mem_lightEdges _ _ x).mpr ⟨hx, hw x (hinv.sub x hx) e h⟩

end

end MSTVisualizer
namespace MSTVisualizer

open GraphVisualizer (Edge Graph)

/-! ## The loop of `runPrim` on a connected graph -/

section

variable {α : Type}

/-- Edges with both endpoints in a set connect only ids of that set. -/
theorem conn_ends (P : List (Edge α)) (S : List α)
    (hP : ∀ e ∈ P, e.src ∈ S ∧ e.dst ∈ S) {u z : α} (h : Conn P u z) :
    u = z ∨ (u ∈ S ∧ z ∈ S) := by
  induction h with
  | rel x y hxy =>
    obtain ⟨e, he, rfl, rfl⟩ := hxy
    exact Or.inr (hP e he)
  | refl x => exact Or.inl rfl
  | symm x y _ ih =>
    rcases ih with h | ⟨h1, h2⟩
    · exact Or.inl h.symm
    · exact Or.inr ⟨h2, h1⟩
  | trans x y z _ _ ih1 ih2 =>
    rcases ih1 with h1 | ⟨h1, h1b⟩
    · rw [h1]; exact ih2
    · rcases ih2 with h2 | ⟨_, h2⟩
      · rw [← h2]; exact Or.inr ⟨h1, h1b⟩
      · exact Or.inr ⟨h1, h2⟩

theorem conn_of_reachable (g : Graph α) {u v : α} (h : GraphVisualizer.Reachable g u v) :
    Conn g.edges u v := by
  induction h with
  | refl => exact Conn.refl _ _
  | @tail y z _ hadj ih =>
    obtain ⟨e, he, h1 | h1⟩ := hadj
    · obtain ⟨rfl, rfl⟩ := h1
      exact ih.trans (Conn.edge he)
    · obtain ⟨rfl, rfl⟩ := h1
      exact ih.trans (Conn.edge he).symm

variable [DecidableEq α]

theorem crossing_iff (S : List α) (e : Edge α) :
    crossing S e = true ↔ (e.src ∈ S ∧ e.dst ∉ S) ∨ (e.src ∉ S ∧ e.dst ∈ S) := by
  simp [crossing]

/-- A connection from inside a set of ids to outside it uses an edge that crosses. -/
theorem conn_cut (E : List (Edge α)) (S : List α) {u z : α} (h : Conn E u z) :
    (u ∈ S ↔ z ∈ S) ∨ ∃ e ∈ E, crossing S e = true := by
  induction h with
  | rel x y hxy =>
    obtain ⟨e, he, rfl, rfl⟩ := hxy
    by_cases h1 : e.src ∈ S <;> by_cases h2 : e.dst ∈ S
    · exact Or.inl ⟨fun _ => h2, fun _ => h1⟩
    · exact Or.inr ⟨e, he, (crossing_iff S e).mpr (Or.inl ⟨h1, h2⟩)⟩
    · exact Or.inr ⟨e, he, (crossing_iff S e).mpr (Or.inr ⟨h1, h2⟩)⟩
    · exact Or.inl ⟨fun h => absurd h h1, fun h => absurd h h2⟩
  | refl x => exact Or.inl Iff.rfl
  | symm x y _ ih =>
    rcases ih with h | h
    · exact Or.inl h.symm
    · exact Or.inr h
  | trans x y z _ _ ih1 ih2 =>
    rcases ih1 with h1 | h1
    · rcases ih2 with h2 | h2
      · exact Or.inl (h1.trans h2)
      · exact Or.inr h2
    · exact Or.inr h1

theorem primScan_step (visited : List α) (pre : List (Edge α)) (acc : View α × Option (Edge α))
    (e : Edge α) (h : Best visited pre acc.2) :
    Best visited (pre ++ [e]) (primScan visited acc e).2 ∧
      (primScan visited acc e).1.mstEdges = acc.1.mstEdges ∧
      (primScan visited acc e).1.totalCost = acc.1.totalCost := by
  obtain ⟨v, o⟩ := acc
  obtain ⟨hs, hn⟩ := h
  by_cases hc : crossing visited e = true
  · cases o with
    | none =>
      have e1 : primScan visited (v, none) e =
          ({ v with trace := v.trace ++ [.edgeExplore e.src e.dst] }, some e) := by
        unfold primScan; rw [if_pos hc]
      rw [e1]
      refine ⟨⟨?_, fun h => by cases h⟩, rfl, rfl⟩
      intro m hm
      cases hm
      refine ⟨List.mem_append_right _ (List.mem_singleton.mpr rfl), hc, ?_⟩
      intro x hx hcx
      rcases List.mem_append.mp hx with h1 | h1
      · have := hn rfl x h1
        rw [this] at hcx; cases hcx
      · rw [List.mem_singleton.mp h1]
    | some m =>
      obtain ⟨hm1, hm2, hm3⟩ := hs m rfl
      by_cases hw : e.weight < m.weight
      · have e1 : primScan visited (v, some m) e =
            ({ v with trace := v.trace ++ [.edgeExplore e.src e.dst] }, some e) := by
          unfold primScan; rw [if_pos hc]; simp only [hw, if_true]
        rw [e1]
        refine ⟨⟨?_, fun h => by cases h⟩, rfl, rfl⟩
        intro m1 hm
        cases hm
        refine ⟨List.mem_append_right _ (List.mem_singleton.mpr rfl), hc, ?_⟩
        intro x hx hcx
        rcases List.mem_append.mp hx with h1 | h1
        · have := hm3 x h1 hcx; omega
        · rw [List.mem_singleton.mp h1]
      · have e1 : primScan visited (v, some m) e =
            ({ v with trace := v.trace ++ [.edgeExplore e.src e.dst] }, some m) := by
          unfold primScan; rw [if_pos hc]; simp only [hw, if_false]
        rw [e1]
        refine ⟨⟨?_, fun h => by cases h⟩, rfl, rfl⟩
        intro m1 hm
        cases hm
        refine ⟨List.mem_append_left _ hm1, hm2, ?_⟩
        intro x hx hcx
        rcases List.mem_append.mp hx with h1 | h1
        · exact hm3 x h1 hcx
        · rw [List.mem_singleton.mp h1]; omega
  · have e1 : primScan visited (v, o) e = (v, o) := by
      unfold primScan; rw [if_neg hc]
    rw [e1]
    have hc' : crossing visited e = false := by simpa using hc
    refine ⟨⟨?_, ?_⟩, rfl, rfl⟩
    · intro m hm
      obtain ⟨hm1, hm2, hm3⟩ := hs m hm
      refine ⟨List.mem_append_left _ hm1, hm2, ?_⟩
      intro x hx hcx
      rcases List.mem_append.mp hx with h1 | h1
      · exact hm3 x h1 hcx
      · rw [List.mem_singleton.mp h1, hc'] at hcx; cases hcx
    · intro ho x hx
      rcases List.mem_append.mp hx with h1 | h1
      · exact hn ho x h1
      · rw [List.mem_singleton.mp h1]; exact hc'

theorem primScan_fold (visited : List α) :
    ∀ (es pre : List (Edge α)) (acc : View α × Option (Edge α)), Best visited pre acc.2 →
      Best visited (pre ++ es) (es.foldl (primScan visited) acc).2 ∧
        (es.foldl (primScan visited) acc).1.mstEdges = acc.1.mstEdges ∧
        (es.foldl (primScan visited) acc).1.totalCost = acc.1.totalCost := by
  intro es
  induction es with
  | nil =>
    intro pre acc h
    rw [List.append_nil]
    exact ⟨h, rfl, rfl⟩
  | cons e es ih =>
    intro pre acc h
    obtain ⟨h1, h2, h3⟩ := primScan_step visited pre acc e h
    obtain ⟨k1, k2, k3⟩ := ih (pre ++ [e]) (primScan visited acc e) h1
    rw [List.foldl_cons]
    refine ⟨?_, k2.trans h2, k3.trans h3⟩
    rw [List.append_assoc] at k1
    exact k1

/-- Committing a lightest crossing edge keeps the invariant. -/
theorem pinv_step (g : Graph α) (hwf : g.WellFormed) (v : View α) (visited : List α)
    (inv : PInv g v visited) (m : Edge α) (y z : α)
    (hm : m ∈ g.edges) (hlight : ∀ e ∈ g.edges, crossing visited e = true → m.weight ≤ e.weight)
    (hy : y ∈ visited) (hz : z ∉ visited)
    (hyz : (m.src = y ∧ m.dst = z) ∨ (m.src = z ∧ m.dst = y)) :
    PInv g (addToMST v m.src m.dst m.weight) (visited ++ [z]) := by
  have hconn : ∀ F : List (Edge α), m ∈ F → Conn F y z := by
    intro F hF
    rcases hyz with ⟨h1, h2⟩ | ⟨h1, h2⟩
    · rw [← h1, ← h2]; exact Conn.edge hF
    · rw [← h1, ← h2]; exact (Conn.edge hF).symm
  have hzn : z ∈ g.nodes := by
    rcases hyz with ⟨_, h2⟩ | ⟨h1, _⟩
    · rw [← h2]; exact (hwf m hm).2
    · rw [← h1]; exact (hwf m hm).1
  have hne : y ≠ z := fun h => hz (h ▸ hy)
  have hedges : (addToMST v m.src m.dst m.weight).mstEdges = v.mstEdges ++ [m] := rfl
  constructor
  · exact List.Nodup.append inv.nodup (List.nodup_singleton z) (by
      intro a ha hb
      rw [List.mem_singleton.mp hb] at ha
      exact hz ha)
  · intro x hx
    rcases List.mem_append.mp hx with h | h
    · exact inv.sub_nodes x h
    · rw [List.mem_singleton.mp h]; exact hzn
  · intro h
    exact inv.nonempty (List.append_eq_nil.mp h).1
  · rw [hedges, List.length_append, List.length_append, List.length_singleton,
      List.length_singleton]
    have := inv.count
    omega
  · rw [hedges]
    intro e he
    rcases List.mem_append.mp he with h | h
    · exact inv.edges_sub e h
    · rw [List.mem_singleton.mp h]; exact hm
  · rw [hedges]
    intro e he
    rcases List.mem_append.mp he with h | h
    · exact ⟨List.mem_append_left _ (inv.ends e h).1, List.mem_append_left _ (inv.ends e h).2⟩
    · rw [List.mem_singleton.mp h]
      rcases hyz with ⟨h1, h2⟩ | ⟨h1, h2⟩
      · rw [h1, h2]
        exact ⟨List.mem_append_left _ hy, List.mem_append_right _ (List.mem_singleton.mpr rfl)⟩
      · rw [h1, h2]
        exact ⟨List.mem_append_right _ (List.mem_singleton.mpr rfl), List.mem_append_left _ hy⟩
  · rw [hedges, List.reverse_append]
    refine (forestOver_nil_iff m _).mpr ⟨?_, inv.forest⟩
    intro hc
    have hc1 : Conn v.mstEdges m.src m.dst :=
      Conn.mono (fun x hx => List.mem_reverse.mp hx) hc
    rcases conn_ends v.mstEdges visited inv.ends hc1 with h | ⟨h1, h2⟩
    · rcases hyz with ⟨k1, k2⟩ | ⟨k1, k2⟩
      · exact hne (by rw [← k1, ← k2]; exact h)
      · exact hne (by rw [← k1, ← k2]; exact h.symm)
    · rcases hyz with ⟨_, k2⟩ | ⟨k1, _⟩
      · exact hz (k2 ▸ h2)
      · exact hz (k1 ▸ h1)
  · rw [hedges]
    intro w
    have key : ∀ u, u ∈ visited → Conn (lightEdges g.edges w) u z →
        Conn (lightEdges (v.mstEdges ++ [m]) w) u z := by
      intro u hu hc
      rcases conn_cut (lightEdges g.edges w) visited hc with h | ⟨e, he, hce⟩
      · exact absurd (h.mp hu) hz
      · obtain ⟨heg, hew⟩ := (mem_lightEdges _ _ e).mp he
        have hmw : m.weight ≤ w := le_trans (hlight e heg hce) hew
        have hmL : m ∈ lightEdges g.edges w := (mem_lightEdges _ _ m).mpr ⟨hm, hmw⟩
        have hmP : m ∈ lightEdges (v.mstEdges ++ [m]) w :=
          (mem_lightEdges _ _ m).mpr
            ⟨List.mem_append_right _ (List.mem_singleton.mpr rfl), hmw⟩
        have huy : Conn (lightEdges g.edges w) u y := hc.trans (hconn _ hmL).symm
        have := inv.light w u y hu hy huy
        exact (Conn.mono (lightEdges_mono _ m w) this).trans (hconn _ hmP)
    intro u x hu hx hc
    rcases List.mem_append.mp hu with h1 | h1 <;> rcases List.mem_append.mp hx with h2 | h2
    · exact Conn.mono (lightEdges_mono _ m w) (inv.light w u x h1 h2 hc)
    · rw [List.mem_singleton.mp h2] at hc ⊢
      exact key u h1 hc
    · rw [List.mem_singleton.mp h1] at hc ⊢
      exact (key x h2 hc.symm).symm
    · rw [List.mem_singleton.mp h1, List.mem_singleton.mp h2]
      exact Conn.refl _ _
  · show JsNumber.costAdd v.totalCost m.weight = sumCost (v.mstEdges ++ [m])
    rw [sumCost_snoc, inv.cost]

/-- On a connected graph the loop returns once the bound covers the nodes that are
still outside, with every node visited and the invariant in force. -/
theorem primLoop_spec (g : Graph α) (hwf : g.WellFormed) (hnd : g.nodes.Nodup)
    (hconn : g.Connected) :
    ∀ (fuel : Nat) (v : View α) (visited : List α), PInv g v visited →
      g.nodes.length ≤ fuel + visited.length →
      ∃ r, primLoop g fuel v visited = some r ∧ PInv g r.1 r.2 ∧
        r.2.length = g.nodes.length := by
  have hle : ∀ (v : View α) (visited : List α), PInv g v visited →
      visited.length ≤ g.nodes.length := fun v visited inv =>
    (List.Nodup.subperm inv.nodup inv.sub_nodes).length_le
  intro fuel
  induction fuel with
  | zero =>
    intro v visited inv hf
    have := hle v visited inv
    refine ⟨(v, visited), ?_, inv, by simp only; omega⟩
    unfold primLoop
    rw [if_neg (by omega)]
  | succ fuel ih =>
    intro v visited inv hf
    by_cases hlt : visited.length < g.nodes.length
    · obtain ⟨hb, hme, htc⟩ := primScan_fold visited g.edges [] (v, none)
        (And.intro (fun m h => by cases h) (fun _ e he => by simp at he))
      rw [List.nil_append] at hb
      generalize hr : g.edges.foldl (primScan visited) (v, none) = r at hb hme htc
      -- some node is still outside
      have hout : ∃ z ∈ g.nodes, z ∉ visited := by
        by_contra hno
        push_neg at hno
        have := (List.Nodup.subperm hnd hno).length_le
        omega
      obtain ⟨z0, hz0n, hz0⟩ := hout
      obtain ⟨u0, hu0⟩ := List.exists_mem_of_ne_nil visited inv.nonempty
      have hcross : ∃ e ∈ g.edges, crossing visited e = true := by
        have hc := conn_of_reachable g (hconn u0 (inv.sub_nodes u0 hu0) z0 hz0n)
        rcases conn_cut g.edges visited hc with h | h
        · exact absurd (h.mp hu0) hz0
        · exact h
      obtain ⟨e0, he0, hce0⟩ := hcross
      cases ho : r.2 with
      | none =>
        have := hb.2 ho e0 he0
        rw [this] at hce0; cases hce0
      | some m =>
        obtain ⟨hm1, hm2, hm3⟩ := hb.1 m ho
        have inv0 : PInv g r.1 visited :=
          ⟨inv.nodup, inv.sub_nodes, inv.nonempty, by rw [hme]; exact inv.count,
            by rw [hme]; exact inv.edges_sub, by rw [hme]; exact inv.ends,
            by rw [hme]; exact inv.forest, by rw [hme]; exact inv.light,
            by rw [hme, htc]; exact inv.cost⟩
        rcases (crossing_iff visited m).mp hm2 with ⟨k1, k2⟩ | ⟨k1, k2⟩
        · have inv1 := pinv_step g hwf r.1 visited inv0 m m.src m.dst hm1 hm3 k1 k2
            (Or.inl ⟨rfl, rfl⟩)
          obtain ⟨r1, er1, hinv1, hlen1⟩ := ih _ _ inv1 (by
            rw [List.length_append, List.length_singleton]; omega)
          refine ⟨r1, ?_, hinv1, hlen1⟩
          unfold primLoop
          rw [if_pos hlt]
          simp only [hr, ho, if_pos k1, if_neg k2]
          exact er1
        · have inv1 := pinv_step g hwf r.1 visited inv0 m m.dst m.src hm1 hm3 k2 k1
            (Or.inr ⟨rfl, rfl⟩)
          obtain ⟨r1, er1, hinv1, hlen1⟩ := ih _ _ inv1 (by
            rw [List.length_append, List.length_singleton]; omega)
          refine ⟨r1, ?_, hinv1, hlen1⟩
          unfold primLoop
          rw [if_pos hlt]
          simp only [hr, ho, if_neg k1]
          exact er1
    · have := hle v visited inv
      refine ⟨(v, visited), ?_, inv, by simp only; omega⟩
      unfold primLoop
      rw [if_neg hlt]

/-- What a run of `runPrim` from the idle state commits on a connected graph. -/
theorem runPrim_spec (g : Graph α) (hwf : g.WellFormed) (hnd : g.nodes.Nodup)
    (hne : g.nodes ≠ []) (hconn : g.Connected) (fuel : Nat)
    (hfuel : g.nodes.length ≤ fuel + 1) :
    ∃ v, runPrim g fuel View.idle = .finished v ∧
      ForestOver [] v.mstEdges.reverse ∧
      (∀ e ∈ v.mstEdges, e ∈ g.edges) ∧
      (∀ e ∈ g.edges, Conn (lightEdges v.mstEdges e.weight) e.src e.dst) ∧
      v.totalCost = sumCost v.mstEdges ∧
      v.mstEdges.length + 1 = g.nodes.length := by
  obtain ⟨s, rest, hs⟩ := List.exists_cons_of_ne_nil hne
  have inv0 : PInv g { (beginRun (View.idle : View α)) with nodesInMST := [s] } [s] := by
    refine ⟨List.nodup_singleton s, ?_, by simp, rfl, ?_, ?_, trivial, ?_, rfl⟩
    · intro x hx
      rw [List.mem_singleton.mp hx, hs]
      exact List.mem_cons_self _ _
    · intro e he; simp [beginRun] at he
    · intro e he; simp [beginRun] at he
    · intro w u z hu hz _
      rw [List.mem_singleton.mp hu, List.mem_singleton.mp hz]
      exact Conn.refl _ _
  obtain ⟨r, er, hinv, hlen⟩ := primLoop_spec g hwf hnd hconn fuel _ [s] inv0 (by
    simpa using hfuel)
  have hall : ∀ x ∈ g.nodes, x ∈ r.2 := by
    have hp := (List.Nodup.subperm hinv.nodup hinv.sub_nodes).perm_of_length_le (by omega)
    intro x hx
    exact hp.mem_iff.mpr hx
  refine ⟨{ r.1 with isRunning := false, trace := r.1.trace ++ [.done] }, ?_, hinv.forest,
    hinv.edges_sub, ?_, hinv.cost, ?_⟩
  · unfold runPrim
    simp only [View.idle, Bool.false_eq_true, if_false, hs]
    simp only [View.idle, hs] at er
    rw [er]
  · intro e he
    exact hinv.light e.weight e.src e.dst (hall _ (hwf e he).1) (hall _ (hwf e he).2)
      (Conn.edge ((mem_lightEdges _ _ e).mpr ⟨he, le_refl _⟩))
  · show r.1.mstEdges.length + 1 = g.nodes.length
    rw [hinv.count, hlen]

end

end MSTVisualizer
namespace MSTVisualizer

open GraphVisualizer (Edge Graph)

/-! ## Minimum spanning forests -/

section

variable {α : Type}

theorem spanningForest_of_light_span (g : Graph α) (K : List (Edge α))
    (hfor : ForestOver [] K.reverse) (hsub : ∀ e ∈ K, e ∈ g.edges)
    (hspan : ∀ e ∈ g.edges, Conn (lightEdges K e.weight) e.src e.dst) :
    SpanningForest g K := by
  refine ⟨hsub, ?_, ?_⟩
  · have := acyclic_reverse _ (acyclic_of_forestOver _ hfor)
    rwa [List.reverse_reverse] at this
  · intro u v
    constructor
    · exact Conn.mono hsub
    · refine Conn.of_span ?_
      intro e he
      exact Conn.mono (fun x hx => ((mem_lightEdges K _ x).mp hx).1) (hspan e he)

theorem length_le_of_spanning (g : Graph α) (K T : List (Edge α))
    (hfor : ForestOver [] K.reverse) (hsub : ∀ e ∈ K, e ∈ g.edges)
    (hT : ∀ e ∈ g.edges, Conn T e.src e.dst) : K.length ≤ T.length := by
  have := forest_length_le T K.reverse [] hfor (by
    intro a ha
    rw [List.append_nil]
    exact hT a (hsub a (List.mem_reverse.mp ha)))
  rwa [List.length_reverse] at this

variable [DecidableEq α]

theorem forest_nodup : ∀ F : List (Edge α), ForestOver [] F → F.Nodup := by
  intro F
  induction F with
  | nil => intro _; exact List.nodup_nil
  | cons a A ih =>
    intro h
    refine List.nodup_cons.mpr ⟨?_, ih h.2⟩
    intro ha
    exact h.1 (Conn.edge (List.mem_append_left _ ha))

/-- A list of distinct edges taken from `G` weighs no more than `G`. -/
theorem totalWeight_le_of_nodup_subset (F G : List (Edge α)) (hF : F.Nodup)
    (hsub : ∀ e ∈ F, e ∈ G) : totalWeight F ≤ totalWeight G := by
  obtain ⟨l, hl, hs⟩ := List.Nodup.subperm hF hsub
  have h1 : totalWeight l = totalWeight F := by
    unfold totalWeight
    exact (hl.map _).sum_eq
  have h2 : totalWeight l ≤ totalWeight G := by
    unfold totalWeight
    exact (hs.map _).sum_le_sum (fun _ _ => Nat.zero_le _)
  omega

/-- The committed edges of a forest of edges of the graph weigh no more than the graph. -/
theorem committed_weight_le (g : Graph α) (K : List (Edge α))
    (hfor : ForestOver [] K.reverse) (hsub : ∀ e ∈ K, e ∈ g.edges) :
    totalWeight K ≤ totalWeight g.edges := by
  have h := totalWeight_le_of_nodup_subset K.reverse g.edges (forest_nodup _ hfor)
    (fun e he => hsub e (List.mem_reverse.mp he))
  rwa [totalWeight_reverse] at h

/-- C8: on every graph whose edges join listed nodes (connected or not), `runKruskal`
returns, and the edges it has committed form a minimum spanning forest: they are edges of
the graph that contain no cycle and connect two nodes exactly when the graph connects
them, and no edge subset with these two properties has a smaller total weight.  The
reported `totalCost` is the sum of doubles accumulated over the committed edges in the
order of commit; it is their total weight whenever that weight does not exceed `2^53`. -/
theorem runKruskal_minimum_spanning_forest (g : Graph α) (hwf : g.WellFormed) :
    ∃ v, runKruskal g View.idle = .finished v ∧
      SpanningForest g v.mstEdges ∧
      (∀ T, SpanningForest g T → totalWeight v.mstEdges ≤ totalWeight T) ∧
      v.totalCost = sumCost v.mstEdges ∧
      (totalWeight v.mstEdges ≤ 2 ^ 53 → v.totalCost = some (totalWeight v.mstEdges)) := by
  obtain ⟨v, hrun, hfor, hsub, hspan, hcost⟩ := runKruskal_spec g hwf
  refine ⟨v, hrun, spanningForest_of_light_span g _ hfor hsub hspan, ?_, hcost,
    fun hw => by rw [hcost]; exact sumCost_exact _ hw⟩
  intro T hT
  obtain ⟨hTsub, hTac, hTconn⟩ := hT
  refine weight_le_of_light_span g.edges v.mstEdges T (forestOver_of_acyclic T hTac) hTsub
    hspan ?_
  exact length_le_of_spanning g _ T hfor hsub (fun e he => (hTconn _ _).mpr (Conn.edge he))

/-- Witness of `runKruskal_minimum_spanning_forest`: the sample graph, on which the
reported cost is the total weight `4`. -/
theorem runKruskal_minimum_spanning_forest_witness :
    GraphVisualizer.sampleGraph.WellFormed ∧
    ∃ v, runKruskal GraphVisualizer.sampleGraph View.idle = .finished v ∧
      SpanningForest GraphVisualizer.sampleGraph v.mstEdges ∧
      (∀ T, SpanningForest GraphVisualizer.sampleGraph T →
        totalWeight v.mstEdges ≤ totalWeight T) ∧
      v.totalCost = sumCost v.mstEdges ∧
      (totalWeight v.mstEdges ≤ 2 ^ 53 → v.totalCost = some (totalWeight v.mstEdges)) :=
  ⟨GraphVisualizer.sampleGraph_wellFormed,
    runKruskal_minimum_spanning_forest GraphVisualizer.sampleGraph
      GraphVisualizer.sampleGraph_wellFormed⟩

theorem largePath_connected : largePath.Connected := by
  have hAB : GraphVisualizer.Adj largePath "A" "B" :=
    ⟨⟨"A", "B", 9007199254740992⟩, by decide, Or.inl ⟨rfl, rfl⟩⟩
  have hBC : GraphVisualizer.Adj largePath "B" "C" :=
    ⟨⟨"B", "C", 1⟩, by decide, Or.inl ⟨rfl, rfl⟩⟩
  have hCD : GraphVisualizer.Adj largePath "C" "D" :=
    ⟨⟨"C", "D", 1⟩, by decide, Or.inl ⟨rfl, rfl⟩⟩
  have hBA : GraphVisualizer.Adj largePath "B" "A" :=
    ⟨⟨"A", "B", 9007199254740992⟩, by decide, Or.inr ⟨rfl, rfl⟩⟩
  have hCB : GraphVisualizer.Adj largePath "C" "B" :=
    ⟨⟨"B", "C", 1⟩, by decide, Or.inr ⟨rfl, rfl⟩⟩
  have hDC : GraphVisualizer.Adj largePath "D" "C" :=
    ⟨⟨"C", "D", 1⟩, by decide, Or.inr ⟨rfl, rfl⟩⟩
  have toA : ∀ u ∈ largePath.nodes, GraphVisualizer.Reachable largePath u "A" := by
    intro u hu
    simp only [largePath, List.mem_cons, List.mem_singleton, List.not_mem_nil, or_false] at hu
    rcases hu with rfl | rfl | rfl | rfl
    · exact Relation.ReflTransGen.refl
    · exact Relation.ReflTransGen.single hBA
    · exact (Relation.ReflTransGen.single hCB).tail hBA
    · exact ((Relation.ReflTransGen.single hDC).tail hCB).tail hBA
  have fromA : ∀ u ∈ largePath.nodes, GraphVisualizer.Reachable largePath "A" u := by
    intro u hu
    simp only [largePath, List.mem_cons, List.mem_singleton, List.not_mem_nil, or_false] at hu
    rcases hu with rfl | rfl | rfl | rfl
    · exact Relation.ReflTransGen.refl
    · exact Relation.ReflTransGen.single hAB
    · exact (Relation.ReflTransGen.single hAB).tail hBC
    · exact ((Relation.ReflTransGen.single hAB).tail hBC).tail hCD
  intro u hu x hx
  exact (toA u hu).trans (fromA x hx)

/-- C9 (counterexample): on the connected path `A-B:9007199254740992, B-C:1, C-D:1`
(weights `2^53`, `1`, `1`) both runs return with the same three committed edges, of
total weight `9007199254740994`, but in different orders.  `runPrim` commits the heavy
edge first and each later `+ 1` is rounded away: it reports `9007199254740992`.
`runKruskal` commits the light edges first: it reports `9007199254740994`.  The two
reported costs differ, and the cost reported by `runPrim` is not the sum of the weights
of its committed edges. -/
theorem prim_kruskal_costs_differ_above_two_pow_53 :
    largePath.WellFormed ∧ largePath.nodes.Nodup ∧ largePath.Connected ∧
    (∃ vP vK, runPrim largePath 3 View.idle = .finished vP ∧
      runKruskal largePath View.idle = .finished vK ∧
      vP.mstEdges = [⟨"A", "B", 9007199254740992⟩, ⟨"B", "C", 1⟩, ⟨"C", "D", 1⟩] ∧
      vK.mstEdges = [⟨"B", "C", 1⟩, ⟨"C", "D", 1⟩, ⟨"A", "B", 9007199254740992⟩] ∧
      totalWeight vP.mstEdges = 9007199254740994 ∧
      totalWeight vK.mstEdges = 9007199254740994 ∧
      vP.totalCost = some 9007199254740992 ∧
      vK.totalCost = some 9007199254740994) ∧
    ¬ ∃ vP vK, runPrim largePath 3 View.idle = .finished vP ∧
      runKruskal largePath View.idle = .finished vK ∧
      vP.totalCost = vK.totalCost := by
  have hP : runPrim largePath 3 View.idle = .finished
      { isRunning := false,
        nodesInMST := ["A", "A", "B", "B", "C", "C", "D"],
        mstEdges := [⟨"A", "B", 9007199254740992⟩, ⟨"B", "C", 1⟩, ⟨"C", "D", 1⟩],
        totalCost := some 9007199254740992,
        trace := [.edgeExplore "A" "B", .mstAdd "A" "B" 9007199254740992,
                  .edgeExplore "B" "C", .mstAdd "B" "C" 1,
                  .edgeExplore "C" "D", .mstAdd "C" "D" 1, .done] } := by
    decide
  have hK : runKruskal largePath View.idle = .finished
      { isRunning := false,
        nodesInMST := ["B", "C", "C", "D", "A", "B"],
        mstEdges := [⟨"B", "C", 1⟩, ⟨"C", "D", 1⟩, ⟨"A", "B", 9007199254740992⟩],
        totalCost := some 9007199254740994,
        trace := [.edgeExplore "B" "C", .mstAdd "B" "C" 1, .edgeExplore "C" "D",
                  .mstAdd "C" "D" 1, .edgeExplore "A" "B",
                  .mstAdd "A" "B" 9007199254740992, .done] } := by
    decide
  refine ⟨by unfold Graph.WellFormed; decide, by decide, largePath_connected,
    ⟨_, _, hP, hK, rfl, rfl, by decide, by decide, rfl, rfl⟩, ?_⟩
  rintro ⟨vP, vK, eP, eK, hc⟩
  rw [hP] at eP
  rw [hK] at eK
  injection eP with eP
  injection eK with eK
  rw [← eP, ← eK] at hc
  exact absurd hc (by decide)

/-- C9 (amended): on every connected graph with `n ≥ 1` distinct nodes whose edges join
listed nodes and whose edge weights sum to at most `2^53` (so that every cost the runs
accumulate is exact), `runPrim` (given at least `n - 1` iterations of its loop) and
`runKruskal` both return, they report the same `totalCost`, which is the sum of the
weights of the edges each has committed, and each has committed exactly `n - 1` edges. -/
theorem runPrim_runKruskal_same_cost (g : Graph α) (hwf : g.WellFormed)
    (hnd : g.nodes.Nodup) (hne : g.nodes ≠ []) (hconn : g.Connected)
    (hw : totalWeight g.edges ≤ 2 ^ 53) (fuel : Nat)
    (hfuel : g.nodes.length ≤ fuel + 1) :
    ∃ vP vK, runPrim g fuel View.idle = .finished vP ∧
      runKruskal g View.idle = .finished vK ∧
      vP.totalCost = vK.totalCost ∧
      vP.totalCost = some (totalWeight vP.mstEdges) ∧
      vK.totalCost = some (totalWeight vK.mstEdges) ∧
      vP.mstEdges.length + 1 = g.nodes.length ∧
      vK.mstEdges.length + 1 = g.nodes.length := by
  obtain ⟨vP, hP, hforP, hsubP, hspanP, hcostP, hlenP⟩ :=
    runPrim_spec g hwf hnd hne hconn fuel hfuel
  obtain ⟨vK, hK, hforK, hsubK, hspanK, hcostK⟩ := runKruskal_spec g hwf
  have hconnP : ∀ e ∈ g.edges, Conn vP.mstEdges e.src e.dst := fun e he =>
    Conn.mono (fun x hx => ((mem_lightEdges _ _ x).mp hx).1) (hspanP e he)
  have hconnK : ∀ e ∈ g.edges, Conn vK.mstEdges e.src e.dst := fun e he =>
    Conn.mono (fun x hx => ((mem_lightEdges _ _ x).mp hx).1) (hspanK e he)
  have hPK : vP.mstEdges.length ≤ vK.mstEdges.length :=
    length_le_of_spanning g _ _ hforP hsubP hconnK
  have hKP : vK.mstEdges.length ≤ vP.mstEdges.length :=
    length_le_of_spanning g _ _ hforK hsubK hconnP
  have w1 : totalWeight vP.mstEdges ≤ totalWeight vK.mstEdges := by
    have := weight_le_of_light_span g.edges vP.mstEdges vK.mstEdges.reverse hforK
      (fun t ht => hsubK t (List.mem_reverse.mp ht)) hspanP
      (by rw [List.length_reverse]; exact hPK)
    rwa [totalWeight_reverse] at this
  have w2 : totalWeight vK.mstEdges ≤ totalWeight vP.mstEdges := by
    have := weight_le_of_light_span g.edges vK.mstEdges vP.mstEdges.reverse hforP
      (fun t ht => hsubP t (List.mem_reverse.mp ht)) hspanK
      (by rw [List.length_reverse]; exact hKP)
    rwa [totalWeight_reverse] at this
  have bP : totalWeight vP.mstEdges ≤ 2 ^ 53 :=
    le_trans (committed_weight_le g _ hforP hsubP) hw
  have bK : totalWeight vK.mstEdges ≤ 2 ^ 53 :=
    le_trans (committed_weight_le g _ hforK hsubK) hw
  have cP : vP.totalCost = some (totalWeight vP.mstEdges) := by
    rw [hcostP]; exact sumCost_exact _ bP
  have cK : vK.totalCost = some (totalWeight vK.mstEdges) := by
    rw [hcostK]; exact sumCost_exact _ bK
  refine ⟨vP, vK, hP, hK, ?_, cP, cK, hlenP, ?_⟩
  · rw [cP, cK]
    exact congrArg some (le_antisymm w1 w2)
  · omega

/-- Witness of `runPrim_runKruskal_same_cost`: the sample graph, whose weights sum to
`8`. -/
theorem runPrim_runKruskal_same_cost_witness :
    GraphVisualizer.sampleGraph.WellFormed ∧ GraphVisualizer.sampleGraph.nodes.Nodup ∧
    GraphVisualizer.sampleGraph.nodes ≠ [] ∧ GraphVisualizer.sampleGraph.Connected ∧
    totalWeight GraphVisualizer.sampleGraph.edges ≤ 2 ^ 53 ∧
    GraphVisualizer.sampleGraph.nodes.length ≤ 3 + 1 ∧
    ∃ vP vK, runPrim GraphVisualizer.sampleGraph 3 View.idle = .finished vP ∧
      runKruskal GraphVisualizer.sampleGraph View.idle = .finished vK ∧
      vP.totalCost = vK.totalCost ∧
      vP.totalCost = some (totalWeight vP.mstEdges) ∧
      vK.totalCost = some (totalWeight vK.mstEdges) ∧
      vP.mstEdges.length + 1 = GraphVisualizer.sampleGraph.nodes.length ∧
      vK.mstEdges.length + 1 = GraphVisualizer.sampleGraph.nodes.length :=
  ⟨GraphVisualizer.sampleGraph_wellFormed, by decide, by decide,
    GraphVisualizer.sampleGraph_connected, by decide, by decide,
    runPrim_runKruskal_same_cost GraphVisualizer.sampleGraph
      GraphVisualizer.sampleGraph_wellFormed (by decide) (by decide)
      GraphVisualizer.sampleGraph_connected (by decide) 3 (by decide)⟩

end

end MSTVisualizer
namespace MSTVisualizer

open GraphVisualizer (Edge Graph)

/-! ## One round of `runPrim` -/

section

variable {α : Type} [DecidableEq α]

theorem primScan_first_step (visited : List α) (seen : List (Edge α))
    (acc : View α × Option (Edge α)) (e : Edge α) (h : FirstBest visited seen acc.2) :
    FirstBest visited (seen ++ [e]) (primScan visited acc e).2 := by
  obtain ⟨v, o⟩ := acc
  obtain ⟨hs, hn⟩ := h
  by_cases hc : crossing visited e = true
  · cases o with
    | none =>
      have e1 : primScan visited (v, none) e =
          ({ v with trace := v.trace ++ [.edgeExplore e.src e.dst] }, some e) := by
        unfold primScan; rw [if_pos hc]
      rw [e1]
      refine ⟨?_, fun h => by cases h⟩
      intro m hm
      cases hm
      refine ⟨hc, seen, [], rfl, ?_, fun x hx => by simp at hx⟩
      intro x hx hcx
      have := hn rfl x hx
      rw [this] at hcx; cases hcx
    | some m =>
      obtain ⟨hm2, pre, post, hsplit, hpre, hpost⟩ := hs m rfl
      by_cases hw : e.weight < m.weight
      · have e1 : primScan visited (v, some m) e =
            ({ v with trace := v.trace ++ [.edgeExplore e.src e.dst] }, some e) := by
          unfold primScan; rw [if_pos hc]; simp only [hw, if_true]
        rw [e1]
        refine ⟨?_, fun h => by cases h⟩
        intro m1 hm
        cases hm
        refine ⟨hc, seen, [], rfl, ?_, fun x hx => by simp at hx⟩
        intro x hx hcx
        rw [hsplit] at hx
        rcases List.mem_append.mp hx with h1 | h1
        · have := hpre x h1 hcx; omega
        · rcases List.mem_cons.mp h1 with h2 | h2
          · rw [h2]; exact hw
          · have := hpost x h2 hcx; omega
      · have e1 : primScan visited (v, some m) e =
            ({ v with trace := v.trace ++ [.edgeExplore e.src e.dst] }, some m) := by
          unfold primScan; rw [if_pos hc]; simp only [hw, if_false]
        rw [e1]
        refine ⟨?_, fun h => by cases h⟩
        intro m1 hm
        cases hm
        refine ⟨hm2, pre, post ++ [e], by rw [hsplit]; simp, hpre, ?_⟩
        intro x hx hcx
        rcases List.mem_append.mp hx with h1 | h1
        · exact hpost x h1 hcx
        · rw [List.mem_singleton.mp h1]; omega
  · have e1 : primScan visited (v, o) e = (v, o) := by
      unfold primScan; rw [if_neg hc]
    rw [e1]
    have hc1 : crossing visited e = false := by simpa using hc
    refine ⟨?_, ?_⟩
    · intro m hm
      obtain ⟨hm2, pre, post, hsplit, hpre, hpost⟩ := hs m hm
      refine ⟨hm2, pre, post ++ [e], by rw [hsplit]; simp, hpre, ?_⟩
      intro x hx hcx
      rcases List.mem_append.mp hx with h1 | h1
      · exact hpost x h1 hcx
      · rw [List.mem_singleton.mp h1, hc1] at hcx; cases hcx
    · intro ho x hx
      rcases List.mem_append.mp hx with h1 | h1
      · exact hn ho x h1
      · rw [List.mem_singleton.mp h1]; exact hc1

theorem primScan_first_fold (visited : List α) :
    ∀ (es seen : List (Edge α)) (acc : View α × Option (Edge α)),
      FirstBest visited seen acc.2 →
      FirstBest visited (seen ++ es) (es.foldl (primScan visited) acc).2 := by
  intro es
  induction es with
  | nil =>
    intro seen acc h
    rw [List.append_nil]
    exact h
  | cons e es ih =>
    intro seen acc h
    have k1 := ih (seen ++ [e]) (primScan visited acc e) (primScan_first_step visited seen acc e h)
    rw [List.append_assoc] at k1
    exact k1

/-- C22: in every round of the loop of `runPrim` (some node is still outside the tree)
in which some edge has exactly one endpoint in the tree, the edge list splits around the
edge `m` that is committed: `m` crosses the cut, every crossing edge before it is
strictly heavier and every crossing edge after it is at least as heavy; the round adds
to the tree exactly the endpoint `z` of `m` that was outside, appends `m` to `mstEdges`
and adds its weight to `totalCost` (a sum of doubles, which is the exact sum whenever
that does not exceed `2^53`), and the loop goes on from that state. -/
theorem runPrim_round_commits_first_lightest (g : Graph α) (fuel : Nat) (v : View α)
    (visited : List α) (hlt : visited.length < g.nodes.length)
    (hex : ∃ e ∈ g.edges, crossing visited e = true) :
    ∃ pre m post z v1, g.edges = pre ++ m :: post ∧
      crossing visited m = true ∧
      (∀ e ∈ pre, crossing visited e = true → m.weight < e.weight) ∧
      (∀ e ∈ post, crossing visited e = true → m.weight ≤ e.weight) ∧
      z ∉ visited ∧
      ((m.src ∈ visited ∧ z = m.dst) ∨ (m.dst ∈ visited ∧ z = m.src)) ∧
      primLoop g (fuel + 1) v visited = primLoop g fuel v1 (visited ++ [z]) ∧
      v1.mstEdges = v.mstEdges ++ [m] ∧
      v1.totalCost = JsNumber.costAdd v.totalCost m.weight ∧
      (∀ c, v.totalCost = some c → c + m.weight ≤ 2 ^ 53 →
        v1.totalCost = some (c + m.weight)) ∧
      v1.trace.getLast? = some (.mstAdd m.src m.dst m.weight) := by
  have hb := primScan_first_fold visited g.edges [] (v, none)
    (And.intro (fun m h => by cases h) (fun _ e he => by simp at he))
  obtain ⟨_, hme, htc⟩ := primScan_fold visited g.edges [] (v, none)
    (And.intro (fun m h => by cases h) (fun _ e he => by simp at he))
  rw [List.nil_append] at hb
  generalize hr : g.edges.foldl (primScan visited) (v, none) = r at hb hme htc
  obtain ⟨e0, he0, hce0⟩ := hex
  cases ho : r.2 with
  | none =>
    have := hb.2 ho e0 he0
    rw [this] at hce0; cases hce0
  | some m =>
    obtain ⟨hm2, pre, post, hsplit, hpre, hpost⟩ := hb.1 m ho
    rcases (crossing_iff visited m).mp hm2 with ⟨k1, k2⟩ | ⟨k1, k2⟩
    · refine ⟨pre, m, post, m.dst, addToMST r.1 m.src m.dst m.weight, hsplit, hm2, hpre, hpost,
        k2, Or.inl ⟨k1, rfl⟩, ?_, ?_, ?_, ?_, ?_⟩
      · conv_lhs => unfold primLoop
        rw [if_pos hlt]
        simp only [hr, ho, if_pos k1, if_neg k2]
      · show r.1.mstEdges ++ [⟨m.src, m.dst, m.weight⟩] = v.mstEdges ++ [m]
        rw [hme]
      · show JsNumber.costAdd r.1.totalCost m.weight = JsNumber.costAdd v.totalCost m.weight
        rw [htc]
      · intro c hc hle
        show JsNumber.costAdd r.1.totalCost m.weight = some (c + m.weight)
        rw [htc, hc]
        exact JsNumber.numAdd_exact _ _ hle
      · simp [addToMST]
    · refine ⟨pre, m, post, m.src, addToMST r.1 m.src m.dst m.weight, hsplit, hm2, hpre, hpost,
        k1, Or.inr ⟨k2, rfl⟩, ?_, ?_, ?_, ?_, ?_⟩
      · conv_lhs => unfold primLoop
        rw [if_pos hlt]
        simp only [hr, ho, if_neg k1]
      · show r.1.mstEdges ++ [⟨m.src, m.dst, m.weight⟩] = v.mstEdges ++ [m]
        rw [hme]
      · show JsNumber.costAdd r.1.totalCost m.weight = JsNumber.costAdd v.totalCost m.weight
        rw [htc]
      · intro c hc hle
        show JsNumber.costAdd r.1.totalCost m.weight = some (c + m.weight)
        rw [htc, hc]
        exact JsNumber.numAdd_exact _ _ hle
      · simp [addToMST]

theorem runPrim_round_commits_first_lightest_witness :
    ["A"].length < GraphVisualizer.sampleGraph.nodes.length ∧
    (∃ e ∈ GraphVisualizer.sampleGraph.edges, crossing ["A"] e = true) ∧
    ∃ pre m post z v1, GraphVisualizer.sampleGraph.edges = pre ++ m :: post ∧
      crossing ["A"] m = true ∧
      (∀ e ∈ pre, crossing ["A"] e = true → m.weight < e.weight) ∧
      (∀ e ∈ post, crossing ["A"] e = true → m.weight ≤ e.weight) ∧
      z ∉ ["A"] ∧
      ((m.src ∈ ["A"] ∧ z = m.dst) ∨ (m.dst ∈ ["A"] ∧ z = m.src)) ∧
      primLoop GraphVisualizer.sampleGraph (0 + 1) View.idle ["A"] =
        primLoop GraphVisualizer.sampleGraph 0 v1 (["A"] ++ [z]) ∧
      v1.mstEdges = (View.idle : View String).mstEdges ++ [m] ∧
      v1.totalCost = JsNumber.costAdd (View.idle : View String).totalCost m.weight ∧
      (∀ c, (View.idle : View String).totalCost = some c → c + m.weight ≤ 2 ^ 53 →
        v1.totalCost = some (c + m.weight)) ∧
      v1.trace.getLast? = some (.mstAdd m.src m.dst m.weight) :=
  ⟨by decide, ⟨⟨"A", "B", 1⟩, by decide, by decide⟩,
    runPrim_round_commits_first_lightest GraphVisualizer.sampleGraph 0 View.idle ["A"]
      (by decide) ⟨⟨"A", "B", 1⟩, by decide, by decide⟩⟩

end

end MSTVisualizer
namespace MSTVisualizer

open GraphVisualizer (Edge Graph)

/-! ## `find` on the reachable union-find states -/

section

variable {α : Type} [DecidableEq α]

/-- A larger depth bound does not change a result of `find`. -/
theorem find_mono :
    ∀ (fuel : Nat) (parent : α → α) (x : α) (r : α × (α → α)),
      find fuel parent x = some r → ∀ k, find (fuel + k) parent x = some r := by
  intro fuel
  induction fuel with
  | zero => intro parent x r h; simp [find] at h
  | succ fuel ih =>
    intro parent x r h k
    rw [show fuel + 1 + k = (fuel + k) + 1 by omega]
    unfold find at h ⊢
    by_cases hp : parent x ≠ x
    · rw [if_pos hp] at h ⊢
      cases h1 : find fuel parent (parent x) with
      | none => rw [h1] at h; cases h
      | some r1 =>
        rw [h1] at h
        rw [ih parent (parent x) r1 h1 k]
        exact h
    · rw [if_neg hp] at h ⊢
      exact h

/-- Whatever the depth bound, a result of `find` is the representative, with the maps
still consistent. -/
theorem find_sound (rank : α → Nat) (rep : α → α) (R : Nat) (fuel : Nat) (parent : α → α)
    (x : α) (r : α × (α → α)) (h : UFInv parent rank rep R)
    (hr : find fuel parent x = some r) :
    r.1 = rep x ∧ UFInv r.2 rank rep R ∧ r.2 x = rep x := by
  obtain ⟨p, e, hp, _, hx⟩ := find_spec rank rep R (fuel + (R + 1)) parent x h (by omega)
  have := find_mono fuel parent x r hr (R + 1)
  rw [e] at this
  cases this
  exact ⟨rfl, hp, hx⟩

theorem find_root (fuel : Nat) (p : α → α) (r : α) (h : p r = r) :
    find (fuel + 1) p r = some (r, p) := by
  unfold find
  rw [if_neg (by simpa using h), h]

theorem find_again (fuel : Nat) (p : α → α) (x r : α) (hx : p x = r) (hr : p r = r) :
    find (fuel + 2) p x = some (r, p) := by
  by_cases h : p x = x
  · have e : r = x := by rw [← hx, h]
    rw [e]
    exact find_root (fuel + 1) p x h
  · unfold find
    rw [if_pos h, hx, find_root fuel p r hr]
    have : (fun y => if y = x then r else p y) = p := by
      funext y
      by_cases hy : y = x
      · rw [if_pos hy, hy, hx]
      · rw [if_neg hy]
    simp only [this]

/-- Whatever the depth bound, a returned `union` keeps the maps consistent. -/
theorem union_sound (fuel : Nat) (uf uf1 : UnionFind α) (rep : α → α) (R : Nat) (x y : α)
    (h : UFInv uf.parent uf.rank rep R) (hu : union fuel uf x y = some uf1) :
    ∃ rep1, UFInv uf1.parent uf1.rank rep1 (R + 1) := by
  unfold union at hu
  cases e1 : find fuel uf.parent x with
  | none => rw [e1] at hu; cases hu
  | some rx =>
    obtain ⟨hx1, h1, _⟩ := find_sound uf.rank rep R fuel uf.parent x rx h e1
    cases e2 : find fuel rx.2 y with
    | none => simp only [e1, e2] at hu; cases hu
    | some ry =>
      obtain ⟨hy1, h2, _⟩ := find_sound uf.rank rep R fuel rx.2 y ry h1 e2
      simp only [e1, e2, hx1, hy1] at hu
      have hX : rep (rep x) = rep x := h.rep_rep _
      have hY : rep (rep y) = rep y := h.rep_rep _
      have hle : ∀ z, uf.rank z ≤ R + 1 := fun z => le_trans (h.rankLe z) (Nat.le_succ _)
      by_cases c1 : uf.rank (rep x) < uf.rank (rep y)
      · rw [if_pos c1] at hu
        cases hu
        have hne : rep x ≠ rep y := fun e => by rw [e] at c1; exact lt_irrefl _ c1
        exact ⟨_, ufinv_link h2 _ _ hX hY hne uf.rank (fun _ => le_refl _) hle c1
          (fun _ _ => rfl)⟩
      · rw [if_neg c1] at hu
        by_cases c2 : uf.rank (rep x) > uf.rank (rep y)
        · rw [if_pos c2] at hu
          cases hu
          have hne : rep y ≠ rep x := fun e => by rw [e] at c2; exact lt_irrefl _ c2
          exact ⟨_, ufinv_link h2 _ _ hY hX hne uf.rank (fun _ => le_refl _) hle c2
            (fun _ _ => rfl)⟩
        · rw [if_neg c2] at hu
          cases hu
          have hpX : ry.2 (rep x) = rep x := h2.isRoot x
          have hr1 : ∀ z, uf.rank z ≤
              (if z = rep x then uf.rank (rep x) + 1 else uf.rank z) := by
            intro z
            by_cases hz : z = rep x
            · rw [if_pos hz, hz]; exact Nat.le_succ _
            · rw [if_neg hz]
          have hr2 : ∀ z, (if z = rep x then uf.rank (rep x) + 1 else uf.rank z) ≤ R + 1 := by
            intro z
            have := h.rankLe z
            have := h.rankLe (rep x)
            split <;> omega
          have hr4 : ∀ z, ry.2 z ≠ z →
              (if z = rep x then uf.rank (rep x) + 1 else uf.rank z) = uf.rank z := by
            intro z hz
            rw [if_neg]
            intro hz1
            exact hz (by rw [hz1]; exact hpX)
          by_cases hne : rep y = rep x
          · -- both ids already share their root: only the rank of the root grows
            refine ⟨rep, ?_⟩
            have hpar : (fun z => if z = rep y then rep x else ry.2 z) = ry.2 := by
              funext z
              by_cases hz : z = rep y
              · rw [if_pos hz, hz, hne, hpX]
              · rw [if_neg hz]
            show UFInv (fun z => if z = rep y then rep x else ry.2 z)
              (fun z => if z = rep x then uf.rank (rep x) + 1 else uf.rank z) rep (R + 1)
            rw [hpar]
            refine ⟨h2.step, h2.root, h2.isRoot, ?_, hr2⟩
            intro z hz
            have := h2.rankLt z hz
            have := hr1 (ry.2 z)
            have := hr4 z hz
            show (if z = rep x then uf.rank (rep x) + 1 else uf.rank z) <
              (if ry.2 z = rep x then uf.rank (rep x) + 1 else uf.rank (ry.2 z))
            omega
          · refine ⟨_, ufinv_link h2 _ _ hY hX hne _ hr1 hr2 ?_ hr4⟩
            show (if rep y = rep x then uf.rank (rep x) + 1 else uf.rank (rep y)) <
              (if rep x = rep x then uf.rank (rep x) + 1 else uf.rank (rep x))
            rw [if_neg hne, if_pos rfl]
            omega

theorem ufReach_inv (uf : UnionFind α) (h : UFReach uf) :
    ∃ rep R, UFInv uf.parent uf.rank rep R := by
  induction h with
  | initial =>
    exact ⟨fun x => x, 0, fun _ => rfl, fun _ _ => rfl, fun _ => rfl,
      fun x hx => absurd rfl hx, fun _ => le_refl _⟩
  | afterFind uf fuel x r _ hr ih =>
    obtain ⟨rep, R, hinv⟩ := ih
    exact ⟨rep, R, (find_sound uf.rank rep R fuel uf.parent x r hinv hr).2.1⟩
  | afterUnion uf uf1 fuel x y _ hu ih =>
    obtain ⟨rep, R, hinv⟩ := ih
    obtain ⟨rep1, h1⟩ := union_sound fuel uf uf1 rep R x y hinv hu
    exact ⟨rep1, R + 1, h1⟩

/-- C24: in every union-find state that calls of `find` and `union` produce from the
singleton initialisation, `find(x)` returns (under every depth bound from some bound
on) a root `r`, which is its own parent before and after the call; on the compressed
map `find(r)` returns `r` and a second `find(x)` returns `r` again, both leaving the
parent map as it is. -/
theorem find_idempotent (uf : UnionFind α) (h : UFReach uf) (x : α) :
    ∃ N r p, uf.parent r = r ∧ p r = r ∧
      ∀ fuel, N ≤ fuel →
        find fuel uf.parent x = some (r, p) ∧
        find fuel p r = some (r, p) ∧
        find fuel p x = some (r, p) := by
  obtain ⟨rep, R, hinv⟩ := ufReach_inv uf h
  obtain ⟨p, e, hp, _, hx⟩ := find_spec uf.rank rep R (R + 2) uf.parent x hinv (by omega)
  refine ⟨R + 2, rep x, p, hinv.isRoot x, hp.isRoot x, ?_⟩
  intro fuel hf
  obtain ⟨k, rfl⟩ := Nat.exists_eq_add_of_le hf
  refine ⟨find_mono _ _ _ _ e k, ?_, ?_⟩
  · rw [show R + 2 + k = (R + 1 + k) + 1 by omega]
    exact find_root _ p (rep x) (hp.isRoot x)
  · rw [show R + 2 + k = (R + k) + 2 by omega]
    exact find_again _ p x (rep x) hx (hp.isRoot x)

theorem find_idempotent_witness :
    UFReach ({ parent := fun z => if z = "B" then "A" else z,
               rank := fun z => if z = "A" then 0 + 1 else 0 } : UnionFind String) ∧
    ∃ N r p, (fun z => if z = "B" then "A" else z) r = r ∧ p r = r ∧
      ∀ fuel, N ≤ fuel →
        find fuel (fun z => if z = "B" then "A" else z) "B" = some (r, p) ∧
        find fuel p r = some (r, p) ∧
        find fuel p "B" = some (r, p) :=
  ⟨UFReach.afterUnion { parent := fun x => x, rank := fun _ => 0 } _ 1 "A" "B"
      UFReach.initial rfl,
    find_idempotent _
      (UFReach.afterUnion { parent := fun x => x, rank := fun _ => 0 } _ 1 "A" "B"
        UFReach.initial rfl) "B"⟩

end

end MSTVisualizer
namespace MSTVisualizer

open GraphVisualizer (Edge Graph)

/-! ## The loop of `runKruskal`, edge by edge -/

section

variable {α : Type}

theorem orderedInsert_filter_weight (w : Nat) (a : Edge α) :
    ∀ l : List (Edge α),
      (List.orderedInsert (fun a b => a.weight ≤ b.weight) a l).filter
          (fun e => decide (e.weight = w)) =
        (a :: l).filter (fun e => decide (e.weight = w)) := by
  intro l
  induction l with
  | nil => rfl
  | cons b l ih =>
    by_cases h : a.weight ≤ b.weight
    · rw [List.orderedInsert, if_pos h]
    · rw [List.orderedInsert, if_neg h, List.filter_cons, ih]
      by_cases hb : b.weight = w
      · have ha : a.weight ≠ w := by omega
        simp only [List.filter_cons, hb, ha, decide_True, decide_False, if_true,
          Bool.false_eq_true, if_false]
      · by_cases ha : a.weight = w
        · simp only [List.filter_cons, hb, ha, decide_True, decide_False, if_true,
            Bool.false_eq_true, if_false]
        · simp only [List.filter_cons, hb, ha, decide_False, Bool.false_eq_true, if_false]

/-- The sort keeps edges of equal weight in their original order. -/
theorem sortEdges_stable (w : Nat) :
    ∀ es : List (Edge α),
      (sortEdges es).filter (fun e => decide (e.weight = w)) =
        es.filter (fun e => decide (e.weight = w)) := by
  intro es
  induction es with
  | nil => rfl
  | cons a es ih =>
    show (List.orderedInsert _ a (sortEdges es)).filter _ = _
    rw [orderedInsert_filter_weight, List.filter_cons, List.filter_cons, ih]

theorem kinv_initial :
    KInv ([] : List (Edge α)) (beginRun (View.idle : View α))
      { parent := fun x => x, rank := fun _ => 0 } 0 := by
  refine ⟨⟨fun x => x, ⟨fun _ => rfl, fun _ _ => rfl, fun _ => rfl, ?_, fun _ => le_refl _⟩, ?_⟩,
    rfl, trivial, ?_, ?_, rfl⟩
  · intro x h; exact absurd rfl h
  · intro u w
    exact ⟨fun h => by have h1 : u = w := h; rw [h1]; exact Conn.refl _ _, conn_nil u w⟩
  · intro e he; exact he
  · intro e he; simp at he

variable [DecidableEq α]

/-- Running the loop over a list is running it over a first part and going on over the
rest from the state reached. -/
theorem kruskalLoop_append (n fuel : Nat) :
    ∀ (es1 es2 : List (Edge α)) (v : View α) (uf : UnionFind α) (k : Nat),
      kruskalLoop n fuel (es1 ++ es2) v uf k =
        (kruskalLoop n fuel es1 v uf k).bind
          (fun r => kruskalLoop n fuel es2 r.1 r.2.1 r.2.2) := by
  intro es1
  induction es1 with
  | nil =>
    intro es2 v uf k
    rfl
  | cons e es1 ih =>
    intro es2 v uf k
    by_cases hk : k + 1 ≥ n
    · have e1 : kruskalLoop n fuel ((e :: es1) ++ es2) v uf k = some (v, uf, k) := by
        rw [List.cons_append]; unfold kruskalLoop; rw [if_pos hk]
      have e2 : kruskalLoop n fuel (e :: es1) v uf k = some (v, uf, k) := by
        unfold kruskalLoop; rw [if_pos hk]
      rw [e1, e2]
      show some (v, uf, k) = kruskalLoop n fuel es2 v uf k
      cases es2 with
      | nil => rfl
      | cons x xs => unfold kruskalLoop; rw [if_pos hk]
    · rw [List.cons_append]
      conv_lhs => unfold kruskalLoop
      conv_rhs =>
        arg 1
        unfold kruskalLoop
      rw [if_neg hk, if_neg hk]
      cases h1 : find fuel uf.parent e.src with
      | none => simp only [Option.bind]
      | some rf =>
        cases h2 : find fuel rf.2 e.dst with
        | none => simp only [h2, Option.bind]
        | some rt =>
          simp only [h2]
          by_cases hr : rf.1 ≠ rt.1
          · rw [if_pos hr, if_pos hr]
            cases h3 : union fuel { uf with parent := rt.2 } e.src e.dst with
            | none => simp only [Option.bind]
            | some uf2 => exact ih es2 _ uf2 (k + 1)
          · rw [if_neg hr, if_neg hr]
            exact ih es2 _ _ k

/-- The count of committed edges never exceeds the number of nodes. -/
theorem kruskalLoop_count (n fuel : Nat) :
    ∀ (es : List (Edge α)) (v : View α) (uf : UnionFind α) (k : Nat)
      (r : View α × UnionFind α × Nat),
      kruskalLoop n fuel es v uf k = some r → k ≤ n → r.2.2 ≤ n := by
  intro es
  induction es with
  | nil =>
    intro v uf k r h hk
    cases h
    exact hk
  | cons e es ih =>
    intro v uf k r h hk
    unfold kruskalLoop at h
    by_cases hc : k + 1 ≥ n
    · rw [if_pos hc] at h
      cases h
      exact hk
    · rw [if_neg hc] at h
      cases h1 : find fuel uf.parent e.src with
      | none => rw [h1] at h; cases h
      | some rf =>
        cases h2 : find fuel rf.2 e.dst with
        | none => simp only [h1, h2] at h; cases h
        | some rt =>
          simp only [h1, h2] at h
          by_cases hr : rf.1 ≠ rt.1
          · rw [if_pos hr] at h
            cases h3 : union fuel { uf with parent := rt.2 } e.src e.dst with
            | none => rw [h3] at h; cases h
            | some uf2 =>
              rw [h3] at h
              exact ih _ uf2 (k + 1) r h (by omega)
          · rw [if_neg hr] at h
            exact ih _ _ k r h hk

/-- From the suspension inside `addToMST` the iteration goes on by committing the edge
and taking the next one. -/
theorem kruskalLoop_commitPoint (n fuel : Nat) (e : Edge α) (rest : List (Edge α))
    (v v1 : View α) (uf uf2 : UnionFind α) (k : Nat) (hk : k + 1 < n)
    (h : kruskalCommitPoint fuel e v uf = some (v1, uf2)) :
    v1.mstEdges = v.mstEdges ∧
    kruskalLoop n fuel (e :: rest) v uf k =
      kruskalLoop n fuel rest (addToMST v1 e.src e.dst e.weight) uf2 (k + 1) := by
  unfold kruskalCommitPoint at h
  cases h1 : find fuel uf.parent e.src with
  | none => rw [h1] at h; cases h
  | some rf =>
    cases h2 : find fuel rf.2 e.dst with
    | none => simp only [h1, h2] at h; cases h
    | some rt =>
      simp only [h1, h2] at h
      by_cases hr : rf.1 ≠ rt.1
      · rw [if_pos hr] at h
        cases h3 : union fuel { uf with parent := rt.2 } e.src e.dst with
        | none => rw [h3] at h; cases h
        | some uf3 =>
          rw [h3] at h
          injection h with h
          injection h with h4 h5
          subst h4 h5
          refine ⟨rfl, ?_⟩
          conv_lhs => unfold kruskalLoop
          rw [if_neg (by omega)]
          simp only [h1, h2]
          rw [if_pos hr, h3]
      · rw [if_neg hr] at h; cases h

/-- C23 (counterexample): on the sample graph, in the first iteration of the loop of
`runKruskal` (edge `A-B:1`), while the iteration is suspended inside `addToMST`, `union`
has already joined the classes of `A` and `B`: `find` returns the root `A` for both,
although no edge is committed yet, so `A` and `B` are not connected by committed
edges.  The run goes on from that state by committing `A-B`. -/
theorem kruskal_roots_agree_before_commit :
    (sortEdges GraphVisualizer.sampleGraph.edges).head? = some ⟨"A", "B", 1⟩ ∧
    ∃ v1 uf2,
      kruskalCommitPoint 5 ⟨"A", "B", 1⟩ (beginRun View.idle)
        { parent := fun x => x, rank := fun _ => 0 } = some (v1, uf2) ∧
      v1.mstEdges = [] ∧
      (find 5 uf2.parent "A").map Prod.fst = some "A" ∧
      (find 5 uf2.parent "B").map Prod.fst = some "A" ∧
      ¬ Conn v1.mstEdges "A" "B" ∧
      kruskalLoop 4 5 (sortEdges GraphVisualizer.sampleGraph.edges) (beginRun View.idle)
          { parent := fun x => x, rank := fun _ => 0 } 0 =
        kruskalLoop 4 5 (sortEdges GraphVisualizer.sampleGraph.edges).tail
          (addToMST v1 "A" "B" 1) uf2 1 := by
  refine ⟨by decide, ?_⟩
  have hm : (kruskalCommitPoint 5 (⟨"A", "B", 1⟩ : Edge String) (beginRun View.idle)
      { parent := fun x => x, rank := fun _ => 0 }).map (fun r => r.1.mstEdges) =
      some [] := by decide
  have hA : (kruskalCommitPoint 5 (⟨"A", "B", 1⟩ : Edge String) (beginRun View.idle)
      { parent := fun x => x, rank := fun _ => 0 }).bind
        (fun r => (find 5 r.2.parent "A").map Prod.fst) = some "A" := by decide
  have hB : (kruskalCommitPoint 5 (⟨"A", "B", 1⟩ : Edge String) (beginRun View.idle)
      { parent := fun x => x, rank := fun _ => 0 }).bind
        (fun r => (find 5 r.2.parent "B").map Prod.fst) = some "A" := by decide
  cases h : kruskalCommitPoint 5 (⟨"A", "B", 1⟩ : Edge String) (beginRun View.idle)
      { parent := fun x => x, rank := fun _ => 0 } with
  | none => rw [h] at hm; cases hm
  | some r =>
    obtain ⟨v1, uf2⟩ := r
    rw [h] at hm hA hB
    have hm1 : v1.mstEdges = [] := by simpa using hm
    refine ⟨v1, uf2, rfl, hm1, hA, hB, ?_, ?_⟩
    · rw [hm1]
      intro hc
      exact absurd (conn_nil "A" "B" hc) (by decide)
    · have hs : sortEdges GraphVisualizer.sampleGraph.edges =
          ⟨"A", "B", 1⟩ :: (sortEdges GraphVisualizer.sampleGraph.edges).tail := by decide
      conv_lhs => rw [hs]
      exact (kruskalLoop_commitPoint 4 5 ⟨"A", "B", 1⟩ _ _ v1 _ uf2 0 (by decide) h).2

/-- C23 (amended): whenever the loop of `runKruskal` is about to take its next edge
(after any number `m` of edges of the sorted list, or in the state in which it has
stopped), `find` returns on every two ids, and the two roots are equal exactly when the
ids are connected by the edges committed so far.  Inside an iteration that commits its
edge `e`, while the run is suspended in `addToMST` after `union` and before the edge is
appended to `mstEdges`, `find` returns on every two ids and the two roots are equal
exactly when the ids are connected by the edges committed so far together with `e`. -/
theorem runKruskal_find_iff_connected (g : Graph α) (m : Nat) :
    ∃ v uf k,
      kruskalLoop g.nodes.length (g.nodes.length + 1) ((sortEdges g.edges).take m)
        (beginRun View.idle) { parent := fun x => x, rank := fun _ => 0 } 0 = some (v, uf, k) ∧
      kruskalLoop g.nodes.length (g.nodes.length + 1) (sortEdges g.edges)
        (beginRun View.idle) { parent := fun x => x, rank := fun _ => 0 } 0 =
        kruskalLoop g.nodes.length (g.nodes.length + 1) ((sortEdges g.edges).drop m) v uf k ∧
      (∀ u w, ∃ ru rw pu pw,
        find (g.nodes.length + 1) uf.parent u = some (ru, pu) ∧
        find (g.nodes.length + 1) uf.parent w = some (rw, pw) ∧
        (ru = rw ↔ Conn v.mstEdges u w)) ∧
      ∀ e rest v1 uf2, (sortEdges g.edges).drop m = e :: rest → k + 1 < g.nodes.length →
        kruskalCommitPoint (g.nodes.length + 1) e v uf = some (v1, uf2) →
        v1.mstEdges = v.mstEdges ∧
        ∀ u w, ∃ ru rw pu pw,
          find (g.nodes.length + 1) uf2.parent u = some (ru, pu) ∧
          find (g.nodes.length + 1) uf2.parent w = some (rw, pw) ∧
          (ru = rw ↔ Conn (v.mstEdges ++ [e]) u w) := by
  have hsorted : ((sortEdges g.edges).take m).Pairwise (fun a b => a.weight ≤ b.weight) :=
    (sortEdges_sorted g.edges).sublist (List.take_sublist m _)
  obtain ⟨r, er, seen1, rest1, hsr, hinv, _, _⟩ :=
    kruskalLoop_spec g.nodes.length ((sortEdges g.edges).take m) [] _ _ 0 kinv_initial
      (fun x hx => by simp at hx) hsorted
  obtain ⟨v, uf, k⟩ := r
  have hk : k ≤ g.nodes.length := kruskalLoop_count _ _ _ _ _ _ _ er (Nat.zero_le _)
  refine ⟨v, uf, k, er, ?_, ?_, ?_⟩
  · have := kruskalLoop_append g.nodes.length (g.nodes.length + 1)
      ((sortEdges g.edges).take m) ((sortEdges g.edges).drop m) (beginRun View.idle)
      { parent := fun x => x, rank := fun _ => 0 } 0
    rw [List.take_append_drop, er] at this
    exact this
  · obtain ⟨rep, hU, hC⟩ := hinv.uf_ok
    intro u w
    obtain ⟨pu, eu, _⟩ := find_spec uf.rank rep k (g.nodes.length + 1) uf.parent u hU (by omega)
    obtain ⟨pw, ew, _⟩ := find_spec uf.rank rep k (g.nodes.length + 1) uf.parent w hU (by omega)
    exact ⟨rep u, rep w, pu, pw, eu, ew, hC u w⟩
  · intro e rest v1 uf2 hdrop hk1 hcp
    obtain ⟨hv1, hstep⟩ := kruskalLoop_commitPoint g.nodes.length (g.nodes.length + 1) e []
      v v1 uf uf2 k hk1 hcp
    refine ⟨hv1, ?_⟩
    have hsplit : sortEdges g.edges = (sortEdges g.edges).take m ++ e :: rest := by
      rw [← hdrop, List.take_append_drop]
    have hle : ∀ x ∈ seen1, x.weight ≤ e.weight := by
      intro x hx
      have hx1 : x ∈ (sortEdges g.edges).take m := by
        have : x ∈ seen1 ++ rest1 := List.mem_append_left _ hx
        rw [hsr] at this
        simpa using this
      have hp := sortEdges_sorted g.edges
      rw [hsplit] at hp
      exact (List.pairwise_append.mp hp).2.2 x hx1 e (List.mem_cons_self _ _)
    obtain ⟨r2, er2, seen2, rest2, _, hinv2, _, _⟩ :=
      kruskalLoop_spec g.nodes.length [e] seen1 v uf k hinv
        (fun x hx y hy => by rw [List.mem_singleton.mp hy]; exact hle x hx)
        (List.pairwise_singleton _ _)
    rw [hstep] at er2
    have er3 : (addToMST v1 e.src e.dst e.weight, uf2, k + 1) = r2 := by
      unfold kruskalLoop at er2
      injection er2
    subst er3
    obtain ⟨rep, hU, hC⟩ := hinv2.uf_ok
    have hm : (addToMST v1 e.src e.dst e.weight).mstEdges = v.mstEdges ++ [e] := by
      show v1.mstEdges ++ [⟨e.src, e.dst, e.weight⟩] = v.mstEdges ++ [e]
      rw [hv1]
    intro u w
    obtain ⟨pu, eu, _⟩ := find_spec uf2.rank rep (k + 1) (g.nodes.length + 1) uf2.parent u hU
      (by omega)
    obtain ⟨pw, ew, _⟩ := find_spec uf2.rank rep (k + 1) (g.nodes.length + 1) uf2.parent w hU
      (by omega)
    refine ⟨rep u, rep w, pu, pw, eu, ew, ?_⟩
    have := hC u w
    rw [hm] at this
    exact this

/-- The loop of `runKruskal` and the loop of the specification take the same decisions. -/
theorem kruskalLoop_refines (n : Nat) :
    ∀ (es : List (Edge α)) (v : View α) (uf : UnionFind α) (label rep : α → α) (k : Nat),
      UFInv uf.parent uf.rank rep k →
      (∀ u w, rep u = rep w ↔ Conn v.mstEdges u w) →
      (∀ u w, label u = label w ↔ Conn v.mstEdges u w) →
      ∃ r, kruskalLoop n (n + 1) es v uf k = some r ∧ r.1 = kruskalSpecLoop n es v label k := by
  intro es
  induction es with
  | nil =>
    intro v uf label rep k _ _ _
    exact ⟨(v, uf, k), rfl, rfl⟩
  | cons edge rest ih =>
    intro v uf label rep k hU hC hL
    by_cases hk : k + 1 ≥ n
    · refine ⟨(v, uf, k), ?_, ?_⟩
      · unfold kruskalLoop; rw [if_pos hk]
      · unfold kruskalSpecLoop; rw [if_pos hk]
    · obtain ⟨p1, e1, h1, _⟩ := find_spec uf.rank rep k (n + 1) uf.parent edge.src hU (by omega)
      obtain ⟨p2, e2, h2, _⟩ := find_spec uf.rank rep k (n + 1) p1 edge.dst h1 (by omega)
      by_cases hr : rep edge.src = rep edge.dst
      · have hl : label edge.src = label edge.dst := (hL _ _).mpr ((hC _ _).mp hr)
        obtain ⟨r, er, hr1⟩ := ih
          { v with trace := v.trace ++ [.edgeExplore edge.src edge.dst] ++
              [.mstReject edge.src edge.dst] }
          { uf with parent := p2 } label rep k h2 hC hL
        refine ⟨r, ?_, ?_⟩
        · unfold kruskalLoop
          rw [if_neg hk]
          simp only [e1, e2, hr, ne_eq, not_true_eq_false, if_false]
          exact er
        · rw [hr1]
          conv_rhs => unfold kruskalSpecLoop
          rw [if_neg hk]
          simp only [hl, ne_eq, not_true_eq_false, if_false]
      · have hl : label edge.src ≠ label edge.dst := fun h =>
          hr ((hC _ _).mpr ((hL _ _).mp h))
        obtain ⟨uf1, eu, rep1, hU1, hC1⟩ :=
          union_spec (n + 1) { uf with parent := p2 } rep k v.mstEdges edge h2 hC hr (by omega)
        have hL1 := rep_link_conn label v.mstEdges hL edge (label edge.dst) (label edge.src)
          (Or.inr ⟨rfl, rfl⟩)
        obtain ⟨r, er, hr1⟩ := ih
          (addToMST { v with trace := v.trace ++ [.edgeExplore edge.src edge.dst] }
            edge.src edge.dst edge.weight) uf1
          (fun z => if label z = label edge.dst then label edge.src else label z) rep1 (k + 1)
          hU1 hC1 hL1
        refine ⟨r, ?_, ?_⟩
        · unfold kruskalLoop
          rw [if_neg hk]
          simp only [e1, e2, hr, ne_eq, not_false_eq_true, if_true, eu]
          exact er
        · rw [hr1]
          conv_rhs => unfold kruskalSpecLoop
          rw [if_neg hk]
          simp only [hl, ne_eq, not_false_eq_true, if_true]

/-- C21: on every graph, `runKruskal` returns the state that the specified procedure
produces: it takes the edges in the order of a sort that is ascending by weight and
keeps edges of equal weight in their original order; it stops taking edges once
`nodeCount - 1` are committed; an edge it takes is committed, with its weight added to
the cost, when the roots of its endpoints differ at that moment and rejected
otherwise. -/
theorem runKruskal_refines_spec (g : Graph α) :
    runKruskal g View.idle = .finished (kruskalSpec g) ∧
      (sortEdges g.edges).Pairwise (fun a b => a.weight ≤ b.weight) ∧
      (sortEdges g.edges).Perm g.edges ∧
      ∀ w, (sortEdges g.edges).filter (fun e => decide (e.weight = w)) =
        g.edges.filter (fun e => decide (e.weight = w)) := by
  refine ⟨?_, sortEdges_sorted g.edges, List.perm_insertionSort _ g.edges,
    fun w => sortEdges_stable w g.edges⟩
  obtain ⟨rep, hU, hC⟩ := (kinv_initial : KInv ([] : List (Edge α)) _ _ 0).uf_ok
  obtain ⟨r, er, hr⟩ := kruskalLoop_refines g.nodes.length (sortEdges g.edges)
    (beginRun View.idle) { parent := fun x => x, rank := fun _ => 0 } (fun x => x) rep 0 hU hC
    (by
      intro u w
      exact ⟨fun h => by have h1 : u = w := h; rw [h1]; exact Conn.refl _ _, conn_nil u w⟩)
  unfold runKruskal kruskalSpec
  simp only [View.idle, Bool.false_eq_true, if_false]
  simp only [View.idle] at er hr
  rw [er]
  simp only [hr]

end

end MSTVisualizer
namespace MSTVisualizer

open GraphVisualizer (Edge Graph nodeId generateNodeIds scaleDraw below03 nextDraw forEach
  genGraph StepOk Adj)

/-! ## The generated graphs of the spanning-tree visualizer are connected -/

section

theorem stepOk_pairStep (n : Nat) (near : Nat → Nat → Bool) (i j : Nat) (hi : i < n)
    (hj : j < n) :
    StepOk (fun s : List (Edge Nat) × List Nat => s.1)
      (fun s => (genGraph n s.1).WellFormed) (pairStep near i j) := by
  have hnew : ∀ (es : List (Edge Nat)) (w : Nat), (genGraph n es).WellFormed →
      (genGraph n (es ++ [(⟨nodeId i, nodeId j, w⟩ : Edge Nat)])).WellFormed := by
    intro es w hes e he
    have he1 : e ∈ es ++ [(⟨nodeId i, nodeId j, w⟩ : Edge Nat)] := he
    rcases List.mem_append.mp he1 with h1 | h1
    · exact hes e h1
    · rw [List.mem_singleton.mp h1]
      exact ⟨GraphVisualizer.mem_generateNodeIds n i hi,
        GraphVisualizer.mem_generateNodeIds n j hj⟩
  intro s s1 h hg
  unfold pairStep at h
  by_cases hn : near i j = true
  · rw [if_pos hn] at h
    cases hd : nextDraw s.2 with
    | none => rw [hd] at h; cases h
    | some r =>
      rw [hd] at h
      cases h
      exact ⟨hnew _ _ hg, fun e he => List.mem_append_left _ he⟩
  · rw [if_neg hn] at h
    cases hd : nextDraw s.2 with
    | none => rw [hd] at h; cases h
    | some r =>
      obtain ⟨u, ds⟩ := r
      rw [hd] at h
      simp only at h
      by_cases hb : below03 u = true
      · rw [if_pos hb] at h
        cases hd2 : nextDraw ds with
        | none => rw [hd2] at h; cases h
        | some r2 =>
          rw [hd2] at h
          cases h
          exact ⟨hnew _ _ hg, fun e he => List.mem_append_left _ he⟩
      · rw [if_neg hb] at h
        cases h
        exact ⟨hg, fun e he => he⟩

theorem ensureStep_spec (n i : Nat) (hi : i + 1 < n) (s s1 : List (Edge Nat) × List Nat)
    (h : ensureStep i s = some s1) (hg : (genGraph n s.1).WellFormed) :
    (genGraph n s1.1).WellFormed ∧ (∀ e ∈ s.1, e ∈ s1.1) ∧
      Adj (genGraph n s1.1) (nodeId i) (nodeId (i + 1)) := by
  unfold ensureStep at h
  by_cases hany : s.1.any (fun e =>
      (decide (e.src = nodeId i) && decide (e.dst = nodeId (i + 1))) ||
      (decide (e.src = nodeId (i + 1)) && decide (e.dst = nodeId i))) = true
  · rw [if_pos hany] at h
    cases h
    refine ⟨hg, fun e he => he, ?_⟩
    obtain ⟨e, he, hcond⟩ := List.any_eq_true.mp hany
    simp only [Bool.or_eq_true, Bool.and_eq_true, decide_eq_true_eq] at hcond
    exact ⟨e, he, hcond⟩
  · rw [if_neg hany] at h
    cases hd : nextDraw s.2 with
    | none => rw [hd] at h; cases h
    | some r =>
      rw [hd] at h
      cases h
      refine ⟨?_, fun e he => List.mem_append_left _ he,
        ⟨_, List.mem_append_right _ (List.mem_singleton_self _), Or.inl ⟨rfl, rfl⟩⟩⟩
      intro e he
      have he1 : e ∈ s.1 ++ [(⟨nodeId i, nodeId (i + 1), scaleDraw r.1 5 + 1⟩ : Edge Nat)] := he
      rcases List.mem_append.mp he1 with h1 | h1
      · exact hg e h1
      · rw [List.mem_singleton.mp h1]
        exact ⟨GraphVisualizer.mem_generateNodeIds n i (by omega),
          GraphVisualizer.mem_generateNodeIds n (i + 1) hi⟩

/-- Every edge list returned by `generateEdges` of the spanning-tree visualizer describes
a connected graph on the generated nodes. -/
theorem mstGenerateEdges_connected (n : Nat) (near : Nat → Nat → Bool) (draws : List Nat)
    (es : List (Edge Nat)) (h : generateEdges n near draws = some es) :
    (genGraph n es).WellFormed ∧ (genGraph n es).Connected := by
  unfold generateEdges at h
  simp only [Option.map_eq_some'] at h
  obtain ⟨s1, hs, rfl⟩ := h
  cases h1 : forEach (List.range n)
      (fun i => forEach (List.range' (i + 1) (n - (i + 1))) (fun j => pairStep near i j))
      (([] : List (Edge Nat)), draws) with
  | none => rw [h1] at hs; cases hs
  | some t1 =>
    rw [h1] at hs
    simp only [Option.some_bind] at hs
    have hpairs : ∀ i ∈ List.range n,
        StepOk (fun s : List (Edge Nat) × List Nat => s.1)
          (fun s => (genGraph n s.1).WellFormed)
          (forEach (List.range' (i + 1) (n - (i + 1))) (fun j => pairStep near i j)) := by
      intro i hi
      have hi1 := List.mem_range.mp hi
      apply GraphVisualizer.stepOk_forEach
      intro j hj
      have := (List.mem_range'_1.mp hj).2
      exact stepOk_pairStep n near i j hi1 (by omega)
    have hg1 := (GraphVisualizer.stepOk_forEach _ _ _ _ hpairs _ t1 h1
      (fun e he => by simp [genGraph] at he)).1
    have hens : ∀ i ∈ List.range (n - 1),
        StepOk (fun s : List (Edge Nat) × List Nat => s.1)
          (fun s => (genGraph n s.1).WellFormed) (ensureStep i) := by
      intro i hi u u1 hu hug
      have hi1 := List.mem_range.mp hi
      obtain ⟨k1, k2, _⟩ := ensureStep_spec n i (by omega) u u1 hu hug
      exact ⟨k1, k2⟩
    have hg2 := (GraphVisualizer.stepOk_forEach _ _ _ _ hens t1 s1 hs hg1).1
    have hfacts := GraphVisualizer.forEach_establish
      (fun s : List (Edge Nat) × List Nat => s.1) (fun s => (genGraph n s.1).WellFormed)
      ensureStep (fun i es => Adj (genGraph n es) (nodeId i) (nodeId (i + 1)))
      (List.range (n - 1)) hens (by
        intro i hi u u1 hu hug
        have hi1 := List.mem_range.mp hi
        exact (ensureStep_spec n i (by omega) u u1 hu hug).2.2)
      (fun i es es1 hm hp => GraphVisualizer.adj_mono n es es1 hm _ _ hp) t1 s1 hs hg1
    refine ⟨hg2, GraphVisualizer.connected_of_down_edges n s1.1 ?_⟩
    intro i hi1 hin
    refine ⟨i - 1, by omega, ?_⟩
    have := hfacts (i - 1) (List.mem_range.mpr (by omega))
    simp only at this
    rw [show i - 1 + 1 = i by omega] at this
    exact GraphVisualizer.adj_symm _ _ _ this

end

/-- C29: for every node count `n ≥ 1`, every outcome of the random draws and every
outcome of the distance tests, an edge list returned by `generateEdges` of the
spanning-tree visualizer, and one returned by `generateEdges` of the graph visualizer
(complete graph for `n ≤ 4`, tree with ring and chords for `n ≤ 8`, grid beyond), joins
generated nodes only and connects every two of the `n` generated nodes.  Either
generator does return on the alternating draws `sampleDraws` for a node count of each
branch. -/
theorem generateEdges_connected_graph (n : Nat) (hn : 1 ≤ n) :
    (∀ (near : Nat → Nat → Bool) (draws : List Nat) (es : List (Edge Nat)),
      generateEdges n near draws = some es →
        (genGraph n es).WellFormed ∧ (genGraph n es).Connected) ∧
    (∀ (draws : List Nat) (es : List (Edge Nat)),
      GraphVisualizer.generateEdges n draws = some es →
        (genGraph n es).WellFormed ∧ (genGraph n es).Connected) ∧
    (generateEdges 4 (fun _ _ => false) sampleDraws).isSome = true ∧
    (GraphVisualizer.generateEdges 4 sampleDraws).isSome = true ∧
    (GraphVisualizer.generateEdges 5 sampleDraws).isSome = true ∧
    (GraphVisualizer.generateEdges 9 sampleDraws).isSome = true :=
  ⟨fun near draws es h => mstGenerateEdges_connected n near draws es h,
    fun draws es h => GraphVisualizer.generateEdges_connected n hn draws es h,
    by decide, by decide, by decide, by decide⟩

/-- Witness of `generateEdges_connected_graph`: five nodes. -/
theorem generateEdges_connected_graph_witness :
    1 ≤ 5 ∧
    ((∀ (near : Nat → Nat → Bool) (draws : List Nat) (es : List (Edge Nat)),
      generateEdges 5 near draws = some es →
        (genGraph 5 es).WellFormed ∧ (genGraph 5 es).Connected) ∧
    (∀ (draws : List Nat) (es : List (Edge Nat)),
      GraphVisualizer.generateEdges 5 draws = some es →
        (genGraph 5 es).WellFormed ∧ (genGraph 5 es).Connected) ∧
    (generateEdges 4 (fun _ _ => false) sampleDraws).isSome = true ∧
    (GraphVisualizer.generateEdges 4 sampleDraws).isSome = true ∧
    (GraphVisualizer.generateEdges 5 sampleDraws).isSome = true ∧
    (GraphVisualizer.generateEdges 9 sampleDraws).isSome = true) :=
  ⟨by decide, generateEdges_connected_graph 5 (by decide)⟩

end MSTVisualizer
